import Mathlib

/-!
# Proof-compilation layer of the SMT solver: a shallow embedding

The development embeds the theory-lemma certification layer
(`src/proof/array_proof.cpp`, `src/proof/theory_proof.cpp`, `src/proof/uf_proof.cpp`)
as Lean functions.  Output streams are lists of chunks, one chunk per `<<` operand;
a failed `Assert`, `Unreachable`, `Unhandled` or an out-of-range child access is the
value `none`.
-/

namespace CVC4

/-! ## Terms (the hash-consed expression layer, referenced by the proof code) -/

/-- Kinds of expression nodes that the proof code inspects. -/
inductive Kind
  | UNDEFINED_KIND | NULL_EXPR
  | VARIABLE | SKOLEM | BOUND_VARIABLE | BUILTIN
  | EQUAL | DISTINCT | CHAIN | ITE
  | NOT | AND | OR | XOR | IFF | IMPLIES | CONST_BOOLEAN
  | APPLY_UF | PARTIAL_APPLY_UF
  | SELECT | STORE | PARTIAL_SELECT_0 | PARTIAL_SELECT_1
  | CONST_BITVECTOR | BITVECTOR_AND | BITVECTOR_MULT
  | CONST_RATIONAL | PLUS | MINUS | MULT | DIVISION
  | BITVECTOR_PLUS | BITVECTOR_SUB | BITVECTOR_OR | BITVECTOR_XOR | BITVECTOR_XNOR
  | BITVECTOR_SHL | BITVECTOR_LSHR | BITVECTOR_UDIV | BITVECTOR_SDIV
  deriving DecidableEq, Repr

/-- Meta-kinds: how a node of a kind stores its operator and children. -/
inductive MetaKind
  | INVALID | VARIABLE | OPERATOR | PARAMETERIZED | CONSTANT
  deriving DecidableEq, Repr

/-- Theory identifiers, in the order of the `TheoryId` enumeration. -/
inductive TheoryId
  | THEORY_BUILTIN | THEORY_BOOL | THEORY_UF | THEORY_ARITH | THEORY_BV | THEORY_ARRAY
  | THEORY_OTHER
  deriving DecidableEq, Repr

/-- Type constants of the type layer. -/
inductive TypeConstant
  | NULL_TYPE | BOOLEAN_TYPE | INTEGER_TYPE | REAL_TYPE | BUILTIN_OPERATOR_TYPE
  deriving DecidableEq, Repr

/-- Types of expressions: constants, uninterpreted sorts, bit-vectors, arrays, functions. -/
inductive TypeNode
  | typeConstant (c : TypeConstant)
  | sortType (name : String)
  | bitVectorType (size : Nat)
  | arrayType (index : TypeNode) (constituent : TypeNode)
  | functionType (args : List TypeNode) (range : TypeNode)

namespace TypeNode

mutual
/-- Structural equality of types is decidable. -/
def decEq : (a b : TypeNode) → Decidable (a = b)
  | .typeConstant a0, .typeConstant b0 =>
    match (inferInstance : Decidable (a0 = b0)) with
    | isTrue h0 => isTrue (by rw [h0])
    | isFalse h => isFalse (by intro e; cases e; exact h rfl)
  | .sortType a0, .sortType b0 =>
    match (inferInstance : Decidable (a0 = b0)) with
    | isTrue h0 => isTrue (by rw [h0])
    | isFalse h => isFalse (by intro e; cases e; exact h rfl)
  | .bitVectorType a0, .bitVectorType b0 =>
    match (inferInstance : Decidable (a0 = b0)) with
    | isTrue h0 => isTrue (by rw [h0])
    | isFalse h => isFalse (by intro e; cases e; exact h rfl)
  | .arrayType a0 a1, .arrayType b0 b1 =>
    match decEq a0 b0, decEq a1 b1 with
    | isTrue h0, isTrue h1 => isTrue (by rw [h0, h1])
    | isFalse h, _ => isFalse (by intro e; cases e; exact h rfl)
    | _, isFalse h => isFalse (by intro e; cases e; exact h rfl)
  | .functionType a0 a1, .functionType b0 b1 =>
    match decEqList a0 b0, decEq a1 b1 with
    | isTrue h0, isTrue h1 => isTrue (by rw [h0, h1])
    | isFalse h, _ => isFalse (by intro e; cases e; exact h rfl)
    | _, isFalse h => isFalse (by intro e; cases e; exact h rfl)
  | .typeConstant _, .sortType _ => isFalse (by intro e; cases e)
  | .typeConstant _, .bitVectorType _ => isFalse (by intro e; cases e)
  | .typeConstant _, .arrayType _ _ => isFalse (by intro e; cases e)
  | .typeConstant _, .functionType _ _ => isFalse (by intro e; cases e)
  | .sortType _, .typeConstant _ => isFalse (by intro e; cases e)
  | .sortType _, .bitVectorType _ => isFalse (by intro e; cases e)
  | .sortType _, .arrayType _ _ => isFalse (by intro e; cases e)
  | .sortType _, .functionType _ _ => isFalse (by intro e; cases e)
  | .bitVectorType _, .typeConstant _ => isFalse (by intro e; cases e)
  | .bitVectorType _, .sortType _ => isFalse (by intro e; cases e)
  | .bitVectorType _, .arrayType _ _ => isFalse (by intro e; cases e)
  | .bitVectorType _, .functionType _ _ => isFalse (by intro e; cases e)
  | .arrayType _ _, .typeConstant _ => isFalse (by intro e; cases e)
  | .arrayType _ _, .sortType _ => isFalse (by intro e; cases e)
  | .arrayType _ _, .bitVectorType _ => isFalse (by intro e; cases e)
  | .arrayType _ _, .functionType _ _ => isFalse (by intro e; cases e)
  | .functionType _ _, .typeConstant _ => isFalse (by intro e; cases e)
  | .functionType _ _, .sortType _ => isFalse (by intro e; cases e)
  | .functionType _ _, .bitVectorType _ => isFalse (by intro e; cases e)
  | .functionType _ _, .arrayType _ _ => isFalse (by intro e; cases e)
/-- Structural equality of lists of types is decidable. -/
def decEqList : (as bs : List TypeNode) → Decidable (as = bs)
  | [], [] => isTrue rfl
  | [], _ :: _ => isFalse (by intro e; cases e)
  | _ :: _, [] => isFalse (by intro e; cases e)
  | a :: as, b :: bs =>
    match decEq a b, decEqList as bs with
    | isTrue h0, isTrue h1 => isTrue (by rw [h0, h1])
    | isFalse h, _ => isFalse (by intro e; cases e; exact h rfl)
    | _, isFalse h => isFalse (by intro e; cases e; exact h rfl)
end

instance : DecidableEq TypeNode := decEq

def isBoolean : TypeNode → Bool
  | .typeConstant .BOOLEAN_TYPE => true
  | _ => false

def isInteger : TypeNode → Bool
  | .typeConstant .INTEGER_TYPE => true
  | _ => false

def isReal : TypeNode → Bool
  | .typeConstant .REAL_TYPE => true
  | .typeConstant .INTEGER_TYPE => true
  | _ => false

def isSort : TypeNode → Bool
  | .sortType _ => true
  | _ => false

def isBitVector : TypeNode → Bool
  | .bitVectorType _ => true
  | _ => false

def isArray : TypeNode → Bool
  | .arrayType _ _ => true
  | _ => false

def isFunction : TypeNode → Bool
  | .functionType _ _ => true
  | _ => false

/-- Number of children of a type node: a function type has its argument types and its
range, an array type its index and constituent types. -/
def getNumChildren : TypeNode → Nat
  | .functionType args _ => args.length + 1
  | .arrayType _ _ => 2
  | _ => 0

end TypeNode

/-- Expression nodes.  `leaf` is a variable, skolem or constant with its name and type;
`builtin k` is the operator constant of kind `k`; `app` is an application, whose `op` is
the operator of a parameterized kind (and `null` otherwise).  Structural equality stands
for the identity of hash-consed nodes. -/
inductive Node
  | null
  | leaf (kind : Kind) (name : String) (type : TypeNode)
  | builtin (k : Kind)
  | app (kind : Kind) (op : Node) (children : List Node)

namespace Node

mutual
/-- Structural equality of nodes is decidable. -/
def decEq : (a b : Node) → Decidable (a = b)
  | .null, .null => isTrue rfl
  | .leaf a0 a1 a2, .leaf b0 b1 b2 =>
    match (inferInstance : Decidable (a0 = b0)), (inferInstance : Decidable (a1 = b1)), (inferInstance : Decidable (a2 = b2)) with
    | isTrue h0, isTrue h1, isTrue h2 => isTrue (by rw [h0, h1, h2])
    | isFalse h, _, _ => isFalse (by intro e; cases e; exact h rfl)
    | _, isFalse h, _ => isFalse (by intro e; cases e; exact h rfl)
    | _, _, isFalse h => isFalse (by intro e; cases e; exact h rfl)
  | .builtin a0, .builtin b0 =>
    match (inferInstance : Decidable (a0 = b0)) with
    | isTrue h0 => isTrue (by rw [h0])
    | isFalse h => isFalse (by intro e; cases e; exact h rfl)
  | .app a0 a1 a2, .app b0 b1 b2 =>
    match (inferInstance : Decidable (a0 = b0)), decEq a1 b1, decEqList a2 b2 with
    | isTrue h0, isTrue h1, isTrue h2 => isTrue (by rw [h0, h1, h2])
    | isFalse h, _, _ => isFalse (by intro e; cases e; exact h rfl)
    | _, isFalse h, _ => isFalse (by intro e; cases e; exact h rfl)
    | _, _, isFalse h => isFalse (by intro e; cases e; exact h rfl)
  | .null, .leaf _ _ _ => isFalse (by intro e; cases e)
  | .null, .builtin _ => isFalse (by intro e; cases e)
  | .null, .app _ _ _ => isFalse (by intro e; cases e)
  | .leaf _ _ _, .null => isFalse (by intro e; cases e)
  | .leaf _ _ _, .builtin _ => isFalse (by intro e; cases e)
  | .leaf _ _ _, .app _ _ _ => isFalse (by intro e; cases e)
  | .builtin _, .null => isFalse (by intro e; cases e)
  | .builtin _, .leaf _ _ _ => isFalse (by intro e; cases e)
  | .builtin _, .app _ _ _ => isFalse (by intro e; cases e)
  | .app _ _ _, .null => isFalse (by intro e; cases e)
  | .app _ _ _, .leaf _ _ _ => isFalse (by intro e; cases e)
  | .app _ _ _, .builtin _ => isFalse (by intro e; cases e)
/-- Structural equality of lists of nodes is decidable. -/
def decEqList : (as bs : List Node) → Decidable (as = bs)
  | [], [] => isTrue rfl
  | [], _ :: _ => isFalse (by intro e; cases e)
  | _ :: _, [] => isFalse (by intro e; cases e)
  | a :: as, b :: bs =>
    match decEq a b, decEqList as bs with
    | isTrue h0, isTrue h1 => isTrue (by rw [h0, h1])
    | isFalse h, _ => isFalse (by intro e; cases e; exact h rfl)
    | _, isFalse h => isFalse (by intro e; cases e; exact h rfl)
end

instance : DecidableEq Node := decEq

end Node


namespace Node

/-- Modelled from the kind tables of the expression layer, which the proof sources only
use: variables and skolems have meta-kind VARIABLE, `APPLY_UF`, `PARTIAL_APPLY_UF` and
`CHAIN` carry their operator as a parameter, constants are CONSTANT, the undefined and
null kinds are INVALID, every other kind is a plain OPERATOR. -/
def metaKindOf : Kind → MetaKind
  | .UNDEFINED_KIND => .INVALID
  | .NULL_EXPR => .INVALID
  | .VARIABLE => .VARIABLE
  | .SKOLEM => .VARIABLE
  | .BOUND_VARIABLE => .VARIABLE
  | .BUILTIN => .CONSTANT
  | .CONST_BOOLEAN => .CONSTANT
  | .CONST_BITVECTOR => .CONSTANT
  | .CONST_RATIONAL => .CONSTANT
  | .APPLY_UF => .PARAMETERIZED
  | .PARTIAL_APPLY_UF => .PARAMETERIZED
  | .CHAIN => .PARAMETERIZED
  | _ => .OPERATOR

def getKind : Node → Kind
  | .null => .NULL_EXPR
  | .leaf k _ _ => k
  | .builtin _ => .BUILTIN
  | .app k _ _ => k

def isNull : Node → Bool
  | .null => true
  | _ => false

def getMetaKind (n : Node) : MetaKind := metaKindOf n.getKind

/-- The children of a node (`begin()` .. `end()`); the operator is not one of them. -/
def children : Node → List Node
  | .app _ _ cs => cs
  | _ => []

def getNumChildren (n : Node) : Nat := n.children.length

/-- Child access `n[i]`; out of range there is no value. -/
def child (n : Node) (i : Nat) : Option Node := n.children.get? i

def hasOperator (n : Node) : Bool :=
  n.getMetaKind == .OPERATOR || n.getMetaKind == .PARAMETERIZED

/-- `getOperator()`: the stored operator of a parameterized node, the builtin operator
constant of an operator-kinded node, and no value for any other node. -/
def getOperator : Node → Option Node
  | .app k op _ =>
    match metaKindOf k with
    | .PARAMETERIZED => some op
    | .OPERATOR => some (.builtin k)
    | _ => none
  | _ => none

def isVariable (n : Node) : Bool := n.getMetaKind == .VARIABLE

def isConst (n : Node) : Bool := n.getMetaKind == .CONSTANT

/-- `getConst<Kind>()` of a builtin operator constant. -/
def getConstKind : Node → Option Kind
  | .builtin k => some k
  | _ => none

def notNode (n : Node) : Node := .app .NOT .null [n]

/-- `negate()`: strips a top-level NOT, and otherwise adds one. -/
def negate : Node → Node
  | .app .NOT _ (c :: _) => c
  | n => notNode n

/-- Modelled from the type rules of the expression layer (not part of the proof
sources): a leaf carries its type; Boolean connectives, equalities and `DISTINCT` are
Boolean; a (partial) function application has the range of its operator's function type;
`SELECT` has the constituent type of its array, `STORE` the type of its array; the partial
selects are typed as integers; `ITE` has the type of its then-branch. -/
def getType : Node → TypeNode
  | .null => .typeConstant .NULL_TYPE
  | .leaf _ _ ty => ty
  | .builtin _ => .typeConstant .BUILTIN_OPERATOR_TYPE
  | .app k op cs =>
    match k with
    | .EQUAL => .typeConstant .BOOLEAN_TYPE
    | .IFF => .typeConstant .BOOLEAN_TYPE
    | .NOT => .typeConstant .BOOLEAN_TYPE
    | .AND => .typeConstant .BOOLEAN_TYPE
    | .OR => .typeConstant .BOOLEAN_TYPE
    | .XOR => .typeConstant .BOOLEAN_TYPE
    | .IMPLIES => .typeConstant .BOOLEAN_TYPE
    | .DISTINCT => .typeConstant .BOOLEAN_TYPE
    | .CHAIN => .typeConstant .BOOLEAN_TYPE
    | .APPLY_UF =>
      match getType op with
      | .functionType _ r => r
      | _ => .typeConstant .NULL_TYPE
    | .PARTIAL_APPLY_UF =>
      match getType op with
      | .functionType _ r => r
      | _ => .typeConstant .NULL_TYPE
    | .SELECT =>
      match cs with
      | a :: _ =>
        match getType a with
        | .arrayType _ c => c
        | _ => .typeConstant .NULL_TYPE
      | [] => .typeConstant .NULL_TYPE
    | .STORE =>
      match cs with
      | a :: _ => getType a
      | [] => .typeConstant .NULL_TYPE
    | .PARTIAL_SELECT_0 => .typeConstant .INTEGER_TYPE
    | .PARTIAL_SELECT_1 => .typeConstant .INTEGER_TYPE
    | .ITE =>
      match cs with
      | _ :: t :: _ => getType t
      | _ => .typeConstant .NULL_TYPE
    | _ => .typeConstant .NULL_TYPE

/-- The member function `eqNode`: always an `EQUAL` node. -/
def mkEqual (l r : Node) : Node := .app .EQUAL .null [l, r]

end Node

/-- The static helper `eqNode` of `array_proof.cpp`: an `IFF` on Boolean terms and an
`EQUAL` otherwise. -/
def eqNode (n1 n2 : Node) : Node :=
  .app (if n1.getType.isBoolean then .IFF else .EQUAL) .null [n1, n2]


/-! ## Output streams -/

/-- One item written to an output stream.  `str`, `num`, `expr` and `type` are operands of
`<<`.  Text produced by collaborators outside the proof sources is kept symbolic:
`sanitized` (the sanitized name of a term), `litName` (the name of a literal), `clauseName`
(the name of a lemma clause), `varName` (the name of a SAT variable, given by its atom),
`lfscKind` (the calculus name of a kind), `clause` and `clauseParen` (what `printClause`
writes to its two streams), `bvResolution` and `bvResolutionParen` (what the bit-vector
prover's `printResolutionProof` writes to its two streams for a batch of conflicts).
`letOpen id` is the binder opening `(@ let<id> ` and `letRef id` the reference `let<id>`
of the sharing pass. -/
inductive Chunk
  | str (s : String)
  | num (n : Nat)
  | expr (e : Node)
  | type (t : TypeNode)
  | sanitized (e : Node)
  | litName (lit : Node)
  | clauseName (id : Nat)
  | varName (atom : Node)
  | letOpen (id : Nat)
  | letRef (id : Nat)
  | lfscKind (k : Kind)
  | clause (lits : List (Node × Bool))
  | clauseParen (lits : List (Node × Bool))
  | bvResolution (lemmas : List (List Node))
  | bvResolutionParen (lemmas : List (List Node))
  deriving DecidableEq

/-- The text written to a stream so far. -/
abbrev Out := List Chunk

/-! ## Equality-proof derivations -/

/-- Rule tags of derivation nodes; `OTHER` stands for every tag outside the known ones. -/
inductive MergeReasonType
  | MERGED_THROUGH_CONGRUENCE
  | MERGED_THROUGH_EQUALITY
  | MERGED_THROUGH_REFLEXIVITY
  | MERGED_THROUGH_CONSTANTS
  | MERGED_THROUGH_TRANS
  | MERGED_ARRAYS_ROW
  | MERGED_ARRAYS_ROW1
  | MERGED_ARRAYS_EXT
  | OTHER (tag : Nat)
  deriving DecidableEq, Repr

/-- A derivation node `EqProof`: rule tag `d_id`, conclusion `d_node` (possibly null) and
the ordered list of owned children. -/
inductive EqProof
  | mk (d_id : MergeReasonType) (d_node : Node) (d_children : List EqProof)

namespace EqProof

def d_id : EqProof → MergeReasonType
  | .mk i _ _ => i

def d_node : EqProof → Node
  | .mk _ n _ => n

def d_children : EqProof → List EqProof
  | .mk _ _ cs => cs

end EqProof

/-- What the recompiler reads from its collaborators: the proof manager's table of
operator skolems (`hasOp`, `lookupOp`), the operator made for a builtin operator
(`mkOp`), the array certifier's skolem-to-literal table, and the term printer
`tp->printTerm(term, out, map)` for the fixed certifier and sharing map of the call. -/
structure ProofEnv where
  d_bops : List (Node × Node)
  opOf : Node → Node
  d_skolemToLiteral : List (Node × Out)
  printTerm : Node → Option Out

namespace ProofEnv

def hasOp (env : ProofEnv) (n : Node) : Bool := (env.d_bops.lookup n).isSome

/-- `lookupOp`: asserts that the operator is in the table. -/
def lookupOp (env : ProofEnv) (n : Node) : Option Node := env.d_bops.lookup n

/-- `mkOp`: the identity on everything but builtin operator constants. -/
def mkOp (env : ProofEnv) (n : Node) : Node :=
  if n.getKind = .BUILTIN then env.opOf n else n

/-- `skolemToLiteral`: asserts that the skolem has a literal name. -/
def skolemToLiteral (env : ProofEnv) (skolem : Node) : Option Out :=
  env.d_skolemToLiteral.lookup skolem

end ProofEnv

/-- The pairs of select kinds that `match` lets through although the operators differ. -/
def selectKindsCompatible (k1 k2 : Kind) : Bool :=
  (k1 == .SELECT && k2 == .PARTIAL_SELECT_0) ||
  (k1 == .SELECT && k2 == .PARTIAL_SELECT_1) ||
  (k1 == .PARTIAL_SELECT_1 && k2 == .SELECT) ||
  (k1 == .PARTIAL_SELECT_1 && k2 == .PARTIAL_SELECT_0) ||
  (k1 == .PARTIAL_SELECT_0 && k2 == .SELECT) ||
  (k1 == .PARTIAL_SELECT_0 && k2 == .PARTIAL_SELECT_1)

/-- Step 5 of `match`: the children agree pairwise on the common prefix. -/
def childrenAgree : List Node → List Node → Bool
  | a :: as, b :: bs => if a = b then childrenAgree as bs else false
  | _, _ => true

/-- The congruence matching helper `match(n1, n2)` of `array_proof.cpp`. -/
def matchTerms (env : ProofEnv) (n1 n2 : Node) : Option Bool := do
  let n1 ← if env.hasOp n1 then env.lookupOp n1 else some n1
  let n2 ← if env.hasOp n2 then env.lookupOp n2 else some n2
  if n1 = n2 then
    return true
  else if n1.getType.isFunction && n2.hasOperator then
    let op ← n2.getOperator
    if env.hasOp op then
      let o ← env.lookupOp op
      return decide (n1 = o)
    else
      return decide (n1 = op)
  else if n2.getType.isFunction && n1.hasOperator then
    let op ← n1.getOperator
    if env.hasOp op then
      let o ← env.lookupOp op
      return decide (n2 = o)
    else
      return decide (n2 = op)
  else if n1.hasOperator && n2.hasOperator && decide (n1.getOperator ≠ n2.getOperator)
      && !(selectKindsCompatible n1.getKind n2.getKind) then
    return false
  else
    return childrenAgree n1.children n2.children

/-! ## Node builders -/

/-- A `NodeBuilder`: the kind set so far (undefined at first) and the nodes appended so
far; for a parameterized kind the first appended node is the operator. -/
structure NodeBuilder where
  kind : Kind
  items : List Node

namespace NodeBuilder

def empty : NodeBuilder := ⟨.UNDEFINED_KIND, []⟩

/-- Builder `<<` of a kind. -/
def setKind (b : NodeBuilder) (k : Kind) : NodeBuilder := ⟨k, b.items⟩

/-- Builder `<<` of a node. -/
def push (b : NodeBuilder) (n : Node) : NodeBuilder := ⟨b.kind, b.items ++ [n]⟩

def append (b : NodeBuilder) (ns : List Node) : NodeBuilder := ⟨b.kind, b.items ++ ns⟩

/-- Builder `clear(k)`: restart with kind `k` and nothing appended. -/
def clear (_b : NodeBuilder) (k : Kind) : NodeBuilder := ⟨k, []⟩

/-- The number of children so far; the operator of a parameterized kind is not a child. -/
def getNumChildren (b : NodeBuilder) : Nat :=
  if Node.metaKindOf b.kind = .PARAMETERIZED then b.items.length - 1 else b.items.length

/-- The node a builder converts to. -/
def toNode (b : NodeBuilder) : Node :=
  if Node.metaKindOf b.kind = .PARAMETERIZED then
    match b.items with
    | op :: cs => .app b.kind op cs
    | [] => .app b.kind .null []
  else .app b.kind .null b.items

end NodeBuilder


/-! ## The equality-proof recompiler `ProofArray::toStreamRecLFSC` -/

def isEqOrIff (n : Node) : Bool := n.getKind == .EQUAL || n.getKind == .IFF

/-- The test `((x[0] == y[0]) && (x[1] == y[1])) || ((x[0] == y[1]) && (x[1] == y[0]))`
with its short-circuit order of child accesses. -/
def identicalEq (x y : Node) : Option Bool := do
  let x0 ← x.child 0
  let y0 ← y.child 0
  let first ← (if x0 = y0 then do
      let x1 ← x.child 1
      let y1 ← y.child 1
      pure (decide (x1 = y1))
    else pure false)
  if first then pure true
  else
    let y1 ← y.child 1
    if x0 = y1 then do
      let x1 ← x.child 1
      pure (decide (x1 = y0))
    else pure false

/-- The look-ahead `while` loop of the transitivity case: the parity flag after the
later children that prove the running equation again, and the first later conclusion
that does not (`sequenceOver`), if any. -/
def lookAhead (n1 : Node) : List (Out × Node) → Bool → Option (Bool × Option Node)
  | [], even => some (even, none)
  | (_, n) :: rest, even => do
    let same ← identicalEq n n1
    if same then lookAhead n1 rest (!even) else pure (even, some n)

/-- The even-length branch: the reflexive equation and its proof text, chosen from the
goal `pf->d_node` at the end of the chain and from the next conclusion otherwise. -/
def evenSequence (env : ProofEnv) (goal n1 : Node) (ss1 : Out) (after : Option Node) :
    Option (Out × Node) := do
  let a ← n1.child 0
  match after with
  | none =>
    let g0 ← goal.child 0
    let m0 ← matchTerms env a g0
    if m0 then
      pure ([.str "(trans _ _ _ _ "] ++ ss1 ++ [.str " (symm _ _ _ "] ++ ss1 ++ [.str ")"]
              ++ [.str ")"], eqNode a a)
    else
      let b ← n1.child 1
      let g1 ← goal.child 1
      let m1 ← matchTerms env b g1
      if m1 then
        pure ([.str "(trans _ _ _ _ "] ++ [.str " (symm _ _ _ "] ++ ss1 ++ [.str ")"] ++ ss1
                ++ [.str ")"], eqNode b b)
      else none
  | some nodeAfter =>
    let nodeAfter ← (if nodeAfter.getKind = .NOT then nodeAfter.child 0 else some nodeAfter)
    if isEqOrIff nodeAfter then
      let x0 ← nodeAfter.child 0
      let keepLeft ← (if a = x0 then pure true else do
        let x1 ← nodeAfter.child 1
        pure (decide (a = x1)))
      if keepLeft then
        pure ([.str "(trans _ _ _ _ "] ++ ss1 ++ [.str " (symm _ _ _ "] ++ ss1 ++ [.str ")"]
                ++ [.str ")"], eqNode a a)
      else
        let b ← n1.child 1
        let keepRight ← (if b = x0 then pure true else do
          let x1 ← nodeAfter.child 1
          pure (decide (b = x1)))
        if keepRight then
          pure ([.str "(trans _ _ _ _ "] ++ [.str " (symm _ _ _ "] ++ ss1 ++ [.str ")"] ++ ss1
                  ++ [.str ")"], eqNode b b)
        else none
    else none

/-- The composition proper of a transitivity step (the chain of cases on the kinds of the
two conclusions): `n1` with text `ss1` is the running conclusion and `n2` with text `ss2`
the next one, both without their negation; `firstNeg` and `secondNeg` say which of the
two was negated.  The result is the text between the opening combinator and its closing
parenthesis, and the composed conclusion. -/
def transBody (firstNeg secondNeg : Bool) (n1 : Node) (ss1 : Out) (n2 : Node) (ss2 : Out) :
    Option (Out × Node) :=
  if isEqOrIff n2 && isEqOrIff n1 then do
    let a0 ← n1.child 0
    let b0 ← n2.child 0
    if a0 = b0 then
      let a1 ← n1.child 1
      let b1 ← n2.child 1
      pure ([.str (if firstNeg then "(negsymm _ _ _ " else "(symm _ _ _ ")] ++ ss1
              ++ [.str ") "] ++ ss2, eqNode a1 b1)
    else
      let a1 ← n1.child 1
      let b1 ← n2.child 1
      if a1 = b1 then
        pure (ss1 ++ [.str (if secondNeg then " (negsymm _ _ _ " else " (symm _ _ _ ")]
                ++ ss2 ++ [.str ")"], eqNode a0 b0)
      else if a0 = b1 then
        if !firstNeg && !secondNeg then
          pure (ss2 ++ [.str " "] ++ ss1, eqNode b0 a1)
        else if firstNeg then
          pure ([.str " (negsymm _ _ _ "] ++ ss1 ++ [.str ") (symm _ _ _ "] ++ ss2
                  ++ [.str ")"], eqNode a1 b0)
        else
          pure ([.str " (symm _ _ _ "] ++ ss1 ++ [.str ") (negsymm _ _ _ "] ++ ss2
                  ++ [.str ")"], eqNode a1 b0)
      else if a1 = b0 then
        pure (ss1 ++ [.str " "] ++ ss2, eqNode a0 b1)
      else none
  else if isEqOrIff n1 then do
    let a0 ← n1.child 0
    if a0 = n2 then
      let a1 ← n1.child 1
      pure ([.str (if firstNeg then "(negsymm _ _ _ " else "(symm _ _ _ ")] ++ ss1
              ++ [.str ") (pred_eq_t _ "] ++ ss2 ++ [.str ")"], a1)
    else
      let a1 ← n1.child 1
      if a1 = n2 then
        pure (ss1 ++ [.str " (pred_eq_t _ "] ++ ss2 ++ [.str ")"], a0)
      else none
  else if isEqOrIff n2 then do
    let b0 ← n2.child 0
    if b0 = n1 then
      let b1 ← n2.child 1
      pure ([.str (if secondNeg then "(negsymm _ _ _ " else "(symm _ _ _ ")] ++ ss2
              ++ [.str ") (pred_eq_t _ "] ++ ss1 ++ [.str ")"], b1)
    else
      let b1 ← n2.child 1
      if b1 = n1 then
        pure (ss2 ++ [.str " (pred_eq_t _ "] ++ ss1 ++ [.str ")"], b0)
      else none
  else none

/-- The opening combinator of a transitivity step. -/
def transOpener (firstNeg secondNeg : Bool) : Out :=
  if firstNeg then [.str "(negtrans1 _ _ _ _ "]
  else if secondNeg then [.str "(negtrans2 _ _ _ _ "]
  else [.str "(trans _ _ _ _ "]

/-- The ordinary composition step of the transitivity case (from the polarity assertion
to the end of the loop body): running conclusion `n1` with text `ss1`, next conclusion
`n2` with text `ss2`.  Both may not be negated; a negated one is replaced by its atom,
and the composed conclusion is negated at the end when one of the two was negated. -/
def transCompose (n1 : Node) (ss1 : Out) (n2 : Node) (ss2 : Out) : Option (Out × Node) :=
  if n1.getKind = .NOT ∧ n2.getKind = .NOT then none
  else
    let firstNeg := decide (n1.getKind = .NOT)
    let secondNeg := !firstNeg && decide (n2.getKind = .NOT)
    (if firstNeg then n1.child 0 else some n1).bind (fun m1 =>
      (if secondNeg then n2.child 0 else some n2).bind (fun m2 =>
        (transBody firstNeg secondNeg m1 ss1 m2 ss2).bind (fun b =>
          (if firstNeg || secondNeg then
              (if b.2.getKind = .NOT then b.2.child 0 else some b.2.notNode)
            else some b.2).bind (fun r =>
            some (transOpener firstNeg secondNeg ++ b.1 ++ [.str ")"], r)))))

/-- The `for` loop of the transitivity case over the children `1 .. size-1`, given the
conclusions and texts that the recursive calls on those children return.  The state is
the running conclusion `n1`, the text `ss` and the flag `identicalEqualities`. -/
def transLoop (env : ProofEnv) (goal : Node) :
    Node → Out → Bool → List (Out × Node) → Option (Out × Node)
  | n1, ss, _, [] => some (ss, n1)
  | n1, ss1, identicalEqualities, (ss2, n2) :: rest => do
    let identical ← (if isEqOrIff n2 then identicalEq n1 n2 else pure false)
    if identical then
      if !identicalEqualities then
        let (evenLengthSequence, after) ← lookAhead n1 rest true
        if evenLengthSequence then
          let (ss, n1) ← evenSequence env goal n1 ss1 after
          transLoop env goal n1 ss true rest
        else
          transLoop env goal n1 ss1 true rest
      else
        transLoop env goal n1 ss1 true rest
    else
      let (ss, n1) ← transCompose n1 ss1 n2 ss2
      transLoop env goal n1 ss false rest

/-- The transitivity case for a node with conclusion `goal`, from the results of the
recursive calls on its children. -/
def transFold (env : ProofEnv) (goal : Node) (results : List (Out × Node)) :
    Option (Out × Node) :=
  if goal.isNull then none
  else
    match results with
    | (ss, n1) :: r :: rest => transLoop env goal n1 ss false (r :: rest)
    | _ => none


/-- The kinds a congruence node's conclusion may have. -/
def congruenceKind (k : Kind) : Bool :=
  k == .PARTIAL_APPLY_UF || k == .BUILTIN || k == .APPLY_UF || k == .SELECT ||
  k == .PARTIAL_SELECT_0 || k == .PARTIAL_SELECT_1 || k == .STORE

/-- The state of the congruence case between two chain nodes: the matched `side`, the two
argument accumulators and the text written to `out` for the chain so far. -/
structure CongState where
  side : Nat
  b1 : NodeBuilder
  b2 : NodeBuilder
  out : Out

/-- How an accumulator is started from one side `x` of the innermost child's equation. -/
def congStart (env : ProofEnv) (x : Node) : Option NodeBuilder :=
  let k := x.getKind
  if k == .APPLY_UF || k == .PARTIAL_APPLY_UF || k == .SELECT || k == .PARTIAL_SELECT_1
      || k == .STORE then do
    let b ← (if k == .APPLY_UF || k == .PARTIAL_APPLY_UF then do
        let op ← x.getOperator
        pure ((NodeBuilder.empty.setKind .PARTIAL_APPLY_UF).push op)
      else if k == .SELECT || k == .PARTIAL_SELECT_1 then
        pure (NodeBuilder.empty.setKind .SELECT)
      else do
        let op ← x.getOperator
        pure ((NodeBuilder.empty.setKind .PARTIAL_APPLY_UF).push (env.mkOp op)))
    pure (b.append x.children)
  else if k == .PARTIAL_SELECT_0 then
    pure (NodeBuilder.empty.setKind .PARTIAL_SELECT_1)
  else
    pure (NodeBuilder.empty.push x)

/-- Folding one argument equation `n2` (text `ss`) into the accumulators at argument
position `idx` of the chain node's conclusion `d_node`. -/
def congArg (d_node : Node) (idx : Nat) (side : Nat) (b1 b2 : NodeBuilder)
    (ss : Out) (n2 : Node) : Option (NodeBuilder × NodeBuilder × Out) := do
  let d ← d_node.child idx
  let x ← n2.child side
  if d = x then
    let y ← n2.child (1 - side)
    pure (b1.push x, b2.push y, ss)
  else
    let y ← n2.child (1 - side)
    if d = y then
      pure (b1.push y, b2.push x, [.str "(symm _ _ _ "] ++ ss ++ [.str ")"])
    else none

/-- The innermost chain node: its first child proved `n1` (text `t1`), its second child
proved `n2` (text `ss`). -/
def congFirst (env : ProofEnv) (d_node : Node) (t1 : Out) (n1 : Node) (ss : Out) (n2 : Node) :
    Option CongState := do
  let l ← n1.child 0
  let m0 ← matchTerms env d_node l
  let side ← (if m0 then pure 0 else do
    let r ← n1.child 1
    let m1 ← matchTerms env d_node r
    if m1 then pure 1 else none)
  let x ← n1.child side
  let b1 ← congStart env x
  let y ← n1.child (1 - side)
  let b2 ← congStart env y
  let shift := (if x.getKind = .PARTIAL_SELECT_0 then 1 else 0)
                + (if x.getKind = .PARTIAL_SELECT_1 then 1 else 0)
  let minus := (if d_node.getMetaKind = .PARAMETERIZED then 0 else 1)
  if b1.getNumChildren + shift < minus then none
  let (b1, b2, arg) ← congArg d_node (b1.getNumChildren + shift - minus) side b1 b2 ss n2
  pure ⟨side, b1, b2, [.str "(cong _ _ _ _ _ _ "] ++ t1 ++ [.str " "] ++ arg ++ [.str ")"]⟩

/-- An outer chain node: the state `st` of the chain below it, and its second child's
result. -/
def congNext (d_node : Node) (st : CongState) (ss : Out) (n2 : Node) : Option CongState := do
  let (b1, b2, arg) ← congArg d_node st.b1.getNumChildren st.side st.b1 st.b2 ss n2
  pure ⟨st.side, b1, b2, [.str "(cong _ _ _ _ _ _ "] ++ st.out ++ [.str " "] ++ arg ++ [.str ")"]⟩

/-- Re-tagging one accumulator after the fold: a finished partial select becomes a
`SELECT`, a saturated partial application becomes the full application.  `other` is the
second accumulator's node, whose operator the source looks up in both blocks. -/
def congRetag (env : ProofEnv) (d_node : Node) (checkGoal : Bool) (n other : Node) :
    Option Node := do
  if n.getKind = .PARTIAL_SELECT_0 ∧ n.getNumChildren = 2 then none
  if n.getKind = .PARTIAL_SELECT_1 ∧ n.getNumChildren = 2 then
    pure ((((NodeBuilder.empty.clear .SELECT).append n.children)).toNode)
  else
    let op ← n.getOperator
    if op.getType.getNumChildren = n.getNumChildren + 1 then
      let b ← (if env.hasOp op then do
          let o ← other.getOperator
          let l ← env.lookupOp o
          let k ← l.getConstKind
          pure (NodeBuilder.empty.clear k)
        else pure ((NodeBuilder.empty.clear .APPLY_UF).push op))
      let r := (b.append n.children).toNode
      if checkGoal ∧ d_node.getKind = .APPLY_UF ∧ r ≠ d_node then none
      pure r
    else pure n

/-- The end of the congruence case for the outermost node's conclusion `d_node`. -/
def congFinish (env : ProofEnv) (d_node : Node) (st : CongState) : Option (Out × Node) := do
  let n1 := st.b1.toNode
  let n2 := st.b2.toNode
  if d_node.getKind = .PARTIAL_APPLY_UF ∧ n1 ≠ d_node then none
  let n1 ← congRetag env d_node true n1 n2
  let n2 ← congRetag env d_node false n2 n2
  pure (st.out, if st.side = 0 then eqNode n1 n2 else eqNode n2 n1)

/-- The positive ROW shapes: the four extracted terms `(t1, t2, t3, t4)` and the returned
equation, for `a[k] = (store a i v)[k]` (tested first) and its mirror. -/
def rowShape (d_node : Node) : Option (Node × Node × Node × Node × Node) := do
  let l ← d_node.child 0
  let r ← d_node.child 1
  let firstShape ← (
    if r.getKind = .SELECT then do
      let r0 ← r.child 0
      if r0.getKind = .STORE then
        if l.getKind = .SELECT then do
          let l0 ← l.child 0
          let r00 ← r0.child 0
          if l0 = r00 then do
            let l1 ← l.child 1
            let r1 ← r.child 1
            pure (decide (l1 = r1))
          else pure false
        else pure false
      else pure false
    else pure false)
  if firstShape then
    let r0 ← r.child 0
    let t2 ← r0.child 1
    let t3 ← r.child 1
    let t1 ← l.child 0
    let t4 ← r0.child 2
    pure (t1, t2, t3, t4, r.mkEqual l)
  else
    if l.getKind = .SELECT then
      let l0 ← l.child 0
      if l0.getKind = .STORE then
        if r.getKind = .SELECT then
          let r0 ← r.child 0
          let l00 ← l0.child 0
          if r0 = l00 then
            let r1 ← r.child 1
            let l1 ← l.child 1
            if r1 = l1 then
              let t2 ← l0.child 1
              let t4 ← l0.child 2
              pure (r0, t2, l1, t4, d_node)
            else none
          else none
        else none
      else none
    else none

/-- The ROW1 shapes: the three extracted terms and the returned equation, for
`v = (store a i v)[i]` (tested first) and its mirror. -/
def row1Shape (d_node : Node) : Option (Node × Node × Node × Node) := do
  let l ← d_node.child 0
  let r ← d_node.child 1
  let firstShape ← (
    if r.getKind = .SELECT then do
      let r0 ← r.child 0
      if r0.getKind = .STORE then do
        let r01 ← r0.child 1
        let r1 ← r.child 1
        if r01 = r1 then do
          let r02 ← r0.child 2
          pure (decide (r02 = l))
        else pure false
      else pure false
    else pure false)
  if firstShape then
    let r0 ← r.child 0
    let t1 ← r0.child 0
    let t2 ← r0.child 1
    pure (t1, t2, l, r.mkEqual l)
  else
    if l.getKind = .SELECT then
      let l0 ← l.child 0
      if l0.getKind = .STORE then
        let l01 ← l0.child 1
        let l1 ← l.child 1
        if l01 = l1 then
          let l02 ← l0.child 2
          if l02 = r then
            let t1 ← l0.child 0
            pure (t1, l01, r, d_node)
          else none
        else none
      else none
    else none

/-- The side of the negative-ROW child's disequality that holds the select over a store. -/
def negRowSide (c : Node) : Option Nat := do
  let e ← c.child 0
  let l ← e.child 0
  let leftIsStore ← (if l.getKind = .SELECT then do
      let l0 ← l.child 0
      pure (decide (l0.getKind = .STORE))
    else pure false)
  if leftIsStore then pure 0
  else
    let r ← e.child 1
    let rightIsStore ← (if r.getKind = .SELECT then do
        let r0 ← r.child 0
        pure (decide (r0.getKind = .STORE))
      else pure false)
    if rightIsStore then pure 1 else none


/-- The reflexivity case (a leaf). -/
def reflCase (env : ProofEnv) (d_node : Node) (d_children : List EqProof) :
    Option (Out × Node) :=
  if d_node.isNull then none
  else if d_children.isEmpty then do
    let t ← env.printTerm d_node
    pure ([.str "(refl _ "] ++ t ++ [.str ")"], eqNode d_node d_node)
  else none

/-- The case of a given equality (a leaf): a reference to the literal's name. -/
def givenCase (d_node : Node) (d_children : List EqProof) : Option (Out × Node) :=
  if d_node.isNull then none
  else if d_children.isEmpty then some ([.litName d_node.negate], d_node)
  else none

/-- The four printed terms of a ROW combinator, in the order they are written. -/
def printFour (env : ProofEnv) (a b c d : Node) : Option Out := do
  let pa ← env.printTerm a
  let pb ← env.printTerm b
  let pc ← env.printTerm c
  let pd ← env.printTerm d
  pure (pa ++ [.str " "] ++ pb ++ [.str " "] ++ pc ++ [.str " "] ++ pd ++ [.str " "])

/-- The positive ROW case, from the result `(ss, subproof)` of the single child. -/
def rowPositive (env : ProofEnv) (d_node : Node) (ss : Out) (subproof : Node) :
    Option (Out × Node) := do
  let (t1, t2, t3, t4, ret) ← rowShape d_node
  let ps ← printFour env t2 t3 t1 t4
  let e ← subproof.child 0
  let rhs ← e.child 1
  let arg : Out := if rhs = t3 then ss else [.str "(negsymm _ _ _ "] ++ ss ++ [.str ")"]
  pure ([.str "(row _ _ "] ++ ps ++ arg ++ [.str ")"], ret)

/-- The stored array and the stored value `(t3, t4)` of the negative ROW case, read from
the single child's conclusion `c`. -/
def negRowTerms (c : Node) : Option (Node × Node) := do
  let side ← negRowSide c
  let e ← c.child 0
  let sel ← e.child side
  let st ← sel.child 0
  let t3 ← st.child 0
  let t4 ← st.child 2
  pure (t3, t4)

/-- The negative ROW case, from the single child's conclusion `c` and the text `ss` of
its proof. -/
def rowNegative (env : ProofEnv) (d_node : Node) (c : Node) (ss : Out) :
    Option (Out × Node) := do
  let t1 ← d_node.child 0
  let t2 ← d_node.child 1
  let t34 ← negRowTerms c
  let ps ← printFour env t1 t2 t34.1 t34.2
  pure ([.str "(negativerow _ _ "] ++ ps ++ ss ++ [.str ")"], d_node)

/-- The ROW case for a node with exactly one child, from that child's conclusion `c` and
the result of the recursive call on it. -/
def rowCase (env : ProofEnv) (d_node : Node) (c : Node) (ss : Out) (subproof : Node) :
    Option (Out × Node) :=
  if d_node.getKind = .EQUAL then do
    let r ← d_node.child 1
    if r.getKind = .SELECT then rowPositive env d_node ss subproof
    else rowNegative env d_node c ss
  else none

/-- The ROW1 case; the children of the node are not looked at. -/
def row1Case (env : ProofEnv) (d_node : Node) : Option (Out × Node) :=
  if d_node.getKind = .EQUAL then do
    let (t1, t2, t3, ret) ← row1Shape d_node
    let p1 ← env.printTerm t1
    let p2 ← env.printTerm t2
    let p3 ← env.printTerm t3
    pure ([.str "(row1 _ _ "] ++ p1 ++ [.str " "] ++ p2 ++ [.str " "] ++ p3 ++ [.str ")"], ret)
  else none

/-- The extensionality case for a node with exactly one child whose conclusion is `c`;
no recursive call is made. -/
def extCase (env : ProofEnv) (d_node : Node) (c : Node) : Option (Out × Node) :=
  if d_node.getKind = .NOT then do
    let e ← d_node.child 0
    if e.getKind = .EQUAL then
      if c.getKind = .NOT then
        let ce ← c.child 0
        if ce.getKind = .EQUAL then
          let _t1 ← ce.child 0
          let _t2 ← ce.child 1
          let sel ← e.child 0
          let t3 ← sel.child 1
          let name ← env.skolemToLiteral t3
          pure ([.str "(or_elim_1 _ _ ", .litName ce, .str " "] ++ name ++ [.str ")"], d_node)
        else none
      else none
    else none
  else none

mutual
/-- The recompiler `toStreamRecLFSC` at depth `tb >= 1` (the rule switch): the text
written to `out` and the returned conclusion, or `none` when an assertion fails.  The
depth is only passed on; `Debug` tracing is left out. -/
def toStreamRecLFSC1 (env : ProofEnv) (tb : Nat) : EqProof → Option (Out × Node)
  | .mk .MERGED_THROUGH_CONGRUENCE d_node d_children =>
    (congChain env tb d_node d_children).bind (congFinish env d_node)
  | .mk .MERGED_THROUGH_REFLEXIVITY d_node d_children => reflCase env d_node d_children
  | .mk .MERGED_THROUGH_EQUALITY d_node d_children => givenCase d_node d_children
  | .mk .MERGED_THROUGH_TRANS d_node d_children =>
    (toStreamRecLFSCList env (tb + 1) d_children).bind (transFold env d_node)
  | .mk .MERGED_ARRAYS_ROW d_node [c] =>
    (toStreamRecLFSC1 env (tb + 1) c).bind
      (fun r => rowCase env d_node c.d_node r.1 r.2)
  | .mk .MERGED_ARRAYS_ROW _ _ => none
  | .mk .MERGED_ARRAYS_ROW1 d_node _ => row1Case env d_node
  | .mk .MERGED_ARRAYS_EXT d_node [c] => extCase env d_node c.d_node
  | .mk .MERGED_ARRAYS_EXT _ _ => none
  | .mk .MERGED_THROUGH_CONSTANTS _ _ => none
  | .mk (.OTHER _) _ _ => none
/-- The recursive calls on a list of children, in order; all of them must return. -/
def toStreamRecLFSCList (env : ProofEnv) (tb : Nat) : List EqProof → Option (List (Out × Node))
  | [] => some []
  | c :: cs =>
    (toStreamRecLFSC1 env tb c).bind
      (fun r => (toStreamRecLFSCList env tb cs).bind (fun rs => some (r :: rs)))
/-- The congruence case for a chain node with conclusion `d_node` and the given children:
the chain below the first child is unwound first (the stack of the source), then this
node's second child is folded in.  All recursive calls are made at depth `tb + 1` of the
outermost chain node. -/
def congChain (env : ProofEnv) (tb : Nat) (d_node : Node) : List EqProof → Option CongState
  | [.mk .MERGED_THROUGH_CONGRUENCE node0 children0, c1] =>
    if d_node.isNull || !congruenceKind d_node.getKind then none
    else
      (congChain env tb node0 children0).bind (fun st =>
        (toStreamRecLFSC1 env (tb + 1) c1).bind (fun r => congNext d_node st r.1 r.2))
  | [c0, c1] =>
    if d_node.isNull || !congruenceKind d_node.getKind then none
    else
      (toStreamRecLFSC1 env (tb + 1) c0).bind (fun r1 =>
        (toStreamRecLFSC1 env (tb + 1) c1).bind (fun r =>
          congFirst env d_node r1.1 r1.2 r.1 r.2))
  | _ => none
end


/-! ### The depth-0 pass -/

/-- A child with a negated conclusion (the negative clause of the refutation). -/
def isNegativeChild (c : EqProof) : Bool := !c.d_node.isNull && c.d_node.getKind == .NOT

/-- A congruence child without a conclusion of its own. -/
def isDanglingCongruence (c : EqProof) : Bool :=
  c.d_id == .MERGED_THROUGH_CONGRUENCE && c.d_node.isNull

/-- The consecutive dangling congruences that start at child `i`. -/
def congruenceRun (children : List EqProof) (i : Nat) : List EqProof :=
  (children.drop i).takeWhile isDanglingCongruence

/-- One round of the ordering loops: the first child of congruence `c` goes to the front
of the ordered list and its second child to the back, reflexivity children being left
out. -/
def addCongruenceEqualities (ordered : List EqProof) (c : EqProof) : Option (List EqProof) := do
  let c0 ← c.d_children.get? 0
  let ordered := if c0.d_id ≠ .MERGED_THROUGH_REFLEXIVITY then c0 :: ordered else ordered
  let c1 ← c.d_children.get? 1
  pure (if c1.d_id ≠ .MERGED_THROUGH_REFLEXIVITY then ordered ++ [c1] else ordered)

/-- The ordering loops over a run of congruences, given in the order they are visited. -/
def orderEqualities : List EqProof → List EqProof → Option (List EqProof)
  | ordered, [] => some ordered
  | ordered, c :: cs => (addCongruenceEqualities ordered c).bind (fun o => orderEqualities o cs)

/-- The `while` loop of the depth-0 pass over the children of the root, from index `i`,
with the index `neg` of the negative child found so far and the children collected for
the nested transitivity node.  Every round advances `i`, so `fuel` rounds suffice when
`fuel` is the number of children. -/
def depth0Loop (children : List EqProof) :
    Nat → Nat → Option Nat → List EqProof → Option (Option Nat × List EqProof)
  | 0, i, neg, sub => if i < children.length then none else some (neg, sub)
  | fuel + 1, i, neg, sub =>
    match children.get? i with
    | none => some (neg, sub)
    | some c =>
      if isNegativeChild c then
        if neg.isSome then none else depth0Loop children fuel (i + 1) (some i) sub
      else if isDanglingCongruence c then
        let run := congruenceRun children i
        let count := run.length
        let targetAppearsBefore := !(i == 0 || (i == 1 && neg == some 0))
        let targetAppearsAfter :=
          !(decide (i + count ≥ children.length) ||
            (match children.get? (i + count) with
             | some d => isNegativeChild d
             | none => false))
        if targetAppearsBefore == targetAppearsAfter then none
        else if targetAppearsBefore then
          match children.get? (i - 1), sub.isEmpty with
          | some target, false =>
            (orderEqualities [target] run).bind (fun ordered =>
              depth0Loop children fuel (i + count) neg (sub.dropLast ++ ordered))
          | _, _ => none
        else
          match children.get? (i + count) with
          | some target =>
            (orderEqualities [target] run.reverse).bind (fun ordered =>
              depth0Loop children fuel (i + count + 1) neg (sub ++ ordered))
          | none => none
      else depth0Loop children fuel (i + 1) neg (sub ++ [c])

/-- The contradiction written at the end of the depth-0 pass when the negative child is
not an extensionality node: `n1` (text `ss`) was proved, `n2` is the negative child's
conclusion. -/
def contradiction (ss : Out) (n1 n2 : Node) : Option Out := do
  let e ← n2.child 0
  if e.getKind = .APPLY_UF then
    pure ([.str "(clausify_false (contra _ ", .str "(trans _ _ _ _ ", .str "(symm _ _ _ "]
            ++ ss ++ [.str ") (pred_eq_f _ ", .litName e, .str ")) t_t_neq_f))", .str "\n"])
  else
    let a0 ← n1.child 0
    let e0 ← e.child 0
    let straight ← (if a0 = e0 then do
        let a1 ← n1.child 1
        let e1 ← e.child 1
        pure (decide (a1 = e1))
      else pure false)
    let a1 ← n1.child 1
    let swapped ← (if straight then pure true else
      if a1 = e0 then do
        let e1 ← e.child 1
        pure (decide (a0 = e1))
      else pure false)
    if swapped then
      let body : Out := if a1 = e0 then [.str "(symm _ _ _ "] ++ ss ++ [.str ")"] else ss
      pure ([.str "(clausify_false (contra _ "] ++ body ++ [.str " ", .litName e, .str "))",
             .str "\n"])
    else none

/-- The recompiler at depth 0: the root must be a transitivity node with a conclusion and
at least two children; the proof of the positive part is contradicted against the
negative child, and the null node is returned. -/
def toStreamRecLFSC0 (env : ProofEnv) (pf : EqProof) : Option (Out × Node) :=
  if pf.d_id ≠ .MERGED_THROUGH_TRANS then none
  else if pf.d_node.isNull then none
  else if pf.d_children.length < 2 then none
  else do
    let (neg, sub) ← depth0Loop pf.d_children pf.d_children.length 0 none []
    let negIdx ← neg
    let (ss, n1) ← (if pf.d_children.length > 2 then
        toStreamRecLFSC1 env 1 (.mk .MERGED_THROUGH_TRANS pf.d_node sub)
      else (sub.get? 0).bind (toStreamRecLFSC1 env 1))
    let negChild ← pf.d_children.get? negIdx
    let n2 := negChild.d_node
    if n2.getKind ≠ .NOT then none
    if negChild.d_id = .MERGED_ARRAYS_EXT then
      let (ss2, _) ← toStreamRecLFSC1 env 1 negChild
      pure ([.str "(clausify_false (contra _ "] ++ ss ++ [.str " "] ++ ss2 ++ [.str "))"],
            Node.null)
    else
      let out ← contradiction ss n1 n2
      pure (out, Node.null)

/-- `ProofArray::toStreamRecLFSC(out, tp, pf, tb, map)`. -/
def toStreamRecLFSC (env : ProofEnv) (tb : Nat) (pf : EqProof) : Option (Out × Node) :=
  if tb = 0 then toStreamRecLFSC0 env pf else toStreamRecLFSC1 env tb pf

/-! ## The sharing pass and the term printers

`LFSCTheoryProofEngine::bind`, `printLetTerm`, `printTheoryTerm`, `printBoundTerm`,
`printCoreTerm` and `printSort` of `theory_proof.cpp`, the Boolean certifier's printer of
the same file, `LFSCUFProof::printTerm` of `uf_proof.cpp` and `LFSCArrayProof::printTerm`
of `array_proof.cpp`. -/

/-- Modelled from the spec: the sharing entry `LetCount`, whose class is not in the proof
sources ("term → (synthetic id, occurrence count)").  A new entry has count 1 and
`increment` adds one to the count. -/
structure LetCount where
  id : Nat
  count : Nat
  deriving DecidableEq

/-- The threshold `LET_COUNT` of `theory_proof.cpp`. -/
def LET_COUNT : Nat := 1

/-- The sharing map `LetMap`, in insertion order. -/
abbrev LetMap := List (Node × LetCount)

namespace LetMap

def find : LetMap → Node → Option LetCount
  | [], _ => none
  | (k, v) :: m, t => if k = t then some v else find m t

/-- The effect of `count.increment()` on the entry of `t`. -/
def increment : LetMap → Node → LetMap
  | [], _ => []
  | (k, v) :: m, t =>
    if k = t then (k, ⟨v.id, v.count + 1⟩) :: m else (k, v) :: increment m t

end LetMap

/-- An element `LetOrderElement(expr, id)` of the list `Bindings`. -/
structure LetOrderElement where
  expr : Node
  id : Nat
  deriving DecidableEq

/-- What `bind` updates: the sharing map, the order of first visits and the static id
counter `LetCount::counter`. -/
structure BindState where
  map : LetMap
  let_order : List LetOrderElement
  counter : Nat

namespace BindState

/-- The branch of `bind` for a term that is in the map already. -/
def revisit (st : BindState) (t : Node) : BindState :=
  ⟨st.map.increment t, st.let_order, st.counter⟩

/-- Modelled from the spec: `LetCount::newId()` is not in the proof sources; synthetic
ids are "unique per output", so the new id is the advanced counter.  The last three
statements of `bind`: the term gets a new id, a map entry with count 1, and the next place
in the order. -/
def insertNew (st : BindState) (t : Node) : BindState :=
  ⟨st.map ++ [(t, ⟨st.counter + 1, 1⟩)], st.let_order ++ [⟨t, st.counter + 1⟩], st.counter + 1⟩

end BindState

mutual
/-- `LFSCTheoryProofEngine::bind(term, map, let_order)`. -/
def bind : Node → BindState → BindState
  | .app k op cs, st =>
    match st.map.find (.app k op cs) with
    | some _ => st.revisit (.app k op cs)
    | none => (bindList cs st).insertNew (.app k op cs)
  | .null, st =>
    match st.map.find .null with
    | some _ => st.revisit .null
    | none => st.insertNew .null
  | .leaf k name ty, st =>
    match st.map.find (.leaf k name ty) with
    | some _ => st.revisit (.leaf k name ty)
    | none => st.insertNew (.leaf k name ty)
  | .builtin k, st =>
    match st.map.find (.builtin k) with
    | some _ => st.revisit (.builtin k)
    | none => st.insertNew (.builtin k)
/-- The loop of `bind` over the children of a term. -/
def bindList : List Node → BindState → BindState
  | [], st => st
  | c :: cs, st => bindList cs (bind c st)
end

/-! ### Certifiers and the theory table -/

/-- The Boolean certifier `BooleanProof`: the set of declared Boolean variables. -/
structure BooleanProof where
  d_declarations : List Node

/-- The UF certifier `UFProof`: the declared terms and the declared sorts. -/
structure UFProof where
  d_declarations : List Node
  d_sorts : List TypeNode

/-- The array certifier `ArrayProof`: the declared terms and sorts, the skolems whose
declaration is deferred, and the names `.sl<i>` given to the skolems. -/
structure ArrayProof where
  d_declarations : List Node
  d_sorts : List TypeNode
  d_skolemDeclarations : List Node
  d_skolemToLiteral : List (Node × Out)

/-- Modelled from the spec: the certifiers of the bit-vector and of the arithmetic theory
("plus stubs for others") are made by `registerTheory`, but their classes are outside the
sources.  Such a certifier is kept as the set of its declarations, and what it does with
a term is read from the collaborator environment. -/
structure ExternalProof where
  d_declarations : List Node

/-- The theory table `d_theoryProofTable`, one slot for every theory id that
`registerTheory` can enter, and one for the Boolean certifier that the engine's
constructor enters. -/
structure TheoryProofTable where
  bool : Option BooleanProof
  uf : Option UFProof
  array : Option ArrayProof
  bv : Option ExternalProof
  arith : Option ExternalProof

/-- What the engine and the certifiers read from collaborators outside the proof sources:
`Theory::theoryOf`, the skolemization manager (`isSkolem`, `getDisequality`), the UF
certifier's sort printer, which `uf_proof.cpp` does not define, and `registerTerm` of the
bit-vector and the arithmetic certifier up to its loop over the children. -/
structure EngineEnv where
  theoryOf : Node → TheoryId
  isSkolem : Node → Bool
  getDisequality : Node → Node
  ufPrintSort : TypeNode → Option Out
  externalRegisterTerm : TheoryId → ExternalProof → Node → Option (ExternalProof × Bool)

/-- `LFSCBooleanProof::printOwnedSort`. -/
def LFSCBooleanProof.printOwnedSort (type : TypeNode) : Option Out :=
  if type.isBoolean then some [.str "Bool"] else none

/-- `LFSCArrayProof::printSort`. -/
def LFSCArrayProof.printSort (type : TypeNode) : Option Out :=
  if type.isArray || type.isSort then some [.type type, .str " "] else none

/-- `LFSCTheoryProofEngine::printSort`: the certifier is looked up in the table, which
fails for a certifier that is not there.  The sort printers of the bit-vector and the
arithmetic certifier are outside the sources, and their sorts are not printed here. -/
def printSort (env : EngineEnv) (tbl : TheoryProofTable) (type : TypeNode) : Option Out :=
  if type.isSort then tbl.uf.bind (fun _ => env.ufPrintSort type)
  else if type.isBitVector then none
  else if type.isArray then tbl.array.bind (fun _ => LFSCArrayProof.printSort type)
  else if type.isInteger || type.isReal then none
  else if type.isBoolean then tbl.bool.bind (fun _ => LFSCBooleanProof.printOwnedSort type)
  else none

/-! ### One-level printers

Each printer below writes one node, given the texts that the recursive calls write for
its children (`none` for a child whose printing fails). -/

/-- The text written for child `i`; there is none when the node has no such child. -/
def childOut (outs : List (Option Out)) (i : Nat) : Option Out := (outs.get? i).bind id

/-- The texts of a list of writes, one after the other. -/
def concatOuts : List (Option Out) → Option Out
  | [] => some []
  | o :: os => o.bind (fun a => (concatOuts os).bind (fun b => some (a ++ b)))

/-- The pairs `(i, j)` with `i < j < n`, in the order of the two nested loops. -/
def distinctPairs (n : Nat) : List (Nat × Nat) :=
  (List.range n).flatMap (fun i => (List.range (n - (i + 1))).map (fun d => (i, i + 1 + d)))

/-- The value of `unsigned numOfPairs = n * (n - 1) / 2` for the number `n` of children,
which `getNumChildren()` of the expression layer returns as a `size_t`: the product and
the quotient are taken in 64-bit arithmetic, and the initialisation cuts the value to 32
bits. -/
def numOfPairs (n : Nat) : Nat := (n * (n - 1) % 2 ^ 64 / 2) % 2 ^ 32

/-- One negated equality of the `DISTINCT` case; the pair `(0, 1)` closes two
parentheses and every other pair three. -/
def printDistinctPair (sort : Out) (bs : List (Option Out)) (p : Nat × Nat) : Option Out :=
  (childOut bs p.1).bind (fun bi => (childOut bs p.2).bind (fun bj =>
    some ([.str "(not (= "] ++ sort ++ bi ++ [.str " "] ++ bj
            ++ [.str (if p.1 ≠ 0 ∨ p.2 ≠ 1 then ")))" else "))")])))

/-- The loop of the `CHAIN` case over the links `i`. -/
def printChainLinks (op : Kind) (bs : List (Option Out)) (n : Nat) : List Nat → Option Out
  | [] => some []
  | i :: is =>
    (childOut bs (i - 1)).bind (fun a => (childOut bs i).bind (fun b =>
      (printChainLinks op bs n is).bind (fun rest =>
        some ((if i + 1 < n then [.str "(", .lfscKind .AND, .str " "] else [])
                ++ [.str "(", .lfscKind op, .str " "] ++ a ++ [.str " "] ++ b ++ [.str ")"]
                ++ (if i + 1 < n then [.str " "] else []) ++ rest))))

/-- `LFSCTheoryProofEngine::printCoreTerm`, given the texts `bs` that `printBoundTerm`
writes for the children. -/
def printCoreTerm (env : EngineEnv) (tbl : TheoryProofTable) (term : Node)
    (bs : List (Option Out)) : Option Out :=
  if term.isVariable then some [.sanitized term]
  else
    match term.getKind with
    | .ITE =>
      (childOut bs 0).bind (fun b0 => (childOut bs 1).bind (fun b1 =>
        (childOut bs 2).bind (fun b2 =>
          some ([.str (if term.getType.isBoolean then "(ifte " else "(ite _ ")] ++ b0
                  ++ [.str " "] ++ b1 ++ [.str " "] ++ b2 ++ [.str ")"]))))
    | .EQUAL =>
      (term.child 0).bind (fun c0 => (printSort env tbl c0.getType).bind (fun s =>
        (childOut bs 0).bind (fun b0 => (childOut bs 1).bind (fun b1 =>
          some ([.str "(", .str "= "] ++ s ++ b0 ++ [.str " "] ++ b1 ++ [.str ")"])))))
    | .DISTINCT =>
      if term.getNumChildren < 2 then none
      else
        (term.child 0).bind (fun c0 => (printSort env tbl c0.getType).bind (fun s =>
          if term.getNumChildren = 2 then
            (childOut bs 0).bind (fun b0 => (childOut bs 1).bind (fun b1 =>
              some ([.str "(not (= "] ++ s ++ b0 ++ [.str " "] ++ b1 ++ [.str "))"])))
          else
            (concatOuts ((distinctPairs term.getNumChildren).map (printDistinctPair s bs))).bind
              (fun body =>
                some (List.replicate (numOfPairs term.getNumChildren - 1)
                        (.str "(and ") ++ body))))
    | .CHAIN =>
      (term.getOperator).bind (fun o => o.getConstKind.bind (fun op =>
        (printChainLinks op bs term.getNumChildren
            (List.range' 1 (term.getNumChildren - 1))).bind (fun body =>
          some (body ++ List.replicate (term.getNumChildren - 2) (.str ")")))))
    | _ => none

/-- Modelled from the spec: `getConst<bool>()` of the expression layer, which is not in
the proof sources; a Boolean constant is a leaf named `true` or `false`. -/
def Node.getConstBool : Node → Option Bool
  | .leaf .CONST_BOOLEAN name _ => some (decide (name = "true"))
  | _ => none

/-- The loop of the Boolean printer over more than two children: each child is followed
by a blank, and all but the last two by a nested opening of the operator. -/
def boolNaryLoop (k : Kind) (n : Nat) : Nat → List (Option Out) → Option Out
  | _, [] => some []
  | i, b :: bs =>
    b.bind (fun x => (boolNaryLoop k n (i + 1) bs).bind (fun rest =>
      some (x ++ [.str " "]
              ++ (if i + 2 < n then [.str "(", .lfscKind k, .str " "] else []) ++ rest)))

/-- The loop of the Boolean printer over at most two children. -/
def boolSmallLoop : List (Option Out) → Option Out
  | [] => some []
  | b :: bs => b.bind (fun x => (boolSmallLoop bs).bind (fun rest => some ([.str " "] ++ x ++ rest)))

/-- The kinds that the Boolean printer writes as operators. -/
def isBoolOperatorKind (k : Kind) : Bool :=
  k == .OR || k == .AND || k == .XOR || k == .IFF || k == .IMPLIES || k == .NOT

/-- `LFSCBooleanProof::printOwnedTerm`, given the texts `bs` that `printBoundTerm` writes
for the children. -/
def LFSCBooleanProof.printOwnedTerm (term : Node) (bs : List (Option Out)) : Option Out :=
  if !term.getType.isBoolean then none
  else if term.isVariable then some [.str "(p_app ", .sanitized term, .str ")"]
  else if isBoolOperatorKind term.getKind then
    if term.getNumChildren > 2 then
      (boolNaryLoop term.getKind term.getNumChildren 0 bs).bind (fun body =>
        some ([.str "(", .lfscKind term.getKind, .str " "] ++ body
                ++ List.replicate (term.getNumChildren - 2) (.str ")") ++ [.str ")"]))
    else
      (boolSmallLoop bs).bind (fun body =>
        some ([.str "(", .lfscKind term.getKind] ++ body ++ [.str ")"]))
  else if term.getKind = .CONST_BOOLEAN then
    term.getConstBool.bind (fun b => some [.str (if b then "true" else "false")])
  else none

/-- The second loop of `LFSCUFProof::printTerm`: every argument is followed by a closing
parenthesis. -/
def ufArguments : List (Option Out) → Option Out
  | [] => some []
  | p :: ps => p.bind (fun x => (ufArguments ps).bind (fun rest => some (x ++ [.str ")"] ++ rest)))

/-- `LFSCUFProof::printTerm(term, os)` of `uf_proof.cpp`, given the texts `ps` that the
engine's `printTerm(term[i], os)` writes for the children.  This printer takes no sharing
map. -/
def LFSCUFProof.printTerm (env : EngineEnv) (term : Node) (ps : List (Option Out)) :
    Option Out :=
  if env.theoryOf term ≠ .THEORY_UF then none
  else if term.getKind ≠ .APPLY_UF then none
  else
    term.getOperator.bind (fun func => (ufArguments ps).bind (fun args =>
      some ((if term.getType.isBoolean then [.str "(p_app "] else [])
              ++ List.replicate term.getNumChildren (.str "(apply _ _ ")
              ++ [.expr func, .str " "] ++ args
              ++ (if term.getType.isBoolean then [.str ")"] else []))))

/-- The two sorts `ArrayType(term[0].getType()).getIndexType()` and
`.getConstituentType()` as the array printer writes them, with the blank between. -/
def arraySorts (term : Node) : Option Out :=
  (term.child 0).bind (fun a =>
    match a.getType with
    | .arrayType index constituent =>
      (LFSCArrayProof.printSort index).bind (fun si =>
        (LFSCArrayProof.printSort constituent).bind (fun sc => some (si ++ [.str " "] ++ sc)))
    | _ => none)

/-- `LFSCArrayProof::printTerm` on a term that the array theory owns, given the texts `as`
that its own recursive calls `printTerm(term[i], os, map)` write for the children. -/
def LFSCArrayProof.printOwned (term : Node) (as : List (Option Out)) : Option Out :=
  if term.getKind = .VARIABLE ∨ term.getKind = .SKOLEM then some [.expr term]
  else
    match term.getKind with
    | .SELECT =>
      if term.getNumChildren ≠ 2 then none
      else
        (arraySorts term).bind (fun s => (childOut as 0).bind (fun a0 =>
          (childOut as 1).bind (fun a1 =>
            some ([.str "(apply _ _ (apply _ _ (read "] ++ s ++ [.str ") "] ++ a0
                    ++ [.str ") "] ++ a1 ++ [.str ") "]))))
    | .PARTIAL_SELECT_0 =>
      if term.getNumChildren ≠ 1 then none
      else (arraySorts term).bind (fun s => some ([.str "(read "] ++ s ++ [.str ") "]))
    | .STORE =>
      (arraySorts term).bind (fun s => (childOut as 0).bind (fun a0 =>
        (childOut as 1).bind (fun a1 => (childOut as 2).bind (fun a2 =>
          some ([.str "(apply _ _ (apply _ _ (apply _ _ (write "] ++ s ++ [.str ") "] ++ a0
                  ++ [.str ") "] ++ a1 ++ [.str ") "] ++ a2 ++ [.str ") "])))))
    | _ => none

/-! ### The recursive printers -/

/-- The head of `printBoundTerm`: a term whose map entry has a count above the threshold
is written as the reference `let<id>`, and any other term as `inline`, the text of
`printTheoryTerm`. -/
def printBoundWith (map : LetMap) (term : Node) (inline : Option Out) : Option Out :=
  match map.find term with
  | some lc => if lc.count > LET_COUNT then some [.letRef lc.id] else inline
  | none => inline

/-- The dispatch of `printTheoryTerm`: Boolean-free core terms go to `printCoreTerm`,
every other term to the certifier of its theory, which must be in the table; the term
printers of the bit-vector and the arithmetic certifier are outside the sources, and the
terms they own are not printed here.  `bs` are
the children's texts written by `printBoundTerm`, `ps` those written by the engine's
map-less `printTerm`, `as` those written by the array printer's own recursion. -/
def printDispatch (env : EngineEnv) (tbl : TheoryProofTable) (term : Node)
    (bs ps as : List (Option Out)) : Option Out :=
  if env.theoryOf term = .THEORY_BUILTIN ∨ term.getKind = .ITE ∨ term.getKind = .EQUAL then
    printCoreTerm env tbl term bs
  else
    match env.theoryOf term with
    | .THEORY_BOOL => tbl.bool.bind (fun _ => LFSCBooleanProof.printOwnedTerm term bs)
    | .THEORY_UF => tbl.uf.bind (fun _ => LFSCUFProof.printTerm env term ps)
    | .THEORY_ARRAY => tbl.array.bind (fun _ => LFSCArrayProof.printOwned term as)
    | _ => none

mutual
/-- `LFSCTheoryProofEngine::printTheoryTerm(term, os, map)`. -/
def printTheoryTerm (env : EngineEnv) (tbl : TheoryProofTable) :
    LetMap → Node → Option Out
  | map, .app k op cs =>
    printDispatch env tbl (.app k op cs) (printBoundList env tbl map cs)
      (printPlainList env tbl cs) (arrayPrintList env tbl map cs)
  | _, .null => printDispatch env tbl .null [] [] []
  | _, .leaf k name ty => printDispatch env tbl (.leaf k name ty) [] [] []
  | _, .builtin k => printDispatch env tbl (.builtin k) [] [] []
/-- The calls `printBoundTerm(term[i], os, map)` on the children of a term. -/
def printBoundList (env : EngineEnv) (tbl : TheoryProofTable) :
    LetMap → List Node → List (Option Out)
  | _, [] => []
  | map, c :: cs =>
    printBoundWith map c (printTheoryTerm env tbl map c) :: printBoundList env tbl map cs
/-- The calls `d_proofEngine->printTerm(term[i], os)` of the UF printer on the children of
a term: the engine's printer of the older interface, which has no sharing map. -/
def printPlainList (env : EngineEnv) (tbl : TheoryProofTable) :
    List Node → List (Option Out)
  | [] => []
  | c :: cs => printTheoryTerm env tbl [] c :: printPlainList env tbl cs
/-- `LFSCArrayProof::printTerm(term, os, map)` on a term of the array theory. -/
def arrayPrintTerm (env : EngineEnv) (tbl : TheoryProofTable) :
    LetMap → Node → Option Out
  | map, .app k op cs => LFSCArrayProof.printOwned (.app k op cs) (arrayPrintList env tbl map cs)
  | _, .null => LFSCArrayProof.printOwned .null []
  | _, .leaf k name ty => LFSCArrayProof.printOwned (.leaf k name ty) []
  | _, .builtin k => LFSCArrayProof.printOwned (.builtin k) []
/-- The array printer's recursive calls `printTerm(term[i], os, map)` on the children of
a term: a child of another theory is sent back to `printBoundTerm`, a child of the array
theory is printed by the array printer itself. -/
def arrayPrintList (env : EngineEnv) (tbl : TheoryProofTable) :
    LetMap → List Node → List (Option Out)
  | _, [] => []
  | map, c :: cs =>
    (if env.theoryOf c ≠ .THEORY_ARRAY then printBoundWith map c (printTheoryTerm env tbl map c)
     else arrayPrintTerm env tbl map c) :: arrayPrintList env tbl map cs
end

/-- `LFSCTheoryProofEngine::printBoundTerm(term, os, map)`. -/
def printBoundTerm (env : EngineEnv) (tbl : TheoryProofTable) (map : LetMap) (term : Node) :
    Option Out :=
  printBoundWith map term (printTheoryTerm env tbl map term)

/-- `LFSCArrayProof::printTerm(term, os, map)`. -/
def LFSCArrayProof.printTerm (env : EngineEnv) (tbl : TheoryProofTable) (map : LetMap)
    (term : Node) : Option Out :=
  if env.theoryOf term ≠ .THEORY_ARRAY then printBoundTerm env tbl map term
  else arrayPrintTerm env tbl map term

/-- The loop of `printLetTerm` over the order: every entry whose count is above the
threshold opens a binder `(@ let<id> ` around its text and adds one closing parenthesis
to `paren`.  The loop returns what it wrote to `os` and to `paren`. -/
def printLetBinders (env : EngineEnv) (tbl : TheoryProofTable) (map : LetMap) :
    List LetOrderElement → Option (Out × Out)
  | [] => some ([], [])
  | e :: es =>
    (map.find e.expr).bind (fun lc =>
      if lc.count = 0 then none
      else if lc.count ≤ LET_COUNT then printLetBinders env tbl map es
      else
        (printTheoryTerm env tbl map e.expr).bind (fun body =>
          (printLetBinders env tbl map es).bind (fun r =>
            some ([.letOpen e.id] ++ body ++ r.1, [.str ")"] ++ r.2))))

/-- The end of `printLetTerm`: the last entry of the order is written inline when its
count is at most the threshold, and as a reference otherwise. -/
def printLetRoot (env : EngineEnv) (tbl : TheoryProofTable) (map : LetMap)
    (let_order : List LetOrderElement) : Option Out :=
  (let_order.getLast?).bind (fun last =>
    (map.find last.expr).bind (fun lc =>
      if lc.count ≤ LET_COUNT then printTheoryTerm env tbl map last.expr
      else some [.str " ", .letRef last.id]))

/-- `LFSCTheoryProofEngine::printLetTerm(term, os)`: the text written, when the static
id counter has the value `counter` at the call. -/
def printLetTerm (env : EngineEnv) (tbl : TheoryProofTable) (counter : Nat) (term : Node) :
    Option Out :=
  let st := bind term ⟨[], [], counter⟩
  (printLetBinders env tbl st.map st.let_order).bind (fun r =>
    (printLetRoot env tbl st.map st.let_order).bind (fun root =>
      some (r.1 ++ root ++ r.2)))

/-! ## Registration and declarations

`TheoryProofEngine::registerTerm`, `getTheoryProof`, `supportedTheory` and
`BooleanProof::registerTerm` of `theory_proof.cpp`, `UFProof::registerTerm` of
`uf_proof.cpp`, `ArrayProof::registerTerm` of `array_proof.cpp`, and the declaration
printers of the three certifiers. -/

/-- Insertion into a set (`insert` of the hash sets and ordered sets of the sources): an
element that is there already is not added again. -/
def setInsert {α : Type} [DecidableEq α] (x : α) (l : List α) : List α :=
  if x ∈ l then l else l ++ [x]

/-- A certifier of the theory table. -/
inductive TheoryProof
  | bool (p : BooleanProof)
  | uf (p : UFProof)
  | array (p : ArrayProof)
  | bv (p : ExternalProof)
  | arith (p : ExternalProof)

namespace TheoryProofTable

/-- The entry of the table for a theory id, if there is one. -/
def find (tbl : TheoryProofTable) : TheoryId → Option TheoryProof
  | .THEORY_BOOL => tbl.bool.map .bool
  | .THEORY_UF => tbl.uf.map .uf
  | .THEORY_ARRAY => tbl.array.map .array
  | .THEORY_BV => tbl.bv.map .bv
  | .THEORY_ARITH => tbl.arith.map .arith
  | _ => none

/-- The table after a certifier has been updated in place. -/
def store (tbl : TheoryProofTable) : TheoryProof → TheoryProofTable
  | .bool p => ⟨some p, tbl.uf, tbl.array, tbl.bv, tbl.arith⟩
  | .uf p => ⟨tbl.bool, some p, tbl.array, tbl.bv, tbl.arith⟩
  | .array p => ⟨tbl.bool, tbl.uf, some p, tbl.bv, tbl.arith⟩
  | .bv p => ⟨tbl.bool, tbl.uf, tbl.array, some p, tbl.arith⟩
  | .arith p => ⟨tbl.bool, tbl.uf, tbl.array, tbl.bv, some p⟩

/-- No certifier of a class outside the sources is in the table. -/
def sourcesOnly (tbl : TheoryProofTable) : Bool := tbl.bv.isNone && tbl.arith.isNone

end TheoryProofTable

/-- `TheoryProofEngine::getTheoryProof`: queries for the builtin theory go to the UF
certifier, and the certifier must be in the table. -/
def getTheoryProof (tbl : TheoryProofTable) (id : TheoryId) : Option TheoryProof :=
  tbl.find (if id = .THEORY_BUILTIN then .THEORY_UF else id)

/-- `TheoryProofEngine::supportedTheory`. -/
def supportedTheory (id : TheoryId) : Bool :=
  id == .THEORY_ARRAY || id == .THEORY_ARITH || id == .THEORY_BV || id == .THEORY_UF ||
    id == .THEORY_BOOL

/-- `BooleanProof::registerTerm` up to its loop over the children: the new certifier and
whether the loop is reached. -/
def BooleanProof.enter (b : BooleanProof) (term : Node) : Option (BooleanProof × Bool) :=
  if !term.getType.isBoolean then none
  else if term.isVariable ∧ term ∉ b.d_declarations then
    some (⟨setInsert term b.d_declarations⟩, false)
  else some (b, true)

/-- The insertions that `UFProof::registerTerm` and `ArrayProof::registerTerm` make into
the declarations: the operator of an `APPLY_UF` term, and the term itself when it is a
variable. -/
def declareTerm (term : Node) (decls : List Node) : Option (List Node) :=
  (if term.getKind = .APPLY_UF then term.getOperator.bind (fun f => some (setInsert f decls))
   else some decls).bind (fun d =>
    some (if term.isVariable then setInsert term d else d))

/-- The insertion of a term's type into the declared sorts when it is an uninterpreted
sort. -/
def declareSort (term : Node) (sorts : List TypeNode) : List TypeNode :=
  if term.getType.isSort then setInsert term.getType sorts else sorts

/-- `UFProof::registerTerm` up to its loop over the children. -/
def UFProof.enter (u : UFProof) (term : Node) : Option (UFProof × Bool) :=
  if term ∈ u.d_declarations then some (u, false)
  else
    (declareTerm term u.d_declarations).bind (fun d =>
      some (⟨d, declareSort term u.d_sorts⟩, true))

/-- `ArrayProof::registerTerm` up to its loop over the children. -/
def ArrayProof.enter (a : ArrayProof) (term : Node) : Option (ArrayProof × Bool) :=
  if term ∈ a.d_declarations then some (a, false)
  else
    (declareTerm term a.d_declarations).bind (fun d =>
      some (⟨d, declareSort term a.d_sorts, a.d_skolemDeclarations, a.d_skolemToLiteral⟩, true))

/-- The virtual call `registerTerm` on a certifier, up to its loop over the children. -/
def TheoryProof.enter (env : EngineEnv) : TheoryProof → Node → Option (TheoryProof × Bool)
  | .bool p, term => (p.enter term).map (fun r => (.bool r.1, r.2))
  | .uf p, term => (p.enter term).map (fun r => (.uf r.1, r.2))
  | .array p, term => (p.enter term).map (fun r => (.array r.1, r.2))
  | .bv p, term => (env.externalRegisterTerm .THEORY_BV p term).map (fun r => (.bv r.1, r.2))
  | .arith p, term =>
    (env.externalRegisterTerm .THEORY_ARITH p term).map (fun r => (.arith r.1, r.2))

/-- The state of the engine: the registration cache and the theory table with its
certifiers. -/
structure TheoryProofEngine where
  d_registrationCache : List Node
  d_theoryProofTable : TheoryProofTable

namespace TheoryProofEngine

/-- The engine as its constructor leaves it: only the Boolean certifier is in the
table. -/
def initial : TheoryProofEngine := ⟨[], ⟨some ⟨[]⟩, none, none, none, none⟩⟩

def cacheInsert (e : TheoryProofEngine) (term : Node) : TheoryProofEngine :=
  ⟨setInsert term e.d_registrationCache, e.d_theoryProofTable⟩

/-- The call `getTheoryProof(id)->registerTerm(term)`; `kids` is the certifier's loop
`d_proofEngine->registerTerm(term[i])` over the children. -/
def certifierRegister (env : EngineEnv) (id : TheoryId) (term : Node)
    (kids : TheoryProofEngine → Option TheoryProofEngine) (e : TheoryProofEngine) :
    Option TheoryProofEngine :=
  (getTheoryProof e.d_theoryProofTable id).bind (fun cert =>
    (cert.enter env term).bind (fun r =>
      if r.2 then kids ⟨e.d_registrationCache, e.d_theoryProofTable.store r.1⟩
      else some ⟨e.d_registrationCache, e.d_theoryProofTable.store r.1⟩))

/-- The body of `TheoryProofEngine::registerTerm`; `kids` registers the children of the
term in order. -/
def registerTermWith (env : EngineEnv) (term : Node)
    (kids : TheoryProofEngine → Option TheoryProofEngine) (e : TheoryProofEngine) :
    Option TheoryProofEngine :=
  if term ∈ e.d_registrationCache then some e
  else if env.theoryOf term = .THEORY_BUILTIN ∨ term.getKind = .ITE then
    (kids e).bind (fun e1 => some (e1.cacheInsert term))
  else if !supportedTheory (env.theoryOf term) then some e
  else
    (certifierRegister env (env.theoryOf term) term kids e).bind (fun e1 =>
      (if env.isSkolem term ∧ env.theoryOf term ≠ .THEORY_ARRAY then
         certifierRegister env .THEORY_ARRAY term kids e1
       else some e1).bind (fun e2 => some (e2.cacheInsert term)))

mutual
/-- `TheoryProofEngine::registerTerm(term)`. -/
def registerTerm (env : EngineEnv) : Node → TheoryProofEngine → Option TheoryProofEngine
  | .app k op cs, e => registerTermWith env (.app k op cs) (registerList env cs) e
  | .null, e => registerTermWith env .null some e
  | .leaf k name ty, e => registerTermWith env (.leaf k name ty) some e
  | .builtin k, e => registerTermWith env (.builtin k) some e
/-- The loops `registerTerm(term[i])` over the children of a term. -/
def registerList (env : EngineEnv) : List Node → TheoryProofEngine → Option TheoryProofEngine
  | [], e => some e
  | c :: cs, e => (registerTerm env c e).bind (registerList env cs)
end

/-- The effect of `n` successive calls `registerTerm(term)`. -/
def registerTimes (env : EngineEnv) (term : Node) :
    Nat → TheoryProofEngine → Option TheoryProofEngine
  | 0, e => some e
  | n + 1, e => (registerTerm env term e).bind (registerTimes env term n)

end TheoryProofEngine

/-! ### Declarations -/

/-- The loop over the argument types and the range of a function type: every type is
written after a blank, and a nested `(arrow` is opened while `i < args.size() - 2` holds
in unsigned 64-bit arithmetic.  The loop returns what it wrote to `os` and to `fparen`. -/
def arrowLoop (size : Nat) : Nat → List TypeNode → Out × Out
  | _, [] => ([], [])
  | i, a :: as =>
    let rest := arrowLoop size (i + 1) as
    if i < (size + 2 ^ 64 - 2) % 2 ^ 64 then
      ([.str " ", .type a, .str " (arrow"] ++ rest.1, [.str ")"] ++ rest.2)
    else ([.str " ", .type a] ++ rest.1, rest.2)

/-- The declaration of one term as the UF and the array certifier write it, after the
name: a function is declared with its arrow type, and any other term must be a
variable. -/
def printTermType (term : Node) : Option Out :=
  match term.getType with
  | .functionType args range =>
    let r := arrowLoop (args.length + 1) 0 (args ++ [range])
    some ([.str "(term ", .str "(arrow"] ++ r.1 ++ r.2 ++ [.str "))\n"])
  | ty => if term.isVariable then some [.str "(term ", .type ty, .str ")\n"] else none

/-- The first loop of `printDeclarations` of the UF and of the array certifier: one
declaration per sort.  The loop returns what it wrote to `os` and to `paren`. -/
def printSortLoop : List TypeNode → Out × Out
  | [] => ([], [])
  | s :: ss =>
    ([.str "(% ", .type s, .str " sort\n"] ++ (printSortLoop ss).1,
      [.str ")"] ++ (printSortLoop ss).2)

/-- The second loop of `LFSCUFProof::printDeclarations`: one declaration per term. -/
def LFSCUFProof.printTermLoop : List Node → Option (Out × Out)
  | [] => some ([], [])
  | t :: ts =>
    (printTermType t).bind (fun d => (LFSCUFProof.printTermLoop ts).bind (fun r =>
      some ([.str "(% ", .expr t, .str " "] ++ d ++ r.1, [.str ")"] ++ r.2)))

/-- `LFSCUFProof::printDeclarations`. -/
def LFSCUFProof.printDeclarations (u : UFProof) : Option (Out × Out) :=
  (LFSCUFProof.printTermLoop u.d_declarations).bind (fun r =>
    some ((printSortLoop u.d_sorts).1 ++ r.1, (printSortLoop u.d_sorts).2 ++ r.2))

/-- The second loop of `LFSCArrayProof::printDeclarations`: a skolem is put aside into
`d_skolemDeclarations`, every other term is declared.  The loop returns what it wrote to
`os` and to `paren`, and the skolems put aside. -/
def LFSCArrayProof.printTermLoop (env : EngineEnv) :
    List Node → List Node → Option (Out × Out × List Node)
  | [], skolems => some ([], [], skolems)
  | t :: ts, skolems =>
    if env.isSkolem t then LFSCArrayProof.printTermLoop env ts (setInsert t skolems)
    else
      (printTermType t).bind (fun d =>
        (LFSCArrayProof.printTermLoop env ts skolems).bind (fun r =>
          some ([.str "(% ", .sanitized t, .str " "] ++ d ++ r.1, [.str ")"] ++ r.2.1, r.2.2)))

/-- `LFSCArrayProof::printDeclarations`: the text written to `os` and to `paren`, and the
certifier afterwards. -/
def LFSCArrayProof.printDeclarations (env : EngineEnv) (a : ArrayProof) :
    Option (Out × Out × ArrayProof) :=
  (LFSCArrayProof.printTermLoop env a.d_declarations a.d_skolemDeclarations).bind (fun r =>
    some ((printSortLoop a.d_sorts).1 ++ r.1, (printSortLoop a.d_sorts).2 ++ r.2.1,
      ⟨a.d_declarations, a.d_sorts, r.2.2, a.d_skolemToLiteral⟩))

/-- The assignment `d_skolemToLiteral[skolem] = name` on the ordered map. -/
def setSkolemLiteral (skolem : Node) (name : Out) : List (Node × Out) → List (Node × Out)
  | [] => [(skolem, name)]
  | (k, v) :: m => if k = skolem then (k, name) :: m else (k, v) :: setSkolemLiteral skolem name m

/-- The loop of `LFSCArrayProof::printDeferredDeclarations` over the deferred skolems:
every skolem gets the next name `.sl<i>` and opens an extensionality binder over the two
arrays of the disequality that it witnesses.  The loop returns what it wrote to `os` and
to `paren`, and the table of names. -/
def LFSCArrayProof.printDeferredLoop (env : EngineEnv) (tbl : TheoryProofTable) :
    List Node → List (Node × Out) → Option (Out × Out × List (Node × Out))
  | [], names => some ([], [], names)
  | t :: ts, names =>
    let equality := env.getDisequality t
    let name : Out := [.str ".sl", .num names.length]
    if equality.getKind ≠ .NOT then none
    else
      (equality.child 0).bind (fun eq =>
        if eq.getKind ≠ .EQUAL then none
        else
          (eq.child 0).bind (fun one => (eq.child 1).bind (fun two =>
            (LFSCArrayProof.printTerm env tbl [] one).bind (fun p1 =>
              (LFSCArrayProof.printTerm env tbl [] two).bind (fun p2 =>
                (LFSCArrayProof.printTerm env tbl [] t).bind (fun p3 =>
                  (LFSCArrayProof.printDeferredLoop env tbl ts
                      (setSkolemLiteral t name names)).bind (fun r =>
                    some ([.str "(ext _ _ "] ++ p1 ++ [.str " "] ++ p2 ++ [.str " (\\ "] ++ p3
                            ++ [.str " (\\ "] ++ name ++ [.str "\n"] ++ r.1,
                          [.str ")))"] ++ r.2.1, r.2.2))))))))

/-- `LFSCArrayProof::printDeferredDeclarations`. -/
def LFSCArrayProof.printDeferredDeclarations (env : EngineEnv) (tbl : TheoryProofTable)
    (a : ArrayProof) : Option (Out × Out × ArrayProof) :=
  (LFSCArrayProof.printDeferredLoop env tbl a.d_skolemDeclarations a.d_skolemToLiteral).bind
    (fun r => some (r.1, r.2.1, ⟨a.d_declarations, a.d_sorts, a.d_skolemDeclarations, r.2.2⟩))

/-- The loop of `LFSCBooleanProof::printTermDeclarations`. -/
def LFSCBooleanProof.printTermLoop (env : EngineEnv) (tbl : TheoryProofTable) :
    List Node → Option (Out × Out)
  | [] => some ([], [])
  | t :: ts =>
    (printSort env tbl t.getType).bind (fun s =>
      (LFSCBooleanProof.printTermLoop env tbl ts).bind (fun r =>
        some ([.str "(% ", .sanitized t, .str " (term "] ++ s ++ [.str ")\n"] ++ r.1,
              [.str ")"] ++ r.2)))

/-- `LFSCTheoryProofEngine::printSortDeclarations`: the loop over the table, in the order
of the theory ids (Boolean, UF, array); a certifier's sort declarations are the first
loop of its `printDeclarations`, and the Boolean certifier has none.  The result is the
text written to `os` and to `paren`.  What the bit-vector and the arithmetic certifier
declare is written by code outside the sources: a table that holds one of them is not
printed here. -/
def printSortDeclarations (tbl : TheoryProofTable) : Option (Out × Out) :=
  if !tbl.sourcesOnly then none
  else
    let ru : Out × Out :=
      match tbl.uf with
      | some u => printSortLoop u.d_sorts
      | none => ([], [])
    let ra : Out × Out :=
      match tbl.array with
      | some a => printSortLoop a.d_sorts
      | none => ([], [])
    some (ru.1 ++ ra.1, ru.2 ++ ra.2)

/-- The term declarations of the Boolean certifier, if it is in the table. -/
def printTermDeclarationsBool (env : EngineEnv) (tbl : TheoryProofTable) :
    Option (Out × Out) :=
  match tbl.bool with
  | some b => LFSCBooleanProof.printTermLoop env tbl b.d_declarations
  | none => some ([], [])

/-- The term declarations of the UF certifier, if it is in the table. -/
def printTermDeclarationsUF (tbl : TheoryProofTable) : Option (Out × Out) :=
  match tbl.uf with
  | some u => LFSCUFProof.printTermLoop u.d_declarations
  | none => some ([], [])

/-- The term declarations of the array certifier, if it is in the table, and the
certifier afterwards. -/
def printTermDeclarationsArray (env : EngineEnv) (tbl : TheoryProofTable) :
    Option (Out × Out × Option ArrayProof) :=
  match tbl.array with
  | some a =>
    (LFSCArrayProof.printTermLoop env a.d_declarations a.d_skolemDeclarations).bind (fun r =>
      some (r.1, r.2.1,
        some ⟨a.d_declarations, a.d_sorts, r.2.2, a.d_skolemToLiteral⟩))
  | none => some ([], [], none)

/-- `LFSCTheoryProofEngine::printTermDeclarations`: the loop over the table; a
certifier's term declarations are the second loop of its `printDeclarations`.  The result
is the text written to `os` and to `paren`, and the table afterwards. -/
def printTermDeclarations (env : EngineEnv) (tbl : TheoryProofTable) :
    Option (Out × Out × TheoryProofTable) :=
  if !tbl.sourcesOnly then none
  else
    (printTermDeclarationsBool env tbl).bind (fun rb =>
      (printTermDeclarationsUF tbl).bind (fun ru =>
        (printTermDeclarationsArray env tbl).bind (fun ra =>
          some (rb.1 ++ ru.1 ++ ra.1, rb.2 ++ ru.2 ++ ra.2.1,
            ⟨tbl.bool, tbl.uf, ra.2.2, tbl.bv, tbl.arith⟩))))

/-- `LFSCTheoryProofEngine::printDeferredDeclarations`: the loop over the table; of the
certifiers of the sources only the array certifier has deferred declarations. -/
def printDeferredDeclarations (env : EngineEnv) (tbl : TheoryProofTable) :
    Option (Out × Out × TheoryProofTable) :=
  if !tbl.sourcesOnly then none
  else
    match tbl.array with
    | some a =>
      (LFSCArrayProof.printDeferredDeclarations env tbl a).bind (fun r =>
        some (r.1, r.2.1, ⟨tbl.bool, tbl.uf, some r.2.2, tbl.bv, tbl.arith⟩))
    | none => some ([], [], tbl)

/-- The sort declarations, the term declarations and the deferred declarations of the
table, one after the other: the text written to `os`. -/
def printAllDeclarations (env : EngineEnv) (tbl : TheoryProofTable) : Option Out :=
  (printSortDeclarations tbl).bind (fun rs =>
    (printTermDeclarations env tbl).bind (fun rt =>
      (printDeferredDeclarations env rt.2.2).bind (fun rd =>
        some (rs.1 ++ rt.1 ++ rd.1))))

/-- `LFSCUFProof::printTheoryLemmaProof(lemma, os, paren)` of `uf_proof.cpp`: the text
written to `os`; nothing is written to `paren`. -/
def LFSCUFProof.printTheoryLemmaProof (_lemma : List Node) : Out :=
  [.str " ;; UF Theory Lemma \n", .str " (clausify_false trust)"]

/-! ## The lemma assembler

`LFSCTheoryProofEngine::printTheoryLemmas`, `finalizeBvConflicts` and
`TheoryProofEngine::getTheoryForLemma` of `theory_proof.cpp`, over the recipe class of
`lemma_proof.h`. -/

/-- A SAT literal, given by the atom of its variable (`getAtom(lit.getSatVariable())`) and
by its sign (`isNegated()`). -/
abbrev SatLiteral := Node × Bool

abbrev SatClause := List SatLiteral

/-- A step `LemmaProofRecipe::ProofStep` of a recipe. -/
structure ProofStep where
  d_theory : TheoryId
  d_literalToProve : Node
  d_assumptions : List Node

/-- A recipe `LemmaProofRecipe`, with the steps in the order of `getStep`. -/
structure LemmaProofRecipe where
  d_assertions : List Node
  d_proofSteps : List ProofStep
  d_theory : TheoryId
  d_assertionToExplanation : List (Node × Node)

namespace LemmaProofRecipe

def getNumSteps (r : LemmaProofRecipe) : Nat := r.d_proofSteps.length

def getStep (r : LemmaProofRecipe) (i : Nat) : Option ProofStep := r.d_proofSteps.get? i

/-- Modelled from the spec: `simpleLemma()` is declared in `lemma_proof.h` and defined
outside the sources; "One step ⇒ simple; ≥2 steps ⇒ composite". -/
def simpleLemma (r : LemmaProofRecipe) : Bool := r.getNumSteps == 1

/-- Modelled from the spec: `wasRewritten(assertion)` is declared in `lemma_proof.h` and
defined outside the sources; the recipe holds "rewrite explanations" for its rewritten
assertions. -/
def wasRewritten (r : LemmaProofRecipe) (assertion : Node) : Bool :=
  (r.d_assertionToExplanation.lookup assertion).isSome

/-- Modelled from the spec: `getExplanation(assertion)` is declared in `lemma_proof.h`
and defined outside the sources; it reads the map from assertions to explanations. -/
def getExplanation (r : LemmaProofRecipe) (assertion : Node) : Option Node :=
  r.d_assertionToExplanation.lookup assertion

end LemmaProofRecipe

/-- What the assembler reads from collaborators outside the proof sources: the bit-blast
mode option, the CNF layer (`getLiteral`, `haveProofRecipe`, `getProofRecipe`), whether
the logic is one of the two arithmetic logics of `getTheoryForLemma`,
`getMissingAssertionsForStep` of the recipe class, the replay of a lemma against a fresh
solver of a theory under the given rewrite filters (`TheoryProof::printTheoryLemmaProof`
from `th->produceProofs()` on), which returns what it writes to `os` and to `paren`, the
options `eagerUfProofs() || eagerArrayProofs()` and `eagerBvProofs()`, the text of the
proof stored in `d_eagerConflictToProof` for a conflict, and the lemma proof of the
bit-vector certifier, whose class is outside the sources. -/
structure LemmaEnv where
  bitblastEager : Bool
  getLiteral : Node → SatLiteral
  haveProofRecipe : List Node → Bool
  getProofRecipe : List Node → LemmaProofRecipe
  arithWithHoles : Bool
  getMissingAssertionsForStep : LemmaProofRecipe → Nat → List Node
  replay : TheoryId → List Node → List (Chunk × Out) → Option (Out × Out)
  eagerProofs : Bool
  eagerConflictToProof : List Node → Option Out
  eagerBvProofs : Bool
  bvPrintTheoryLemmaProof : List Node → Option (Out × Out)

/-- The state that `printTheoryLemmas` updates besides its two streams: the engine's
table `d_assertionToRewrite` and the proof manager's table `d_rewriteFilters`, keyed by
literal names. -/
structure LemmaState where
  d_assertionToRewrite : List (Node × Out)
  d_rewriteFilters : List (Chunk × Out)
  deriving DecidableEq

/-- The constant `utils::mkTrue()`. -/
def mkTrue : Node := .leaf .CONST_BOOLEAN "true" (.typeConstant .BOOLEAN_TYPE)

/-- The constant `utils::mkFalse()`. -/
def mkFalse : Node := .leaf .CONST_BOOLEAN "false" (.typeConstant .BOOLEAN_TYPE)

/-- The loop that turns a clause into the list `clause_expr` of its literals and the set
`clause_expr_nodes` (kept in insertion order): a constant atom must be `true` and is
skipped. -/
def clauseExpr : SatClause → Option (List Node × List Node)
  | [] => some ([], [])
  | lit :: rest =>
    if lit.1.isConst then (if lit.1 = mkTrue then clauseExpr rest else none)
    else
      (clauseExpr rest).bind (fun r =>
        some ((if lit.2 then lit.1.notNode else lit.1) :: r.1,
              setInsert (if lit.2 then lit.1.notNode else lit.1) r.2))

/-- `TheoryProofEngine::getTheoryForLemma`. -/
def getTheoryForLemma (env : LemmaEnv) (clause : SatClause) : Option TheoryId :=
  (clauseExpr clause).bind (fun r =>
    if !env.haveProofRecipe r.2 then
      (if env.arithWithHoles then some .THEORY_ARITH else none)
    else some (env.getProofRecipe r.2).d_theory)

/-- The read `d_assertionToRewrite[assertion]`, which enters an empty name for an
assertion that has none. -/
def readAssertionToRewrite (table : List (Node × Out)) (assertion : Node) :
    Out × List (Node × Out) :=
  match table.lookup assertion with
  | some name => (name, table)
  | none => ([], table ++ [(assertion, [])])

/-- The assignment `d_rewriteFilters[key] = text` on the ordered map. -/
def setRewriteFilter (key : Chunk) (text : Out) : List (Chunk × Out) → List (Chunk × Out)
  | [] => [(key, text)]
  | (k, v) :: m => if k = key then (k, text) :: m else (k, v) :: setRewriteFilter key text m

/-- The first position of a literal in a clause, as the search loop finds it. -/
def findLiteral (x : Node) : List Node → Option Nat
  | [] => none
  | y :: ys => if y = x then some 0 else (findLiteral x ys).map (fun k => k + 1)

/-- The loop over the missing assertions of a lemma or of a step: the explanation of each
missing assertion must be in the clause, where the missing assertion replaces it, and a
rewrite filter is set under the literal name of the missing assertion. -/
def patchMissingAssertions (recipe : LemmaProofRecipe) :
    List Node → List Node → LemmaState → Option (List Node × LemmaState)
  | [], clause, st => some (clause, st)
  | m :: ms, clause, st =>
    if !recipe.wasRewritten m.negate then none
    else
      (recipe.getExplanation m.negate).bind (fun e =>
        (findLiteral e.negate clause).bind (fun k =>
          let r := readAssertionToRewrite st.d_assertionToRewrite m.negate
          patchMissingAssertions recipe ms (clause.set k m)
            ⟨r.2, setRewriteFilter (.litName m)
                    ([.str "(or_elim_1 _ _ ", .str "(not_not_intro _ ", .litName e.negate,
                      .str ") (iff_elim_1 _ _ "] ++ r.1 ++ [.str "))"])
                    st.d_rewriteFilters⟩))

/-- The set `conflict` of the negated literals of a lemma, in the order of insertion. -/
def conflictSet (lits : List Node) : List Node :=
  lits.foldl (fun conflict l => setInsert l.negate conflict) []

/-- `TheoryProof::printTheoryLemmaProof(lemma, os, paren)`, the method of the base class,
for a certifier of the theory `d_theory` (`none` is the null pointer of the Boolean
certifier): in the eager proof mode a stored proof of the conflict is printed; otherwise
the lemma is replayed against a fresh solver for the UF, the bit-vector and the array
theory, the arithmetic theory gets the placeholder, and every other theory is an internal
error.  The result is what is written to `os` and to `paren`. -/
def TheoryProof.printTheoryLemmaProof (env : LemmaEnv) (d_theory : Option TheoryId)
    (lits : List Node) (filters : List (Chunk × Out)) : Option (Out × Out) :=
  match (if env.eagerProofs then env.eagerConflictToProof (conflictSet lits) else none) with
  | some proof => some (proof, [])
  | none =>
    match d_theory with
    | none => none
    | some .THEORY_UF => env.replay .THEORY_UF lits filters
    | some .THEORY_BV =>
      if env.eagerBvProofs then none else env.replay .THEORY_BV lits filters
    | some .THEORY_ARRAY => env.replay .THEORY_ARRAY lits filters
    | some .THEORY_ARITH => some ([.str " (clausify_false trust)"], [])
    | some _ => none

/-- The virtual call `getTheoryProof(theory_id)->printTheoryLemmaProof(lemma, os, paren)`
under the rewrite filters in force: the Boolean certifier has no lemmas, the UF certifier
writes its placeholder, the array certifier writes the lemma as a comment and calls the
method of the base class.  The bit-vector certifier's method is read from the
environment, and the arithmetic certifier, whose class is outside the sources, is taken
to inherit the method of the base class, which has a branch for it.  The result is what
is written to `os` and to `paren`. -/
def printTheoryLemmaProof (env : LemmaEnv) (tbl : TheoryProofTable) (id : TheoryId)
    (lits : List Node) (filters : List (Chunk × Out)) : Option (Out × Out) :=
  match getTheoryProof tbl id with
  | some (.bool _) => none
  | some (.uf _) => some (LFSCUFProof.printTheoryLemmaProof lits, [])
  | some (.array _) =>
    (TheoryProof.printTheoryLemmaProof env (some .THEORY_ARRAY) lits filters).bind (fun r =>
      some ([.str " ;; Array Theory Lemma \n;;"] ++ lits.flatMap (fun l => [.expr l, .str " "])
              ++ [.str "\n"] ++ r.1, r.2))
  | some (.bv _) => env.bvPrintTheoryLemmaProof lits
  | some (.arith _) => TheoryProof.printTheoryLemmaProof env (some .THEORY_ARITH) lits filters
  | none => none

/-- The partial clause of step `i` of a recipe: the clause and its literals, then the
negated literal of every earlier step, then the literal of the step unless it is null. -/
def partialClause (env : LemmaEnv) (recipe : LemmaProofRecipe) (clause : SatClause)
    (clause_expr : List Node) (i : Nat) (step : ProofStep) : SatClause × List Node :=
  let previous := (recipe.d_proofSteps.take i).map (fun s => s.d_literalToProve.negate)
  if step.d_literalToProve ≠ .null then
    (clause ++ previous.map env.getLiteral ++ [env.getLiteral step.d_literalToProve],
      clause_expr ++ previous ++ [step.d_literalToProve])
  else (clause ++ previous.map env.getLiteral, clause_expr ++ previous)

/-- One round of the first loop of the composite branch: the partial proof of step `i`
of lemma `id`.  The result is what the round writes to `os` and to `paren`, and the state
afterwards; the rewrite filters are cleared once the certifier has returned. -/
def printCompositeStep (env : LemmaEnv) (tbl : TheoryProofTable) (id : Nat)
    (clause : SatClause) (clause_expr : List Node) (recipe : LemmaProofRecipe)
    (i : Nat) (step : ProofStep) (st : LemmaState) : Option (Out × Out × LemmaState) :=
  let current := partialClause env recipe clause clause_expr i step
  (patchMissingAssertions recipe (env.getMissingAssertionsForStep recipe i) current.2 st).bind
    (fun p =>
      (printTheoryLemmaProof env tbl step.d_theory p.1 p.2.d_rewriteFilters).bind (fun t =>
        some ([.str "(satlem _ _ ", .clause current.1] ++ t.1 ++ [.clauseParen current.1]
                ++ [.str "( \\ ", .clauseName id, .str "s", .num i, .str "\n"],
              t.2 ++ [.str "))"],
              ⟨p.2.d_assertionToRewrite, []⟩)))

/-- The first loop of the composite branch, from step `i` on. -/
def printCompositeSteps (env : LemmaEnv) (tbl : TheoryProofTable) (id : Nat)
    (clause : SatClause) (clause_expr : List Node) (recipe : LemmaProofRecipe) :
    Nat → List ProofStep → LemmaState → Option (Out × Out × LemmaState)
  | _, [], st => some ([], [], st)
  | i, step :: steps, st =>
    (printCompositeStep env tbl id clause clause_expr recipe i step st).bind (fun r =>
      (printCompositeSteps env tbl id clause clause_expr recipe (i + 1) steps r.2.2).bind
        (fun rs => some (r.1 ++ rs.1, r.2.1 ++ rs.2.1, rs.2.2)))

/-- The loop that opens the resolution combinators, from step `i` on: `Q` for a step
whose literal is a negation and `R` for any other, followed by the name of the step's
partial proof. -/
def resolutionOpenings (id : Nat) : Nat → List ProofStep → Out
  | _, [] => []
  | i, step :: steps =>
    [.str (if step.d_literalToProve.getKind = .NOT then "(Q _ _ " else "(R _ _ "),
      .clauseName id, .str "s", .num i, .str " "] ++ resolutionOpenings id (i + 1) steps

/-- The loop that closes the resolution combinators, over the steps in descending order:
the name of the SAT variable of each step's literal and a closing parenthesis. -/
def resolutionPivots (env : LemmaEnv) : List ProofStep → Out
  | [] => []
  | step :: steps =>
    [.varName (env.getLiteral step.d_literalToProve).1, .str ") "] ++ resolutionPivots env steps

/-- The composite branch of `printTheoryLemmas` for the lemma `id`: the partial proofs of
all steps, then the resolution of the steps, bound to the name of the lemma. -/
def printCompositeLemma (env : LemmaEnv) (tbl : TheoryProofTable) (id : Nat)
    (clause : SatClause) (clause_expr : List Node) (recipe : LemmaProofRecipe)
    (st : LemmaState) : Option (Out × Out × LemmaState) :=
  (printCompositeSteps env tbl id clause clause_expr recipe 0 recipe.d_proofSteps st).bind
    (fun r =>
      if recipe.getNumSteps < 2 then none
      else
        some (r.1 ++ [.str "(satlem_simplify _ _ _ "]
                ++ resolutionOpenings id 0 (recipe.d_proofSteps.take (recipe.getNumSteps - 1))
                ++ [.clauseName id, .str "s", .num (recipe.getNumSteps - 1), .str " "]
                ++ resolutionPivots env
                    (recipe.d_proofSteps.take (recipe.getNumSteps - 1)).reverse
                ++ [.str "( \\ ", .clauseName id, .str "\n"],
              r.2.1 ++ [.str "))"], r.2.2))

/-- The simple branch of `printTheoryLemmas` for the lemma `id`. -/
def printSimpleLemma (env : LemmaEnv) (tbl : TheoryProofTable) (id : Nat)
    (clause : SatClause) (clause_expr : List Node) (recipe : LemmaProofRecipe)
    (st : LemmaState) : Option (Out × Out × LemmaState) :=
  (getTheoryForLemma env clause).bind (fun theory_id =>
    (patchMissingAssertions recipe (env.getMissingAssertionsForStep recipe 0) clause_expr
        st).bind (fun p =>
      (printTheoryLemmaProof env tbl theory_id p.1 p.2.d_rewriteFilters).bind (fun t =>
        some ([.str "(satlem _ _ ", .clause clause] ++ t.1 ++ [.clauseParen clause]
                ++ [.str "( \\ ", .clauseName id, .str "\n"],
              t.2 ++ [.str "))"],
              ⟨p.2.d_assertionToRewrite, []⟩))))

/-- One round of the loop of `printTheoryLemmas` over the lemmas. -/
def printTheoryLemma (env : LemmaEnv) (tbl : TheoryProofTable) (l : Nat × SatClause)
    (st : LemmaState) : Option (Out × Out × LemmaState) :=
  (clauseExpr l.2).bind (fun r =>
    if (env.getProofRecipe r.2).simpleLemma then
      printSimpleLemma env tbl l.1 l.2 r.1 (env.getProofRecipe r.2) st
    else printCompositeLemma env tbl l.1 l.2 r.1 (env.getProofRecipe r.2) st)

/-- The loop of `printTheoryLemmas` over the lemmas, in the order of their ids. -/
def printTheoryLemmaLoop (env : LemmaEnv) (tbl : TheoryProofTable) :
    List (Nat × SatClause) → LemmaState → Option (Out × Out × LemmaState)
  | [], st => some ([], [], st)
  | l :: ls, st =>
    (printTheoryLemma env tbl l st).bind (fun r =>
      (printTheoryLemmaLoop env tbl ls r.2.2).bind (fun rs =>
        some (r.1 ++ rs.1, r.2.1 ++ rs.2.1, rs.2.2)))

/-- The conflict of a clause in `finalizeBvConflicts`: the literals of the clause, where
a constant atom must be `true`, or `false` under a negated literal, and is skipped.  The
result is the list `conflict` and the set `conflictNodes`. -/
def bvConflict : SatClause → Option (List Node × List Node)
  | [] => some ([], [])
  | lit :: rest =>
    if lit.1.isConst then
      (if lit.1 = mkTrue ∨ (lit.1 = mkFalse ∧ lit.2 = true) then bvConflict rest else none)
    else
      (bvConflict rest).bind (fun r =>
        some ((if lit.2 then lit.1.notNode else lit.1) :: r.1,
              setInsert (if lit.2 then lit.1.notNode else lit.1) r.2))

/-- The loop of `finalizeBvConflicts` over the steps of a recipe, from step `i` on: the
partial clause of every step of the bit-vector theory. -/
def bvStepClauses (env : LemmaEnv) (recipe : LemmaProofRecipe) (clause : SatClause)
    (conflict : List Node) : Nat → List ProofStep → List (List Node)
  | _, [] => []
  | i, step :: steps =>
    if step.d_theory ≠ .THEORY_BV then bvStepClauses env recipe clause conflict (i + 1) steps
    else
      (partialClause env recipe clause conflict i step).2 ::
        bvStepClauses env recipe clause conflict (i + 1) steps

/-- The loop of `finalizeBvConflicts` over the lemmas: the batch `bv_lemmas`, each clause
given by its literals (`mkSortedExpr` is outside the sources). -/
def bvLemmas (env : LemmaEnv) : List (Nat × SatClause) → Option (List (List Node))
  | [] => some []
  | l :: ls =>
    (bvConflict l.2).bind (fun r =>
      (bvLemmas env ls).bind (fun rest =>
        some (bvStepClauses env (env.getProofRecipe r.2) l.2 r.1 0
                (env.getProofRecipe r.2).d_proofSteps ++ rest)))

/-- `LFSCTheoryProofEngine::printTheoryLemmas(lemmas, os, paren)`: what is written to
`os` and to `paren`, and the state afterwards.  The bit-vector batch is handed over
first; in the eager bit-blast mode there must be one lemma and nothing more is done. -/
def printTheoryLemmas (env : LemmaEnv) (tbl : TheoryProofTable)
    (lemmas : List (Nat × SatClause)) (st : LemmaState) : Option (Out × Out × LemmaState) :=
  (bvLemmas env lemmas).bind (fun batch =>
    if env.bitblastEager then
      (if lemmas.length = 1 then
         some ([.str " ;; Theory Lemmas \n", .bvResolution batch], [.bvResolutionParen batch],
               st)
       else none)
    else
      (printTheoryLemmaLoop env tbl lemmas st).bind (fun r =>
        some ([.str " ;; Theory Lemmas \n", .bvResolution batch] ++ r.1,
              [.bvResolutionParen batch] ++ r.2.1, r.2.2)))

/-! ## The theory table, the skolem names and the assertions

`TheoryProofEngine::registerTheory` and `LFSCTheoryProofEngine::printAssertions` of
`theory_proof.cpp`, and `ArrayProof::skolemToLiteral` of `array_proof.cpp`. -/

/-- `TheoryProofEngine::registerTheory(th)`, where `th` is given by the id of the theory
and `none` is the null pointer: a theory that has no entry gets a new certifier when it
is the UF, the bit-vector, the array or the arithmetic theory; nothing is done for any
other theory and for a theory that has an entry.  The call `setProofLog` on the
bit-vector theory changes the theory, not the engine, and is left out. -/
def TheoryProofEngine.registerTheory (th : Option TheoryId) (e : TheoryProofEngine) :
    TheoryProofEngine :=
  match th with
  | none => e
  | some id =>
    if (e.d_theoryProofTable.find id).isSome then e
    else if id = .THEORY_UF then
      ⟨e.d_registrationCache, e.d_theoryProofTable.store (.uf ⟨[], []⟩)⟩
    else if id = .THEORY_BV then
      ⟨e.d_registrationCache, e.d_theoryProofTable.store (.bv ⟨[]⟩)⟩
    else if id = .THEORY_ARRAY then
      ⟨e.d_registrationCache, e.d_theoryProofTable.store (.array ⟨[], [], [], []⟩)⟩
    else if id = .THEORY_ARITH then
      ⟨e.d_registrationCache, e.d_theoryProofTable.store (.arith ⟨[]⟩)⟩
    else e

/-- `ArrayProof::skolemToLiteral(skolem)`: the skolem must have a name. -/
def ArrayProof.skolemToLiteral (a : ArrayProof) (skolem : Node) : Option Out :=
  a.d_skolemToLiteral.lookup skolem

/-- The name `"A" << counter` that `printAssertions` gives to an assertion. -/
def assertionName (counter : Nat) : Out := [.str "A", .num counter]

/-- The loop of `LFSCTheoryProofEngine::printAssertions` over the assertions, from the
value `counter` of the assertion counter and the value `letCounter` of the static id
counter of the let binders.  The loop returns what it wrote to `os` and to `paren`, and
the calls `registerUnrewrittenAssertion(assertion, name)` that it made, in order. -/
def printAssertionsLoop (env : EngineEnv) (tbl : TheoryProofTable) :
    List Node → Nat → Nat → Option (Out × Out × List (Node × Out))
  | [], _, _ => some ([], [], [])
  | a :: rest, counter, letCounter =>
    (printLetTerm env tbl letCounter a).bind (fun t =>
      (printAssertionsLoop env tbl rest (counter + 1)
          (bind a ⟨[], [], letCounter⟩).counter).bind (fun r =>
        some ([.str "(% "] ++ assertionName counter ++ [.str " (th_holds "] ++ t
                ++ [.str ")\n"] ++ r.1,
              [.str ")"] ++ r.2.1, (a, assertionName counter) :: r.2.2)))

/-- `LFSCTheoryProofEngine::printAssertions(os, paren)` over the assertions of the proof
manager. -/
def printAssertions (env : EngineEnv) (tbl : TheoryProofTable) (assertions : List Node)
    (letCounter : Nat) : Option (Out × Out × List (Node × Out)) :=
  printAssertionsLoop env tbl assertions 0 letCounter

/-! ## The lemma rewrites, the target of a congruence run, and the idempotent arguments

`LFSCTheoryProofEngine::printLemmaRewrites` of `theory_proof.cpp`, the choice of the
target in the depth-0 pass of `ProofArray::toStreamRecLFSC`, and
`SygusUtil::isIdempotentArg`, `getTypeValue` and `getTypeMaxValue` of
`datatypes_sygus.cpp`. -/

/-- The assignment `d_assertionToRewrite[assertion] = name` on the table. -/
def setAssertionToRewrite (assertion : Node) (name : Out) :
    List (Node × Out) → List (Node × Out)
  | [] => [(assertion, name)]
  | (k, v) :: m =>
    if k = assertion then (k, name) :: m else (k, v) :: setAssertionToRewrite assertion name m

/-- `LFSCTheoryProofEngine::printLemmaRewrites(rewrites, os, paren)` over the pairs of
the set in the order of its iterator and from the table `d_assertionToRewrite`: every
pair `(first, second)` opens a binder of the rule name `.lrr<size>`, where `size` is the
size of the table at that time, and the table maps `first` to that name.  The result is
what is written to `os` and to `paren`, and the table afterwards. -/
def printLemmaRewrites (env : EngineEnv) (tbl : TheoryProofTable) :
    List (Node × Node) → List (Node × Out) → Option (Out × Out × List (Node × Out))
  | [], table => some ([], [], table)
  | it :: rest, table =>
    let rewriteRule : Out := [.str ".lrr", .num table.length]
    (printBoundTerm env tbl [] it.2).bind (fun p2 =>
      (printBoundTerm env tbl [] it.1).bind (fun p1 =>
        (printLemmaRewrites env tbl rest (setAssertionToRewrite it.1 rewriteRule table)).bind
          (fun r =>
            some ([.str "(th_let_pf _ (trust_f (iff "] ++ p2 ++ [.str " "] ++ p1
                    ++ [.str ")) (\\ "] ++ rewriteRule ++ [.str "\n"] ++ r.1,
                  [.str "))"] ++ r.2.1, r.2.2))))

/-- The target of the run of `count` dangling congruences that starts at child `i`, as
the depth-0 pass determines it when the negative child found so far is `neg`: whether the
target appears before the run, and the target, which is the child `i - 1` in that case
and the child `i + count` otherwise.  There is no value when the assertion
`targetAppearsBefore != targetAppearsAfter` fails. -/
def congruenceTarget (children : List EqProof) (i count : Nat) (neg : Option Nat) :
    Option (Bool × EqProof) :=
  let targetAppearsBefore := !(i == 0 || (i == 1 && neg == some 0))
  let targetAppearsAfter :=
    !(decide (i + count ≥ children.length) ||
      (match children.get? (i + count) with
       | some d => isNegativeChild d
       | none => false))
  if targetAppearsBefore == targetAppearsAfter then none
  else if targetAppearsBefore then (children.get? (i - 1)).map (fun t => (true, t))
  else (children.get? (i + count)).map (fun t => (false, t))

/-- What `SygusUtil` reads from the expression layer, which is outside the sources: the
constant nodes that the node manager makes for a rational (`mkConst(Rational(val))`), for
a bit-vector of a size and an unsigned value (`mkConst<BitVector>(BitVector(size, uv))`),
for a Boolean, and the all-ones bit-vector `bv::utils::mkOnes(size)`. -/
structure SygusEnv where
  mkConstRational : Int → Node
  mkConstBitVector : Nat → Nat → Node
  mkConstBool : Bool → Node
  mkOnes : Nat → Node

namespace SygusUtil

/-- The size `tn.getConst<BitVectorSize>()` of a bit-vector type. -/
def bitVectorSize : TypeNode → Nat
  | .bitVectorType size => size
  | _ => 0

/-- `SygusUtil::getTypeValue(tn, val)`: the node that is computed for the type and the
value and stored in `d_type_value`; a later call returns the stored node, which is the
same.  The conversion `unsigned int uv = val` is taken modulo `2^32`. -/
def getTypeValue (env : SygusEnv) (tn : TypeNode) (val : Int) : Node :=
  if tn.isInteger || tn.isReal then env.mkConstRational val
  else if tn.isBitVector then env.mkConstBitVector (bitVectorSize tn) (val % 2 ^ 32).toNat
  else if tn.isBoolean then (if val = 0 then env.mkConstBool false else .null)
  else .null

/-- `SygusUtil::getTypeMaxValue(tn)`: the node that is computed for the type and stored in
`d_type_max_value`. -/
def getTypeMaxValue (env : SygusEnv) (tn : TypeNode) : Node :=
  if tn.isBitVector then env.mkOnes (bitVectorSize tn)
  else if tn.isBoolean then env.mkConstBool true
  else .null

/-- `SygusUtil::isIdempotentArg(n, ik, arg)`. -/
def isIdempotentArg (env : SygusEnv) (n : Node) (ik : Kind) (arg : Int) : Bool :=
  if n = getTypeValue env n.getType 0 then
    if ik = .PLUS ∨ ik = .OR ∨ ik = .XOR ∨ ik = .BITVECTOR_PLUS ∨ ik = .BITVECTOR_OR
        ∨ ik = .BITVECTOR_XOR then true
    else if ik = .MINUS ∨ ik = .BITVECTOR_SHL ∨ ik = .BITVECTOR_LSHR ∨ ik = .BITVECTOR_SUB then
      decide (arg = 1)
    else false
  else if n = getTypeValue env n.getType 1 then
    if ik = .MULT ∨ ik = .BITVECTOR_MULT then true
    else if ik = .DIVISION ∨ ik = .BITVECTOR_UDIV ∨ ik = .BITVECTOR_SDIV then decide (arg = 1)
    else false
  else if n = getTypeMaxValue env n.getType then
    if ik = .IFF ∨ ik = .BITVECTOR_AND ∨ ik = .BITVECTOR_XNOR then true else false
  else false

end SygusUtil

/-! ### The tables on every path out of a lemma

An assertion that fails and an internal error throw; `printTheoryLemmas` has no handler
and no scope guard, so that the tables of the engine and of the proof manager are left as
they are where the exception is thrown. -/

/-- The loop over the missing assertions of a lemma or of a step, with the tables as they
are when control leaves the loop on any path: the patched clause when the loop runs to its
end, and no clause when `Assert(recipe.wasRewritten(...))` or `Assert(found)` fails, which
is after the filters of the earlier missing assertions have been set. -/
def patchMissingAssertionsExit (recipe : LemmaProofRecipe) :
    List Node → List Node → LemmaState → Option (List Node) × LemmaState
  | [], clause, st => (some clause, st)
  | m :: ms, clause, st =>
    if !recipe.wasRewritten m.negate then (none, st)
    else
      match recipe.getExplanation m.negate with
      | none => (none, st)
      | some e =>
        match findLiteral e.negate clause with
        | none => (none, st)
        | some k =>
          let r := readAssertionToRewrite st.d_assertionToRewrite m.negate
          patchMissingAssertionsExit recipe ms (clause.set k m)
            ⟨r.2, setRewriteFilter (.litName m)
                    ([.str "(or_elim_1 _ _ ", .str "(not_not_intro _ ", .litName e.negate,
                      .str ") (iff_elim_1 _ _ "] ++ r.1 ++ [.str "))"])
                    st.d_rewriteFilters⟩

/-- The end of the processing of a lemma or of a step, from the loop over the missing
assertions on: whether the statements ran to their end, and the tables as they are when
control leaves them.  The statement `pm->d_rewriteFilters.clear()` stands after the call
of the certifier, and is not reached when the loop or the certifier throws. -/
def certifyExit (env : LemmaEnv) (tbl : TheoryProofTable) (theory_id : TheoryId)
    (recipe : LemmaProofRecipe) (ms lits : List Node) (st : LemmaState) : Bool × LemmaState :=
  match patchMissingAssertionsExit recipe ms lits st with
  | (none, st1) => (false, st1)
  | (some patched, st1) =>
    match printTheoryLemmaProof env tbl theory_id patched st1.d_rewriteFilters with
    | none => (false, st1)
    | some _ => (true, ⟨st1.d_assertionToRewrite, []⟩)

/-- The simple branch of `printTheoryLemmas` for a lemma, on every path out of it: whether
the branch ran to its end, and the tables as they are when control leaves it. -/
def simpleLemmaExit (env : LemmaEnv) (tbl : TheoryProofTable) (clause : SatClause)
    (clause_expr : List Node) (recipe : LemmaProofRecipe) (st : LemmaState) :
    Bool × LemmaState :=
  match getTheoryForLemma env clause with
  | none => (false, st)
  | some theory_id =>
    certifyExit env tbl theory_id recipe (env.getMissingAssertionsForStep recipe 0)
      clause_expr st

/-- One round of the first loop of the composite branch, on every path out of it: whether
the round ran to its end, and the tables as they are when control leaves it. -/
def compositeStepExit (env : LemmaEnv) (tbl : TheoryProofTable) (clause : SatClause)
    (clause_expr : List Node) (recipe : LemmaProofRecipe) (i : Nat) (step : ProofStep)
    (st : LemmaState) : Bool × LemmaState :=
  certifyExit env tbl step.d_theory recipe (env.getMissingAssertionsForStep recipe i)
    (partialClause env recipe clause clause_expr i step).2 st

/-! ## Shapes of conclusions, and concrete inputs used by the statements below -/

/-- The term `(select a k)`, written `a[k]`. -/
def mkSelect (a k : Node) : Node := .app .SELECT .null [a, k]

/-- The term `(store a i v)`. -/
def mkStore (a i v : Node) : Node := .app .STORE .null [a, i, v]

/-- The arity discipline of the expression layer for `STORE`: a node of that kind has its
three children. -/
def storeArity (a : Node) : Prop := a.getKind = .STORE → a.getNumChildren = 3

/-- A node read as an equation `l = r` of kind `EQUAL`. -/
def Node.asEquation (n : Node) : Option (Node × Node) :=
  if n.getKind = .EQUAL then
    match n.children with
    | l :: r :: _ => some (l, r)
    | _ => none
  else none

/-- A node read as a select `a[k]`. -/
def Node.asSelect (n : Node) : Option (Node × Node) :=
  if n.getKind = .SELECT then
    match n.children with
    | a :: k :: _ => some (a, k)
    | _ => none
  else none

/-- A node read as a store `(store a i v)`. -/
def Node.asStore (n : Node) : Option (Node × Node × Node) :=
  if n.getKind = .STORE then
    match n.children with
    | a :: i :: v :: _ => some (a, i, v)
    | _ => none
  else none

/-- The pair `(l, r)` reads as `(store a i v)[k]` and `a[k]`. -/
def isRowPair (l r : Node) : Bool :=
  match l.asSelect, r.asSelect with
  | some (s, k), some (a, k') =>
    (match s.asStore with
     | some (a', _, _) => decide (a' = a) && decide (k = k')
     | none => false)
  | _, _ => false

/-- The ROW shape: `(store a i v)[k] = a[k]` or its mirror `a[k] = (store a i v)[k]`. -/
def isRowConclusion (n : Node) : Bool :=
  match n.asEquation with
  | some (l, r) => isRowPair l r || isRowPair r l
  | none => false

/-- The pair `(l, r)` reads as `(store a i v)[i]` and `v`. -/
def isRow1Pair (l r : Node) : Bool :=
  match l.asSelect with
  | some (s, k) =>
    (match s.asStore with
     | some (_, i, v) => decide (i = k) && decide (v = r)
     | none => false)
  | none => false

/-- The ROW1 shape: `(store a i v)[i] = v` or its mirror `v = (store a i v)[i]`. -/
def isRow1Conclusion (n : Node) : Bool :=
  match n.asEquation with
  | some (l, r) => isRow1Pair l r || isRow1Pair r l
  | none => false

/-- The extensionality shape: a negated equation. -/
def isNegatedEquation (n : Node) : Bool :=
  n.getKind == .NOT &&
    (match n.children with
     | e :: _ => e.getKind == .EQUAL
     | [] => false)

/-- The right-hand side of an equation is a select. -/
def rhsIsSelect (n : Node) : Bool :=
  match n.asEquation with
  | some (_, r) => r.getKind == .SELECT
  | none => false

/-- The invariants of the data model that `toStreamRecLFSC` enforces: a node violates its
rule's invariant when this holds.  For ROW1 only the conclusion is constrained; for ROW a
conclusion with a select on the right must be one of the two mirror shapes. -/
def violatesInvariant (pf : EqProof) : Bool :=
  match pf.d_id with
  | .MERGED_THROUGH_TRANS => decide (pf.d_children.length < 2) || pf.d_node.isNull
  | .MERGED_THROUGH_CONGRUENCE => decide (pf.d_children.length ≠ 2)
  | .MERGED_THROUGH_REFLEXIVITY => !pf.d_children.isEmpty || pf.d_node.isNull
  | .MERGED_THROUGH_EQUALITY => !pf.d_children.isEmpty || pf.d_node.isNull
  | .MERGED_ARRAYS_ROW =>
    decide (pf.d_children.length ≠ 1) || (pf.d_node.asEquation).isNone ||
      (rhsIsSelect pf.d_node && !isRowConclusion pf.d_node)
  | .MERGED_ARRAYS_ROW1 => !isRow1Conclusion pf.d_node
  | .MERGED_ARRAYS_EXT => decide (pf.d_children.length ≠ 1) || !isNegatedEquation pf.d_node
  | .MERGED_THROUGH_CONSTANTS => true
  | .OTHER _ => true

/-- An uninterpreted sort `U`, an index sort `I` and the array sort over them. -/
def sortU : TypeNode := .sortType "U"

def sortI : TypeNode := .sortType "I"

def sortA : TypeNode := .arrayType sortI sortU

def varA : Node := .leaf .VARIABLE "a" sortU

def varB : Node := .leaf .VARIABLE "b" sortU

def varArr : Node := .leaf .VARIABLE "A" sortA

def varI : Node := .leaf .VARIABLE "i" sortI

def varK : Node := .leaf .VARIABLE "k" sortI

def varV : Node := .leaf .VARIABLE "v" sortU

/-- A unary function symbol `f : U -> U`. -/
def funF : Node := .leaf .VARIABLE "f" (.functionType [sortU] sortU)

/-- A unary function symbol `g : U -> U`. -/
def funG : Node := .leaf .VARIABLE "g" (.functionType [sortU] sortU)

def appF (x : Node) : Node := .app .APPLY_UF funF [x]

def appG (x : Node) : Node := .app .APPLY_UF funG [x]

/-- A collaborator environment with no operator skolems and no skolem literals, whose
term printer writes the term itself. -/
def exampleEnv : ProofEnv := ⟨[], id, [], fun n => some [.expr n]⟩

/-- A ROW1 node with conclusion `(store A i v)[i] = v` and no child. -/
def row1NoChild : EqProof :=
  .mk .MERGED_ARRAYS_ROW1 (Node.mkEqual (mkSelect (mkStore varArr varI varV) varI) varV) []

/-- A transitivity node with a single child. -/
def transOneChild : EqProof :=
  .mk .MERGED_THROUGH_TRANS (Node.mkEqual varA varB)
    [.mk .MERGED_THROUGH_EQUALITY (Node.mkEqual varA varB) []]

/-- The conclusion `n` is the equation between `a` and `b`, in either orientation. -/
def provesSame (a b n : Node) : Prop :=
  isEqOrIff n = true ∧ (n.children = [a, b] ∨ n.children = [b, a])

/-- The given equality `a = b` as a derivation leaf. -/
def givenAB : EqProof := .mk .MERGED_THROUGH_EQUALITY (Node.mkEqual varA varB) []

/-- The given equality `f(a) = f(b)` as a derivation leaf. -/
def givenFAB : EqProof :=
  .mk .MERGED_THROUGH_EQUALITY (Node.mkEqual (appF varA) (appF varB)) []

/-- A transitivity node over `[f(a) = f(b), f(a) = f(b)]` whose recorded conclusion is
`g(a) = g(b)`. -/
def transEvenMismatch : EqProof :=
  .mk .MERGED_THROUGH_TRANS (Node.mkEqual (appG varA) (appG varB)) [givenFAB, givenFAB]

/-- A transitivity node over `[a = b, a = b, a = b]` with conclusion `a = b`. -/
def transOddRun : EqProof :=
  .mk .MERGED_THROUGH_TRANS (Node.mkEqual varA varB) [givenAB, givenAB, givenAB]

/-- The theory of a type, as `Theory::theoryOf(TypeNode)` gives it. -/
def theoryOfType : TypeNode → TheoryId
  | .typeConstant .BOOLEAN_TYPE => .THEORY_BOOL
  | .typeConstant .INTEGER_TYPE => .THEORY_ARITH
  | .typeConstant .REAL_TYPE => .THEORY_ARITH
  | .typeConstant _ => .THEORY_BUILTIN
  | .sortType _ => .THEORY_UF
  | .bitVectorType _ => .THEORY_BV
  | .arrayType _ _ => .THEORY_ARRAY
  | .functionType _ _ => .THEORY_BUILTIN

/-- The theory that declares a kind. -/
def kindToTheoryId : Kind → TheoryId
  | .NOT => .THEORY_BOOL
  | .AND => .THEORY_BOOL
  | .OR => .THEORY_BOOL
  | .XOR => .THEORY_BOOL
  | .IFF => .THEORY_BOOL
  | .IMPLIES => .THEORY_BOOL
  | .ITE => .THEORY_BOOL
  | .CONST_BOOLEAN => .THEORY_BOOL
  | .APPLY_UF => .THEORY_UF
  | .PARTIAL_APPLY_UF => .THEORY_UF
  | .SELECT => .THEORY_ARRAY
  | .STORE => .THEORY_ARRAY
  | .PARTIAL_SELECT_0 => .THEORY_ARRAY
  | .PARTIAL_SELECT_1 => .THEORY_ARRAY
  | .CONST_BITVECTOR => .THEORY_BV
  | .BITVECTOR_AND => .THEORY_BV
  | .BITVECTOR_MULT => .THEORY_BV
  | .BITVECTOR_PLUS => .THEORY_BV
  | .BITVECTOR_SUB => .THEORY_BV
  | .BITVECTOR_OR => .THEORY_BV
  | .BITVECTOR_XOR => .THEORY_BV
  | .BITVECTOR_XNOR => .THEORY_BV
  | .BITVECTOR_SHL => .THEORY_BV
  | .BITVECTOR_LSHR => .THEORY_BV
  | .BITVECTOR_UDIV => .THEORY_BV
  | .BITVECTOR_SDIV => .THEORY_BV
  | .CONST_RATIONAL => .THEORY_ARITH
  | .PLUS => .THEORY_ARITH
  | .MINUS => .THEORY_ARITH
  | .MULT => .THEORY_ARITH
  | .DIVISION => .THEORY_ARITH
  | _ => .THEORY_BUILTIN

/-- A sample `Theory::theoryOf` (its type-based mode): a variable or constant belongs to
the theory of its type, an equality to the theory of the type of its left side, every
other node to the theory of its kind. -/
def exampleTheoryOf (n : Node) : TheoryId :=
  if n.isVariable || n.isConst then theoryOfType n.getType
  else if n.getKind = .EQUAL then
    match n.children with
    | l :: _ => theoryOfType l.getType
    | [] => .THEORY_BUILTIN
  else kindToTheoryId n.getKind

/-- A sample collaborator environment of the engine: no term is a skolem, the UF
certifier writes a sort as the array certifier does, and a certifier outside the sources
records nothing and goes on to the children. -/
def exampleEngineEnv : EngineEnv :=
  ⟨exampleTheoryOf, fun _ => false, fun _ => .null, fun ty => some [.type ty, .str " "],
    fun _ p _ => some (p, true)⟩

/-- The theory table after the UF and the array theory have been registered. -/
def fullTable : TheoryProofTable :=
  ⟨some ⟨[]⟩, some ⟨[], []⟩, some ⟨[], [], [], []⟩, none, none⟩

def boolType : TypeNode := .typeConstant .BOOLEAN_TYPE

def varP : Node := .leaf .VARIABLE "p" boolType

def varQ : Node := .leaf .VARIABLE "q" boolType

def varR : Node := .leaf .VARIABLE "r" boolType

/-- The term `(and (distinct (not p) q r) (not p))`: the subterm `(not p)` is visited
twice by `bind`. -/
def sharedUnderDistinct : Node :=
  .app .AND .null [.app .DISTINCT .null [varP.notNode, varQ, varR], varP.notNode]

/-- No set of the engine holds an element twice: the registration cache, and the
declarations and sorts of every certifier in the table. -/
def TheoryProofEngine.NoDuplicates (e : TheoryProofEngine) : Prop :=
  e.d_registrationCache.Nodup ∧
    (∀ b ∈ e.d_theoryProofTable.bool, b.d_declarations.Nodup) ∧
    (∀ u ∈ e.d_theoryProofTable.uf, u.d_declarations.Nodup ∧ u.d_sorts.Nodup) ∧
    (∀ a ∈ e.d_theoryProofTable.array, a.d_declarations.Nodup ∧ a.d_sorts.Nodup)

/-- The engine after the UF and the array theory have been registered. -/
def exampleEngine : TheoryProofEngine := ⟨[], fullTable⟩

/-- An array variable `B` from the sort `U` to the sort `U`. -/
def arrUU : Node := .leaf .VARIABLE "B" (.arrayType sortU sortU)

/-- The clause `{not (a = b), not (f(a) = f(b))}`. -/
def congruenceClause : List Node :=
  [(Node.mkEqual varA varB).notNode, (Node.mkEqual (appF varA) (appF varB)).notNode]

/-- The derivation of the congruence example: a transitivity root over a congruence node
with conclusion `target`, whose children are the reflexivity of `f` and the given
`a = b`, and over the negative child `not (f(a) = f(b))`. -/
def congruenceRefutation (target : Node) : EqProof :=
  .mk .MERGED_THROUGH_TRANS (Node.mkEqual (appF varA) (appF varB))
    [.mk .MERGED_THROUGH_CONGRUENCE target [.mk .MERGED_THROUGH_REFLEXIVITY funF [], givenAB],
     .mk .MERGED_THROUGH_EQUALITY (Node.mkEqual (appF varA) (appF varB)).notNode []]

/-- The layout of one partial clause proof of a composite lemma: the clause proof of the
partial clause `cl` with the certifier's text, bound to the name `<clauseName>s<i>`. -/
def partialProofLayout (id i : Nat) (cl : SatClause) (text : Out) : Out :=
  [.str "(satlem _ _ ", .clause cl] ++ text
    ++ [.clauseParen cl, .str "( \\ ", .clauseName id, .str "s", .num i, .str "\n"]

/-- The layout of the resolution of `n` partial proofs, given the first `n - 1` steps:
one combinator opening per step with the name of the step's partial proof, the name of
the last partial proof, one pivot and closing parenthesis per step in descending order,
and the binder of the lemma's name. -/
def resolutionLayout (env : LemmaEnv) (id n : Nat) (steps : List ProofStep) : Out :=
  [.str "(satlem_simplify _ _ _ "]
    ++ steps.enum.flatMap (fun p =>
        [.str (if p.2.d_literalToProve.getKind = .NOT then "(Q _ _ " else "(R _ _ "),
          .clauseName id, .str "s", .num p.1, .str " "])
    ++ [.clauseName id, .str "s", .num (n - 1), .str " "]
    ++ steps.reverse.flatMap (fun s => [.varName (env.getLiteral s.d_literalToProve).1, .str ") "])
    ++ [.str "( \\ ", .clauseName id, .str "\n"]

/-- The layout of a composite lemma: the partial proofs of the steps in order, with the
certifiers' texts `texts`, and then the resolution of the steps. -/
def compositeLayout (env : LemmaEnv) (id : Nat) (clause : SatClause) (clause_expr : List Node)
    (recipe : LemmaProofRecipe) (texts : List Out) : Out :=
  (recipe.d_proofSteps.zip texts).enum.flatMap (fun p =>
      partialProofLayout id p.1
        (partialClause env recipe clause clause_expr p.1 p.2.1).1 p.2.2)
    ++ resolutionLayout env id recipe.getNumSteps
        (recipe.d_proofSteps.take (recipe.getNumSteps - 1))

/-- A sample `getLiteral` of the CNF layer: a negation is the negated literal of its
atom. -/
def satLiteralOf (n : Node) : SatLiteral :=
  match n with
  | .app .NOT _ (c :: _) => (c, true)
  | _ => (n, false)

/-- A recipe of two UF steps: the first proves `not (a = b)`, the last has no literal. -/
def twoStepRecipe : LemmaProofRecipe :=
  ⟨[], [⟨.THEORY_UF, (Node.mkEqual varA varB).notNode, []⟩, ⟨.THEORY_UF, .null, []⟩],
    .THEORY_UF, []⟩

/-- A sample collaborator environment of the assembler, in the given bit-blast mode:
every clause has the recipe `twoStepRecipe`, no step has missing assertions, no replay
is available, and the eager proof modes are off. -/
def exampleLemmaEnv (eager : Bool) : LemmaEnv :=
  ⟨eager, satLiteralOf, fun _ => true, fun _ => twoStepRecipe, false, fun _ _ => [],
    fun _ _ _ => none, false, fun _ => none, false, fun _ => none⟩

/-- The lemma clause `{a = b, f(a) = f(b)}` with the id 7. -/
def exampleLemma : Nat × SatClause :=
  (7, [(Node.mkEqual varA varB, false), (Node.mkEqual (appF varA) (appF varB), false)])

/-- The terms of the order of a bind state, in order. -/
def BindState.keys (st : BindState) : List Node := st.let_order.map (fun e => e.expr)

/-- The invariant of the states of `bind`: the map and the order hold the same terms
with the same ids in the same order, no term and no id occurs twice, the ids are at most
the counter, every count is at least one, and the children of a term of the order stand
before it. -/
structure BindState.WellFormed (st : BindState) : Prop where
  agree : st.map.map (fun p => (p.1, p.2.id)) = st.let_order.map (fun e => (e.expr, e.id))
  nodupKeys : st.keys.Nodup
  idsBounded : ∀ e ∈ st.let_order, e.id ≤ st.counter
  nodupIds : (st.let_order.map (fun e => e.id)).Nodup
  positive : ∀ p ∈ st.map, 1 ≤ p.2.count
  closed : ∀ pre e post, st.let_order = pre ++ e :: post →
    ∀ c ∈ e.expr.children, c ∈ pre.map (fun x => x.expr)

/-- The replacement of every reference `let<id>` in a text by the text `σ id`. -/
def substRefs (σ : Nat → Out) (o : Out) : Out :=
  o.flatMap (fun c =>
    match c with
    | .letRef i => σ i
    | c => [c])

/-- The replacement of references by the bodies of their binders, binder by binder: the
body of a binder is expanded with the binders before it, and the root with all of
them. -/
def inlineLetsFrom (σ : Nat → Out) : List (Nat × Out) → Out → Out
  | [], root => substRefs σ root
  | b :: bs, root => inlineLetsFrom (fun i => if i = b.1 then substRefs σ b.2 else σ i) bs root

/-- The text of a term after every reference has been replaced by the body of its binder
and the binders have been removed. -/
def inlineLets (binders : List (Nat × Out)) (root : Out) : Out :=
  inlineLetsFrom (fun i => [.letRef i]) binders root

/-- The binders that `printLetTerm` writes, as pairs of an id and a body: one for every
entry of the order whose count is above the threshold. -/
def letBinders (env : EngineEnv) (tbl : TheoryProofTable) (map : LetMap) :
    List LetOrderElement → Option (List (Nat × Out))
  | [] => some []
  | e :: es =>
    (map.find e.expr).bind (fun lc =>
      if lc.count = 0 then none
      else if lc.count ≤ LET_COUNT then letBinders env tbl map es
      else
        (printTheoryTerm env tbl map e.expr).bind (fun body =>
          (letBinders env tbl map es).bind (fun r => some ((e.id, body) :: r))))

/-- The text of a list of binders followed by a root: every binder is opened before its
body, and one parenthesis per binder is closed after the root. -/
def renderLets (binders : List (Nat × Out)) (root : Out) : Out :=
  binders.flatMap (fun b => .letOpen b.1 :: b.2) ++ root
    ++ List.replicate binders.length (.str ")")

/-- The texts `bs'` are the texts `bs` after the references have been replaced: wherever
`bs` has a text, `bs'` has its expansion. -/
def Expands (σ : Nat → Out) (bs bs' : List (Option Out)) : Prop :=
  List.Forall₂ (fun b b' => ∀ x, b = some x → b' = some (substRefs σ x)) bs bs'

/-- A text without references. -/
def NoRefs (o : Out) : Prop := ∀ i, Chunk.letRef i ∉ o

/-- The expansion `σ` is right on the terms of `D`: for every shared term of `D`, the text
`σ` gives for its id is the text that the term has without sharing. -/
def GoodOn (env : EngineEnv) (tbl : TheoryProofTable) (σ : Nat → Out) (map : LetMap)
    (D : Node → Prop) : Prop :=
  ∀ c, D c → ∀ lc, map.find c = some lc → lc.count > LET_COUNT →
    printTheoryTerm env tbl [] c = some (σ lc.id)

/-- The sharing count of a term in a bind state: the count of its map entry, and zero for
a term that has no entry. -/
def BindState.count (st : BindState) (c : Node) : Nat :=
  match st.map.find c with
  | some lc => lc.count
  | none => 0

/-- A term is shared when its map entry has a count above the threshold. -/
def LetMap.shared (m : LetMap) (c : Node) : Bool :=
  match m.find c with
  | some lc => decide (lc.count > LET_COUNT)
  | none => false

mutual
/-- The nodes whose own text is part of the text of a term: the term itself and, for
every child that is not shared, the nodes of the child. -/
def inlineNodes (m : LetMap) : Node → List Node
  | .app k op cs => .app k op cs :: inlineNodesList m cs
  | .null => [.null]
  | .leaf k name ty => [.leaf k name ty]
  | .builtin k => [.builtin k]
/-- The nodes of the children of a term that are not shared. -/
def inlineNodesList (m : LetMap) : List Node → List Node
  | [] => []
  | c :: cs => (if m.shared c then [] else inlineNodes m c) ++ inlineNodesList m cs
end

/-- The number of children of a node that are shared under the id `j`. -/
def sharedChildren (m : LetMap) (j : Nat) (q : Node) : Nat :=
  q.children.countP (fun c =>
    match m.find c with
    | some lc => decide (lc.count > LET_COUNT) && decide (lc.id = j)
    | none => false)

/-- The chunks of the sharing pass: binder openings and references. -/
def Chunk.isLet : Chunk → Bool
  | .letOpen _ => true
  | .letRef _ => true
  | _ => false

/-- A text without chunks of the sharing pass. -/
def NoLets (o : Out) : Prop := ∀ c ∈ o, Chunk.isLet c = false

/-- The nodes whose printer writes the text of every child exactly once, through
`printBoundTerm`: the core printer on a variable, an `ITE` with three children, an
equality or a `DISTINCT` with two children; the Boolean printer on a variable, on a
Boolean connective, or on a Boolean constant. -/
def linearKind (env : EngineEnv) (t : Node) : Bool :=
  if env.theoryOf t = .THEORY_BUILTIN ∨ t.getKind = .ITE ∨ t.getKind = .EQUAL then
    (t.isVariable && t.getNumChildren == 0) ||
      (t.getKind == .ITE && t.getNumChildren == 3) ||
      (t.getKind == .EQUAL && t.getNumChildren == 2) ||
      (t.getKind == .DISTINCT && t.getNumChildren == 2)
  else
    env.theoryOf t == .THEORY_BOOL &&
      ((t.isVariable && t.getNumChildren == 0) || isBoolOperatorKind t.getKind ||
        (t.getKind == .CONST_BOOLEAN && t.getNumChildren == 0))

mutual
/-- Every node of the term is written by a printer that writes each child once. -/
def linearTerm (env : EngineEnv) : Node → Bool
  | .app k op cs => linearKind env (.app k op cs) && linearList env cs
  | .null => linearKind env .null
  | .leaf k name ty => linearKind env (.leaf k name ty)
  | .builtin k => linearKind env (.builtin k)
/-- Every node of the terms of the list is written by a printer that writes each child
once. -/
def linearList (env : EngineEnv) : List Node → Bool
  | [] => true
  | c :: cs => linearTerm env c && linearList env cs
end

/-- The term `(and (or (not p) q) (not p))`: the subterm `(not p)` is visited twice by
`bind`, and every node is written by the Boolean printer. -/
def sharedUnderOr : Node :=
  .app .AND .null [.app .OR .null [varP.notNode, varQ], varP.notNode]

/-- The states of the engine from its construction on: the state that the constructor
leaves, and every state that `registerTheory`, a returning `registerTerm` or a returning
declaration printer makes of such a state. -/
inductive TheoryProofEngine.Reachable (env : EngineEnv) : TheoryProofEngine → Prop
  | initial : TheoryProofEngine.Reachable env TheoryProofEngine.initial
  | registerTheory (th : Option TheoryId) (e : TheoryProofEngine) :
    TheoryProofEngine.Reachable env e → TheoryProofEngine.Reachable env (e.registerTheory th)
  | registerTerm (t : Node) (e e1 : TheoryProofEngine) :
    TheoryProofEngine.Reachable env e → TheoryProofEngine.registerTerm env t e = some e1 →
    TheoryProofEngine.Reachable env e1
  | printTermDeclarations (e : TheoryProofEngine) (r : Out × Out × TheoryProofTable) :
    TheoryProofEngine.Reachable env e →
    printTermDeclarations env e.d_theoryProofTable = some r →
    TheoryProofEngine.Reachable env ⟨e.d_registrationCache, r.2.2⟩
  | printDeferredDeclarations (e : TheoryProofEngine) (r : Out × Out × TheoryProofTable) :
    TheoryProofEngine.Reachable env e →
    printDeferredDeclarations env e.d_theoryProofTable = some r →
    TheoryProofEngine.Reachable env ⟨e.d_registrationCache, r.2.2⟩

/-- The theory has an entry in the table of the engine. -/
def TheoryProofEngine.Has (e : TheoryProofEngine) (id : TheoryId) : Prop :=
  (e.d_theoryProofTable.find id).isSome = true

/-- The names that the deferred declarations give to a list of skolems when the table of
names has `start` entries: `.sl<start>`, `.sl<start + 1>`, and so on. -/
def deferredNames (start : Nat) : List Node → List (Node × Out)
  | [] => []
  | t :: ts => (t, [.str ".sl", .num start]) :: deferredNames (start + 1) ts

/-- The text of the deferred declarations: every block opens its binders and ends with
the binder of the next name `.sl<i>`. -/
def deferredLayout (start : Nat) : List Out → Out
  | [] => []
  | b :: bs => b ++ [.str " (\\ ", .str ".sl", .num start, .str "\n"] ++ deferredLayout (start + 1) bs

/-- A sample collaborator environment of the engine with the two skolems `A` and `B`,
each recorded as the witness of the disequality `not (A = A)`. -/
def skolemEngineEnv : EngineEnv :=
  ⟨exampleTheoryOf, fun n => decide (n = varArr ∨ n = arrUU),
    fun _ => (Node.mkEqual varArr varArr).notNode, fun ty => some [.type ty, .str " "],
    fun _ p _ => some (p, true)⟩

/-- An array certifier with the two deferred skolems `A` and `B` and no names yet. -/
def skolemCertifier : ArrayProof := ⟨[], [], [varArr, arrUU], []⟩

/-- The text of the assertion bindings for the given texts of the assertions, from the
assertion counter `counter` on: the binding of assertion `i` is
`(% A<i> (th_holds <text>)` and a line break. -/
def assertionBindings (counter : Nat) : List Out → Out
  | [] => []
  | t :: ts =>
    [.str "(% ", .str "A", .num counter, .str " (th_holds "] ++ t ++ [.str ")\n"]
      ++ assertionBindings (counter + 1) ts

/-- The values that the static id counter of the let binders has at the calls of
`printLetTerm` on the assertions, one after the other. -/
def letCounters : Nat → List Node → List Nat
  | _, [] => []
  | c, a :: rest => c :: letCounters (bind a ⟨[], [], c⟩).counter rest

/-- The number of opening minus the number of closing parentheses of a string. -/
def parenBalance (s : String) : Int :=
  (s.toList.count '(' : Int) - (s.toList.count ')' : Int)

/-- The parentheses that an item of a stream leaves open: those of a literal string, and
the one of a let binder `(@ let<id> `; the symbolic items stand for names and for whole
terms and sorts. -/
def Chunk.opened : Chunk → Int
  | .str s => parenBalance s
  | .letOpen _ => 1
  | _ => 0

/-- The parentheses that a text leaves open. -/
def openedParens (o : Out) : Int := (o.map Chunk.opened).sum

/-- Two sample assertions: the variable `p`, and a term with a shared subterm. -/
def exampleAssertions : List Node := [varP, sharedUnderDistinct]

/-- A second array variable of the type of `A`. -/
def varArrB : Node := .leaf .VARIABLE "A2" sortA

/-- A collaborator environment of the recompiler in which the skolem `k` has the literal
name `.sl0`. -/
def skolemProofEnv : ProofEnv := ⟨[], id, [(varK, [.str ".sl0"])], fun n => some [.expr n]⟩

/-- An extensionality node: from `not (A = A2)` it concludes `not (A[k] = A2[k])`. -/
def extChild : EqProof :=
  .mk .MERGED_ARRAYS_EXT (Node.mkEqual (mkSelect varArr varK) (mkSelect varArrB varK)).notNode
    [.mk .MERGED_THROUGH_EQUALITY (Node.mkEqual varArr varArrB).notNode []]

/-- A refutation whose negative child is the extensionality node and whose other child
is the given equality `A2[k] = A[k]`: the right side of the proved equation is the left
side of the negated one. -/
def extRefutation : EqProof :=
  .mk .MERGED_THROUGH_TRANS (Node.mkEqual (mkSelect varArrB varK) (mkSelect varArr varK))
    [.mk .MERGED_THROUGH_EQUALITY
        (Node.mkEqual (mkSelect varArrB varK) (mkSelect varArr varK)) [],
      extChild]

/-- A refutation of the given equality `a = b` against the given disequality
`not (b = a)`. -/
def swappedRefutation : EqProof :=
  .mk .MERGED_THROUGH_TRANS (Node.mkEqual varA varB)
    [givenAB, .mk .MERGED_THROUGH_EQUALITY (Node.mkEqual varB varA).notNode []]

/-- A literal string mentions the clause-falsification combinator `clausify_false`. -/
def mentionsClausifyFalse (s : String) : Bool :=
  decide ("clausify_false".toList <:+: s.toList)

/-- An item of a stream that writes the clause-falsification combinator: a literal string
that mentions it.  The symbolic items stand for names and for printed terms. -/
def Chunk.clausifies : Chunk → Bool
  | .str s => mentionsClausifyFalse s
  | _ => false

/-- The number of clause-falsification combinators that a text writes. -/
def clausifyCount (o : Out) : Nat := o.countP Chunk.clausifies

/-- The texts that the recompiler reads from its collaborators, the printed terms and the
literal names of the skolems, do not write the combinator. -/
def ProofEnv.NoClausify (env : ProofEnv) : Prop :=
  (∀ n o, env.printTerm n = some o → clausifyCount o = 0) ∧
    (∀ kv ∈ env.d_skolemToLiteral, clausifyCount kv.2 = 0)

/-- The composed conclusion of two equations with the sides `a0`, `a1` and `b0`, `b1`
that are not the same equation up to orientation: the equation between the two endpoints
that they do not share, and none when they share no endpoint. -/
def composedEquation (a0 a1 b0 b1 : Node) : Option Node :=
  if a0 = b0 then some (eqNode a1 b1)
  else if a1 = b1 then some (eqNode a0 b0)
  else if a0 = b1 then some (eqNode b0 a1)
  else if a1 = b0 then some (eqNode a0 b1)
  else none

/-- A transitivity node over `a = b` and `b = f(a)`. -/
def transChain : EqProof :=
  .mk .MERGED_THROUGH_TRANS (Node.mkEqual varA (appF varA))
    [givenAB, .mk .MERGED_THROUGH_EQUALITY (Node.mkEqual varB (appF varA)) []]

/-- The arity discipline of the expression layer for `SELECT`: a node of that kind has its
two children. -/
def selectArity (n : Node) : Prop := n.getKind = .SELECT → n.getNumChildren = 2

/-- An index variable `j`. -/
def varJ : Node := .leaf .VARIABLE "j" sortI

/-- The nested store `(store (store A i v) k a)`. -/
def nestedStore : Node := mkStore (mkStore varArr varI varV) varK varA

/-- A negative ROW node with the conclusion `k = j` whose child is the given disequality
`not ((store A i v)[j] = (store (store A i v) k a)[j])`, the mirror shape over the array
`(store A i v)`. -/
def nestedNegativeRow : EqProof :=
  .mk .MERGED_ARRAYS_ROW (Node.mkEqual varK varJ)
    [.mk .MERGED_THROUGH_EQUALITY
      (Node.mkEqual (mkSelect (mkStore varArr varI varV) varJ)
        (mkSelect nestedStore varJ)).notNode []]

/-- An array `m` of indices. -/
def varM : Node := .leaf .VARIABLE "m" (.arrayType sortI sortI)

/-- A ROW node with the conclusion `k = m[j]`, an index equality whose right side is a
select, over the given disequality `not ((store A k v)[m[j]] = A[m[j]])`. -/
def selectIndexRow : EqProof :=
  .mk .MERGED_ARRAYS_ROW (Node.mkEqual varK (mkSelect varM varJ))
    [.mk .MERGED_THROUGH_EQUALITY
      (Node.mkEqual (mkSelect (mkStore varArr varK varV) (mkSelect varM varJ))
        (mkSelect varArr (mkSelect varM varJ))).notNode []]

/-- A term is a select over a store term, the test by which the negative ROW case picks
a side of the child's disequality. -/
def isSelectOverStore (n : Node) : Bool :=
  n.getKind == .SELECT &&
    (match n.children with
     | s :: _ => s.getKind == .STORE
     | [] => false)

/-- The partial select `PARTIAL_SELECT_0` over the array `a`, the conclusion that the
equality engine gives to the reflexivity leaf below a select congruence. -/
def partialSelect0 (a : Node) : Node := .app .PARTIAL_SELECT_0 .null [a]

/-- The partial select `PARTIAL_SELECT_1` over the array `a`. -/
def partialSelect1 (a : Node) : Node := .app .PARTIAL_SELECT_1 .null [a]

/-- A chain of two congruence nodes for the target `A[i]`: the inner node folds the given
`A = A2`, the outer node the given `k = i`, oriented opposite to the target. -/
def selectChain : EqProof :=
  .mk .MERGED_THROUGH_CONGRUENCE (mkSelect varArr varI)
    [.mk .MERGED_THROUGH_CONGRUENCE (partialSelect1 varArr)
       [.mk .MERGED_THROUGH_REFLEXIVITY (partialSelect0 varArr) [],
        .mk .MERGED_THROUGH_EQUALITY (Node.mkEqual varArr varArrB) []],
     .mk .MERGED_THROUGH_EQUALITY (Node.mkEqual varK varI) []]

/-- A congruence node with conclusion `target` over the reflexivity of the function
symbol `f` and a second child `c1`. -/
def ufChain (target : Node) (c1 : EqProof) : EqProof :=
  .mk .MERGED_THROUGH_CONGRUENCE target [.mk .MERGED_THROUGH_REFLEXIVITY funF [], c1]

/-- A binary function symbol `h : U U -> U`. -/
def funH : Node := .leaf .VARIABLE "h" (.functionType [sortU, sortU] sortU)

/-- A chain of two congruence nodes for the target `h(a, a)` over the reflexivity of `h`
and twice the given `a = b`. -/
def binaryChain : EqProof :=
  .mk .MERGED_THROUGH_CONGRUENCE (.app .APPLY_UF funH [varA, varA])
    [.mk .MERGED_THROUGH_CONGRUENCE (.app .PARTIAL_APPLY_UF .null [funH, varA])
       [.mk .MERGED_THROUGH_REFLEXIVITY funH [], givenAB],
     givenAB]

/-- A given literal `n` as a derivation leaf. -/
def givenLeaf (n : Node) : EqProof := .mk .MERGED_THROUGH_EQUALITY n []

/-- A congruence node without a conclusion of its own over the children `c0` and `c1`. -/
def danglingCongruence (c0 c1 : EqProof) : EqProof :=
  .mk .MERGED_THROUGH_CONGRUENCE .null [c0, c1]

/-- A predicate symbol `p : U -> Bool` and its atom `p(x)`. -/
def predP : Node := .leaf .VARIABLE "p" (.functionType [sortU] boolType)

def atomP (x : Node) : Node := .app .APPLY_UF predP [x]

/-- A refutation whose children are the given `a = b`, the negative child `not p(a)` and
a dangling congruence over the given `p(a) = p(b)` and a reflexivity leaf: the child
before the run of congruences is the negative child. -/
def negativeBeforeRun : EqProof :=
  .mk .MERGED_THROUGH_TRANS (Node.mkEqual varA varB)
    [givenAB, givenLeaf (atomP varA).notNode,
     danglingCongruence (givenLeaf (eqNode (atomP varA) (atomP varB)))
       (.mk .MERGED_THROUGH_REFLEXIVITY varA [])]

/-- The literals of the partial clause of step `i` of a recipe, in the words of the
specification: the literals `clause_expr` of the original clause, then the negation of
the literal of every step `j < i` in step order, then the literal of step `i` itself
unless it is null. -/
def stepLiterals (recipe : LemmaProofRecipe) (clause_expr : List Node) (i : Nat) : List Node :=
  clause_expr
    ++ (List.range i).filterMap (fun j =>
        (recipe.getStep j).map (fun s => s.d_literalToProve.negate))
    ++ (match recipe.getStep i with
        | some s => if s.d_literalToProve = .null then [] else [s.d_literalToProve]
        | none => [])

/-- The SAT clause of the partial clause of step `i`: the original clause followed by
the SAT literals of the added literals. -/
def stepClause (env : LemmaEnv) (recipe : LemmaProofRecipe) (clause : SatClause) (i : Nat) :
    SatClause :=
  clause ++ (stepLiterals recipe [] i).map env.getLiteral

/-- The right-nested resolution of the partial proofs of lemma `id` from step `i` on, in
the words of the specification: the partial proof of a step is resolved against the fold
of the partial proofs after it, by `Q` when the step's literal is a negation and by `R`
otherwise, on the SAT variable of the step's literal; the fold of the last partial proof
alone is its name.  `steps` are the steps from `i` on, without the last step. -/
def resolutionFold (env : LemmaEnv) (id : Nat) : Nat → List ProofStep → Out
  | i, [] => [.clauseName id, .str "s", .num i, .str " "]
  | i, step :: rest =>
    [.str (if step.d_literalToProve.getKind = .NOT then "(Q _ _ " else "(R _ _ "),
      .clauseName id, .str "s", .num i, .str " "]
      ++ resolutionFold env id (i + 1) rest
      ++ [.varName (env.getLiteral step.d_literalToProve).1, .str ") "]

/-- An item of a stream that opens a resolution combinator. -/
def Chunk.opensResolution (c : Chunk) : Bool :=
  c == .str "(Q _ _ " || c == .str "(R _ _ "

/-- The clauses that one lemma contributes to the bit-vector batch, in the words of the
specification: one clause for every step of the lemma's recipe whose theory is the
bit-vector theory, in step order, each being the partial clause of that step over the
literals of the lemma's clause as the assembler reads them.  The clause is kept as the
list of its literals (`mkSortedExpr` is outside the sources). -/
def bvStepLiterals (env : LemmaEnv) (l : Nat × SatClause) : List (List Node) :=
  match clauseExpr l.2 with
  | some ce =>
    (((env.getProofRecipe ce.2).d_proofSteps.enum.filter
        (fun p => decide (p.2.d_theory = .THEORY_BV))).map
      (fun p => stepLiterals (env.getProofRecipe ce.2) ce.1 p.1))
  | none => []

/-- The bit-vector batch in the words of the specification: the clauses of the lemmas, in
lemma order. -/
def bvBatch (env : LemmaEnv) (lemmas : List (Nat × SatClause)) : List (List Node) :=
  lemmas.flatMap (bvStepLiterals env)

/-- A recipe of two steps: a bit-vector step that proves `not (a = b)`, and a last UF
step without a literal. -/
def bvTwoStepRecipe : LemmaProofRecipe :=
  ⟨[], [⟨.THEORY_BV, (Node.mkEqual varA varB).notNode, []⟩, ⟨.THEORY_UF, .null, []⟩],
    .THEORY_UF, []⟩

/-- A sample collaborator environment of the assembler in the eager bit-blast mode, in
which every clause has the recipe `bvTwoStepRecipe`. -/
def bvLemmaEnv : LemmaEnv :=
  ⟨true, satLiteralOf, fun _ => true, fun _ => bvTwoStepRecipe, false, fun _ _ => [],
    fun _ _ _ => none, false, fun _ => none, false, fun _ => none⟩

/-- The term is in the declarations of the array certifier of the engine. -/
def TheoryProofEngine.ArrayDeclares (e : TheoryProofEngine) (t : Node) : Prop :=
  ∃ a, e.d_theoryProofTable.array = some a ∧ t ∈ a.d_declarations

/-- A skolem `sk` of a sort `S`. -/
def varSk : Node := .leaf .SKOLEM "sk" (.sortType "S")

/-- A sample collaborator environment of the engine in which the skolem `sk` is a
skolem witness and belongs to a theory outside the supported ones. -/
def foreignSkolemEnv : EngineEnv :=
  ⟨fun n => if n = varSk then .THEORY_OTHER else exampleTheoryOf n, fun n => decide (n = varSk),
    fun _ => .null, fun ty => some [.type ty, .str " "], fun _ p _ => some (p, true)⟩

/-- A sample collaborator environment of the engine in which the skolem `sk` is a
skolem witness and belongs to the UF theory, as its sort does. -/
def ufSkolemEnv : EngineEnv :=
  ⟨exampleTheoryOf, fun n => decide (n = varSk), fun _ => .null,
    fun ty => some [.type ty, .str " "], fun _ p _ => some (p, true)⟩

/-- The rule names that the lemma rewrites get when the table has `start` entries and
every pair rewrites an assertion of its own: `.lrr<start>`, `.lrr<start + 1>`, and so on,
each entered for the rewritten assertion of its pair. -/
def lemmaRewriteNames (start : Nat) : List (Node × Node) → List (Node × Out)
  | [] => []
  | it :: rest => (it.1, [.str ".lrr", .num start]) :: lemmaRewriteNames (start + 1) rest

/-- The text of the lemma rewrites: the block of every pair ends with the binder of the
next rule name `.lrr<i>`. -/
def lemmaRewriteLayout (start : Nat) : List Out → Out
  | [] => []
  | b :: bs =>
    b ++ [.str ")) (\\ ", .str ".lrr", .num start, .str "\n"] ++ lemmaRewriteLayout (start + 1) bs

/-- A sample bit-vector constant of a size and a value: the value is kept modulo
`2^size`. -/
def bvConst (size value : Nat) : Node :=
  .leaf .CONST_BITVECTOR (toString (value % 2 ^ size)) (.bitVectorType size)

/-- A sample node manager for `SygusUtil`: a constant is a leaf named by its value, and
the all-ones bit-vector of a size is the constant of the value `2^size - 1`. -/
def exampleSygusEnv : SygusEnv :=
  ⟨fun c => .leaf .CONST_RATIONAL (toString c) (.typeConstant .INTEGER_TYPE), bvConst,
    fun b => .leaf .CONST_BOOLEAN (if b then "true" else "false") (.typeConstant .BOOLEAN_TYPE),
    fun size => bvConst size (2 ^ size - 1)⟩

/-- The pairs `(i, j)` with `i < j < n` in lexicographic order: for every `i` in order,
every `j` above it in order. -/
def lexPairs (n : Nat) : List (Nat × Nat) :=
  (List.range n).flatMap (fun i => ((List.range n).filter (fun j => i < j)).map (fun j => (i, j)))

/-- The negated equality of the pair `p` of children of a `DISTINCT` term, over the text
`s` of the sort and the texts `ts` of the children; the last parenthesis of every pair
but the pair `(0, 1)` closes an `and`. -/
def negatedEquality (s : Out) (ts : List Out) (p : Nat × Nat) : Out :=
  [.str "(not (= "] ++ s ++ ts.getD p.1 [] ++ [.str " "] ++ ts.getD p.2 []
    ++ [.str (if p = (0, 1) then "))" else ")))")]

/-- The term `(distinct a ... a)` with 92683 children. -/
def bigDistinct : Node := .app .DISTINCT .null (List.replicate 92683 varA)

mutual
/-- The subterms of a term: the term itself and the subterms of its children.  The
operator of an application is not a child. -/
def Node.subterms : Node → List Node
  | .app k op cs => .app k op cs :: subtermsList cs
  | .null => [.null]
  | .leaf k name ty => [.leaf k name ty]
  | .builtin k => [.builtin k]
/-- The subterms of the terms of a list. -/
def subtermsList : List Node → List Node
  | [] => []
  | c :: cs => c.subterms ++ subtermsList cs
end

/-- Every reference `let<id>` of a text stands after a binder `(@ let<id> ` of the same
id, when the binders of the ids `opened` stand before the text.  The binders of
`printLetTerm` are closed at the very end of the text, so that the scope of a binder is
the text after it. -/
def scopeOk (opened : List Nat) : Out → Bool
  | [] => true
  | .letOpen i :: o => scopeOk (i :: opened) o
  | .letRef i :: o => decide (i ∈ opened) && scopeOk opened o
  | _ :: o => scopeOk opened o

/-- Every reference `let<id>` of a text has its id among `opened`. -/
def refsIn (opened : List Nat) (o : Out) : Bool :=
  o.all (fun c =>
    match c with
    | .letRef j => decide (j ∈ opened)
    | _ => true)

/-- The references of the body of every binder have the ids of binders before it (or of
`opened`), and the references of the root have the ids of the binders (or of `opened`):
no body refers to its own binder or to a later one. -/
def scopedLets (opened : List Nat) : List (Nat × Out) → Out → Bool
  | [], root => refsIn opened root
  | b :: bs, root => refsIn opened b.2 && scopedLets (b.1 :: opened) bs root

theorem isSome_bind_iff {α β : Type} (o : Option α) (f : α → Option β) :
    (o.bind f).isSome = true ↔ ∃ a, o = some a ∧ (f a).isSome = true := by
  cases o <;> simp

theorem isSome_ite_none_iff {α : Type} (c : Prop) [Decidable c] (x : Option α) :
    (if c then x else none).isSome = true ↔ c ∧ x.isSome = true := by
  by_cases h : c <;> simp [h]

theorem ite_some_false_eq_true_iff (c : Prop) [Decidable c] (x : Option Bool) :
    (if c then x else some false) = some true ↔ c ∧ x = some true := by
  by_cases h : c <;> simp [h]

theorem children_of_child2 {n a b : Node} (h0 : n.child 0 = some a) (h1 : n.child 1 = some b) :
    ∃ rest, n.children = a :: b :: rest := by
  unfold Node.child at h0 h1
  rcases hc : n.children with _ | ⟨x, _ | ⟨y, rest⟩⟩ <;> simp [hc] at h0 h1
  exact ⟨rest, by simp [h0, h1]⟩

theorem children_of_child3 {n a b c : Node} (h0 : n.child 0 = some a) (h1 : n.child 1 = some b)
    (h2 : n.child 2 = some c) : ∃ rest, n.children = a :: b :: c :: rest := by
  unfold Node.child at h0 h1 h2
  rcases hc : n.children with _ | ⟨x, _ | ⟨y, _ | ⟨z, rest⟩⟩⟩ <;> simp [hc] at h0 h1 h2
  exact ⟨rest, by simp [h0, h1, h2]⟩

theorem asSelect_of_children {n a k : Node} {rest : List Node} (hk : n.getKind = .SELECT)
    (hc : n.children = a :: k :: rest) : n.asSelect = some (a, k) := by
  simp [Node.asSelect, hk, hc]

theorem asStore_of_children {n a i v : Node} {rest : List Node} (hk : n.getKind = .STORE)
    (hc : n.children = a :: i :: v :: rest) : n.asStore = some (a, i, v) := by
  simp [Node.asStore, hk, hc]

theorem asEquation_of_children {n l r : Node} {rest : List Node} (hk : n.getKind = .EQUAL)
    (hc : n.children = l :: r :: rest) : n.asEquation = some (l, r) := by
  simp [Node.asEquation, hk, hc]

theorem rowShape_isRowConclusion (n : Node) (hk : n.getKind = .EQUAL)
    (h : (rowShape n).isSome = true) : isRowConclusion n = true := by
  unfold rowShape at h
  simp only [Option.bind_eq_bind, Option.pure_def, isSome_bind_iff] at h
  obtain ⟨l, hl, r, hr, fs, hfs, h⟩ := h
  obtain ⟨rest, hc⟩ := children_of_child2 hl hr
  unfold isRowConclusion
  rw [asEquation_of_children hk hc]
  cases fs
  · -- second shape
    simp only [Bool.false_eq_true, if_false, isSome_ite_none_iff, isSome_bind_iff] at h
    obtain ⟨hlk, l0, hl0, hl0k, hrk, r0, hr0, l00, hl00, he, r1, hr1, l1, hl1, he1, t2, ht2, t4, ht4, _⟩ := h
    obtain ⟨_, hlc⟩ := children_of_child2 hl0 hl1
    obtain ⟨_, hrc⟩ := children_of_child2 hr0 hr1
    obtain ⟨_, hl0c⟩ := children_of_child3 hl00 ht2 ht4
    simp [isRowPair, asSelect_of_children hlk hlc, asSelect_of_children hrk hrc,
      asStore_of_children hl0k hl0c, he, he1]
  · -- first shape
    simp only [if_true, isSome_bind_iff] at h
    obtain ⟨r0, hr0, t2, ht2, t3, ht3, t1, ht1, t4, ht4, _⟩ := h
    simp only [ite_some_false_eq_true_iff, Option.bind_eq_some] at hfs
    obtain ⟨hrk, r0', hr0', hr0k, hlk, l0, hl0, r00, hr00, he, l1, hl1, r1, hr1, he1⟩ := hfs
    rw [hr0] at hr0'
    cases hr0'
    obtain ⟨_, hlc⟩ := children_of_child2 hl0 hl1
    obtain ⟨_, hrc⟩ := children_of_child2 hr0 hr1
    obtain ⟨_, hr0c⟩ := children_of_child3 hr00 ht2 ht4
    simp at he1
    simp [isRowPair, asSelect_of_children hlk hlc, asSelect_of_children hrk hrc,
      asStore_of_children hr0k hr0c, he, he1]

theorem row1Shape_isRow1Conclusion (n : Node) (hk : n.getKind = .EQUAL)
    (h : (row1Shape n).isSome = true) : isRow1Conclusion n = true := by
  unfold row1Shape at h
  simp only [Option.bind_eq_bind, Option.pure_def, isSome_bind_iff] at h
  obtain ⟨l, hl, r, hr, fs, hfs, h⟩ := h
  obtain ⟨rest, hc⟩ := children_of_child2 hl hr
  unfold isRow1Conclusion
  rw [asEquation_of_children hk hc]
  cases fs
  · simp only [Bool.false_eq_true, if_false, isSome_ite_none_iff, isSome_bind_iff] at h
    obtain ⟨hlk, l0, hl0, hl0k, l01, hl01, l1, hl1, he, l02, hl02, he2, t1, ht1, _⟩ := h
    obtain ⟨_, hlc⟩ := children_of_child2 hl0 hl1
    obtain ⟨_, hl0c⟩ := children_of_child3 ht1 hl01 hl02
    simp [isRow1Pair, asSelect_of_children hlk hlc, asStore_of_children hl0k hl0c, he, he2]
  · simp only [if_true, isSome_bind_iff] at h
    obtain ⟨r0, hr0, t1, ht1, t2, ht2, _⟩ := h
    simp only [ite_some_false_eq_true_iff, Option.bind_eq_some] at hfs
    obtain ⟨hrk, r0', hr0', hr0k, r01, hr01, r1, hr1, he, r02, hr02, he2⟩ := hfs
    rw [hr0] at hr0'
    cases hr0'
    obtain ⟨_, hrc⟩ := children_of_child2 hr0 hr1
    obtain ⟨_, hr0c⟩ := children_of_child3 ht1 hr01 hr02
    simp at he2
    simp [isRow1Pair, asSelect_of_children hrk hrc, asStore_of_children hr0k hr0c, he, he2]
theorem toStreamRecLFSC1_trans (env : ProofEnv) (tb : Nat) (d : Node) (ch : List EqProof) :
    toStreamRecLFSC1 env tb (.mk .MERGED_THROUGH_TRANS d ch) =
      (toStreamRecLFSCList env (tb + 1) ch).bind (transFold env d) := by
  rw [toStreamRecLFSC1]

theorem toStreamRecLFSC1_cong (env : ProofEnv) (tb : Nat) (d : Node) (ch : List EqProof) :
    toStreamRecLFSC1 env tb (.mk .MERGED_THROUGH_CONGRUENCE d ch) =
      (congChain env tb d ch).bind (congFinish env d) := by
  rw [toStreamRecLFSC1]

theorem toStreamRecLFSC1_refl (env : ProofEnv) (tb : Nat) (d : Node) (ch : List EqProof) :
    toStreamRecLFSC1 env tb (.mk .MERGED_THROUGH_REFLEXIVITY d ch) = reflCase env d ch := by
  rw [toStreamRecLFSC1]

theorem toStreamRecLFSC1_given (env : ProofEnv) (tb : Nat) (d : Node) (ch : List EqProof) :
    toStreamRecLFSC1 env tb (.mk .MERGED_THROUGH_EQUALITY d ch) = givenCase d ch := by
  rw [toStreamRecLFSC1]

theorem toStreamRecLFSC1_row (env : ProofEnv) (tb : Nat) (d : Node) (c : EqProof) :
    toStreamRecLFSC1 env tb (.mk .MERGED_ARRAYS_ROW d [c]) =
      (toStreamRecLFSC1 env (tb + 1) c).bind (fun r => rowCase env d c.d_node r.1 r.2) := by
  rw [toStreamRecLFSC1]

theorem toStreamRecLFSC1_row_length (env : ProofEnv) (tb : Nat) (d : Node) (ch : List EqProof)
    (h : ch.length ≠ 1) : toStreamRecLFSC1 env tb (.mk .MERGED_ARRAYS_ROW d ch) = none := by
  rcases ch with _ | ⟨c0, _ | ⟨c1, rest⟩⟩
  · rw [toStreamRecLFSC1]
    intro c hc
    cases hc
  · simp at h
  · rw [toStreamRecLFSC1]
    intro c hc
    cases hc

theorem toStreamRecLFSC1_row1 (env : ProofEnv) (tb : Nat) (d : Node) (ch : List EqProof) :
    toStreamRecLFSC1 env tb (.mk .MERGED_ARRAYS_ROW1 d ch) = row1Case env d := by
  rw [toStreamRecLFSC1]

theorem toStreamRecLFSC1_ext (env : ProofEnv) (tb : Nat) (d : Node) (c : EqProof) :
    toStreamRecLFSC1 env tb (.mk .MERGED_ARRAYS_EXT d [c]) = extCase env d c.d_node := by
  rw [toStreamRecLFSC1]

theorem toStreamRecLFSC1_ext_length (env : ProofEnv) (tb : Nat) (d : Node) (ch : List EqProof)
    (h : ch.length ≠ 1) : toStreamRecLFSC1 env tb (.mk .MERGED_ARRAYS_EXT d ch) = none := by
  rcases ch with _ | ⟨c0, _ | ⟨c1, rest⟩⟩
  · rw [toStreamRecLFSC1]
    intro c hc
    cases hc
  · simp at h
  · rw [toStreamRecLFSC1]
    intro c hc
    cases hc

theorem toStreamRecLFSCList_length (env : ProofEnv) (tb : Nat) :
    ∀ (ch : List EqProof) (rs : List (Out × Node)),
      toStreamRecLFSCList env tb ch = some rs → rs.length = ch.length
  | [], rs, h => by
    rw [toStreamRecLFSCList] at h
    cases h
    rfl
  | c :: cs, rs, h => by
    rw [toStreamRecLFSCList] at h
    simp only [Option.bind_eq_some] at h
    obtain ⟨r, _, rs', hrs, he⟩ := h
    cases he
    simp [toStreamRecLFSCList_length env tb cs rs' hrs]

theorem congChain_none_of_length (env : ProofEnv) (tb : Nat) (d : Node) (ch : List EqProof)
    (h : ch.length ≠ 2) : congChain env tb d ch = none := by
  rcases ch with _ | ⟨c0, _ | ⟨c1, _ | ⟨c2, rest⟩⟩⟩
  · simp [congChain]
  · simp [congChain]
  · simp at h
  · simp [congChain]

theorem transFold_none_of_short (env : ProofEnv) (d : Node) (rs : List (Out × Node))
    (h : rs.length < 2 ∨ d.isNull = true) : transFold env d rs = none := by
  unfold transFold
  rcases h with h | h
  · rcases rs with _ | ⟨r0, _ | ⟨r1, rest⟩⟩
    · simp
    · simp
    · simp at h
      omega
  · simp [h]

theorem depth0_none_of_violation (env : ProofEnv) (pf : EqProof)
    (h : violatesInvariant pf = true) : toStreamRecLFSC0 env pf = none := by
  obtain ⟨id, node, ch⟩ := pf
  unfold toStreamRecLFSC0
  by_cases hid : id = .MERGED_THROUGH_TRANS
  · subst hid
    simp only [violatesInvariant, EqProof.d_id, EqProof.d_children, EqProof.d_node,
      Bool.or_eq_true, decide_eq_true_eq] at h
    simp only [EqProof.d_id, EqProof.d_node, EqProof.d_children, ne_eq, not_true_eq_false,
      if_false]
    rcases h with h | h
    · simp [h]
    · simp [h]
  · simp [EqProof.d_id, hid]

theorem rowCase_none_of_violation (env : ProofEnv) (d c : Node) (ss : Out) (sub : Node)
    (h : d.asEquation.isNone = true ∨ (rhsIsSelect d = true ∧ isRowConclusion d = false)) :
    rowCase env d c ss sub = none := by
  unfold rowCase
  by_cases hk : d.getKind = .EQUAL
  · simp only [hk, if_true]
    rcases hc : d.children with _ | ⟨l, _ | ⟨r, rest⟩⟩
    · simp [Node.child, hc]
    · simp [Node.child, hc]
    · have he := asEquation_of_children hk hc
      rcases h with h | ⟨h1, h2⟩
      · simp [he] at h
      · simp only [rhsIsSelect, he, beq_iff_eq] at h1
        simp only [Node.child, hc, List.get?, Option.bind_eq_bind, Option.some_bind, h1, if_true]
        unfold rowPositive
        cases hs : rowShape d with
        | none => simp
        | some v =>
          have := rowShape_isRowConclusion d hk (by simp [hs])
          simp [h2] at this
  · simp [hk]

theorem row1Case_none_of_violation (env : ProofEnv) (d : Node)
    (h : isRow1Conclusion d = false) : row1Case env d = none := by
  unfold row1Case
  by_cases hk : d.getKind = .EQUAL
  · simp only [hk, if_true]
    cases hs : row1Shape d with
    | none => simp
    | some v =>
      have := row1Shape_isRow1Conclusion d hk (by simp [hs])
      simp [h] at this
  · simp [hk]

theorem extCase_none_of_violation (env : ProofEnv) (d c : Node)
    (h : isNegatedEquation d = false) : extCase env d c = none := by
  unfold extCase
  by_cases hk : d.getKind = .NOT
  · simp only [hk, if_true]
    rcases hc : d.children with _ | ⟨e, rest⟩
    · simp [Node.child, hc]
    · simp only [isNegatedEquation, hk, hc, beq_self_eq_true, Bool.true_and, beq_eq_false_iff_ne,
        ne_eq] at h
      simp [Node.child, hc, h]
  · simp [hk]

theorem depth1_none_of_violation (env : ProofEnv) (tb : Nat) (pf : EqProof)
    (h : violatesInvariant pf = true) : toStreamRecLFSC1 env tb pf = none := by
  obtain ⟨id, node, ch⟩ := pf
  cases id <;>
    simp only [violatesInvariant, EqProof.d_id, EqProof.d_children, EqProof.d_node,
      Bool.or_eq_true, decide_eq_true_eq, Bool.not_eq_true', Bool.and_eq_true] at h
  · rw [toStreamRecLFSC1_cong, congChain_none_of_length env tb node ch h]
    rfl
  · rw [toStreamRecLFSC1_given]
    unfold givenCase
    rcases h with h | h
    · by_cases hn : node.isNull = true <;> simp [hn, h]
    · simp [h]
  · rw [toStreamRecLFSC1_refl]
    unfold reflCase
    rcases h with h | h
    · by_cases hn : node.isNull = true <;> simp [hn, h]
    · simp [h]
  · rw [toStreamRecLFSC1]
  · rw [toStreamRecLFSC1_trans]
    cases hr : toStreamRecLFSCList env (tb + 1) ch with
    | none => rfl
    | some rs =>
      have hl := toStreamRecLFSCList_length env (tb + 1) ch rs hr
      simp only [Option.some_bind]
      exact transFold_none_of_short env node rs (by rw [hl]; exact h)
  · by_cases hl : ch.length = 1
    · rcases ch with _ | ⟨c, _ | ⟨c1, rest⟩⟩
      · simp at hl
      · rw [toStreamRecLFSC1_row]
        have h' : node.asEquation.isNone = true ∨
            (rhsIsSelect node = true ∧ isRowConclusion node = false) := by
          rcases h with (h | h) | h
          · simp at h
          · exact Or.inl h
          · exact Or.inr h
        cases toStreamRecLFSC1 env (tb + 1) c with
        | none => rfl
        | some r => exact rowCase_none_of_violation env node c.d_node r.1 r.2 h'
      · simp at hl
    · exact toStreamRecLFSC1_row_length env tb node ch hl
  · rw [toStreamRecLFSC1_row1]
    exact row1Case_none_of_violation env node h
  · by_cases hl : ch.length = 1
    · rcases ch with _ | ⟨c, _ | ⟨c1, rest⟩⟩
      · simp at hl
      · rw [toStreamRecLFSC1_ext]
        rcases h with h | h
        · simp at h
        · exact extCase_none_of_violation env node c.d_node h
      · simp at hl
    · exact toStreamRecLFSC1_ext_length env tb node ch hl
  · rw [toStreamRecLFSC1]

/-- C10 (amended): a derivation node that violates its rule's invariant makes
`toStreamRecLFSC` fail at every depth and return no conclusion.  The invariants are: a
transitivity node has a conclusion and at least two children; a congruence node has
exactly two children; reflexivity and given nodes are leaves with a conclusion; a ROW node
has exactly one child and an equality as conclusion which, when its right side is a
select, is `(store a i v)[k] = a[k]` or its mirror; a ROW1 node has conclusion
`(store a i v)[i] = v` or its mirror (its children are not constrained); an extensionality
node has exactly one child and a negated equation as conclusion; and the rule tag is one
of these seven. -/
theorem malformed_derivation_is_fatal (env : ProofEnv) (tb : Nat) (pf : EqProof)
    (h : violatesInvariant pf = true) : toStreamRecLFSC env tb pf = none := by
  unfold toStreamRecLFSC
  by_cases htb : tb = 0
  · simp only [htb, if_true]
    exact depth0_none_of_violation env pf h
  · simp only [htb, if_false]
    exact depth1_none_of_violation env tb pf h

/-- C10, witness: a transitivity node with one child violates its invariant, and the
recompiler fails on it. -/
theorem malformed_derivation_is_fatal_witness :
    violatesInvariant transOneChild = true ∧ toStreamRecLFSC exampleEnv 1 transOneChild = none :=
  ⟨by decide, malformed_derivation_is_fatal exampleEnv 1 transOneChild (by decide)⟩

/-- C10, counterexample to the claim as stated: a ROW1 node without exactly one child (it
has none) whose conclusion is well shaped is accepted at depth 1. -/
theorem row1_child_count_not_checked :
    row1NoChild.d_id = .MERGED_ARRAYS_ROW1 ∧ row1NoChild.d_children.length ≠ 1 ∧
      (toStreamRecLFSC exampleEnv 1 row1NoChild).isSome = true := by
  decide

theorem sizeOf_child_lt {n c : Node} (h : c ∈ n.children) : sizeOf c < sizeOf n := by
  cases n with
  | null => simp [Node.children] at h
  | leaf k nm ty => simp [Node.children] at h
  | builtin k => simp [Node.children] at h
  | app k op cs =>
    simp only [Node.children] at h
    have := List.sizeOf_lt_of_mem h
    simp only [Node.app.sizeOf_spec]
    omega

theorem getKind_app (k : Kind) (op : Node) (cs : List Node) : (Node.app k op cs).getKind = k := rfl

theorem children_app (k : Kind) (op : Node) (cs : List Node) :
    (Node.app k op cs).children = cs := rfl

theorem child_app (k : Kind) (op : Node) (cs : List Node) (i : Nat) :
    (Node.app k op cs).child i = cs.get? i := rfl

theorem mkStore_ne_grandchild {a i v a0 : Node} (h : a0 ∈ a.children) : mkStore a i v ≠ a0 := by
  intro e
  have h1 := sizeOf_child_lt h
  have h2 : sizeOf a < sizeOf (mkStore a i v) := by
    apply sizeOf_child_lt
    simp [mkStore, Node.children]
  rw [e] at h2
  omega

theorem rowShape_mirror (a i v k : Node) :
    rowShape (Node.mkEqual (mkSelect a k) (mkSelect (mkStore a i v) k)) =
      some (a, i, k, v, Node.mkEqual (mkSelect (mkStore a i v) k) (mkSelect a k)) := by
  simp [rowShape, Node.mkEqual, mkSelect, mkStore, child_app, getKind_app]

theorem rowShape_straight (a i v k : Node) (ha : storeArity a) :
    rowShape (Node.mkEqual (mkSelect (mkStore a i v) k) (mkSelect a k)) =
      some (a, i, k, v, Node.mkEqual (mkSelect (mkStore a i v) k) (mkSelect a k)) := by
  by_cases hk : a.getKind = .STORE
  · have hn := ha hk
    unfold Node.getNumChildren at hn
    rcases hc : a.children with _ | ⟨a0, rest⟩
    · simp [hc] at hn
    · have hne : mkStore a i v ≠ a0 := mkStore_ne_grandchild (by simp [hc])
      have h0 : a.child 0 = some a0 := by simp [Node.child, hc]
      unfold mkStore at hne
      simp [rowShape, Node.mkEqual, mkSelect, mkStore, child_app, getKind_app, hk, h0, hne]
  · simp [rowShape, Node.mkEqual, mkSelect, mkStore, child_app, getKind_app, hk]

/-- C9: for a ROW node whose conclusion is `(store a i v)[k] = a[k]` or its mirror, with one
child that proves a disequality `not (x = y)` (text `ss`), the recompiler at depth
`tb >= 1` writes `(row _ _ i k a v P)` over the four extracted terms, where `P` is the
child's proof, wrapped in `negsymm` exactly when the right-hand side `y` of the proven
disequality is not the outer index `k`; it returns `(store a i v)[k] = a[k]` for both
shapes.  (`storeArity a` is the arity discipline of terms: a store has three children.) -/
theorem row_positive_combinator (env : ProofEnv) (tb : Nat) (htb : tb ≠ 0)
    (a i v k x y d : Node) (c : EqProof) (ss pa pi pk pv : Out) (ha : storeArity a)
    (hd : d = Node.mkEqual (mkSelect (mkStore a i v) k) (mkSelect a k) ∨
          d = Node.mkEqual (mkSelect a k) (mkSelect (mkStore a i v) k))
    (hc : toStreamRecLFSC env (tb + 1) c = some (ss, (Node.mkEqual x y).notNode))
    (hpa : env.printTerm a = some pa) (hpi : env.printTerm i = some pi)
    (hpk : env.printTerm k = some pk) (hpv : env.printTerm v = some pv) :
    toStreamRecLFSC env tb (.mk .MERGED_ARRAYS_ROW d [c]) =
      some ([.str "(row _ _ "] ++ pi ++ [.str " "] ++ pk ++ [.str " "] ++ pa ++ [.str " "]
              ++ pv ++ [.str " "]
              ++ (if y = k then ss else [.str "(negsymm _ _ _ "] ++ ss ++ [.str ")"])
              ++ [.str ")"],
            Node.mkEqual (mkSelect (mkStore a i v) k) (mkSelect a k)) := by
  have hc1 : toStreamRecLFSC1 env (tb + 1) c = some (ss, (Node.mkEqual x y).notNode) := by
    simpa [toStreamRecLFSC] using hc
  have hshape : rowShape d =
      some (a, i, k, v, Node.mkEqual (mkSelect (mkStore a i v) k) (mkSelect a k)) := by
    rcases hd with hd | hd
    · rw [hd]; exact rowShape_straight a i v k ha
    · rw [hd]; exact rowShape_mirror a i v k
  have hkind : d.getKind = .EQUAL := by
    rcases hd with hd | hd <;> rw [hd] <;> rfl
  have hrhs : ∃ r, d.child 1 = some r ∧ r.getKind = .SELECT := by
    rcases hd with hd | hd <;> rw [hd]
    · exact ⟨mkSelect a k, rfl, rfl⟩
    · exact ⟨mkSelect (mkStore a i v) k, rfl, rfl⟩
  obtain ⟨r, hr1, hr2⟩ := hrhs
  unfold toStreamRecLFSC
  simp only [htb, if_false]
  rw [toStreamRecLFSC1_row, hc1]
  simp only [Option.some_bind, rowCase, hkind, if_true, hr1, Option.bind_eq_bind, hr2,
    rowPositive, hshape, printFour, hpa, hpi, hpk, hpv, Option.pure_def]
  simp only [Node.notNode, Node.mkEqual, child_app, List.get?, Option.some_bind]
  by_cases hy : y = k <;> simp [hy]

/-- C9, witness: the ROW node over `(store A i v)[k] = A[k]` whose child is the given
disequality `not (i = k)`. -/
theorem row_positive_combinator_witness :
    toStreamRecLFSC exampleEnv 1
        (.mk .MERGED_ARRAYS_ROW (Node.mkEqual (mkSelect (mkStore varArr varI varV) varK)
            (mkSelect varArr varK))
          [.mk .MERGED_THROUGH_EQUALITY (Node.mkEqual varI varK).notNode []]) =
      some ([.str "(row _ _ "] ++ [.expr varI] ++ [.str " "] ++ [.expr varK] ++ [.str " "]
              ++ [.expr varArr] ++ [.str " "] ++ [.expr varV] ++ [.str " "]
              ++ (if varK = varK then [.litName (Node.mkEqual varI varK)]
                  else [.str "(negsymm _ _ _ "] ++ [.litName (Node.mkEqual varI varK)]
                    ++ [.str ")"])
              ++ [.str ")"],
            Node.mkEqual (mkSelect (mkStore varArr varI varV) varK) (mkSelect varArr varK)) :=
  row_positive_combinator exampleEnv 1 (by decide) varArr varI varV varK varI varK _
    (.mk .MERGED_THROUGH_EQUALITY (Node.mkEqual varI varK).notNode []) _ _ _ _ _
    (by unfold storeArity; decide) (Or.inl rfl) (by decide) rfl rfl rfl rfl

theorem children_eqNode (a b : Node) : (eqNode a b).children = [a, b] := rfl

theorem isEqOrIff_eqNode (a b : Node) : isEqOrIff (eqNode a b) = true := by
  unfold isEqOrIff eqNode
  by_cases h : a.getType.isBoolean = true <;> simp [h, getKind_app]

theorem identicalEq_pair {x y x0 x1 y0 y1 : Node} (hx : x.children = [x0, x1])
    (hy : y.children = [y0, y1]) :
    identicalEq x y = some (decide ((x0 = y0 ∧ x1 = y1) ∨ (x0 = y1 ∧ x1 = y0))) := by
  unfold identicalEq
  simp only [Node.child, hx, hy, List.get?, Option.bind_eq_bind, Option.some_bind,
    Option.pure_def]
  clear hx hy
  by_cases h0 : x0 = y0
  · subst h0
    by_cases h1 : x1 = y1
    · subst h1
      simp
    · by_cases h2 : x0 = y1
      · subst h2
        simp [h1]
      · simp [h1, h2]
  · by_cases h2 : x0 = y1
    · subst h2
      by_cases h3 : x1 = y0
      · subst h3
        simp [h0]
      · simp [h0, h3]
    · simp [h0, h2]

theorem identicalEq_same {a b n1 n2 : Node} (h1 : n1.children = [a, b] ∨ n1.children = [b, a])
    (h2 : n2.children = [a, b] ∨ n2.children = [b, a]) : identicalEq n1 n2 = some true := by
  rcases h1 with h1 | h1 <;> rcases h2 with h2 | h2 <;>
    rw [identicalEq_pair h1 h2] <;> simp

theorem lookAhead_same {a b n1 : Node} (h1 : n1.children = [a, b] ∨ n1.children = [b, a]) :
    ∀ (rest : List (Out × Node)) (e : Bool), (∀ r ∈ rest, provesSame a b r.2) →
      lookAhead n1 rest e = some (if rest.length % 2 = 0 then e else !e, none)
  | [], e, _ => by simp [lookAhead]
  | (ss, n) :: rest, e, h => by
    have hn : provesSame a b n := h (ss, n) (by simp)
    have hrest : ∀ r ∈ rest, provesSame a b r.2 := fun r hr => h r (by simp [hr])
    rw [lookAhead, identicalEq_same hn.2 h1]
    simp only [Option.bind_eq_bind, Option.some_bind, if_true]
    rw [lookAhead_same h1 rest (!e) hrest]
    have : (rest.length + 1) % 2 = 0 ↔ ¬ rest.length % 2 = 0 := by omega
    by_cases hp : rest.length % 2 = 0 <;> simp [hp, this]

theorem transLoop_stay {a b : Node} (env : ProofEnv) (goal n1 : Node)
    (h1 : n1.children = [a, b] ∨ n1.children = [b, a]) :
    ∀ (rest : List (Out × Node)) (ss : Out), (∀ r ∈ rest, provesSame a b r.2) →
      transLoop env goal n1 ss true rest = some (ss, n1)
  | [], ss, _ => by simp [transLoop]
  | (ss2, n) :: rest, ss, h => by
    have hn : provesSame a b n := h (ss2, n) (by simp)
    have hrest : ∀ r ∈ rest, provesSame a b r.2 := fun r hr => h r (by simp [hr])
    rw [transLoop]
    simp only [hn.1, if_true, identicalEq_same h1 hn.2, Option.bind_eq_bind, Option.some_bind,
      Bool.not_true, Bool.false_eq_true, if_false]
    exact transLoop_stay env goal n1 h1 rest ss hrest

theorem evenSequence_left (env : ProofEnv) (goal n1 a b g0 : Node) (ss1 : Out)
    (hc : n1.children = [a, b]) (hg0 : goal.child 0 = some g0)
    (hm : matchTerms env a g0 = some true) :
    evenSequence env goal n1 ss1 none =
      some ([.str "(trans _ _ _ _ "] ++ ss1 ++ [.str " (symm _ _ _ "] ++ ss1 ++ [.str ")"]
              ++ [.str ")"], eqNode a a) := by
  have hg0' : goal.children[0]? = some g0 := by simpa [Node.child] using hg0
  simp [evenSequence, Node.child, hc, hg0', hm]

theorem evenSequence_right (env : ProofEnv) (goal n1 a b g0 g1 : Node) (ss1 : Out)
    (hc : n1.children = [a, b]) (hg0 : goal.child 0 = some g0)
    (hm0 : matchTerms env a g0 = some false) (hg1 : goal.child 1 = some g1)
    (hm1 : matchTerms env b g1 = some true) :
    evenSequence env goal n1 ss1 none =
      some ([.str "(trans _ _ _ _ "] ++ [.str " (symm _ _ _ "] ++ ss1 ++ [.str ")"] ++ ss1
              ++ [.str ")"], eqNode b b) := by
  have hg0' : goal.children[0]? = some g0 := by simpa [Node.child] using hg0
  have hg1' : goal.children[1]? = some g1 := by simpa [Node.child] using hg1
  simp [evenSequence, Node.child, hc, hg0', hm0, hg1', hm1]

theorem evenSequence_fail (env : ProofEnv) (goal n1 a b : Node) (ss1 : Out)
    (hc : n1.children = [a, b])
    (h0 : ∀ g0, goal.child 0 = some g0 → matchTerms env a g0 ≠ some true)
    (h1 : ∀ g1, goal.child 1 = some g1 → matchTerms env b g1 ≠ some true) :
    evenSequence env goal n1 ss1 none = none := by
  unfold evenSequence
  have ha : n1.child 0 = some a := by simp [Node.child, hc]
  have hb : n1.child 1 = some b := by simp [Node.child, hc]
  simp only [ha, hb, Option.bind_eq_bind, Option.some_bind, Option.pure_def]
  cases hg0 : goal.child 0 with
  | none => rfl
  | some g0 =>
    simp only [Option.some_bind]
    have hm0 := h0 g0 hg0
    cases hm : matchTerms env a g0 with
    | none => rfl
    | some m0 =>
      cases m0 with
      | true => exact absurd hm hm0
      | false =>
        simp only [Option.some_bind, Bool.false_eq_true, if_false]
        cases hg1 : goal.child 1 with
        | none => rfl
        | some g1 =>
          simp only [Option.some_bind]
          have hm1 := h1 g1 hg1
          cases hm' : matchTerms env b g1 with
          | none => rfl
          | some m1 =>
            cases m1 with
            | true => exact absurd hm' hm1
            | false => rfl

theorem getKind_eqNode_ne_not (a b : Node) : (eqNode a b).getKind ≠ .NOT := by
  unfold eqNode
  by_cases h : a.getType.isBoolean = true <;> simp [h, getKind_app]

theorem getKind_ne_not_of_isEqOrIff {n : Node} (h : isEqOrIff n = true) : n.getKind ≠ .NOT := by
  unfold isEqOrIff at h
  intro e
  simp [e] at h

/-- Composing the reflexive equation `p = p` with an equation between `p` and `q`. -/
theorem transCompose_refl {p q n2 : Node} (ss1 ss2 : Out) (hpq : p ≠ q)
    (h2 : provesSame p q n2) :
    ∃ txt, transCompose (eqNode p p) ss1 n2 ss2 = some (txt, eqNode p q) := by
  have hk1 := getKind_eqNode_ne_not p p
  have hk2 := getKind_ne_not_of_isEqOrIff h2.1
  have he1 := isEqOrIff_eqNode p p
  unfold transCompose transBody
  simp only [hk1, hk2, false_and, if_false, decide_False, Bool.not_false, Bool.and_false,
    Bool.false_eq_true, Option.bind_eq_bind, Option.some_bind, h2.1, he1, Bool.and_self,
    if_true, Node.child, children_eqNode, List.get?, Option.pure_def, Bool.or_self,
    Bool.true_and]
  rcases h2.2 with hc | hc
  · simp [hc]
  · have : ¬ p = q := hpq
    simp [hc, this]

theorem provesSame_symm {a b n : Node} (h : provesSame a b n) : provesSame b a n :=
  ⟨h.1, h.2.symm⟩

/-- The first step of the loop on a run whose remaining length is even: the run is
collapsed by `evenSequence` and the loop goes on with the flag set. -/
theorem transLoop_even_step {a b : Node} (env : ProofEnv) (goal n1 : Node) (ss ss2 : Out)
    (n2 : Node) (rest : List (Out × Node)) (hc : n1.children = [a, b])
    (h2 : provesSame a b n2) (hrest : ∀ r ∈ rest, provesSame a b r.2)
    (hlen : rest.length % 2 = 0) :
    transLoop env goal n1 ss false ((ss2, n2) :: rest) =
      (evenSequence env goal n1 ss none).bind
        (fun r => transLoop env goal r.2 r.1 true rest) := by
  rw [transLoop]
  simp only [h2.1, if_true, identicalEq_same (Or.inl hc) h2.2, Option.bind_eq_bind,
    Option.some_bind, Bool.not_false, lookAhead_same (Or.inl hc) rest true hrest, hlen]

/-- The first step of the loop on a run whose remaining length is odd: nothing changes
but the flag. -/
theorem transLoop_odd_step {a b : Node} (env : ProofEnv) (goal n1 : Node) (ss ss2 : Out)
    (n2 : Node) (rest : List (Out × Node)) (hc : n1.children = [a, b])
    (h2 : provesSame a b n2) (hrest : ∀ r ∈ rest, provesSame a b r.2)
    (hlen : rest.length % 2 = 1) :
    transLoop env goal n1 ss false ((ss2, n2) :: rest) = some (ss, n1) := by
  rw [transLoop]
  have hne : ¬ rest.length % 2 = 0 := by omega
  simp only [h2.1, if_true, identicalEq_same (Or.inl hc) h2.2, Option.bind_eq_bind,
    Option.some_bind, Bool.not_false, lookAhead_same (Or.inl hc) rest true hrest, hne,
    if_false, Bool.not_true, Bool.false_eq_true]
  exact transLoop_stay env goal n1 (Or.inl hc) rest ss hrest

/-- A step of the loop from the reflexive equation `p = p` with the flag set, on an
equation between the distinct terms `p` and `q`: the ordinary composition yields `p = q`
and clears the flag. -/
theorem transLoop_refl_step {p q : Node} (env : ProofEnv) (goal : Node) (ss ss2 : Out)
    (n2 : Node) (rest : List (Out × Node)) (hpq : p ≠ q) (h2 : provesSame p q n2) :
    ∃ txt, transLoop env goal (eqNode p p) ss true ((ss2, n2) :: rest) =
      transLoop env goal (eqNode p q) txt false rest := by
  obtain ⟨txt, ht⟩ := transCompose_refl ss ss2 hpq h2
  refine ⟨txt, ?_⟩
  rw [transLoop]
  have hid : identicalEq (eqNode p p) n2 = some false := by
    rcases h2.2 with hc | hc
    · rw [identicalEq_pair (children_eqNode p p) hc]
      simp [hpq]
    · rw [identicalEq_pair (children_eqNode p p) hc]
      simp [hpq]
  simp only [h2.1, if_true, hid, Option.bind_eq_bind, Option.some_bind, Bool.false_eq_true,
    if_false, ht]

/-- An even run (the running equation and an odd number of further children) whose goal
matches the left side `a` on the left concludes `a = a`. -/
theorem transLoop_even_left (env : ProofEnv) (goal g0 : Node) (hg0 : goal.child 0 = some g0) :
    ∀ (m : Nat) (a b : Node) (rest : List (Out × Node)) (n1 : Node) (ss : Out),
      matchTerms env a g0 = some true → rest.length = 2 * m + 1 →
      (∀ r ∈ rest, provesSame a b r.2) → n1.children = [a, b] →
      ∃ txt, transLoop env goal n1 ss false rest = some (txt, eqNode a a)
  | m, a, b, [], n1, ss, _, hlen, _, _ => by simp at hlen
  | m, a, b, (ss2, n2) :: rest, n1, ss, hm, hlen, hall, hc => by
    have h2 : provesSame a b n2 := hall (ss2, n2) (by simp)
    have hrest : ∀ r ∈ rest, provesSame a b r.2 := fun r hr => hall r (by simp [hr])
    have hl : rest.length = 2 * m := by simpa using hlen
    rw [transLoop_even_step env goal n1 ss ss2 n2 rest hc h2 hrest (by omega),
      evenSequence_left env goal n1 a b g0 ss hc hg0 hm]
    simp only [Option.some_bind]
    by_cases hab : a = b
    · refine ⟨_, transLoop_stay env goal (eqNode a a) (Or.inl ?_) rest _ hrest⟩
      rw [children_eqNode, ← hab]
    · match rest, hl, hrest with
      | [], _, _ => exact ⟨_, by rw [transLoop]⟩
      | [_], hl, _ => simp at hl; omega
      | (ss3, n3) :: (ss4, n4) :: rest2, hl, hrest =>
        have h3 : provesSame a b n3 := hrest (ss3, n3) (by simp)
        obtain ⟨txt, ht⟩ := transLoop_refl_step env goal
          ([Chunk.str "(trans _ _ _ _ "] ++ ss ++ [Chunk.str " (symm _ _ _ "] ++ ss
            ++ [Chunk.str ")"] ++ [Chunk.str ")"]) ss3 n3 ((ss4, n4) :: rest2) hab h3
        rw [ht]
        have hl2 : ((ss4, n4) :: rest2).length = 2 * (m - 1) + 1 := by
          simp at hl ⊢
          omega
        exact transLoop_even_left env goal g0 hg0 (m - 1) a b ((ss4, n4) :: rest2)
          (eqNode a b) txt hm hl2 (fun r hr => hrest r (by simp at hr ⊢; tauto))
          (children_eqNode a b)
termination_by _ _ _ rest => rest.length

/-- An even run whose goal does not match `a` on the left but matches `b` on the right
concludes `b = b`; beyond two children this needs the goal's left side to match `b` as
well (or `a` and `b` to be the same term). -/
theorem transLoop_even_right (env : ProofEnv) (goal g0 g1 a b : Node)
    (hg0 : goal.child 0 = some g0) (hg1 : goal.child 1 = some g1)
    (hm0 : matchTerms env a g0 = some false) (hm1 : matchTerms env b g1 = some true)
    (m : Nat) (rest : List (Out × Node)) (n1 : Node) (ss : Out)
    (hlen : rest.length = 2 * m + 1) (hall : ∀ r ∈ rest, provesSame a b r.2)
    (hc : n1.children = [a, b])
    (hextra : m = 0 ∨ a = b ∨ matchTerms env b g0 = some true) :
    ∃ txt, transLoop env goal n1 ss false rest = some (txt, eqNode b b) := by
  match rest, hlen, hall with
  | [], hlen, _ => simp at hlen
  | (ss2, n2) :: rest, hlen, hall =>
    have h2 : provesSame a b n2 := hall (ss2, n2) (by simp)
    have hrest : ∀ r ∈ rest, provesSame a b r.2 := fun r hr => hall r (by simp [hr])
    have hl : rest.length = 2 * m := by simpa using hlen
    rw [transLoop_even_step env goal n1 ss ss2 n2 rest hc h2 hrest (by omega),
      evenSequence_right env goal n1 a b g0 g1 ss hc hg0 hm0 hg1 hm1]
    simp only [Option.some_bind]
    by_cases hab : a = b
    · refine ⟨_, transLoop_stay env goal (eqNode b b) (Or.inl ?_) rest _ hrest⟩
      rw [children_eqNode, hab]
    · match rest, hl, hrest with
      | [], _, _ => exact ⟨_, by rw [transLoop]⟩
      | [_], hl, _ => simp at hl; omega
      | (ss3, n3) :: (ss4, n4) :: rest2, hl, hrest =>
        have hmb : matchTerms env b g0 = some true := by
          rcases hextra with h | h | h
          · simp [h] at hl
          · exact absurd h hab
          · exact h
        have h3 : provesSame b a n3 := provesSame_symm (hrest (ss3, n3) (by simp))
        obtain ⟨txt, ht⟩ := transLoop_refl_step env goal
          ([Chunk.str "(trans _ _ _ _ "] ++ [Chunk.str " (symm _ _ _ "] ++ ss
            ++ [Chunk.str ")"] ++ ss ++ [Chunk.str ")"]) ss3 n3 ((ss4, n4) :: rest2)
          (fun e => hab e.symm) h3
        rw [ht]
        have hl2 : ((ss4, n4) :: rest2).length = 2 * (m - 1) + 1 := by
          simp at hl ⊢
          omega
        exact transLoop_even_left env goal g0 hg0 (m - 1) b a ((ss4, n4) :: rest2)
          (eqNode b a) txt hmb hl2
          (fun r hr => provesSame_symm (hrest r (by simp at hr ⊢; tauto)))
          (children_eqNode b a)

theorem toStreamRecLFSCList_of_forall (env : ProofEnv) (tb : Nat) (P : Node → Prop) :
    ∀ (cs : List EqProof),
      (∀ c ∈ cs, ∃ ss n, toStreamRecLFSC1 env tb c = some (ss, n) ∧ P n) →
      ∃ rs, toStreamRecLFSCList env tb cs = some rs ∧ rs.length = cs.length ∧
        ∀ r ∈ rs, P r.2
  | [], _ => ⟨[], by rw [toStreamRecLFSCList], rfl, by simp⟩
  | c :: cs, h => by
    obtain ⟨ss, n, hc, hp⟩ := h c (by simp)
    obtain ⟨rs, hrs, hl, hall⟩ := toStreamRecLFSCList_of_forall env tb P cs
      (fun c' hc' => h c' (by simp [hc']))
    refine ⟨(ss, n) :: rs, ?_, by simp [hl], ?_⟩
    · rw [toStreamRecLFSCList, hc, hrs]
      rfl
    · intro r hr
      simp only [List.mem_cons] at hr
      rcases hr with hr | hr
      · rw [hr]; exact hp
      · exact hall r hr

theorem evenSequence_after_left (env : ProofEnv) (goal n1 a b x c : Node) (ss1 : Out)
    (hc : n1.children = [a, b]) (hx : provesSame a c x) :
    evenSequence env goal n1 ss1 (some x) =
      some ([.str "(trans _ _ _ _ "] ++ ss1 ++ [.str " (symm _ _ _ "] ++ ss1 ++ [.str ")"]
              ++ [.str ")"], eqNode a a) := by
  have hk := getKind_ne_not_of_isEqOrIff hx.1
  unfold evenSequence
  simp only [Node.child, hc, List.get?, Option.bind_eq_bind, Option.some_bind, hk, if_false,
    hx.1, if_true, Option.pure_def]
  rcases hx.2 with h | h
  · simp [h]
  · by_cases hca : a = c
    · simp [h, hca]
    · simp [h, hca]

/-- C2 (amended): transitivity parity.  Let a transitivity node at depth `tb >= 1` have a
conclusion `goal`, a first child proving the equation `n0` with sides `a`, `b`, and
further children `cs` (at least one) that all prove the equation between `a` and `b` in
either orientation; so there are `k = cs.length + 1` children.
* `k` odd: the run collapses to the first child's proof and equation.
* `k` even and the goal's left side matches `a`: the result is `a = a`.
* `k` even, the goal's left side does not match `a` and its right side matches `b`: the
  result is `b = b`, where for `k >= 4` the goal's left side must match `b` as well
  (unless `a` and `b` are the same term).
* `k` even and neither the goal's left side matches `a` nor its right side matches `b`:
  the recompiler fails.
* the chain `[a = b, a = b]` followed by a link between `a` and a third term `c` concludes
  `a = c`: the even run was collapsed to `a = a`, the side the next link needs. -/
theorem transitivity_parity (env : ProofEnv) (tb : Nat) (htb : tb ≠ 0)
    (goal a b n0 : Node) (ss0 : Out) (c0 : EqProof) (cs : List EqProof)
    (hgoal : goal.isNull = false) (hcs : cs ≠ [])
    (h0 : toStreamRecLFSC env (tb + 1) c0 = some (ss0, n0)) (hc0 : n0.children = [a, b])
    (hall : ∀ c ∈ cs, ∃ ss n, toStreamRecLFSC env (tb + 1) c = some (ss, n) ∧ provesSame a b n) :
    (cs.length % 2 = 0 →
      toStreamRecLFSC env tb (.mk .MERGED_THROUGH_TRANS goal (c0 :: cs)) = some (ss0, n0)) ∧
    (cs.length % 2 = 1 → ∀ g0, goal.child 0 = some g0 → matchTerms env a g0 = some true →
      ∃ txt, toStreamRecLFSC env tb (.mk .MERGED_THROUGH_TRANS goal (c0 :: cs)) =
        some (txt, eqNode a a)) ∧
    (cs.length % 2 = 1 → ∀ g0 g1, goal.child 0 = some g0 → matchTerms env a g0 = some false →
      goal.child 1 = some g1 → matchTerms env b g1 = some true →
      (cs.length = 1 ∨ a = b ∨ matchTerms env b g0 = some true) →
      ∃ txt, toStreamRecLFSC env tb (.mk .MERGED_THROUGH_TRANS goal (c0 :: cs)) =
        some (txt, eqNode b b)) ∧
    (cs.length % 2 = 1 →
      (∀ g0, goal.child 0 = some g0 → matchTerms env a g0 ≠ some true) →
      (∀ g1, goal.child 1 = some g1 → matchTerms env b g1 ≠ some true) →
      toStreamRecLFSC env tb (.mk .MERGED_THROUGH_TRANS goal (c0 :: cs)) = none) ∧
    (∀ (c1 c2 : EqProof) (ss1 ss2 : Out) (n1 x c : Node),
      toStreamRecLFSC env (tb + 1) c1 = some (ss1, n1) → provesSame a b n1 →
      toStreamRecLFSC env (tb + 1) c2 = some (ss2, x) → provesSame a c x → c ≠ a → c ≠ b →
      ∃ txt, toStreamRecLFSC env tb (.mk .MERGED_THROUGH_TRANS goal [c0, c1, c2]) =
        some (txt, eqNode a c)) := by
  have hdepth : ∀ (c : EqProof), toStreamRecLFSC env (tb + 1) c = toStreamRecLFSC1 env (tb + 1) c := by
    intro c
    simp [toStreamRecLFSC]
  have h0' : toStreamRecLFSC1 env (tb + 1) c0 = some (ss0, n0) := by rw [← hdepth]; exact h0
  obtain ⟨rs, hrs, hlen, hsame⟩ := toStreamRecLFSCList_of_forall env (tb + 1) (provesSame a b) cs
    (fun c hc => by
      obtain ⟨ss, n, h1, h2⟩ := hall c hc
      exact ⟨ss, n, by rw [← hdepth]; exact h1, h2⟩)
  have hrsne : rs ≠ [] := by
    intro e
    rw [e] at hlen
    exact hcs (List.length_eq_zero.mp hlen.symm)
  have hfold : toStreamRecLFSC env tb (.mk .MERGED_THROUGH_TRANS goal (c0 :: cs)) =
      transLoop env goal n0 ss0 false rs := by
    unfold toStreamRecLFSC
    simp only [htb, if_false]
    rw [toStreamRecLFSC1_trans, toStreamRecLFSCList, h0', hrs]
    simp only [Option.some_bind, transFold, hgoal, Bool.false_eq_true, if_false]
    cases rs with
    | nil => exact absurd rfl hrsne
    | cons r rest => rfl
  refine ⟨?_, ?_, ?_, ?_, ?_⟩
  · intro hpar
    rw [hfold]
    cases rs with
    | nil => exact absurd rfl hrsne
    | cons r rest =>
      obtain ⟨ss2, n2⟩ := r
      have h2 : provesSame a b n2 := hsame (ss2, n2) (by simp)
      have hrest : ∀ r ∈ rest, provesSame a b r.2 := fun r hr => hsame r (by simp [hr])
      apply transLoop_odd_step env goal n0 ss0 ss2 n2 rest hc0 h2 hrest
      simp at hlen
      omega
  · intro hpar g0 hg0 hm
    rw [hfold]
    exact transLoop_even_left env goal g0 hg0 (cs.length / 2) a b rs n0 ss0 hm
      (by rw [hlen]; omega) hsame hc0
  · intro hpar g0 g1 hg0 hm0 hg1 hm1 hextra
    rw [hfold]
    exact transLoop_even_right env goal g0 g1 a b hg0 hg1 hm0 hm1 (cs.length / 2) rs n0 ss0
      (by rw [hlen]; omega) hsame hc0
      (by rcases hextra with h | h | h
          · exact Or.inl (by omega)
          · exact Or.inr (Or.inl h)
          · exact Or.inr (Or.inr h))
  · intro hpar hl hr
    rw [hfold]
    cases rs with
    | nil => exact absurd rfl hrsne
    | cons r rest =>
      obtain ⟨ss2, n2⟩ := r
      have h2 : provesSame a b n2 := hsame (ss2, n2) (by simp)
      have hrest : ∀ r ∈ rest, provesSame a b r.2 := fun r hr => hsame r (by simp [hr])
      rw [transLoop_even_step env goal n0 ss0 ss2 n2 rest hc0 h2 hrest
        (by simp at hlen; omega), evenSequence_fail env goal n0 a b ss0 hc0 hl hr]
      rfl
  · intro c1 c2 ss1 ss2 n1 x c h1 hs1 h2 hx hca hcb
    have h1' : toStreamRecLFSC1 env (tb + 1) c1 = some (ss1, n1) := by rw [← hdepth]; exact h1
    have h2' : toStreamRecLFSC1 env (tb + 1) c2 = some (ss2, x) := by rw [← hdepth]; exact h2
    unfold toStreamRecLFSC
    simp only [htb, if_false]
    rw [toStreamRecLFSC1_trans]
    simp only [toStreamRecLFSCList, h0', h1', h2', Option.some_bind, transFold, hgoal,
      Bool.false_eq_true, if_false]
    have hxn : identicalEq x n0 = some false := by
      rcases hx.2 with h | h
      · rw [identicalEq_pair h hc0]
        simp [hcb, hca]
      · rw [identicalEq_pair h hc0]
        simp [hcb, hca]
    rw [transLoop]
    simp only [hs1.1, if_true, identicalEq_same (Or.inl hc0) hs1.2, Option.bind_eq_bind,
      Option.some_bind, Bool.not_false, lookAhead, hxn, Bool.false_eq_true, if_false,
      Option.pure_def, evenSequence_after_left env goal n0 a b x c ss0 hc0 hx]
    obtain ⟨txt, ht⟩ := transLoop_refl_step env goal
      ([Chunk.str "(trans _ _ _ _ "] ++ ss0 ++ [Chunk.str " (symm _ _ _ "] ++ ss0
        ++ [Chunk.str ")"] ++ [Chunk.str ")"]) ss2 x [] (fun e => hca e.symm) hx
    rw [ht]
    exact ⟨txt, by rw [transLoop]⟩

theorem transitivity_parity_witness :
    (1 : Nat) ≠ 0 ∧ (Node.mkEqual varA varB).isNull = false ∧ [givenAB, givenAB] ≠ [] ∧
      toStreamRecLFSC exampleEnv 2 givenAB =
        some ([.litName (Node.mkEqual varA varB).negate], Node.mkEqual varA varB) ∧
      toStreamRecLFSC exampleEnv 1 transOddRun =
        some ([.litName (Node.mkEqual varA varB).negate], Node.mkEqual varA varB) :=
  ⟨by decide, by decide, List.cons_ne_nil _ _, by decide,
    (transitivity_parity exampleEnv 1 (by decide) (Node.mkEqual varA varB) varA varB
      (Node.mkEqual varA varB) [.litName (Node.mkEqual varA varB).negate] givenAB
      [givenAB, givenAB] (by decide) (List.cons_ne_nil _ _) (by decide) (by decide)
      (fun c hc => by
        have hc2 : c = givenAB := by simpa using hc
        subst hc2
        exact ⟨[.litName (Node.mkEqual varA varB).negate], Node.mkEqual varA varB,
          by decide, by decide, Or.inl (by decide)⟩)).1 (by decide)⟩

/-- C2 (as stated) fails: the transitivity node over the even run
`[f(a) = f(b), f(a) = f(b)]` with recorded conclusion `g(a) = g(b)` has two children
proving the same equation, yet the recompiler returns neither `f(a) = f(a)` nor
`f(b) = f(b)`: the goal's left side does not match `f(a)`, its right side does not match
`f(b)`, and the recompiler fails. -/
theorem transitivity_even_run_can_fail :
    toStreamRecLFSC exampleEnv 2 givenFAB =
        some ([.litName (Node.mkEqual (appF varA) (appF varB)).negate],
          Node.mkEqual (appF varA) (appF varB)) ∧
      transEvenMismatch.d_id = .MERGED_THROUGH_TRANS ∧
      transEvenMismatch.d_children = [givenFAB, givenFAB] ∧
      matchTerms exampleEnv (appF varA) (appG varA) = some false ∧
      matchTerms exampleEnv (appF varB) (appG varB) = some false ∧
      toStreamRecLFSC exampleEnv 1 transEvenMismatch = none :=
  ⟨by decide, rfl, rfl, by decide, by decide, by decide⟩

theorem setInsert_nodup {α : Type} [DecidableEq α] (x : α) (l : List α) (h : l.Nodup) :
    (setInsert x l).Nodup := by
  unfold setInsert
  by_cases hx : x ∈ l
  · simp [hx, h]
  · simp only [hx, if_false]
    exact List.Nodup.append h (List.nodup_singleton x) (by simpa using hx)

theorem mem_setInsert {α : Type} [DecidableEq α] (x : α) (l : List α) : x ∈ setInsert x l := by
  unfold setInsert
  by_cases hx : x ∈ l
  · simp [hx]
  · simp [hx]

theorem registerTerm_eq_with (env : EngineEnv) (term : Node) :
    ∃ kids, ∀ e, TheoryProofEngine.registerTerm env term e =
      TheoryProofEngine.registerTermWith env term kids e := by
  cases term with
  | null => exact ⟨some, fun e => by rw [TheoryProofEngine.registerTerm]⟩
  | leaf k name ty => exact ⟨some, fun e => by rw [TheoryProofEngine.registerTerm]⟩
  | builtin k => exact ⟨some, fun e => by rw [TheoryProofEngine.registerTerm]⟩
  | app k op cs =>
    exact ⟨TheoryProofEngine.registerList env cs, fun e => by rw [TheoryProofEngine.registerTerm]⟩

/-- After a call of the body of `registerTerm` has returned, a second call returns at once
with the same state: either the term is in the cache, or its theory is not supported and
nothing was changed. -/
theorem registerTermWith_again (env : EngineEnv) (term : Node)
    (kids kids2 : TheoryProofEngine → Option TheoryProofEngine) (e e1 : TheoryProofEngine)
    (h : TheoryProofEngine.registerTermWith env term kids e = some e1) :
    TheoryProofEngine.registerTermWith env term kids2 e1 = some e1 := by
  unfold TheoryProofEngine.registerTermWith at h
  by_cases hc : term ∈ e.d_registrationCache
  · simp only [hc, if_true, Option.some.injEq] at h
    subst h
    unfold TheoryProofEngine.registerTermWith
    simp [hc]
  · simp only [hc, if_false] at h
    by_cases hb : env.theoryOf term = .THEORY_BUILTIN ∨ term.getKind = .ITE
    · simp only [hb, if_true, Option.bind_eq_some] at h
      obtain ⟨e2, _, h2⟩ := h
      simp only [Option.some.injEq] at h2
      subst h2
      unfold TheoryProofEngine.registerTermWith
      simp [TheoryProofEngine.cacheInsert, mem_setInsert]
    · simp only [hb, if_false] at h
      by_cases hs : supportedTheory (env.theoryOf term) = true
      · simp only [hs, Bool.not_true, Bool.false_eq_true, if_false, Option.bind_eq_some] at h
        obtain ⟨e2, _, e3, _, h3⟩ := h
        simp only [Option.some.injEq] at h3
        subst h3
        unfold TheoryProofEngine.registerTermWith
        simp [TheoryProofEngine.cacheInsert, mem_setInsert]
      · simp only [hs, Bool.not_false, if_true, Option.some.injEq] at h
        subst h
        unfold TheoryProofEngine.registerTermWith
        simp [hc, hb, hs]

theorem registerTerm_again (env : EngineEnv) (term : Node) (e e1 : TheoryProofEngine)
    (h : TheoryProofEngine.registerTerm env term e = some e1) :
    TheoryProofEngine.registerTerm env term e1 = some e1 := by
  obtain ⟨kids, hk⟩ := registerTerm_eq_with env term
  rw [hk] at h ⊢
  exact registerTermWith_again env term kids kids e e1 h

theorem registerTimes_fixed (env : EngineEnv) (term : Node) (e1 : TheoryProofEngine)
    (h : TheoryProofEngine.registerTerm env term e1 = some e1) :
    ∀ n, TheoryProofEngine.registerTimes env term n e1 = some e1
  | 0 => rfl
  | n + 1 => by
    rw [TheoryProofEngine.registerTimes, h]
    exact registerTimes_fixed env term e1 h n

theorem declareTerm_nodup (term : Node) (decls d : List Node) (h : declareTerm term decls = some d)
    (hn : decls.Nodup) : d.Nodup := by
  unfold declareTerm at h
  simp only [Option.bind_eq_some, Option.some.injEq] at h
  obtain ⟨d1, h1, h2⟩ := h
  have hd1 : d1.Nodup := by
    by_cases hk : term.getKind = .APPLY_UF
    · simp only [hk, if_true, Option.bind_eq_some, Option.some.injEq] at h1
      obtain ⟨f, _, hf⟩ := h1
      rw [← hf]
      exact setInsert_nodup f decls hn
    · simp only [hk, if_false, Option.some.injEq] at h1
      rw [← h1]
      exact hn
  rw [← h2]
  by_cases hv : term.isVariable = true
  · simp only [hv, if_true]
    exact setInsert_nodup term d1 hd1
  · simp only [hv, if_false]
    exact hd1

theorem declareSort_nodup (term : Node) (sorts : List TypeNode) (hn : sorts.Nodup) :
    (declareSort term sorts).Nodup := by
  unfold declareSort
  by_cases hs : term.getType.isSort = true
  · simp only [hs, if_true]
    exact setInsert_nodup _ _ hn
  · simp only [hs, if_false]
    exact hn

/-- A certifier's `registerTerm` keeps its sets free of duplicates, when the loop over
the children does. -/
theorem certifierRegister_noDuplicates (env : EngineEnv) (id : TheoryId) (term : Node)
    (kids : TheoryProofEngine → Option TheoryProofEngine) (e e1 : TheoryProofEngine)
    (hk : ∀ x y, kids x = some y → x.NoDuplicates → y.NoDuplicates)
    (h : TheoryProofEngine.certifierRegister env id term kids e = some e1)
    (he : e.NoDuplicates) : e1.NoDuplicates := by
  unfold TheoryProofEngine.certifierRegister at h
  simp only [Option.bind_eq_some] at h
  obtain ⟨cert, hcert, r, hr, h⟩ := h
  have hmid : (⟨e.d_registrationCache, e.d_theoryProofTable.store r.1⟩ :
      TheoryProofEngine).NoDuplicates := by
    obtain ⟨hc, hb, hu, ha⟩ := he
    unfold getTheoryProof at hcert
    cases cert with
    | bool p =>
      simp only [TheoryProof.enter, Option.map_eq_some'] at hr
      obtain ⟨r1, hr1, hr2⟩ := hr
      rw [← hr2]
      refine ⟨hc, ?_, hu, ha⟩
      simp only [TheoryProofTable.store]
      have hp : p ∈ e.d_theoryProofTable.bool := by
        revert hcert
        split_ifs <;> cases id <;>
          simp [TheoryProofTable.find, Option.map_eq_some']
      intro b hb1
      simp only [Option.mem_def, Option.some.injEq] at hb1
      subst hb1
      unfold BooleanProof.enter at hr1
      by_cases ht : term.getType.isBoolean = true
      · simp only [ht, Bool.not_true, Bool.false_eq_true, if_false] at hr1
        by_cases hv : term.isVariable = true ∧ term ∉ p.d_declarations
        · simp only [hv, and_self, not_false_eq_true, if_true, Option.some.injEq] at hr1
          rw [← hr1]
          exact setInsert_nodup _ _ (hb p hp)
        · simp only [hv, if_false, Option.some.injEq] at hr1
          rw [← hr1]
          exact hb p hp
      · simp [ht] at hr1
    | uf p =>
      simp only [TheoryProof.enter, Option.map_eq_some'] at hr
      obtain ⟨r1, hr1, hr2⟩ := hr
      rw [← hr2]
      refine ⟨hc, hb, ?_, ha⟩
      simp only [TheoryProofTable.store]
      have hp : p ∈ e.d_theoryProofTable.uf := by
        revert hcert
        split_ifs <;> cases id <;>
          simp [TheoryProofTable.find, Option.map_eq_some']
      intro u hu1
      simp only [Option.mem_def, Option.some.injEq] at hu1
      subst hu1
      unfold UFProof.enter at hr1
      by_cases hm : term ∈ p.d_declarations
      · simp only [hm, if_true, Option.some.injEq] at hr1
        rw [← hr1]
        exact hu p hp
      · simp only [hm, if_false, Option.bind_eq_some, Option.some.injEq] at hr1
        obtain ⟨d, hd, hr1⟩ := hr1
        rw [← hr1]
        exact ⟨declareTerm_nodup term _ d hd (hu p hp).1, declareSort_nodup term _ (hu p hp).2⟩
    | array p =>
      simp only [TheoryProof.enter, Option.map_eq_some'] at hr
      obtain ⟨r1, hr1, hr2⟩ := hr
      rw [← hr2]
      refine ⟨hc, hb, hu, ?_⟩
      simp only [TheoryProofTable.store]
      have hp : p ∈ e.d_theoryProofTable.array := by
        revert hcert
        split_ifs <;> cases id <;>
          simp [TheoryProofTable.find, Option.map_eq_some']
      intro a ha1
      simp only [Option.mem_def, Option.some.injEq] at ha1
      subst ha1
      unfold ArrayProof.enter at hr1
      by_cases hm : term ∈ p.d_declarations
      · simp only [hm, if_true, Option.some.injEq] at hr1
        rw [← hr1]
        exact ha p hp
      · simp only [hm, if_false, Option.bind_eq_some, Option.some.injEq] at hr1
        obtain ⟨d, hd, hr1⟩ := hr1
        rw [← hr1]
        exact ⟨declareTerm_nodup term _ d hd (ha p hp).1, declareSort_nodup term _ (ha p hp).2⟩
    | bv p =>
      simp only [TheoryProof.enter, Option.map_eq_some'] at hr
      obtain ⟨r1, _, hr2⟩ := hr
      rw [← hr2]
      exact ⟨hc, hb, hu, ha⟩
    | arith p =>
      simp only [TheoryProof.enter, Option.map_eq_some'] at hr
      obtain ⟨r1, _, hr2⟩ := hr
      rw [← hr2]
      exact ⟨hc, hb, hu, ha⟩
  by_cases hdesc : r.2 = true
  · simp only [hdesc, if_true] at h
    exact hk _ _ h hmid
  · simp only [hdesc, Bool.false_eq_true, if_false, Option.some.injEq] at h
    rw [← h]
    exact hmid

theorem cacheInsert_noDuplicates (e : TheoryProofEngine) (term : Node) (he : e.NoDuplicates) :
    (e.cacheInsert term).NoDuplicates :=
  ⟨setInsert_nodup _ _ he.1, he.2.1, he.2.2.1, he.2.2.2⟩

theorem registerTermWith_noDuplicates (env : EngineEnv) (term : Node)
    (kids : TheoryProofEngine → Option TheoryProofEngine) (e e1 : TheoryProofEngine)
    (hk : ∀ x y, kids x = some y → x.NoDuplicates → y.NoDuplicates)
    (h : TheoryProofEngine.registerTermWith env term kids e = some e1)
    (he : e.NoDuplicates) : e1.NoDuplicates := by
  unfold TheoryProofEngine.registerTermWith at h
  by_cases hc : term ∈ e.d_registrationCache
  · simp only [hc, if_true, Option.some.injEq] at h
    exact h ▸ he
  · simp only [hc, if_false] at h
    by_cases hb : env.theoryOf term = .THEORY_BUILTIN ∨ term.getKind = .ITE
    · simp only [hb, if_true, Option.bind_eq_some, Option.some.injEq] at h
      obtain ⟨e2, h2, h3⟩ := h
      rw [← h3]
      exact cacheInsert_noDuplicates _ _ (hk _ _ h2 he)
    · simp only [hb, if_false] at h
      by_cases hs : supportedTheory (env.theoryOf term) = true
      · simp only [hs, Bool.not_true, Bool.false_eq_true, if_false, Option.bind_eq_some,
          Option.some.injEq] at h
        obtain ⟨e2, h2, e3, h3, h4⟩ := h
        rw [← h4]
        apply cacheInsert_noDuplicates
        have he2 := certifierRegister_noDuplicates _ _ _ _ _ _ hk h2 he
        by_cases hsk : env.isSkolem term = true ∧ env.theoryOf term ≠ .THEORY_ARRAY
        · simp only [hsk, and_self, ne_eq, not_false_eq_true, if_true] at h3
          exact certifierRegister_noDuplicates _ _ _ _ _ _ hk h3 he2
        · simp only [hsk, if_false, Option.some.injEq] at h3
          exact h3 ▸ he2
      · simp only [hs, Bool.not_false, if_true, Option.some.injEq] at h
        exact h ▸ he

mutual
/-- Registration keeps every set of the engine free of duplicates. -/
theorem registerTerm_noDuplicates (env : EngineEnv) :
    ∀ (term : Node) (e e1 : TheoryProofEngine),
      TheoryProofEngine.registerTerm env term e = some e1 → e.NoDuplicates → e1.NoDuplicates
  | .app k op cs, e, e1, h, he => by
    rw [TheoryProofEngine.registerTerm] at h
    exact registerTermWith_noDuplicates env _ _ e e1
      (fun x y hxy hx => registerList_noDuplicates env cs x y hxy hx) h he
  | .null, e, e1, h, he => by
    rw [TheoryProofEngine.registerTerm] at h
    exact registerTermWith_noDuplicates env _ _ e e1
      (fun x y hxy hx => by cases hxy; exact hx) h he
  | .leaf k name ty, e, e1, h, he => by
    rw [TheoryProofEngine.registerTerm] at h
    exact registerTermWith_noDuplicates env _ _ e e1
      (fun x y hxy hx => by cases hxy; exact hx) h he
  | .builtin k, e, e1, h, he => by
    rw [TheoryProofEngine.registerTerm] at h
    exact registerTermWith_noDuplicates env _ _ e e1
      (fun x y hxy hx => by cases hxy; exact hx) h he
theorem registerList_noDuplicates (env : EngineEnv) :
    ∀ (cs : List Node) (e e1 : TheoryProofEngine),
      TheoryProofEngine.registerList env cs e = some e1 → e.NoDuplicates → e1.NoDuplicates
  | [], e, e1, h, he => by
    rw [TheoryProofEngine.registerList] at h
    cases h
    exact he
  | c :: cs, e, e1, h, he => by
    rw [TheoryProofEngine.registerList] at h
    simp only [Option.bind_eq_some] at h
    obtain ⟨e2, h2, h3⟩ := h
    exact registerList_noDuplicates env cs e2 e1 h3 (registerTerm_noDuplicates env c e e2 h2 he)
end

/-- C6: idempotent registration.  For every term and every `n >= 1`, `n` successive calls
of `TheoryProofEngine::registerTerm` on the term leave the engine (the registration cache
and every certifier's declarations and sorts) in the state that one call leaves, and
fail when one call fails.  Registration never puts an element twice into the cache or
into a certifier's declarations or sorts, so a term is declared once by a certifier
however often it is registered. -/
theorem registerTerm_idempotent (env : EngineEnv) (term : Node) (e : TheoryProofEngine)
    (n : Nat) (hn : 1 ≤ n) :
    TheoryProofEngine.registerTimes env term n e = TheoryProofEngine.registerTerm env term e ∧
      (∀ e1, TheoryProofEngine.registerTimes env term n e = some e1 → e.NoDuplicates →
        e1.NoDuplicates) := by
  have hfirst : TheoryProofEngine.registerTimes env term n e =
      TheoryProofEngine.registerTerm env term e := by
    obtain ⟨m, rfl⟩ : ∃ m, n = m + 1 := ⟨n - 1, by omega⟩
    rw [TheoryProofEngine.registerTimes]
    cases h : TheoryProofEngine.registerTerm env term e with
    | none => rfl
    | some e1 =>
      simp only [Option.some_bind]
      exact registerTimes_fixed env term e1 (registerTerm_again env term e e1 h) m
  refine ⟨hfirst, ?_⟩
  intro e1 h1 he
  rw [hfirst] at h1
  exact registerTerm_noDuplicates env term e e1 h1 he

theorem registerTerm_idempotent_witness :
    1 ≤ 3 ∧
      (TheoryProofEngine.registerTerm exampleEngineEnv (mkSelect arrUU varA) exampleEngine).isSome
        = true ∧
      TheoryProofEngine.registerTimes exampleEngineEnv (mkSelect arrUU varA) 3 exampleEngine =
        TheoryProofEngine.registerTerm exampleEngineEnv (mkSelect arrUU varA) exampleEngine :=
  ⟨by decide, by decide,
    (registerTerm_idempotent exampleEngineEnv (mkSelect arrUU varA) exampleEngine 3
      (by decide)).1⟩

/-- C7 (fails on the code): the engine with the UF and the array certifier registers the
term `(select B a)`, where `B` is an array from the sort `U` to `U` and `a : U`.  The
array certifier puts `U`, the type of the select, into its sorts, and the UF certifier
puts `U`, the type of `a`, into its own; the declarations then bind the sort `U` twice,
once per certifier. -/
theorem sort_declared_by_two_certifiers :
    (TheoryProofEngine.registerTerm exampleEngineEnv (mkSelect arrUU varA) exampleEngine).bind
        (fun e => printAllDeclarations exampleEngineEnv e.d_theoryProofTable) =
      some [.str "(% ", .type sortU, .str " sort\n",
            .str "(% ", .type sortU, .str " sort\n",
            .str "(% ", .expr varA, .str " ", .str "(term ", .type sortU, .str ")\n",
            .str "(% ", .sanitized arrUU, .str " ", .str "(term ",
              .type (.arrayType sortU sortU), .str ")\n"] := by
  decide

/-- C8 (fails on the code): for the clause `{not (a = b), not (f(a) = f(b))}` the UF
certifier writes the trusted placeholder `(clausify_false trust)`, whatever the lemma is:
no congruence application and no `contra` combinator.  The equality-proof recompiler
does not produce them either: on the derivation of the example it fails, whether the
congruence node's conclusion is the partial application of `f` to `a`, the application
`f(a)`, or absent. -/
theorem congruence_example_is_not_certified :
    (∀ lits, LFSCUFProof.printTheoryLemmaProof lits =
        [.str " ;; UF Theory Lemma \n", .str " (clausify_false trust)"]) ∧
      LFSCUFProof.printTheoryLemmaProof congruenceClause =
        [.str " ;; UF Theory Lemma \n", .str " (clausify_false trust)"] ∧
      toStreamRecLFSC exampleEnv 0
        (congruenceRefutation (.app .PARTIAL_APPLY_UF funF [varA])) = none ∧
      toStreamRecLFSC exampleEnv 0 (congruenceRefutation (appF varA)) = none ∧
      toStreamRecLFSC exampleEnv 0 (congruenceRefutation .null) = none :=
  ⟨fun _ => rfl, rfl, by decide, by decide, by decide⟩

theorem resolutionOpenings_eq (id : Nat) : ∀ (steps : List ProofStep) (i : Nat),
    resolutionOpenings id i steps =
      (steps.enumFrom i).flatMap (fun p =>
        [.str (if p.2.d_literalToProve.getKind = .NOT then "(Q _ _ " else "(R _ _ "),
          .clauseName id, .str "s", .num p.1, .str " "])
  | [], _ => rfl
  | s :: steps, i => by
    rw [resolutionOpenings, resolutionOpenings_eq id steps (i + 1)]
    simp [List.enumFrom]

theorem resolutionPivots_eq (env : LemmaEnv) : ∀ (steps : List ProofStep),
    resolutionPivots env steps =
      steps.flatMap (fun s => [.varName (env.getLiteral s.d_literalToProve).1, .str ") "])
  | [] => rfl
  | s :: steps => by
    rw [resolutionPivots, resolutionPivots_eq env steps]
    simp

/-- The first loop of the composite branch writes one partial proof per step, named by
the index of the step. -/
theorem printCompositeSteps_layout (env : LemmaEnv) (tbl : TheoryProofTable) (id : Nat)
    (clause : SatClause) (clause_expr : List Node) (recipe : LemmaProofRecipe) :
    ∀ (steps : List ProofStep) (i : Nat) (st : LemmaState) (r : Out × Out × LemmaState),
      printCompositeSteps env tbl id clause clause_expr recipe i steps st = some r →
      ∃ texts : List Out, texts.length = steps.length ∧
        r.1 = ((steps.zip texts).enumFrom i).flatMap (fun p =>
          partialProofLayout id p.1
            (partialClause env recipe clause clause_expr p.1 p.2.1).1 p.2.2)
  | [], i, st, r, h => by
    rw [printCompositeSteps] at h
    cases h
    exact ⟨[], rfl, rfl⟩
  | step :: steps, i, st, r, h => by
    rw [printCompositeSteps] at h
    simp only [Option.bind_eq_some, Option.some.injEq] at h
    obtain ⟨r1, h1, rs, hs, hr⟩ := h
    obtain ⟨texts, hlen, htexts⟩ :=
      printCompositeSteps_layout env tbl id clause clause_expr recipe steps (i + 1) _ rs hs
    unfold printCompositeStep at h1
    simp only [Option.bind_eq_some, Option.some.injEq] at h1
    obtain ⟨p, _, t, _, ht⟩ := h1
    refine ⟨t.1 :: texts, by simp [hlen], ?_⟩
    rw [← hr, ← ht]
    simp [List.enumFrom, htexts, partialProofLayout]
    rfl

/-- The composite branch writes the layout of a composite lemma. -/
theorem printCompositeLemma_layout (env : LemmaEnv) (tbl : TheoryProofTable) (id : Nat)
    (clause : SatClause) (clause_expr : List Node) (recipe : LemmaProofRecipe)
    (st : LemmaState) (r : Out × Out × LemmaState)
    (h : printCompositeLemma env tbl id clause clause_expr recipe st = some r) :
    2 ≤ recipe.getNumSteps ∧ ∃ texts : List Out, texts.length = recipe.getNumSteps ∧
      r.1 = compositeLayout env id clause clause_expr recipe texts := by
  unfold printCompositeLemma at h
  simp only [Option.bind_eq_some] at h
  obtain ⟨r1, h1, h2⟩ := h
  by_cases hn : recipe.getNumSteps < 2
  · simp [hn] at h2
  · simp only [hn, if_false, Option.some.injEq] at h2
    obtain ⟨texts, hlen, htexts⟩ :=
      printCompositeSteps_layout env tbl id clause clause_expr recipe _ 0 st r1 h1
    refine ⟨by omega, texts, hlen, ?_⟩
    rw [← h2]
    simp only [compositeLayout, resolutionLayout, htexts, resolutionOpenings_eq,
      resolutionPivots_eq, List.enum, List.append_assoc]

/-- The loop over the lemmas writes one block per lemma, and the block of a lemma whose
recipe is not simple has the layout of a composite lemma. -/
theorem printTheoryLemmaLoop_blocks (env : LemmaEnv) (tbl : TheoryProofTable) :
    ∀ (lemmas : List (Nat × SatClause)) (st : LemmaState) (r : Out × Out × LemmaState),
      printTheoryLemmaLoop env tbl lemmas st = some r →
      ∃ blocks : List Out, blocks.length = lemmas.length ∧ r.1 = blocks.flatten ∧
        ∀ (k id : Nat) (clause : SatClause) (ce : List Node × List Node),
          lemmas.get? k = some (id, clause) → clauseExpr clause = some ce →
          (env.getProofRecipe ce.2).simpleLemma = false →
          2 ≤ (env.getProofRecipe ce.2).getNumSteps ∧
          ∃ texts : List Out, texts.length = (env.getProofRecipe ce.2).getNumSteps ∧
            blocks.get? k =
              some (compositeLayout env id clause ce.1 (env.getProofRecipe ce.2) texts)
  | [], st, r, h => by
    rw [printTheoryLemmaLoop] at h
    cases h
    exact ⟨[], rfl, rfl, fun k id clause ce hk => by simp at hk⟩
  | l :: ls, st, r, h => by
    rw [printTheoryLemmaLoop] at h
    simp only [Option.bind_eq_some, Option.some.injEq] at h
    obtain ⟨r1, h1, rs, hs, hr⟩ := h
    obtain ⟨blocks, hlen, hjoin, hall⟩ := printTheoryLemmaLoop_blocks env tbl ls _ rs hs
    refine ⟨r1.1 :: blocks, by simp [hlen], by rw [← hr]; simp [hjoin], ?_⟩
    intro k id clause ce hk hce hsimple
    cases k with
    | zero =>
      simp only [List.get?_cons_zero, Option.some.injEq] at hk
      unfold printTheoryLemma at h1
      rw [hk] at h1
      simp only [hce, Option.some_bind, hsimple, Bool.false_eq_true, if_false] at h1
      obtain ⟨h2, texts, htl, htexts⟩ :=
        printCompositeLemma_layout env tbl id clause ce.1 _ st r1 h1
      exact ⟨h2, texts, htl, by simp [htexts]⟩
    | succ k =>
      simp only [List.get?_cons_succ] at hk
      obtain ⟨h2, texts, htl, htexts⟩ := hall k id clause ce hk hce hsimple
      exact ⟨h2, texts, htl, by simpa using htexts⟩

/-- C3 (amended): composite resolution count.  When the bit-blast mode is not eager and
`printTheoryLemmas` returns, its text is the header and the bit-vector batch followed by
one block per lemma, and for every lemma whose recipe is composite the recipe has
`N >= 2` steps and the block consists of exactly `N` partial clause proofs, bound to the
names `<clauseName>s0` ... `<clauseName>s(N-1)` in that order, followed by the resolution
with exactly `N - 1` combinators (one per step but the last), whose result is bound to
the lemma's name `<clauseName>`. -/
theorem composite_resolution_count (env : LemmaEnv) (tbl : TheoryProofTable)
    (lemmas : List (Nat × SatClause)) (st : LemmaState) (r : Out × Out × LemmaState)
    (hmode : env.bitblastEager = false)
    (h : printTheoryLemmas env tbl lemmas st = some r) :
    ∃ (batch : List (List Node)) (blocks : List Out), blocks.length = lemmas.length ∧
      r.1 = [.str " ;; Theory Lemmas \n", .bvResolution batch] ++ blocks.flatten ∧
      ∀ (k id : Nat) (clause : SatClause) (ce : List Node × List Node),
        lemmas.get? k = some (id, clause) → clauseExpr clause = some ce →
        (env.getProofRecipe ce.2).simpleLemma = false →
        2 ≤ (env.getProofRecipe ce.2).getNumSteps ∧
        ∃ texts : List Out, texts.length = (env.getProofRecipe ce.2).getNumSteps ∧
          blocks.get? k =
            some (compositeLayout env id clause ce.1 (env.getProofRecipe ce.2) texts) := by
  unfold printTheoryLemmas at h
  simp only [Option.bind_eq_some, hmode, Bool.false_eq_true, if_false, Option.some.injEq] at h
  obtain ⟨batch, _, r1, h1, hr⟩ := h
  obtain ⟨blocks, hlen, hjoin, hall⟩ := printTheoryLemmaLoop_blocks env tbl lemmas st r1 h1
  exact ⟨batch, blocks, hlen, by rw [← hr, hjoin], hall⟩

theorem composite_resolution_count_witness :
    (exampleLemmaEnv false).bitblastEager = false ∧
      ∃ r, printTheoryLemmas (exampleLemmaEnv false) fullTable [exampleLemma] ⟨[], []⟩ = some r ∧
        ∃ (batch : List (List Node)) (blocks : List Out), blocks.length = 1 ∧
          r.1 = [.str " ;; Theory Lemmas \n", .bvResolution batch] ++ blocks.flatten ∧
          ∀ (k id : Nat) (clause : SatClause) (ce : List Node × List Node),
            [exampleLemma].get? k = some (id, clause) → clauseExpr clause = some ce →
            ((exampleLemmaEnv false).getProofRecipe ce.2).simpleLemma = false →
            2 ≤ ((exampleLemmaEnv false).getProofRecipe ce.2).getNumSteps ∧
            ∃ texts : List Out,
              texts.length = ((exampleLemmaEnv false).getProofRecipe ce.2).getNumSteps ∧
              blocks.get? k =
                some (compositeLayout (exampleLemmaEnv false) id clause ce.1
                  ((exampleLemmaEnv false).getProofRecipe ce.2) texts) :=
  ⟨rfl, _, rfl,
    composite_resolution_count (exampleLemmaEnv false) fullTable [exampleLemma] ⟨[], []⟩ _ rfl
      rfl⟩

/-- C3 (as stated) fails in the eager bit-blast mode: the recipe of the lemma is
composite with two steps, and `printTheoryLemmas` returns after the bit-vector batch
without writing a partial proof or a resolution. -/
theorem eager_mode_writes_no_partial_proof :
    (exampleLemmaEnv true).bitblastEager = true ∧
      (∀ nodes, (exampleLemmaEnv true).getProofRecipe nodes = twoStepRecipe) ∧
      twoStepRecipe.simpleLemma = false ∧ twoStepRecipe.getNumSteps = 2 ∧
      printTheoryLemmas (exampleLemmaEnv true) fullTable [exampleLemma] ⟨[], []⟩ =
        some ([.str " ;; Theory Lemmas \n", .bvResolution []], [.bvResolutionParen []],
          ⟨[], []⟩) :=
  ⟨rfl, fun _ => rfl, by decide, by decide, by decide⟩

/-! ### The sharing pass -/

theorem bind_eq (t : Node) (st : BindState) :
    bind t st =
      match st.map.find t with
      | some _ => st.revisit t
      | none => (bindList t.children st).insertNew t := by
  cases t with
  | null => rw [bind]; rfl
  | leaf k name ty => rw [bind]; rfl
  | builtin k => rw [bind]; rfl
  | app k op cs => rw [bind]; rfl

theorem find_eq_none_iff (m : LetMap) (t : Node) :
    m.find t = none ↔ t ∉ m.map (fun p => p.1) := by
  induction m with
  | nil => simp [LetMap.find]
  | cons p m ih =>
    obtain ⟨k, v⟩ := p
    by_cases hk : k = t
    · simp [LetMap.find, hk]
    · simp only [LetMap.find, hk, if_false, ih, List.map_cons, List.mem_cons, not_or]
      constructor
      · intro h
        exact ⟨fun e => hk e.symm, h⟩
      · intro h
        exact h.2

theorem find_mem (m : LetMap) (t : Node) (lc : LetCount) (h : m.find t = some lc) :
    (t, lc) ∈ m := by
  induction m with
  | nil => simp [LetMap.find] at h
  | cons p m ih =>
    obtain ⟨k, v⟩ := p
    by_cases hk : k = t
    · simp only [LetMap.find, hk, if_true, Option.some.injEq] at h
      simp [hk, h]
    · simp only [LetMap.find, hk, if_false] at h
      exact List.mem_cons_of_mem _ (ih h)

theorem increment_ids (m : LetMap) (t : Node) :
    (m.increment t).map (fun p => (p.1, p.2.id)) = m.map (fun p => (p.1, p.2.id)) := by
  induction m with
  | nil => rfl
  | cons p m ih =>
    obtain ⟨k, v⟩ := p
    by_cases hk : k = t
    · simp [LetMap.increment, hk]
    · simp [LetMap.increment, hk, ih]

theorem increment_positive (m : LetMap) (t : Node) (h : ∀ p ∈ m, 1 ≤ p.2.count) :
    ∀ p ∈ m.increment t, 1 ≤ p.2.count := by
  induction m with
  | nil => simp [LetMap.increment]
  | cons p m ih =>
    obtain ⟨k, v⟩ := p
    by_cases hk : k = t
    · simp only [LetMap.increment, hk, if_true, List.mem_cons]
      rintro q (rfl | hq)
      · simp
      · exact h q (List.mem_cons_of_mem _ hq)
    · simp only [LetMap.increment, hk, if_false, List.mem_cons]
      rintro q (rfl | hq)
      · exact h _ (List.mem_cons_self _ _)
      · exact ih (fun p hp => h p (List.mem_cons_of_mem _ hp)) q hq

theorem keys_of_agree (st : BindState)
    (h : st.map.map (fun p => (p.1, p.2.id)) = st.let_order.map (fun e => (e.expr, e.id))) :
    st.map.map (fun p => p.1) = st.keys := by
  have := congrArg (List.map Prod.fst) h
  simpa [BindState.keys, List.map_map, Function.comp_def] using this

theorem revisit_wellFormed (st : BindState) (t : Node) (h : st.WellFormed) :
    (st.revisit t).WellFormed :=
  ⟨by simp only [BindState.revisit, increment_ids]; exact h.agree, h.nodupKeys, h.idsBounded,
    h.nodupIds, increment_positive _ _ h.positive, h.closed⟩

theorem insertNew_wellFormed (st : BindState) (t : Node) (h : st.WellFormed)
    (ht : t ∉ st.keys) (hc : ∀ c ∈ t.children, c ∈ st.keys) : (st.insertNew t).WellFormed := by
  refine ⟨?_, ?_, ?_, ?_, ?_, ?_⟩
  · simp [BindState.insertNew, h.agree]
  · simp only [BindState.keys, BindState.insertNew, List.map_append, List.map_cons, List.map_nil]
    exact List.Nodup.append h.nodupKeys (List.nodup_singleton t)
      (by simpa [BindState.keys] using ht)
  · intro e he
    simp only [BindState.insertNew, List.mem_append, List.mem_singleton] at he
    rcases he with he | he
    · exact Nat.le_succ_of_le (h.idsBounded e he)
    · simp [he, BindState.insertNew]
  · simp only [BindState.insertNew, List.map_append, List.map_cons, List.map_nil]
    refine List.Nodup.append h.nodupIds (List.nodup_singleton _) ?_
    intro x hx hx2
    simp only [List.mem_singleton] at hx2
    subst hx2
    obtain ⟨e, he, heq⟩ := List.mem_map.mp hx
    have := h.idsBounded e he
    omega
  · intro p hp
    simp only [BindState.insertNew, List.mem_append, List.mem_singleton] at hp
    rcases hp with hp | hp
    · exact h.positive p hp
    · simp [hp]
  · intro pre e post hsplit c hcmem
    simp only [BindState.insertNew] at hsplit
    rcases List.eq_nil_or_concat post with hpost | ⟨post1, x, hpost⟩
    · subst hpost
      have h2 := List.append_inj' hsplit rfl
      rw [← h2.1]
      have he : e = ⟨t, st.counter + 1⟩ := by
        have := h2.2
        simp only [List.cons.injEq, and_true] at this
        exact this.symm
      rw [he] at hcmem
      exact hc c hcmem
    · subst hpost
      have hsplit2 : st.let_order ++ [⟨t, st.counter + 1⟩] = (pre ++ e :: post1) ++ [x] := by
        rw [hsplit]
        simp
      have h2 := List.append_inj' hsplit2 rfl
      exact h.closed pre e post1 h2.1 c hcmem

theorem keys_revisit (st : BindState) (t : Node) : (st.revisit t).keys = st.keys := rfl

theorem keys_insertNew (st : BindState) (t : Node) : (st.insertNew t).keys = st.keys ++ [t] := by
  simp [BindState.keys, BindState.insertNew]

theorem find_eq_none_iff_keys (st : BindState) (h : st.WellFormed) (t : Node) :
    st.map.find t = none ↔ t ∉ st.keys := by
  rw [find_eq_none_iff, keys_of_agree st h.agree]

mutual
/-- What `bind` does to a well-formed state: the state stays well-formed, the order is
extended at its end, the term is in the order afterwards, and every new term is at most
as large as the term. -/
theorem bind_spec : ∀ (t : Node) (st : BindState), st.WellFormed →
    (bind t st).WellFormed ∧ (∃ new, (bind t st).let_order = st.let_order ++ new ∧
        ∀ e ∈ new, sizeOf e.expr ≤ sizeOf t) ∧ t ∈ (bind t st).keys
  | .app k op cs, st, h => by
    rw [bind_eq]
    cases hf : st.map.find (.app k op cs) with
    | some lc =>
      simp only []
      refine ⟨revisit_wellFormed st _ h, ⟨[], by simp [BindState.revisit], by simp⟩, ?_⟩
      rw [keys_revisit]
      by_contra hn
      rw [← find_eq_none_iff_keys st h] at hn
      rw [hn] at hf
      cases hf
    | none =>
      simp only [Node.children]
      obtain ⟨hwf, ⟨new, hnew, hsize⟩, hkids⟩ := bindList_spec cs st h
      have hnot : Node.app k op cs ∉ (bindList cs st).keys := by
        intro hmem
        simp only [BindState.keys, Node.children, hnew, List.map_append, List.mem_append] at hmem
        rcases hmem with hmem | hmem
        · exact (find_eq_none_iff_keys st h _).mp hf (by simpa [BindState.keys] using hmem)
        · obtain ⟨e, he, hee⟩ := List.mem_map.mp hmem
          have := hsize e he
          rw [hee] at this
          simp at this
      refine ⟨insertNew_wellFormed _ _ hwf hnot (by simpa [Node.children] using hkids), ?_, ?_⟩
      · refine ⟨new ++ [⟨.app k op cs, (bindList cs st).counter + 1⟩], ?_, ?_⟩
        · simp [BindState.insertNew, hnew]
        · intro e he
          simp only [List.mem_append, List.mem_singleton] at he
          rcases he with he | he
          · have := hsize e he
            simp
            omega
          · simp [he]
      · rw [keys_insertNew]
        simp
  | .null, st, h => by
    rw [bind_eq]
    cases hf : st.map.find .null with
    | some lc =>
      simp only []
      refine ⟨revisit_wellFormed st _ h, ⟨[], by simp [BindState.revisit], by simp⟩, ?_⟩
      rw [keys_revisit]
      by_contra hn
      rw [← find_eq_none_iff_keys st h] at hn
      rw [hn] at hf
      cases hf
    | none =>
      simp only [Node.children, bindList]
      refine ⟨insertNew_wellFormed _ _ h ((find_eq_none_iff_keys st h _).mp hf)
        (by simp [Node.children]), ⟨[⟨.null, st.counter + 1⟩], by simp [BindState.insertNew],
        by simp⟩, ?_⟩
      rw [keys_insertNew]
      simp
  | .leaf k name ty, st, h => by
    rw [bind_eq]
    cases hf : st.map.find (.leaf k name ty) with
    | some lc =>
      simp only []
      refine ⟨revisit_wellFormed st _ h, ⟨[], by simp [BindState.revisit], by simp⟩, ?_⟩
      rw [keys_revisit]
      by_contra hn
      rw [← find_eq_none_iff_keys st h] at hn
      rw [hn] at hf
      cases hf
    | none =>
      simp only [Node.children, bindList]
      refine ⟨insertNew_wellFormed _ _ h ((find_eq_none_iff_keys st h _).mp hf)
        (by simp [Node.children]), ⟨[⟨.leaf k name ty, st.counter + 1⟩],
        by simp [BindState.insertNew], by simp⟩, ?_⟩
      rw [keys_insertNew]
      simp
  | .builtin k, st, h => by
    rw [bind_eq]
    cases hf : st.map.find (.builtin k) with
    | some lc =>
      simp only []
      refine ⟨revisit_wellFormed st _ h, ⟨[], by simp [BindState.revisit], by simp⟩, ?_⟩
      rw [keys_revisit]
      by_contra hn
      rw [← find_eq_none_iff_keys st h] at hn
      rw [hn] at hf
      cases hf
    | none =>
      simp only [Node.children, bindList]
      refine ⟨insertNew_wellFormed _ _ h ((find_eq_none_iff_keys st h _).mp hf)
        (by simp [Node.children]), ⟨[⟨.builtin k, st.counter + 1⟩],
        by simp [BindState.insertNew], by simp⟩, ?_⟩
      rw [keys_insertNew]
      simp
/-- What the loop of `bind` over a list of children does to a well-formed state. -/
theorem bindList_spec : ∀ (cs : List Node) (st : BindState), st.WellFormed →
    (bindList cs st).WellFormed ∧ (∃ new, (bindList cs st).let_order = st.let_order ++ new ∧
        ∀ e ∈ new, sizeOf e.expr ≤ sizeOf cs) ∧ ∀ c ∈ cs, c ∈ (bindList cs st).keys
  | [], st, h => by
    rw [bindList]
    exact ⟨h, ⟨[], by simp, by simp⟩, by simp⟩
  | c :: cs, st, h => by
    rw [bindList]
    obtain ⟨h1, ⟨new1, hnew1, hsize1⟩, hmem1⟩ := bind_spec c st h
    obtain ⟨h2, ⟨new2, hnew2, hsize2⟩, hmem2⟩ := bindList_spec cs (bind c st) h1
    refine ⟨h2, ⟨new1 ++ new2, by rw [hnew2, hnew1, List.append_assoc], ?_⟩, ?_⟩
    · intro e he
      simp only [List.mem_append] at he
      rcases he with he | he
      · have := hsize1 e he
        simp
        omega
      · have := hsize2 e he
        simp
        omega
    · intro x hx
      simp only [List.mem_cons] at hx
      rcases hx with hx | hx
      · subst hx
        simp only [BindState.keys, hnew2, List.map_append, List.mem_append]
        exact Or.inl (by simpa [BindState.keys] using hmem1)
      · exact hmem2 x hx
end
/-! ### Expansion of references in the printers -/

theorem substRefs_nil (σ : Nat → Out) : substRefs σ [] = [] := rfl

theorem substRefs_append (σ : Nat → Out) (a b : Out) :
    substRefs σ (a ++ b) = substRefs σ a ++ substRefs σ b := by
  simp [substRefs, List.flatMap_append]

theorem substRefs_cons (σ : Nat → Out) (c : Chunk) (o : Out) :
    substRefs σ (c :: o) = substRefs σ [c] ++ substRefs σ o := by
  simp [substRefs, List.flatMap_cons]

theorem substRefs_of_noRefs (σ : Nat → Out) : ∀ (o : Out), NoRefs o → substRefs σ o = o
  | [], _ => rfl
  | c :: o, h => by
    rw [substRefs_cons, substRefs_of_noRefs σ o (fun i hi => h i (List.mem_cons_of_mem _ hi))]
    cases c <;> first | rfl | exact absurd (List.mem_cons_self _ _) (h _)

theorem substRefs_str (σ : Nat → Out) (s : String) : substRefs σ [.str s] = [.str s] := rfl

theorem substRefs_replicate (σ : Nat → Out) (n : Nat) (s : String) :
    substRefs σ (List.replicate n (.str s)) = List.replicate n (.str s) :=
  substRefs_of_noRefs σ _ (fun i hi => by
    have := List.eq_of_mem_replicate hi
    cases this)

theorem childOut_expand {σ : Nat → Out} {bs bs' : List (Option Out)} (h : Expands σ bs bs') :
    ∀ (i : Nat) (x : Out), childOut bs i = some x → childOut bs' i = some (substRefs σ x) := by
  induction h with
  | nil => intro i x hx; simp [childOut] at hx
  | cons hb _ ih =>
    intro i x hx
    cases i with
    | zero =>
      simp only [childOut, List.get?_cons_zero, Option.some_bind, id] at hx ⊢
      exact hb x hx
    | succ i =>
      simp only [childOut, List.get?_cons_succ] at hx ⊢
      exact ih i x hx

theorem concatOuts_expand {σ : Nat → Out} {bs bs' : List (Option Out)} (h : Expands σ bs bs') :
    ∀ x, concatOuts bs = some x → concatOuts bs' = some (substRefs σ x) := by
  induction h with
  | nil => intro x hx; cases hx; rfl
  | cons hb _ ih =>
    intro x hx
    simp only [concatOuts, Option.bind_eq_some, Option.some.injEq] at hx
    obtain ⟨a, ha, b, hb2, hx⟩ := hx
    simp only [concatOuts, hb a ha, ih b hb2, Option.some_bind, ← hx, substRefs_append]

theorem printDistinctPair_expand {σ : Nat → Out} {bs bs' : List (Option Out)}
    (h : Expands σ bs bs') (sort : Out) (hs : NoRefs sort) (p : Nat × Nat) (x : Out)
    (hx : printDistinctPair sort bs p = some x) :
    printDistinctPair sort bs' p = some (substRefs σ x) := by
  simp only [printDistinctPair, Option.bind_eq_some, Option.some.injEq] at hx
  obtain ⟨bi, hbi, bj, hbj, hx⟩ := hx
  simp only [printDistinctPair, childOut_expand h _ _ hbi, childOut_expand h _ _ hbj,
    Option.some_bind, ← hx, substRefs_append, substRefs_str, substRefs_of_noRefs σ sort hs]

theorem distinctPairs_expand {σ : Nat → Out} {bs bs' : List (Option Out)}
    (h : Expands σ bs bs') (sort : Out) (hs : NoRefs sort) :
    ∀ (ps : List (Nat × Nat)),
      Expands σ (ps.map (printDistinctPair sort bs)) (ps.map (printDistinctPair sort bs'))
  | [] => List.Forall₂.nil
  | p :: ps =>
    List.Forall₂.cons (fun x hx => printDistinctPair_expand h sort hs p x hx)
      (distinctPairs_expand h sort hs ps)

theorem printChainLinks_expand {σ : Nat → Out} {bs bs' : List (Option Out)}
    (h : Expands σ bs bs') (op : Kind) (n : Nat) :
    ∀ (is : List Nat) (x : Out), printChainLinks op bs n is = some x →
      printChainLinks op bs' n is = some (substRefs σ x)
  | [], x, hx => by
    rw [printChainLinks] at hx ⊢
    cases hx
    rfl
  | i :: is, x, hx => by
    rw [printChainLinks] at hx ⊢
    simp only [Option.bind_eq_some, Option.some.injEq] at hx
    obtain ⟨a, ha, b, hb, rest, hrest, hx⟩ := hx
    simp only [childOut_expand h _ _ ha, childOut_expand h _ _ hb,
      printChainLinks_expand h op n is rest hrest, Option.some_bind, ← hx, substRefs_append]
    by_cases hi : i + 1 < n
    · simp [hi, substRefs, List.flatMap_cons]
    · simp [hi, substRefs, List.flatMap_cons]

theorem arrayPrintSort_noRefs (ty : TypeNode) (s : Out)
    (h : LFSCArrayProof.printSort ty = some s) : NoRefs s := by
  unfold LFSCArrayProof.printSort at h
  split at h
  · cases h
    intro i hi
    simp at hi
  · cases h

theorem printSort_noRefs (env : EngineEnv) (tbl : TheoryProofTable)
    (henv : ∀ ty o, env.ufPrintSort ty = some o → NoRefs o) (ty : TypeNode) (s : Out)
    (h : printSort env tbl ty = some s) : NoRefs s := by
  unfold printSort at h
  split_ifs at h
  · simp only [Option.bind_eq_some] at h
    obtain ⟨_, _, h⟩ := h
    exact henv ty s h
  · simp only [Option.bind_eq_some] at h
    obtain ⟨_, _, h⟩ := h
    exact arrayPrintSort_noRefs ty s h
  · simp only [Option.bind_eq_some, LFSCBooleanProof.printOwnedSort] at h
    obtain ⟨_, _, h⟩ := h
    split_ifs at h
    cases h
    intro i hi
    simp at hi

theorem printCoreTerm_expand (env : EngineEnv) (tbl : TheoryProofTable)
    (henv : ∀ ty o, env.ufPrintSort ty = some o → NoRefs o)
    {σ : Nat → Out} {bs bs' : List (Option Out)} (h : Expands σ bs bs') (term : Node)
    (x : Out) (hx : printCoreTerm env tbl term bs = some x) :
    printCoreTerm env tbl term bs' = some (substRefs σ x) := by
  unfold printCoreTerm at hx ⊢
  by_cases hv : term.isVariable = true
  · simp only [hv, if_true, Option.some.injEq] at hx ⊢
    rw [← hx]
    rfl
  · simp only [hv, Bool.false_eq_true, if_false] at hx ⊢
    by_cases k1 : term.getKind = .ITE
    · simp only [k1, Option.bind_eq_some, Option.some.injEq] at hx ⊢
      obtain ⟨b0, h0, b1, h1, b2, h2, hx⟩ := hx
      simp only [childOut_expand h _ _ h0, childOut_expand h _ _ h1, childOut_expand h _ _ h2,
        Option.some_bind, ← hx, substRefs_append, substRefs_str, Option.some.injEq,
        exists_eq_left']
    by_cases k2 : term.getKind = .EQUAL
    · simp only [k2, Option.bind_eq_some, Option.some.injEq] at hx ⊢
      obtain ⟨c0, hc0, s, hs, b0, h0, b1, h1, hx⟩ := hx
      have hsn := printSort_noRefs env tbl henv _ s hs
      refine ⟨c0, hc0, s, hs, _, childOut_expand h _ _ h0, _, childOut_expand h _ _ h1, ?_⟩
      rw [← hx]
      simp only [substRefs_append, substRefs_of_noRefs σ s hsn]
      rfl
    by_cases k3 : term.getKind = .DISTINCT
    · simp only [k3] at hx ⊢
      by_cases hn : term.getNumChildren < 2
      · simp [hn] at hx
      · simp only [hn, if_false, Option.bind_eq_some] at hx ⊢
        obtain ⟨c0, hc0, s, hs, hx⟩ := hx
        have hsn := printSort_noRefs env tbl henv _ s hs
        refine ⟨c0, hc0, s, hs, ?_⟩
        by_cases h2 : term.getNumChildren = 2
        · simp only [h2, if_true, Option.bind_eq_some, Option.some.injEq] at hx ⊢
          obtain ⟨b0, h0, b1, h1, hx⟩ := hx
          refine ⟨_, childOut_expand h _ _ h0, _, childOut_expand h _ _ h1, ?_⟩
          rw [← hx]
          simp only [substRefs_append, substRefs_str, substRefs_of_noRefs σ s hsn]
        · simp only [h2, if_false, Option.bind_eq_some, Option.some.injEq] at hx ⊢
          obtain ⟨body, hbody, hx⟩ := hx
          refine ⟨_, concatOuts_expand (distinctPairs_expand h s hsn _) body hbody, ?_⟩
          rw [← hx]
          simp only [substRefs_append, substRefs_replicate]
    by_cases k4 : term.getKind = .CHAIN
    · simp only [k4, Option.bind_eq_some, Option.some.injEq] at hx ⊢
      obtain ⟨o, ho, op, hop, body, hbody, hx⟩ := hx
      refine ⟨o, ho, op, hop, _, printChainLinks_expand h op _ _ body hbody, ?_⟩
      rw [← hx]
      simp only [substRefs_append, substRefs_replicate]
    · split at hx <;> contradiction

theorem boolNaryLoop_expand {σ : Nat → Out} {bs bs' : List (Option Out)} (h : Expands σ bs bs')
    (k : Kind) (n : Nat) :
    ∀ (i : Nat) (x : Out), boolNaryLoop k n i bs = some x →
      boolNaryLoop k n i bs' = some (substRefs σ x) := by
  induction h with
  | nil =>
    intro i x hx
    rw [boolNaryLoop] at hx ⊢
    cases hx
    rfl
  | cons hb _ ih =>
    intro i x hx
    rw [boolNaryLoop] at hx ⊢
    simp only [Option.bind_eq_some, Option.some.injEq] at hx
    obtain ⟨a, ha, rest, hrest, hx⟩ := hx
    simp only [hb a ha, ih (i + 1) rest hrest, Option.some_bind, ← hx, substRefs_append]
    by_cases hi : i + 2 < n
    · simp [hi, substRefs, List.flatMap_cons]
    · simp [hi, substRefs, List.flatMap_cons]

theorem boolSmallLoop_expand {σ : Nat → Out} {bs bs' : List (Option Out)}
    (h : Expands σ bs bs') :
    ∀ (x : Out), boolSmallLoop bs = some x → boolSmallLoop bs' = some (substRefs σ x) := by
  induction h with
  | nil =>
    intro x hx
    rw [boolSmallLoop] at hx ⊢
    cases hx
    rfl
  | cons hb _ ih =>
    intro x hx
    rw [boolSmallLoop] at hx ⊢
    simp only [Option.bind_eq_some, Option.some.injEq] at hx
    obtain ⟨a, ha, rest, hrest, hx⟩ := hx
    simp only [hb a ha, ih rest hrest, Option.some_bind, ← hx, substRefs_append, substRefs_str]

theorem boolPrintOwnedTerm_expand {σ : Nat → Out} {bs bs' : List (Option Out)}
    (h : Expands σ bs bs') (term : Node) (x : Out)
    (hx : LFSCBooleanProof.printOwnedTerm term bs = some x) :
    LFSCBooleanProof.printOwnedTerm term bs' = some (substRefs σ x) := by
  unfold LFSCBooleanProof.printOwnedTerm at hx ⊢
  split_ifs at hx ⊢
  · cases hx
    rfl
  · simp only [Option.bind_eq_some, Option.some.injEq] at hx ⊢
    obtain ⟨body, hbody, hx⟩ := hx
    refine ⟨_, boolNaryLoop_expand h _ _ 0 body hbody, ?_⟩
    rw [← hx]
    simp only [substRefs_append, substRefs_replicate]
    rfl
  · simp only [Option.bind_eq_some, Option.some.injEq] at hx ⊢
    obtain ⟨body, hbody, hx⟩ := hx
    refine ⟨_, boolSmallLoop_expand h body hbody, ?_⟩
    rw [← hx]
    simp only [substRefs_append]
    rfl
  · simp only [Option.bind_eq_some, Option.some.injEq] at hx ⊢
    obtain ⟨b, hb, hx⟩ := hx
    refine ⟨b, hb, ?_⟩
    rw [← hx]
    rfl

theorem ufArguments_expand {σ : Nat → Out} {ps ps' : List (Option Out)}
    (h : Expands σ ps ps') :
    ∀ (x : Out), ufArguments ps = some x → ufArguments ps' = some (substRefs σ x) := by
  induction h with
  | nil =>
    intro x hx
    rw [ufArguments] at hx ⊢
    cases hx
    rfl
  | cons hb _ ih =>
    intro x hx
    rw [ufArguments] at hx ⊢
    simp only [Option.bind_eq_some, Option.some.injEq] at hx
    obtain ⟨a, ha, rest, hrest, hx⟩ := hx
    simp only [hb a ha, ih rest hrest, Option.some_bind, ← hx, substRefs_append, substRefs_str]

theorem ufPrintTerm_expand (env : EngineEnv) {σ : Nat → Out} {ps ps' : List (Option Out)}
    (h : Expands σ ps ps') (term : Node) (x : Out)
    (hx : LFSCUFProof.printTerm env term ps = some x) :
    LFSCUFProof.printTerm env term ps' = some (substRefs σ x) := by
  unfold LFSCUFProof.printTerm at hx ⊢
  split_ifs at hx ⊢
  · simp only [Option.bind_eq_some, Option.some.injEq] at hx ⊢
    obtain ⟨func, hfunc, args, hargs, hx⟩ := hx
    refine ⟨func, hfunc, _, ufArguments_expand h args hargs, ?_⟩
    rw [← hx]
    simp only [substRefs_append, substRefs_replicate]
    rfl
  · simp only [Option.bind_eq_some, Option.some.injEq] at hx ⊢
    obtain ⟨func, hfunc, args, hargs, hx⟩ := hx
    refine ⟨func, hfunc, _, ufArguments_expand h args hargs, ?_⟩
    rw [← hx]
    simp only [substRefs_append, substRefs_replicate]
    rfl

theorem arraySorts_noRefs (term : Node) (s : Out) (h : arraySorts term = some s) : NoRefs s := by
  unfold arraySorts at h
  simp only [Option.bind_eq_some] at h
  obtain ⟨a, _, h⟩ := h
  split at h
  · simp only [Option.bind_eq_some, Option.some.injEq] at h
    obtain ⟨si, hsi, sc, hsc, h⟩ := h
    rw [← h]
    intro i hi
    simp only [List.mem_append, List.mem_singleton] at hi
    rcases hi with (hi | hi) | hi
    · exact arrayPrintSort_noRefs _ _ hsi i hi
    · cases hi
    · exact arrayPrintSort_noRefs _ _ hsc i hi
  · cases h

theorem arrayPrintOwned_expand {σ : Nat → Out} {as as' : List (Option Out)}
    (h : Expands σ as as') (term : Node) (x : Out)
    (hx : LFSCArrayProof.printOwned term as = some x) :
    LFSCArrayProof.printOwned term as' = some (substRefs σ x) := by
  unfold LFSCArrayProof.printOwned at hx ⊢
  by_cases hv : term.getKind = .VARIABLE ∨ term.getKind = .SKOLEM
  · simp only [hv, if_true, Option.some.injEq] at hx ⊢
    rw [← hx]
    rfl
  · simp only [hv, if_false] at hx ⊢
    by_cases k1 : term.getKind = .SELECT
    · simp only [k1] at hx ⊢
      split_ifs at hx ⊢
      simp only [Option.bind_eq_some, Option.some.injEq] at hx ⊢
      obtain ⟨s, hs, a0, h0, a1, h1, hx⟩ := hx
      refine ⟨s, hs, _, childOut_expand h _ _ h0, _, childOut_expand h _ _ h1, ?_⟩
      rw [← hx]
      simp only [substRefs_append, substRefs_str, substRefs_of_noRefs σ s (arraySorts_noRefs _ _ hs)]
    by_cases k2 : term.getKind = .PARTIAL_SELECT_0
    · simp only [k2] at hx ⊢
      split_ifs at hx ⊢
      simp only [Option.bind_eq_some, Option.some.injEq] at hx ⊢
      obtain ⟨s, hs, hx⟩ := hx
      refine ⟨s, hs, ?_⟩
      rw [← hx]
      simp only [substRefs_append, substRefs_str, substRefs_of_noRefs σ s (arraySorts_noRefs _ _ hs)]
    by_cases k3 : term.getKind = .STORE
    · simp only [k3, Option.bind_eq_some, Option.some.injEq] at hx ⊢
      obtain ⟨s, hs, a0, h0, a1, h1, a2, h2, hx⟩ := hx
      refine ⟨s, hs, _, childOut_expand h _ _ h0, _, childOut_expand h _ _ h1, _,
        childOut_expand h _ _ h2, ?_⟩
      rw [← hx]
      simp only [substRefs_append, substRefs_str, substRefs_of_noRefs σ s (arraySorts_noRefs _ _ hs)]
    · split at hx <;> contradiction
theorem printDispatch_expand (env : EngineEnv) (tbl : TheoryProofTable)
    (henv : ∀ ty o, env.ufPrintSort ty = some o → NoRefs o)
    {σ : Nat → Out} {bs bs' ps ps' as as' : List (Option Out)}
    (hb : Expands σ bs bs') (hp : Expands σ ps ps') (ha : Expands σ as as') (term : Node)
    (x : Out) (hx : printDispatch env tbl term bs ps as = some x) :
    printDispatch env tbl term bs' ps' as' = some (substRefs σ x) := by
  unfold printDispatch at hx ⊢
  split_ifs at hx ⊢
  · exact printCoreTerm_expand env tbl henv hb term x hx
  · split at hx
    · simp only [Option.bind_eq_some] at hx ⊢
      obtain ⟨b, hbt, hx⟩ := hx
      exact ⟨b, hbt, boolPrintOwnedTerm_expand hb term x hx⟩
    · simp only [Option.bind_eq_some] at hx ⊢
      obtain ⟨u, hu, hx⟩ := hx
      exact ⟨u, hu, ufPrintTerm_expand env hp term x hx⟩
    · simp only [Option.bind_eq_some] at hx ⊢
      obtain ⟨a, hau, hx⟩ := hx
      exact ⟨a, hau, arrayPrintOwned_expand ha term x hx⟩
    · cases hx

theorem printBoundWith_nil (c : Node) (inline : Option Out) :
    printBoundWith [] c inline = inline := rfl

theorem expands_nil (σ : Nat → Out) : Expands σ [] [] := List.Forall₂.nil

mutual
/-- Expanding the references in the text of a term gives its text without sharing, when
the expansion is right on a set of terms that holds the children of the term and is
closed under children. -/
theorem printTheoryTerm_expand (env : EngineEnv) (tbl : TheoryProofTable)
    (henv : ∀ ty o, env.ufPrintSort ty = some o → NoRefs o) (σ : Nat → Out) :
    ∀ (t : Node) (map : LetMap) (D : Node → Prop),
      (∀ x, D x → ∀ c ∈ x.children, D c) → GoodOn env tbl σ map D →
      (∀ c ∈ t.children, D c) → ∀ x, printTheoryTerm env tbl map t = some x →
      printTheoryTerm env tbl [] t = some (substRefs σ x)
  | .app k op cs, map, D, hD, hg, hc, x, hx => by
    rw [printTheoryTerm] at hx ⊢
    exact printDispatch_expand env tbl henv
      (printBoundList_expand env tbl henv σ cs map D hD hg hc)
      (printPlainList_expand env tbl henv σ cs)
      (arrayPrintList_expand env tbl henv σ cs map D hD hg hc) _ x hx
  | .null, map, D, hD, hg, hc, x, hx => by
    rw [printTheoryTerm] at hx ⊢
    exact printDispatch_expand env tbl henv (expands_nil σ) (expands_nil σ) (expands_nil σ) _ x hx
  | .leaf k name ty, map, D, hD, hg, hc, x, hx => by
    rw [printTheoryTerm] at hx ⊢
    exact printDispatch_expand env tbl henv (expands_nil σ) (expands_nil σ) (expands_nil σ) _ x hx
  | .builtin k, map, D, hD, hg, hc, x, hx => by
    rw [printTheoryTerm] at hx ⊢
    exact printDispatch_expand env tbl henv (expands_nil σ) (expands_nil σ) (expands_nil σ) _ x hx
theorem printBoundList_expand (env : EngineEnv) (tbl : TheoryProofTable)
    (henv : ∀ ty o, env.ufPrintSort ty = some o → NoRefs o) (σ : Nat → Out) :
    ∀ (cs : List Node) (map : LetMap) (D : Node → Prop),
      (∀ x, D x → ∀ c ∈ x.children, D c) → GoodOn env tbl σ map D →
      (∀ c ∈ cs, D c) →
      Expands σ (printBoundList env tbl map cs) (printBoundList env tbl [] cs)
  | [], map, D, hD, hg, hc => by
    rw [printBoundList, printBoundList]
    exact List.Forall₂.nil
  | c :: cs, map, D, hD, hg, hc => by
    rw [printBoundList, printBoundList]
    refine List.Forall₂.cons ?_
      (printBoundList_expand env tbl henv σ cs map D hD hg
        (fun c' hc' => hc c' (List.mem_cons_of_mem _ hc')))
    intro x hx
    rw [printBoundWith_nil]
    have hDc : D c := hc c (List.mem_cons_self _ _)
    unfold printBoundWith at hx
    cases hf : map.find c with
    | none =>
      simp only [hf] at hx
      exact printTheoryTerm_expand env tbl henv σ c map D hD hg (hD c hDc) x hx
    | some lc =>
      simp only [hf] at hx
      by_cases hcount : lc.count > LET_COUNT
      · simp only [hcount, if_true, Option.some.injEq] at hx
        rw [← hx, hg c hDc lc hf hcount]
        simp [substRefs]
      · simp only [hcount, if_false] at hx
        exact printTheoryTerm_expand env tbl henv σ c map D hD hg (hD c hDc) x hx
theorem printPlainList_expand (env : EngineEnv) (tbl : TheoryProofTable)
    (henv : ∀ ty o, env.ufPrintSort ty = some o → NoRefs o) (σ : Nat → Out) :
    ∀ (cs : List Node), Expands σ (printPlainList env tbl cs) (printPlainList env tbl cs)
  | [] => by
    rw [printPlainList]
    exact List.Forall₂.nil
  | c :: cs => by
    rw [printPlainList]
    refine List.Forall₂.cons ?_ (printPlainList_expand env tbl henv σ cs)
    intro x hx
    exact printTheoryTerm_expand env tbl henv σ c [] (fun _ => True) (fun _ _ _ _ => trivial)
      (fun c _ lc hf _ => by simp [LetMap.find] at hf) (fun _ _ => trivial) x hx
theorem arrayPrintTerm_expand (env : EngineEnv) (tbl : TheoryProofTable)
    (henv : ∀ ty o, env.ufPrintSort ty = some o → NoRefs o) (σ : Nat → Out) :
    ∀ (t : Node) (map : LetMap) (D : Node → Prop),
      (∀ x, D x → ∀ c ∈ x.children, D c) → GoodOn env tbl σ map D →
      (∀ c ∈ t.children, D c) → ∀ x, arrayPrintTerm env tbl map t = some x →
      arrayPrintTerm env tbl [] t = some (substRefs σ x)
  | .app k op cs, map, D, hD, hg, hc, x, hx => by
    rw [arrayPrintTerm] at hx ⊢
    exact arrayPrintOwned_expand
      (arrayPrintList_expand env tbl henv σ cs map D hD hg hc) _ x hx
  | .null, map, D, hD, hg, hc, x, hx => by
    rw [arrayPrintTerm] at hx ⊢
    exact arrayPrintOwned_expand (expands_nil σ) _ x hx
  | .leaf k name ty, map, D, hD, hg, hc, x, hx => by
    rw [arrayPrintTerm] at hx ⊢
    exact arrayPrintOwned_expand (expands_nil σ) _ x hx
  | .builtin k, map, D, hD, hg, hc, x, hx => by
    rw [arrayPrintTerm] at hx ⊢
    exact arrayPrintOwned_expand (expands_nil σ) _ x hx
theorem arrayPrintList_expand (env : EngineEnv) (tbl : TheoryProofTable)
    (henv : ∀ ty o, env.ufPrintSort ty = some o → NoRefs o) (σ : Nat → Out) :
    ∀ (cs : List Node) (map : LetMap) (D : Node → Prop),
      (∀ x, D x → ∀ c ∈ x.children, D c) → GoodOn env tbl σ map D →
      (∀ c ∈ cs, D c) →
      Expands σ (arrayPrintList env tbl map cs) (arrayPrintList env tbl [] cs)
  | [], map, D, hD, hg, hc => by
    rw [arrayPrintList, arrayPrintList]
    exact List.Forall₂.nil
  | c :: cs, map, D, hD, hg, hc => by
    rw [arrayPrintList, arrayPrintList]
    refine List.Forall₂.cons ?_
      (arrayPrintList_expand env tbl henv σ cs map D hD hg
        (fun c' hc' => hc c' (List.mem_cons_of_mem _ hc')))
    intro x hx
    have hDc : D c := hc c (List.mem_cons_self _ _)
    by_cases hth : env.theoryOf c ≠ .THEORY_ARRAY
    · rw [if_pos hth] at hx ⊢
      rw [printBoundWith_nil]
      unfold printBoundWith at hx
      cases hf : map.find c with
      | none =>
        simp only [hf] at hx
        exact printTheoryTerm_expand env tbl henv σ c map D hD hg (hD c hDc) x hx
      | some lc =>
        simp only [hf] at hx
        by_cases hcount : lc.count > LET_COUNT
        · simp only [hcount, if_true, Option.some.injEq] at hx
          rw [← hx, hg c hDc lc hf hcount]
          simp [substRefs]
        · simp only [hcount, if_false] at hx
          exact printTheoryTerm_expand env tbl henv σ c map D hD hg (hD c hDc) x hx
    · rw [if_neg hth] at hx ⊢
      exact arrayPrintTerm_expand env tbl henv σ c map D hD hg (hD c hDc) x hx
end
theorem empty_wellFormed (counter : Nat) : (⟨[], [], counter⟩ : BindState).WellFormed :=
  ⟨rfl, List.nodup_nil, by simp, List.nodup_nil, by simp, by simp⟩

theorem find_order_mem (st : BindState) (h : st.WellFormed) (c : Node) (lc : LetCount)
    (hf : st.map.find c = some lc) : (⟨c, lc.id⟩ : LetOrderElement) ∈ st.let_order := by
  have h1 : (c, lc.id) ∈ st.map.map (fun p => (p.1, p.2.id)) :=
    List.mem_map.mpr ⟨(c, lc), find_mem _ _ _ hf, rfl⟩
  rw [h.agree] at h1
  obtain ⟨e, he, heq⟩ := List.mem_map.mp h1
  simp only [Prod.mk.injEq] at heq
  obtain ⟨e1, e2⟩ := e
  simp only at heq
  rw [← heq.1, ← heq.2]
  exact he

theorem order_eq_of_expr (st : BindState) (h : st.WellFormed) (e1 e2 : LetOrderElement)
    (h1 : e1 ∈ st.let_order) (h2 : e2 ∈ st.let_order) (heq : e1.expr = e2.expr) : e1 = e2 :=
  List.inj_on_of_nodup_map h.nodupKeys h1 h2 heq

theorem order_eq_of_id (st : BindState) (h : st.WellFormed) (e1 e2 : LetOrderElement)
    (h1 : e1 ∈ st.let_order) (h2 : e2 ∈ st.let_order) (heq : e1.id = e2.id) : e1 = e2 :=
  List.inj_on_of_nodup_map h.nodupIds h1 h2 heq

theorem find_append_new (m : LetMap) (t : Node) (v : LetCount)
    (h : t ∉ m.map (fun p => p.1)) : LetMap.find (m ++ [(t, v)]) t = some v := by
  induction m with
  | nil => simp [LetMap.find]
  | cons p m ih =>
    obtain ⟨k, w⟩ := p
    simp only [List.map_cons, List.mem_cons, not_or] at h
    have hk : ¬ k = t := fun e => h.1 e.symm
    simp only [List.cons_append, LetMap.find, hk, if_false]
    exact ih h.2

/-- After `bind` on a term from the empty state, the term is the last entry of the order
and its count is one. -/
theorem bind_root (counter : Nat) (t : Node) :
    ∃ id, (bind t ⟨[], [], counter⟩).let_order.getLast? = some ⟨t, id⟩ ∧
      (bind t ⟨[], [], counter⟩).map.find t = some ⟨id, 1⟩ := by
  have hwf := (bind_spec t ⟨[], [], counter⟩ (empty_wellFormed counter)).1
  rw [bind_eq] at hwf ⊢
  simp only [LetMap.find] at hwf ⊢
  refine ⟨(bindList t.children ⟨[], [], counter⟩).counter + 1, ?_, ?_⟩
  · simp [BindState.insertNew]
  · have hk := hwf.nodupKeys
    rw [keys_insertNew] at hk
    have hnot : t ∉ (bindList t.children ⟨[], [], counter⟩).keys := by
      intro hmem
      have := List.disjoint_of_nodup_append hk hmem
      simp at this
    have hwf' := (bindList_spec t.children ⟨[], [], counter⟩ (empty_wellFormed counter)).1
    simp only [BindState.insertNew]
    exact find_append_new _ _ _ (by rw [keys_of_agree _ hwf'.agree]; exact hnot)

/-- The loop of `printLetTerm` writes the binders of `letBinders`, each opened before its
body, and one closing parenthesis per binder. -/
theorem printLetBinders_eq (env : EngineEnv) (tbl : TheoryProofTable) (map : LetMap) :
    ∀ (order : List LetOrderElement) (r : Out × Out),
      printLetBinders env tbl map order = some r →
      ∃ binders, letBinders env tbl map order = some binders ∧
        r.1 = binders.flatMap (fun b => .letOpen b.1 :: b.2) ∧
        r.2 = List.replicate binders.length (.str ")")
  | [], r, h => by
    rw [printLetBinders] at h
    cases h
    exact ⟨[], rfl, rfl, rfl⟩
  | e :: es, r, h => by
    rw [printLetBinders] at h
    rw [letBinders]
    simp only [Option.bind_eq_some] at h ⊢
    obtain ⟨lc, hlc, h⟩ := h
    by_cases h0 : lc.count = 0
    · simp [h0] at h
    · simp only [h0, if_false] at h
      by_cases h1 : lc.count ≤ LET_COUNT
      · simp only [h1, if_true] at h
        obtain ⟨binders, hb, hr1, hr2⟩ := printLetBinders_eq env tbl map es r h
        exact ⟨binders, ⟨lc, hlc, by simp [h0, h1, hb]⟩, hr1, hr2⟩
      · simp only [h1, if_false, Option.bind_eq_some, Option.some.injEq] at h
        obtain ⟨body, hbody, r1, hr, h⟩ := h
        obtain ⟨binders, hb, hr1, hr2⟩ := printLetBinders_eq env tbl map es r1 hr
        refine ⟨(e.id, body) :: binders, ⟨lc, hlc, by simp [h0, h1, hbody, hb]⟩, ?_, ?_⟩
        · rw [← h]
          simp [hr1]
        · rw [← h]
          simp [hr2, List.replicate_succ]

/-- Expanding the binders in order keeps the expansion right: after the binders of a
suffix of the order have been expanded, the text of every shared term of the order is its
text without sharing. -/
theorem letBinders_expand (env : EngineEnv) (tbl : TheoryProofTable)
    (henv : ∀ ty o, env.ufPrintSort ty = some o → NoRefs o) (st : BindState)
    (hwf : st.WellFormed) :
    ∀ (rest pre : List LetOrderElement) (σ : Nat → Out) (binders : List (Nat × Out)),
      st.let_order = pre ++ rest → letBinders env tbl st.map rest = some binders →
      GoodOn env tbl σ st.map (fun c => c ∈ pre.map (fun e => e.expr)) →
      ∃ σ', GoodOn env tbl σ' st.map (fun c => c ∈ st.keys) ∧
        ∀ root, inlineLetsFrom σ binders root = substRefs σ' root
  | [], pre, σ, binders, hsplit, hb, hg => by
    rw [letBinders] at hb
    cases hb
    refine ⟨σ, ?_, fun root => rfl⟩
    simpa [BindState.keys, hsplit] using hg
  | e :: rest, pre, σ, binders, hsplit, hb, hg => by
    have hsplit' : st.let_order = (pre ++ [e]) ++ rest := by simp [hsplit]
    have he : e ∈ st.let_order := by simp [hsplit]
    have hclosedPre : ∀ x, x ∈ pre.map (fun e => e.expr) →
        ∀ c ∈ x.children, c ∈ pre.map (fun e => e.expr) := by
      intro x hx c hc
      obtain ⟨e', he', hxe⟩ := List.mem_map.mp hx
      obtain ⟨p1, p2, hp⟩ := List.append_of_mem he'
      have := hwf.closed p1 e' (p2 ++ e :: rest) (by rw [hsplit, hp]; simp) c (hxe ▸ hc)
      rw [hp]
      simp only [List.map_append, List.mem_append]
      exact Or.inl this
    have hkids : ∀ c ∈ e.expr.children, c ∈ pre.map (fun e => e.expr) :=
      hwf.closed pre e rest hsplit
    have hnotpre : e.expr ∉ pre.map (fun e => e.expr) := by
      have hk := hwf.nodupKeys
      simp only [BindState.keys, hsplit, List.map_append, List.map_cons] at hk
      intro hmem
      exact List.disjoint_of_nodup_append hk hmem (List.mem_cons_self _ _)
    rw [letBinders] at hb
    simp only [Option.bind_eq_some] at hb
    obtain ⟨lc, hlc, hb⟩ := hb
    have hid : lc.id = e.id := by
      have h1 := find_order_mem st hwf e.expr lc hlc
      have := order_eq_of_expr st hwf _ _ h1 he rfl
      rw [← this]
    by_cases h0 : lc.count = 0
    · simp [h0] at hb
    · simp only [h0, if_false] at hb
      by_cases h1 : lc.count ≤ LET_COUNT
      · simp only [h1, if_true] at hb
        refine letBinders_expand env tbl henv st hwf rest (pre ++ [e]) σ binders hsplit' hb ?_
        intro c hc lc' hf hcount
        simp only [List.map_append, List.map_cons, List.map_nil, List.mem_append,
          List.mem_singleton] at hc
        rcases hc with hc | hc
        · exact hg c hc lc' hf hcount
        · rw [hc, hlc] at hf
          cases hf
          omega
      · simp only [h1, if_false, Option.bind_eq_some, Option.some.injEq] at hb
        obtain ⟨body, hbody, r, hr, hb⟩ := hb
        have hplain := printTheoryTerm_expand env tbl henv σ e.expr st.map _ hclosedPre hg hkids
          body hbody
        obtain ⟨σ', hg', hall⟩ := letBinders_expand env tbl henv st hwf rest (pre ++ [e])
          (fun i => if i = e.id then substRefs σ body else σ i) r hsplit' hr (by
            intro c hc lc' hf hcount
            simp only [List.map_append, List.map_cons, List.map_nil, List.mem_append,
              List.mem_singleton] at hc
            rcases hc with hc | hc
            · have hne : lc'.id ≠ e.id := by
                intro heq
                have h1 := find_order_mem st hwf c lc' hf
                have := order_eq_of_id st hwf _ _ h1 he heq
                have hce : c = e.expr := by rw [← this]
                exact hnotpre (hce ▸ hc)
              simp only [hne, if_false]
              exact hg c hc lc' hf hcount
            · rw [hc, hlc] at hf
              cases hf
              simp only [hid, if_true]
              rw [hc]
              exact hplain)
        refine ⟨σ', hg', fun root => ?_⟩
        rw [← hb, inlineLetsFrom]
        exact hall root
/-- C5: sharing is semantics-preserving.  Whenever `printLetTerm` returns for a term, its
text consists of the binders of the shared subterms, the text of the root and one closing
parenthesis per binder, and replacing every reference `let<id>` by the body of its binder
and removing the binders yields exactly the text that printing the term with an empty
sharing map produces (the UF certifier's sort printer, which is not part of the sources,
is taken to write no reference). -/
theorem sharing_preserves_text (env : EngineEnv) (tbl : TheoryProofTable)
    (henv : ∀ ty o, env.ufPrintSort ty = some o → NoRefs o) (counter : Nat) (t : Node)
    (out : Out) (h : printLetTerm env tbl counter t = some out) :
    ∃ binders root,
      letBinders env tbl (bind t ⟨[], [], counter⟩).map (bind t ⟨[], [], counter⟩).let_order =
        some binders ∧
      printLetRoot env tbl (bind t ⟨[], [], counter⟩).map (bind t ⟨[], [], counter⟩).let_order =
        some root ∧
      out = renderLets binders root ∧
      printBoundTerm env tbl [] t = some (inlineLets binders root) := by
  have hwf := (bind_spec t ⟨[], [], counter⟩ (empty_wellFormed counter)).1
  obtain ⟨id, hlast, hfind⟩ := bind_root counter t
  unfold printLetTerm at h
  simp only [Option.bind_eq_some, Option.some.injEq] at h
  obtain ⟨r, hr, root, hroot, hout⟩ := h
  obtain ⟨binders, hb, hr1, hr2⟩ := printLetBinders_eq env tbl _ _ r hr
  refine ⟨binders, root, hb, hroot, by rw [← hout, hr1, hr2]; rfl, ?_⟩
  have hrootEq : printTheoryTerm env tbl (bind t ⟨[], [], counter⟩).map t = some root := by
    unfold printLetRoot at hroot
    simp only [hlast, Option.some_bind, hfind] at hroot
    simpa [LET_COUNT] using hroot
  obtain ⟨σ', hg', hall⟩ := letBinders_expand env tbl henv _ hwf
    (bind t ⟨[], [], counter⟩).let_order [] (fun i => [.letRef i]) binders rfl hb
    (fun c hc => by simp at hc)
  have hmemLast : (⟨t, id⟩ : LetOrderElement) ∈ (bind t ⟨[], [], counter⟩).let_order :=
    List.mem_of_getLast?_eq_some hlast
  have hclosed : ∀ x, x ∈ (bind t ⟨[], [], counter⟩).keys →
      ∀ c ∈ x.children, c ∈ (bind t ⟨[], [], counter⟩).keys := by
    intro x hx c hc
    obtain ⟨e, he, hxe⟩ := List.mem_map.mp hx
    obtain ⟨p1, p2, hp⟩ := List.append_of_mem he
    have := hwf.closed p1 e p2 hp c (hxe ▸ hc)
    simp only [BindState.keys, hp, List.map_append, List.mem_append]
    exact Or.inl this
  have hkids : ∀ c ∈ t.children, c ∈ (bind t ⟨[], [], counter⟩).keys :=
    hclosed t (List.mem_map.mpr ⟨_, hmemLast, rfl⟩)
  have := printTheoryTerm_expand env tbl henv σ' t _ _ hclosed hg' hkids root hrootEq
  unfold printBoundTerm
  rw [printBoundWith_nil, this, inlineLets, hall]

theorem sharing_preserves_text_witness :
    (∀ ty o, exampleEngineEnv.ufPrintSort ty = some o → NoRefs o) ∧
      ∃ out, printLetTerm exampleEngineEnv fullTable 0 sharedUnderDistinct = some out ∧
        ∃ binders root,
          letBinders exampleEngineEnv fullTable (bind sharedUnderDistinct ⟨[], [], 0⟩).map
            (bind sharedUnderDistinct ⟨[], [], 0⟩).let_order = some binders ∧
          printLetRoot exampleEngineEnv fullTable (bind sharedUnderDistinct ⟨[], [], 0⟩).map
            (bind sharedUnderDistinct ⟨[], [], 0⟩).let_order = some root ∧
          out = renderLets binders root ∧
          printBoundTerm exampleEngineEnv fullTable [] sharedUnderDistinct =
            some (inlineLets binders root) :=
  ⟨fun ty o h i hi => by
      simp only [exampleEngineEnv, Option.some.injEq] at h
      rw [← h] at hi
      simp at hi,
    _, rfl,
    sharing_preserves_text exampleEngineEnv fullTable
      (fun ty o h i hi => by
        simp only [exampleEngineEnv, Option.some.injEq] at h
        rw [← h] at hi
        simp at hi)
      0 sharedUnderDistinct _ rfl⟩

/-! ## The trusted placeholder, the rewrite filters and the theory table -/

/-- C11 (fails as stated): a certifier of a theory for which the base method has neither a
replay nor a branch of its own, here a theory other than UF, bit-vectors, arrays and
arithmetic, does not get the placeholder: the base method raises an internal error and
writes nothing. -/
theorem unsupported_theory_is_an_internal_error :
    TheoryProof.printTheoryLemmaProof (exampleLemmaEnv false) (some .THEORY_OTHER)
      [Node.mkEqual varA varB] [] = none := rfl

/-- C11 (amended): when no stored eager proof is printed for the lemma, the method of the
base class writes the placeholder ` (clausify_false trust)` and returns for the arithmetic
theory, whatever the lemma and the rewrite filters are, and so does the lookup of the
arithmetic certifier in the table; for a certifier without a theory and for every theory
other than UF, bit-vectors, arrays and arithmetic it is an internal error.  The UF
certifier of `uf_proof.cpp` writes the placeholder for every lemma.  A stored eager proof
is printed instead of everything else. -/
theorem trusted_placeholder_only_for_arithmetic (env : LemmaEnv) (lits : List Node)
    (filters : List (Chunk × Out))
    (h : env.eagerProofs = false ∨ env.eagerConflictToProof (conflictSet lits) = none) :
    TheoryProof.printTheoryLemmaProof env (some .THEORY_ARITH) lits filters =
        some ([.str " (clausify_false trust)"], []) ∧
      (∀ tbl p, tbl.arith = some p →
        printTheoryLemmaProof env tbl .THEORY_ARITH lits filters =
          some ([.str " (clausify_false trust)"], [])) ∧
      (∀ id, id ≠ .THEORY_UF → id ≠ .THEORY_BV → id ≠ .THEORY_ARRAY → id ≠ .THEORY_ARITH →
        TheoryProof.printTheoryLemmaProof env (some id) lits filters = none) ∧
      TheoryProof.printTheoryLemmaProof env none lits filters = none ∧
      LFSCUFProof.printTheoryLemmaProof lits =
        [.str " ;; UF Theory Lemma \n", .str " (clausify_false trust)"] ∧
      (∀ (env2 : LemmaEnv) proof th, env2.eagerProofs = true →
        env2.eagerConflictToProof (conflictSet lits) = some proof →
        TheoryProof.printTheoryLemmaProof env2 th lits filters = some (proof, [])) := by
  have h0 : (if env.eagerProofs = true then env.eagerConflictToProof (conflictSet lits)
      else none) = none := by
    rcases h with h | h
    · simp [h]
    · simp [h]
  have harith : TheoryProof.printTheoryLemmaProof env (some .THEORY_ARITH) lits filters =
      some ([.str " (clausify_false trust)"], []) := by
    unfold TheoryProof.printTheoryLemmaProof
    rw [h0]
  refine ⟨harith, ?_, ?_, ?_, rfl, ?_⟩
  · intro tbl p hp
    unfold printTheoryLemmaProof getTheoryProof
    simp only [TheoryProofTable.find, hp, Option.map_some', reduceCtorEq, if_false]
    exact harith
  · intro id h1 h2 h3 h4
    unfold TheoryProof.printTheoryLemmaProof
    rw [h0]
    cases id <;> first | rfl | contradiction
  · unfold TheoryProof.printTheoryLemmaProof
    rw [h0]
  · intro env2 proof th he hp
    unfold TheoryProof.printTheoryLemmaProof
    simp only [he, if_true, hp]

theorem trusted_placeholder_only_for_arithmetic_witness :
    TheoryProof.printTheoryLemmaProof (exampleLemmaEnv false) (some .THEORY_ARITH)
        [Node.mkEqual varA varB] [] = some ([.str " (clausify_false trust)"], []) :=
  (trusted_placeholder_only_for_arithmetic (exampleLemmaEnv false) [Node.mkEqual varA varB] []
    (Or.inl rfl)).1

theorem mem_setRewriteFilter (key : Chunk) (text : Out) (m : List (Chunk × Out))
    (kv : Chunk × Out) (h : kv ∈ setRewriteFilter key text m) : kv = (key, text) ∨ kv ∈ m := by
  induction m with
  | nil =>
    simp only [setRewriteFilter, List.mem_singleton] at h
    exact Or.inl h
  | cons x m ih =>
    obtain ⟨k, v⟩ := x
    simp only [setRewriteFilter] at h
    by_cases hk : k = key
    · simp only [hk, if_true, List.mem_cons] at h
      rcases h with h | h
      · exact Or.inl h
      · exact Or.inr (List.mem_cons_of_mem _ h)
    · simp only [hk, if_false, List.mem_cons] at h
      rcases h with h | h
      · exact Or.inr (h ▸ List.mem_cons_self _ _)
      · rcases ih h with h | h
        · exact Or.inl h
        · exact Or.inr (List.mem_cons_of_mem _ h)

/-- The filters in force after the loop over the missing assertions are those that were
in force before and those of the missing assertions of the loop. -/
theorem patchMissingAssertions_filters (recipe : LemmaProofRecipe) :
    ∀ (ms clause : List Node) (st : LemmaState) (p : List Node × LemmaState),
      patchMissingAssertions recipe ms clause st = some p →
      ∀ kv ∈ p.2.d_rewriteFilters,
        kv ∈ st.d_rewriteFilters ∨ ∃ m ∈ ms, kv.1 = .litName m
  | [], clause, st, p, h, kv, hkv => by
    simp only [patchMissingAssertions, Option.some.injEq] at h
    subst h
    exact Or.inl hkv
  | m :: ms, clause, st, p, h, kv, hkv => by
    simp only [patchMissingAssertions] at h
    split_ifs at h
    simp only [Option.bind_eq_some] at h
    obtain ⟨e, _, k, _, h⟩ := h
    rcases patchMissingAssertions_filters recipe ms _ _ p h kv hkv with h1 | ⟨m2, hm2, h2⟩
    · rcases mem_setRewriteFilter _ _ _ _ h1 with h3 | h3
      · exact Or.inr ⟨m, List.mem_cons_self _ _, by rw [h3]⟩
      · exact Or.inl h3
    · exact Or.inr ⟨m2, List.mem_cons_of_mem _ hm2, h2⟩

theorem printCompositeStep_filters (env : LemmaEnv) (tbl : TheoryProofTable) (id : Nat)
    (clause : SatClause) (ce : List Node) (recipe : LemmaProofRecipe) (i : Nat)
    (step : ProofStep) (st : LemmaState) (r : Out × Out × LemmaState)
    (h : printCompositeStep env tbl id clause ce recipe i step st = some r) :
    r.2.2.d_rewriteFilters = [] := by
  simp only [printCompositeStep, Option.bind_eq_some, Option.some.injEq] at h
  obtain ⟨p, _, t, _, h⟩ := h
  rw [← h]

theorem printCompositeSteps_filters (env : LemmaEnv) (tbl : TheoryProofTable) (id : Nat)
    (clause : SatClause) (ce : List Node) (recipe : LemmaProofRecipe) :
    ∀ (steps : List ProofStep) (i : Nat) (st : LemmaState) (r : Out × Out × LemmaState),
      printCompositeSteps env tbl id clause ce recipe i steps st = some r → steps ≠ [] →
      r.2.2.d_rewriteFilters = []
  | [], _, _, _, _, hne => absurd rfl hne
  | step :: steps, i, st, r, h, _ => by
    simp only [printCompositeSteps, Option.bind_eq_some, Option.some.injEq] at h
    obtain ⟨r1, h1, rs, h2, h⟩ := h
    rw [← h]
    cases steps with
    | nil =>
      simp only [printCompositeSteps, Option.some.injEq] at h2
      rw [← h2]
      exact printCompositeStep_filters env tbl id clause ce recipe i step st r1 h1
    | cons s2 rest =>
      exact printCompositeSteps_filters env tbl id clause ce recipe (s2 :: rest) (i + 1) _ rs h2
        (List.cons_ne_nil _ _)

theorem printSimpleLemma_filters (env : LemmaEnv) (tbl : TheoryProofTable) (id : Nat)
    (clause : SatClause) (ce : List Node) (recipe : LemmaProofRecipe) (st : LemmaState)
    (r : Out × Out × LemmaState)
    (h : printSimpleLemma env tbl id clause ce recipe st = some r) :
    r.2.2.d_rewriteFilters = [] := by
  simp only [printSimpleLemma, Option.bind_eq_some, Option.some.injEq] at h
  obtain ⟨_, _, p, _, t, _, h⟩ := h
  rw [← h]

theorem printTheoryLemma_filters (env : LemmaEnv) (tbl : TheoryProofTable)
    (l : Nat × SatClause) (st : LemmaState) (r : Out × Out × LemmaState)
    (h : printTheoryLemma env tbl l st = some r) : r.2.2.d_rewriteFilters = [] := by
  simp only [printTheoryLemma, Option.bind_eq_some] at h
  obtain ⟨ce, _, h⟩ := h
  split_ifs at h
  · exact printSimpleLemma_filters _ _ _ _ _ _ _ _ h
  · simp only [printCompositeLemma, Option.bind_eq_some] at h
    obtain ⟨r1, h1, h⟩ := h
    split_ifs at h with hn
    simp only [Option.some.injEq] at h
    rw [← h]
    refine printCompositeSteps_filters _ _ _ _ _ _ _ _ _ r1 h1 ?_
    intro hnil
    apply hn
    simp [LemmaProofRecipe.getNumSteps, hnil]

theorem printTheoryLemmaLoop_split (env : LemmaEnv) (tbl : TheoryProofTable) :
    ∀ (pre post : List (Nat × SatClause)) (st : LemmaState) (r : Out × Out × LemmaState),
      printTheoryLemmaLoop env tbl (pre ++ post) st = some r →
      ∃ r1 r2, printTheoryLemmaLoop env tbl pre st = some r1 ∧
        printTheoryLemmaLoop env tbl post r1.2.2 = some r2 ∧
        r = (r1.1 ++ r2.1, r1.2.1 ++ r2.2.1, r2.2.2) ∧
        (pre ≠ [] → r1.2.2.d_rewriteFilters = [])
  | [], post, st, r, h => by
    refine ⟨([], [], st), r, rfl, by simpa using h, by simp, fun hne => absurd rfl hne⟩
  | l :: pre, post, st, r, h => by
    simp only [List.cons_append, printTheoryLemmaLoop, Option.bind_eq_some,
      Option.some.injEq] at h
    obtain ⟨ra, ha, rs, hs, h⟩ := h
    obtain ⟨r1, r2, h1, h2, h3, h4⟩ := printTheoryLemmaLoop_split env tbl pre post _ rs hs
    refine ⟨(ra.1 ++ r1.1, ra.2.1 ++ r1.2.1, r1.2.2), r2, ?_, h2, ?_, ?_⟩
    · simp only [printTheoryLemmaLoop, Option.bind_eq_some, Option.some.injEq]
      exact ⟨ra, ha, r1, h1, rfl⟩
    · rw [← h, h3]
      simp only [List.append_assoc]
    · intro _
      cases pre with
      | nil =>
        simp only [printTheoryLemmaLoop, Option.some.injEq] at h1
        rw [← h1]
        exact printTheoryLemma_filters env tbl l st ra ha
      | cons l2 rest => exact h4 (List.cons_ne_nil _ _)

/-- The rewrite filters on the paths that run to their end: in `printTheoryLemmas` the
rewrite-filter table is empty after every simple lemma and after every step of a composite
lemma whose processing returns, whatever the table held before and whether or not there
were missing assertions.  Hence every lemma after the first starts from the empty table,
and the filters that its certifier sees are those of its own missing assertions. -/
theorem rewrite_filters_cleared_after_every_lemma (env : LemmaEnv) (tbl : TheoryProofTable) :
    (∀ id clause ce recipe st r,
        printSimpleLemma env tbl id clause ce recipe st = some r →
        r.2.2.d_rewriteFilters = []) ∧
      (∀ id clause ce recipe i step st r,
        printCompositeStep env tbl id clause ce recipe i step st = some r →
        r.2.2.d_rewriteFilters = []) ∧
      (∀ l st r, printTheoryLemma env tbl l st = some r → r.2.2.d_rewriteFilters = []) ∧
      (∀ pre post st r, printTheoryLemmaLoop env tbl (pre ++ post) st = some r → pre ≠ [] →
        ∃ r1 r2, printTheoryLemmaLoop env tbl pre st = some r1 ∧
          r1.2.2.d_rewriteFilters = [] ∧
          printTheoryLemmaLoop env tbl post r1.2.2 = some r2 ∧ r2.2.2 = r.2.2) ∧
      (∀ recipe ms clause st p, patchMissingAssertions recipe ms clause st = some p →
        st.d_rewriteFilters = [] →
        ∀ kv ∈ p.2.d_rewriteFilters, ∃ m ∈ ms, kv.1 = .litName m) := by
  refine ⟨fun _ _ _ _ _ _ h => printSimpleLemma_filters _ _ _ _ _ _ _ _ h,
    fun _ _ _ _ _ _ _ _ h => printCompositeStep_filters _ _ _ _ _ _ _ _ _ _ h,
    fun _ _ _ h => printTheoryLemma_filters _ _ _ _ _ h, ?_, ?_⟩
  · intro pre post st r h hne
    obtain ⟨r1, r2, h1, h2, h3, h4⟩ := printTheoryLemmaLoop_split env tbl pre post st r h
    exact ⟨r1, r2, h1, h4 hne, h2, by rw [h3]⟩
  · intro recipe ms clause st p h hst kv hkv
    rcases patchMissingAssertions_filters recipe ms clause st p h kv hkv with h1 | h1
    · rw [hst] at h1
      cases h1
    · exact h1

theorem rewrite_filters_cleared_after_every_lemma_witness :
    ∃ r, printTheoryLemma (exampleLemmaEnv false) fullTable exampleLemma
        ⟨[], [(.str "stale", [])]⟩ = some r ∧ r.2.2.d_rewriteFilters = [] :=
  ⟨_, rfl, (rewrite_filters_cleared_after_every_lemma (exampleLemmaEnv false) fullTable).2.2.1
    exampleLemma ⟨[], [(.str "stale", [])]⟩ _ rfl⟩

/-- C13: for every theory id, `getTheoryProof(id)` is the lookup of the id in the theory
table after the builtin theory has been replaced by UF: it returns a certifier exactly
when that id has an entry, and then this entry, so the lookups of the builtin theory and
of UF agree; without an entry the lookup fails (the assertion is fatal), and the lookup
gives back no table, so the table stays as it is.  In the engine that the constructor
leaves the lookup of UF fails, and after `registerTheory` it returns the new UF
certifier. -/
theorem getTheoryProof_iff_registered (tbl : TheoryProofTable) (id : TheoryId) :
    (∀ cert, getTheoryProof tbl id = some cert ↔
        tbl.find (if id = .THEORY_BUILTIN then .THEORY_UF else id) = some cert) ∧
      ((getTheoryProof tbl id).isSome = true ↔
        (tbl.find (if id = .THEORY_BUILTIN then .THEORY_UF else id)).isSome = true) ∧
      (getTheoryProof tbl id = none ↔
        tbl.find (if id = .THEORY_BUILTIN then .THEORY_UF else id) = none) ∧
      getTheoryProof tbl .THEORY_BUILTIN = getTheoryProof tbl .THEORY_UF ∧
      getTheoryProof tbl .THEORY_BUILTIN = tbl.uf.map .uf ∧
      getTheoryProof TheoryProofEngine.initial.d_theoryProofTable .THEORY_UF = none ∧
      getTheoryProof TheoryProofEngine.initial.d_theoryProofTable .THEORY_BUILTIN = none ∧
      getTheoryProof
        (TheoryProofEngine.initial.registerTheory (some .THEORY_UF)).d_theoryProofTable
        .THEORY_BUILTIN = some (.uf ⟨[], []⟩) :=
  ⟨fun _ => Iff.rfl, Iff.rfl, Iff.rfl, rfl, rfl, rfl, rfl, rfl⟩

/-- Updating a certifier in place removes no entry of the table. -/
theorem store_has (tbl : TheoryProofTable) (c : TheoryProof) (id : TheoryId)
    (h : (tbl.find id).isSome = true) : ((tbl.store c).find id).isSome = true := by
  cases c <;> cases id <;>
    simp_all [TheoryProofTable.find, TheoryProofTable.store]

theorem certifierRegister_has (env : EngineEnv) (id : TheoryId) (term : Node)
    (kids : TheoryProofEngine → Option TheoryProofEngine) (e e1 : TheoryProofEngine)
    (x : TheoryId) (hk : ∀ a b, kids a = some b → a.Has x → b.Has x)
    (h : TheoryProofEngine.certifierRegister env id term kids e = some e1)
    (he : e.Has x) : e1.Has x := by
  unfold TheoryProofEngine.certifierRegister at h
  simp only [Option.bind_eq_some] at h
  obtain ⟨cert, _, r, _, h⟩ := h
  have hmid : (⟨e.d_registrationCache, e.d_theoryProofTable.store r.1⟩ :
      TheoryProofEngine).Has x := store_has _ _ _ he
  by_cases hdesc : r.2 = true
  · simp only [hdesc, if_true] at h
    exact hk _ _ h hmid
  · simp only [hdesc, Bool.false_eq_true, if_false, Option.some.injEq] at h
    rw [← h]
    exact hmid

theorem registerTermWith_has (env : EngineEnv) (term : Node)
    (kids : TheoryProofEngine → Option TheoryProofEngine) (e e1 : TheoryProofEngine)
    (x : TheoryId) (hk : ∀ a b, kids a = some b → a.Has x → b.Has x)
    (h : TheoryProofEngine.registerTermWith env term kids e = some e1)
    (he : e.Has x) : e1.Has x := by
  unfold TheoryProofEngine.registerTermWith at h
  by_cases hc : term ∈ e.d_registrationCache
  · simp only [hc, if_true, Option.some.injEq] at h
    exact h ▸ he
  · simp only [hc, if_false] at h
    by_cases hb : env.theoryOf term = .THEORY_BUILTIN ∨ term.getKind = .ITE
    · simp only [hb, if_true, Option.bind_eq_some, Option.some.injEq] at h
      obtain ⟨e2, h2, h3⟩ := h
      rw [← h3]
      have h4 : e2.Has x := hk _ _ h2 he
      exact h4
    · simp only [hb, if_false] at h
      by_cases hs : supportedTheory (env.theoryOf term) = true
      · simp only [hs, Bool.not_true, Bool.false_eq_true, if_false, Option.bind_eq_some,
          Option.some.injEq] at h
        obtain ⟨e2, h2, e3, h3, h4⟩ := h
        rw [← h4]
        have he2 := certifierRegister_has _ _ _ _ _ _ x hk h2 he
        have he3 : e3.Has x := by
          by_cases hsk : env.isSkolem term = true ∧ env.theoryOf term ≠ .THEORY_ARRAY
          · simp only [hsk, and_self, ne_eq, not_false_eq_true, if_true] at h3
            exact certifierRegister_has _ _ _ _ _ _ x hk h3 he2
          · simp only [hsk, if_false, Option.some.injEq] at h3
            exact h3 ▸ he2
        exact he3
      · simp only [hs, Bool.not_false, if_true, Option.some.injEq] at h
        exact h ▸ he

mutual
/-- Registration of a term removes no entry of the table. -/
theorem registerTerm_has (env : EngineEnv) (x : TheoryId) :
    ∀ (term : Node) (e e1 : TheoryProofEngine),
      TheoryProofEngine.registerTerm env term e = some e1 → e.Has x → e1.Has x
  | .app k op cs, e, e1, h, he => by
    rw [TheoryProofEngine.registerTerm] at h
    exact registerTermWith_has env _ _ e e1 x
      (fun a b hab ha => registerList_has env x cs a b hab ha) h he
  | .null, e, e1, h, he => by
    rw [TheoryProofEngine.registerTerm] at h
    exact registerTermWith_has env _ _ e e1 x (fun a b hab ha => by cases hab; exact ha) h he
  | .leaf k name ty, e, e1, h, he => by
    rw [TheoryProofEngine.registerTerm] at h
    exact registerTermWith_has env _ _ e e1 x (fun a b hab ha => by cases hab; exact ha) h he
  | .builtin k, e, e1, h, he => by
    rw [TheoryProofEngine.registerTerm] at h
    exact registerTermWith_has env _ _ e e1 x (fun a b hab ha => by cases hab; exact ha) h he
theorem registerList_has (env : EngineEnv) (x : TheoryId) :
    ∀ (cs : List Node) (e e1 : TheoryProofEngine),
      TheoryProofEngine.registerList env cs e = some e1 → e.Has x → e1.Has x
  | [], e, e1, h, he => by
    rw [TheoryProofEngine.registerList] at h
    cases h
    exact he
  | c :: cs, e, e1, h, he => by
    rw [TheoryProofEngine.registerList] at h
    simp only [Option.bind_eq_some] at h
    obtain ⟨e2, h2, h3⟩ := h
    exact registerList_has env x cs e2 e1 h3 (registerTerm_has env x c e e2 h2 he)
end

/-- `registerTheory` keeps every entry of the table as it is. -/
theorem registerTheory_keeps (th : Option TheoryId) (e : TheoryProofEngine) (id : TheoryId)
    (cert : TheoryProof) (h : e.d_theoryProofTable.find id = some cert) :
    (e.registerTheory th).d_theoryProofTable.find id = some cert := by
  unfold TheoryProofEngine.registerTheory
  cases th with
  | none => exact h
  | some t =>
    simp only
    by_cases ht : (e.d_theoryProofTable.find t).isSome = true
    · simp only [ht, if_true]
      exact h
    · simp only [ht, Bool.false_eq_true, if_false]
      cases t <;> cases id <;>
        simp_all [TheoryProofTable.find, TheoryProofTable.store]

theorem registerTheory_of_has (t : TheoryId) (e : TheoryProofEngine)
    (h : (e.d_theoryProofTable.find t).isSome = true) : e.registerTheory (some t) = e := by
  simp only [TheoryProofEngine.registerTheory, h, if_true]

theorem registerTheory_twice (th : Option TheoryId) (e : TheoryProofEngine) :
    (e.registerTheory th).registerTheory th = e.registerTheory th := by
  cases th with
  | none => rfl
  | some t =>
    by_cases ht : (e.d_theoryProofTable.find t).isSome = true
    · rw [registerTheory_of_has t e ht, registerTheory_of_has t e ht]
    · have h1 : ((e.registerTheory (some t)).d_theoryProofTable.find t).isSome = true ∨
          e.registerTheory (some t) = e := by
        simp only [TheoryProofEngine.registerTheory, ht, Bool.false_eq_true, if_false]
        cases t <;> simp [TheoryProofTable.find, TheoryProofTable.store]
      rcases h1 with h1 | h1
      · exact registerTheory_of_has t _ h1
      · rw [h1]
        exact h1

theorem reachable_has_bool (env : EngineEnv) (e : TheoryProofEngine)
    (h : TheoryProofEngine.Reachable env e) : e.Has .THEORY_BOOL := by
  induction h with
  | initial => rfl
  | registerTheory th e _ ih =>
    unfold TheoryProofEngine.Has at ih ⊢
    cases hc : e.d_theoryProofTable.find .THEORY_BOOL with
    | none => rw [hc] at ih; cases ih
    | some cert => rw [registerTheory_keeps th e _ cert hc]; rfl
  | registerTerm t e e1 _ hr ih => exact registerTerm_has env _ t e e1 hr ih
  | printTermDeclarations e r _ hr ih =>
    unfold TheoryProofEngine.Has at ih ⊢
    unfold printTermDeclarations at hr
    split_ifs at hr
    simp only [Option.bind_eq_some, Option.some.injEq] at hr
    obtain ⟨_, _, _, _, _, _, hr⟩ := hr
    rw [← hr]
    exact ih
  | printDeferredDeclarations e r _ hr ih =>
    unfold TheoryProofEngine.Has at ih ⊢
    unfold printDeferredDeclarations at hr
    split_ifs at hr
    split at hr
    · simp only [Option.bind_eq_some, Option.some.injEq] at hr
      obtain ⟨_, _, hr⟩ := hr
      rw [← hr]
      exact ih
    · simp only [Option.some.injEq] at hr
      rw [← hr]
      exact ih

/-- C14: the theory table holds a Boolean certifier in every state of the engine from its
construction on; for every theory a second `registerTheory` leaves the engine as the
first call left it; and `registerTheory` keeps every entry that the table has: the entry
of every id is the same certifier afterwards. -/
theorem registerTheory_idempotent_boolean_present (env : EngineEnv) :
    (TheoryProofEngine.initial.d_theoryProofTable.find .THEORY_BOOL).isSome = true ∧
      (∀ e, TheoryProofEngine.Reachable env e →
        (e.d_theoryProofTable.find .THEORY_BOOL).isSome = true) ∧
      (∀ th e, (TheoryProofEngine.registerTheory th e).registerTheory th =
        e.registerTheory th) ∧
      (∀ th e id cert, e.d_theoryProofTable.find id = some cert →
        (TheoryProofEngine.registerTheory th e).d_theoryProofTable.find id = some cert) ∧
      (∀ th (e : TheoryProofEngine),
        (e.registerTheory th).d_registrationCache = e.d_registrationCache) := by
  refine ⟨rfl, fun e h => reachable_has_bool env e h, registerTheory_twice,
    registerTheory_keeps, ?_⟩
  intro th e
  unfold TheoryProofEngine.registerTheory
  cases th with
  | none => rfl
  | some t =>
    simp only
    split_ifs <;> rfl

theorem registerTheory_idempotent_boolean_present_witness :
    ((TheoryProofEngine.initial.registerTheory (some .THEORY_ARRAY)).registerTheory
        (some .THEORY_ARRAY)).d_theoryProofTable.find .THEORY_BOOL = some (.bool ⟨[]⟩) ∧
      ((TheoryProofEngine.initial.registerTheory (some .THEORY_ARRAY)).registerTheory
        (some .THEORY_ARRAY)).d_theoryProofTable.find .THEORY_ARRAY =
          some (.array ⟨[], [], [], []⟩) :=
  ⟨(registerTheory_idempotent_boolean_present exampleEngineEnv).2.2.2.1 _ _ _ _
      ((registerTheory_idempotent_boolean_present exampleEngineEnv).2.2.2.1 _ _ _ _ rfl),
    (registerTheory_idempotent_boolean_present exampleEngineEnv).2.2.2.1 _ _ _ _ rfl⟩

/-! ## Skolem names and assertion bindings -/

theorem setSkolemLiteral_new (t : Node) (name : Out) :
    ∀ (names : List (Node × Out)), names.lookup t = none →
      setSkolemLiteral t name names = names ++ [(t, name)]
  | [], _ => rfl
  | (k, v) :: m, h => by
    simp only [List.lookup_cons] at h
    by_cases hk : k = t
    · subst hk
      simp at h
    · have hbeq : (t == k) = false := by
        simp only [beq_eq_false_iff_ne, ne_eq]
        exact fun h2 => hk h2.symm
      simp only [hbeq] at h
      simp only [setSkolemLiteral, hk, if_false, List.cons_append, setSkolemLiteral_new t name m h]

theorem lookup_append_new (t s : Node) (name : Out) (names : List (Node × Out))
    (h : names.lookup s = none) (hne : s ≠ t) : (names ++ [(t, name)]).lookup s = none := by
  induction names with
  | nil =>
    have hbeq : (s == t) = false := by simpa using hne
    simp [List.lookup_cons, hbeq]
  | cons x m ih =>
    obtain ⟨k, v⟩ := x
    simp only [List.lookup_cons] at h
    simp only [List.cons_append, List.lookup_cons]
    cases hb : (s == k) with
    | true => simp [hb] at h
    | false =>
      simp only [hb] at h
      exact ih h

theorem lookup_append_left (s : Node) (a b : List (Node × Out)) (h : a.lookup s = none) :
    (a ++ b).lookup s = b.lookup s := by
  induction a with
  | nil => rfl
  | cons x m ih =>
    obtain ⟨k, v⟩ := x
    simp only [List.lookup_cons] at h
    simp only [List.cons_append, List.lookup_cons]
    cases hb : (s == k) with
    | true => simp [hb] at h
    | false =>
      simp only [hb] at h
      exact ih h

/-- The name of the skolem at position `i` in the names given from `start` on. -/
theorem lookup_deferredNames :
    ∀ (skolems : List Node) (start i : Nat) (s : Node), skolems.Nodup →
      skolems.get? i = some s →
      (deferredNames start skolems).lookup s = some [.str ".sl", .num (start + i)]
  | [], _, i, s, _, h => by simp at h
  | t :: ts, start, 0, s, _, h => by
    simp only [List.get?_cons_zero, Option.some.injEq] at h
    subst h
    simp [deferredNames, List.lookup_cons]
  | t :: ts, start, i + 1, s, hn, h => by
    simp only [List.get?_cons_succ] at h
    have hne : s ≠ t := by
      intro hst
      subst hst
      exact (List.nodup_cons.mp hn).1 (List.get?_mem h)
    have hbeq : (s == t) = false := by simpa using hne
    simp only [deferredNames, List.lookup_cons, hbeq]
    rw [lookup_deferredNames ts (start + 1) i s (List.nodup_cons.mp hn).2 h]
    have harith : start + 1 + i = start + (i + 1) := by omega
    rw [harith]

/-- The loop of the deferred declarations on skolems that have no name yet: the names
`.sl<i>` are given in order from the size of the table on. -/
theorem printDeferredLoop_names (env : EngineEnv) (tbl : TheoryProofTable) :
    ∀ (skolems : List Node) (names : List (Node × Out)) (r : Out × Out × List (Node × Out)),
      LFSCArrayProof.printDeferredLoop env tbl skolems names = some r → skolems.Nodup →
      (∀ t ∈ skolems, names.lookup t = none) →
      r.2.2 = names ++ deferredNames names.length skolems ∧
        ∃ blocks : List Out, blocks.length = skolems.length ∧
          r.1 = deferredLayout names.length blocks
  | [], names, r, h, _, _ => by
    simp only [LFSCArrayProof.printDeferredLoop, Option.some.injEq] at h
    subst h
    exact ⟨by simp [deferredNames], [], rfl, rfl⟩
  | t :: ts, names, r, h, hn, hnew => by
    simp only [LFSCArrayProof.printDeferredLoop] at h
    split_ifs at h
    simp only [Option.bind_eq_some] at h
    obtain ⟨eq, _, h⟩ := h
    split_ifs at h
    simp only [Option.bind_eq_some, Option.some.injEq] at h
    obtain ⟨one, _, two, _, p1, _, p2, _, p3, _, r1, hr1, h⟩ := h
    have hset := setSkolemLiteral_new t [.str ".sl", .num names.length] names
      (hnew t (List.mem_cons_self _ _))
    rw [hset] at hr1
    have hn2 := List.nodup_cons.mp hn
    obtain ⟨hnames, blocks, hlen, hout⟩ := printDeferredLoop_names env tbl ts _ r1 hr1 hn2.2
      (fun s hs => lookup_append_new t s _ names (hnew s (List.mem_cons_of_mem _ hs))
        (fun hst => hn2.1 (hst ▸ hs)))
    rw [← h]
    refine ⟨?_, ([.str "(ext _ _ "] ++ p1 ++ [.str " "] ++ p2 ++ [.str " (\\ "] ++ p3) :: blocks,
      by simp [hlen], ?_⟩
    · simp only [hnames, List.length_append, List.length_singleton, deferredNames,
        List.append_assoc, List.singleton_append]
    · simp only [hout, List.length_append, List.length_singleton, deferredLayout,
        List.append_assoc, List.singleton_append, List.cons_append, List.nil_append]

/-- C15: when no deferred skolem of the array certifier has a name yet, as in a certifier
that has not printed its deferred declarations, `printDeferredDeclarations` binds for the
`k` deferred skolems the `k` names `.sl<n>`, ..., `.sl<n + k - 1>`, where `n` is the size
of the table of names, one at the end of the block of each skolem in order; afterwards
`skolemToLiteral` returns for the skolem at position `i` the name `.sl<n + i>` that was
bound for it, and two different skolems have different names. -/
theorem skolem_literal_names_unique (env : EngineEnv) (tbl : TheoryProofTable)
    (a : ArrayProof) (r : Out × Out × ArrayProof)
    (h : LFSCArrayProof.printDeferredDeclarations env tbl a = some r)
    (hset : a.d_skolemDeclarations.Nodup)
    (hnew : ∀ t ∈ a.d_skolemDeclarations, a.skolemToLiteral t = none) :
    (∃ blocks : List Out, blocks.length = a.d_skolemDeclarations.length ∧
        r.1 = deferredLayout a.d_skolemToLiteral.length blocks) ∧
      (∀ i s, a.d_skolemDeclarations.get? i = some s →
        r.2.2.skolemToLiteral s = some [.str ".sl", .num (a.d_skolemToLiteral.length + i)]) ∧
      (∀ s ∈ a.d_skolemDeclarations, ∀ t ∈ a.d_skolemDeclarations, s ≠ t →
        r.2.2.skolemToLiteral s ≠ r.2.2.skolemToLiteral t) := by
  simp only [LFSCArrayProof.printDeferredDeclarations, Option.bind_eq_some,
    Option.some.injEq] at h
  obtain ⟨r1, hr1, h⟩ := h
  obtain ⟨hnames, hblocks⟩ := printDeferredLoop_names env tbl _ _ r1 hr1 hset hnew
  have hlook : ∀ i s, a.d_skolemDeclarations.get? i = some s →
      r.2.2.skolemToLiteral s = some [.str ".sl", .num (a.d_skolemToLiteral.length + i)] := by
    intro i s hs
    rw [← h]
    simp only [ArrayProof.skolemToLiteral, hnames]
    rw [lookup_append_left s _ _ (hnew s (List.get?_mem hs))]
    exact lookup_deferredNames _ _ i s hset hs
  refine ⟨?_, hlook, ?_⟩
  · rw [← h]
    exact hblocks
  · intro s hs t ht hst heq
    obtain ⟨i, hi⟩ := List.get?_of_mem hs
    obtain ⟨j, hj⟩ := List.get?_of_mem ht
    rw [hlook i s hi, hlook j t hj] at heq
    simp only [Option.some.injEq, List.cons.injEq, Chunk.num.injEq, and_true, true_and] at heq
    have hij : i = j := by omega
    subst hij
    rw [hi] at hj
    exact hst (Option.some.inj hj)

theorem skolem_literal_names_unique_witness :
    ∃ r, LFSCArrayProof.printDeferredDeclarations skolemEngineEnv fullTable skolemCertifier =
        some r ∧
      r.2.2.skolemToLiteral varArr = some [.str ".sl", .num 0] ∧
      r.2.2.skolemToLiteral arrUU = some [.str ".sl", .num 1] :=
  ⟨_, rfl,
    (skolem_literal_names_unique skolemEngineEnv fullTable skolemCertifier _ rfl (by decide)
      (by decide)).2.1 0 varArr rfl,
    (skolem_literal_names_unique skolemEngineEnv fullTable skolemCertifier _ rfl (by decide)
      (by decide)).2.1 1 arrUU rfl⟩

theorem openedParens_append (a b : Out) :
    openedParens (a ++ b) = openedParens a + openedParens b := by
  simp [openedParens, List.map_append, List.sum_append]

theorem openedParens_bindingHead (i : Nat) :
    openedParens [Chunk.str "(% ", .str "A", .num i, .str " (th_holds "] = 2 := by
  have a : parenBalance "(% " = 1 := by decide
  have b : parenBalance "A" = 0 := by decide
  have c : parenBalance " (th_holds " = 1 := by decide
  simp [openedParens, Chunk.opened, a, b, c]

/-- The loop of `printAssertions`: one binding and one closing parenthesis for every
assertion, in order. -/
theorem printAssertionsLoop_layout (env : EngineEnv) (tbl : TheoryProofTable) :
    ∀ (assertions : List Node) (counter letCounter : Nat)
      (r : Out × Out × List (Node × Out)),
      printAssertionsLoop env tbl assertions counter letCounter = some r →
      ∃ texts : List Out, texts.length = assertions.length ∧
        r.1 = assertionBindings counter texts ∧
        r.2.1 = List.replicate assertions.length (.str ")") ∧
        (∀ i a, assertions.get? i = some a →
          r.2.2.get? i = some (a, [.str "A", .num (counter + i)]) ∧
          ∃ c, (letCounters letCounter assertions).get? i = some c ∧
            printLetTerm env tbl c a = texts.get? i) ∧
        r.2.2.length = assertions.length
  | [], counter, letCounter, r, h => by
    simp only [printAssertionsLoop, Option.some.injEq] at h
    subst h
    exact ⟨[], rfl, rfl, rfl, fun i a hi => by simp at hi, rfl⟩
  | a :: rest, counter, letCounter, r, h => by
    simp only [printAssertionsLoop, Option.bind_eq_some, Option.some.injEq] at h
    obtain ⟨t, ht, r1, hr1, h⟩ := h
    obtain ⟨texts, hlen, hout, hparen, hreg, hrlen⟩ :=
      printAssertionsLoop_layout env tbl rest (counter + 1) _ r1 hr1
    rw [← h]
    refine ⟨t :: texts, by simp [hlen], ?_, ?_, ?_, by simp [hrlen]⟩
    · simp only [assertionBindings, assertionName, hout, List.append_assoc,
        List.cons_append, List.nil_append]
    · simp only [hparen, List.length_cons, List.replicate_succ, List.singleton_append]
    · intro i x hi
      cases i with
      | zero =>
        simp only [List.get?_cons_zero, Option.some.injEq] at hi
        subst hi
        exact ⟨by simp [assertionName], letCounter, by simp [letCounters], by simpa using ht⟩
      | succ j =>
        simp only [List.get?_cons_succ] at hi
        obtain ⟨h1, c, hc, h2⟩ := hreg j x hi
        refine ⟨?_, c, by simpa [letCounters] using hc, by simpa using h2⟩
        simp only [List.get?_cons_succ, h1, Option.some.injEq, Prod.mk.injEq, true_and,
          List.cons.injEq, Chunk.num.injEq, and_true]
        omega

/-- The parentheses that the bindings leave open: one for every binding, and those that
the texts of the assertions leave open. -/
theorem openedParens_assertionBindings :
    ∀ (texts : List Out) (counter : Nat),
      openedParens (assertionBindings counter texts) =
        texts.length + (texts.map openedParens).sum
  | [], _ => by simp [assertionBindings, openedParens]
  | t :: ts, counter => by
    have h1 := openedParens_bindingHead counter
    have h2 : openedParens [Chunk.str ")\n"] = -1 := by decide
    simp only [assertionBindings, openedParens_append, h1, h2,
      openedParens_assertionBindings ts (counter + 1), List.length_cons, List.map_cons,
      List.sum_cons, Nat.cast_add, Nat.cast_one]
    ring

/-- C16: for every list of `n` assertions that `printAssertions` prints, the text written
to `os` is `n` bindings `(% A<i> (th_holds <text of assertion i>)` in the order of the
assertions, with `i` from `0` to `n - 1`, where the text is what `printLetTerm` writes
for assertion `i`; assertion `i` is registered under the name `A<i>`; `n` closing
parentheses are written to `paren`, one for every binding; and every binding leaves one
parenthesis open besides those that the text of its assertion leaves open. -/
theorem assertion_bindings_in_order (env : EngineEnv) (tbl : TheoryProofTable)
    (assertions : List Node) (letCounter : Nat) (r : Out × Out × List (Node × Out))
    (h : printAssertions env tbl assertions letCounter = some r) :
    ∃ texts : List Out, texts.length = assertions.length ∧
      r.1 = assertionBindings 0 texts ∧
      r.2.1 = List.replicate assertions.length (.str ")") ∧
      r.2.2.length = assertions.length ∧
      (∀ i a, assertions.get? i = some a →
        r.2.2.get? i = some (a, [.str "A", .num i]) ∧
        ∃ c, (letCounters letCounter assertions).get? i = some c ∧
          printLetTerm env tbl c a = texts.get? i) ∧
      openedParens r.1 = assertions.length + (texts.map openedParens).sum ∧
      (∀ (t : Out) (i : Nat),
        openedParens ([.str "(% ", .str "A", .num i, .str " (th_holds "] ++ t ++ [.str ")\n"]) =
          openedParens t + 1) := by
  obtain ⟨texts, hlen, hout, hparen, hreg, hrlen⟩ :=
    printAssertionsLoop_layout env tbl assertions 0 letCounter r h
  refine ⟨texts, hlen, hout, hparen, hrlen, ?_, ?_, ?_⟩
  · intro i a hi
    obtain ⟨h1, h2⟩ := hreg i a hi
    exact ⟨by simpa using h1, h2⟩
  · rw [hout, openedParens_assertionBindings, hlen]
  · intro t i
    have h1 := openedParens_bindingHead i
    have h2 : openedParens [Chunk.str ")\n"] = -1 := by decide
    rw [openedParens_append, openedParens_append, h1, h2]
    ring

theorem assertion_bindings_in_order_witness :
    ∃ r, printAssertions exampleEngineEnv fullTable exampleAssertions 0 = some r ∧
      r.2.1 = [.str ")", .str ")"] ∧
      r.2.2 = [(varP, [.str "A", .num 0]), (sharedUnderDistinct, [.str "A", .num 1])] ∧
      openedParens r.1 = 2 ∧
      ∃ texts : List Out, texts.length = 2 ∧ r.1 = assertionBindings 0 texts :=
  ⟨_, rfl, rfl, rfl, by decide,
    (assertion_bindings_in_order exampleEngineEnv fullTable exampleAssertions 0 _ rfl).imp
      (fun _ hx => ⟨hx.1, hx.2.1⟩)⟩

/-! ## The depth-0 pass and the transitivity step -/

theorem not_negative_of_dangling (c : EqProof) (h : isDanglingCongruence c = true) :
    isNegativeChild c = false := by
  simp only [isDanglingCongruence, Bool.and_eq_true] at h
  simp [isNegativeChild, h.2]

theorem countP_negative_run (children : List EqProof) (i : Nat) :
    (congruenceRun children i).countP isNegativeChild = 0 := by
  rw [List.countP_eq_zero]
  intro c hc
  have hd : isDanglingCongruence c = true := by
    unfold congruenceRun at hc
    exact (List.mem_takeWhile_imp hc)
  simp [not_negative_of_dangling c hd]

theorem drop_run (children : List EqProof) (i : Nat) :
    children.drop i = congruenceRun children i ++
      children.drop (i + (congruenceRun children i).length) := by
  unfold congruenceRun
  rw [← List.drop_drop]
  conv_lhs => rw [← List.takeWhile_append_dropWhile isDanglingCongruence (children.drop i)]
  congr 1
  conv_rhs =>
    arg 2
    rw [← List.takeWhile_append_dropWhile isDanglingCongruence (children.drop i)]
  rw [List.drop_left]

theorem countP_drop_of_get (children : List EqProof) (i : Nat) (c : EqProof)
    (h : children.get? i = some c) :
    (children.drop i).countP isNegativeChild =
      (if isNegativeChild c then 1 else 0) + (children.drop (i + 1)).countP isNegativeChild := by
  have hd : children.drop i = c :: children.drop (i + 1) := by
    rw [List.get?_eq_some] at h
    obtain ⟨hlt, hget⟩ := h
    rw [← hget]
    exact List.drop_eq_getElem_cons hlt
  rw [hd, List.countP_cons]
  omega

/-- The negative child that the `while` loop of the depth-0 pass returns: when none was
found before, the loop returns the only negative child from position `i` on, and when
one was found before, there is none from position `i` on. -/
theorem depth0Loop_negative (children : List EqProof) :
    ∀ (fuel i : Nat) (neg : Option Nat) (sub : List EqProof)
      (r : Option Nat × List EqProof),
      depth0Loop children fuel i neg sub = some r →
      (if r.1.isSome then 1 else 0) =
          (if neg.isSome then 1 else 0) + (children.drop i).countP isNegativeChild ∧
        (∀ k, neg = some k → r.1 = some k) ∧
        (neg = none → ∀ k, r.1 = some k →
          ∃ c, children.get? k = some c ∧ isNegativeChild c = true)
  | 0, i, neg, sub, r, h => by
    simp only [depth0Loop] at h
    split_ifs at h with hi
    simp only [Option.some.injEq] at h
    subst h
    have hd : children.drop i = [] := List.drop_eq_nil_of_le (by omega)
    refine ⟨by simp [hd], fun k hk => hk, fun hn k hk => ?_⟩
    simp only at hk
    rw [hn] at hk
    cases hk
  | fuel + 1, i, neg, sub, r, h => by
    simp only [depth0Loop] at h
    cases hc : children.get? i with
    | none =>
      simp only [hc, Option.some.injEq] at h
      subst h
      have hd : children.drop i = [] :=
        List.drop_eq_nil_of_le (List.get?_eq_none.mp hc)
      refine ⟨by simp [hd], fun k hk => hk, fun hn k hk => ?_⟩
      simp only at hk
      rw [hn] at hk
      cases hk
    | some c =>
      simp only [hc] at h
      have hcount := countP_drop_of_get children i c hc
      by_cases hneg : isNegativeChild c = true
      · simp only [hneg, if_true] at h
        split_ifs at h with hsome
        obtain ⟨h1, h2, _⟩ := depth0Loop_negative children fuel (i + 1) (some i) sub r h
        have hr := h2 i rfl
        have hnone : neg = none := by
          cases neg with
          | none => rfl
          | some k => simp at hsome
        subst hnone
        simp only [hr, Option.isSome_some, if_true] at h1
        refine ⟨?_, ?_, ?_⟩
        · rw [hcount]
          simp only [hr, Option.isSome_some, if_true, hneg, Option.isSome_none,
            Bool.false_eq_true, if_false]
          omega
        · intro k hk
          cases hk
        · intro _ k hk
          rw [hr] at hk
          cases hk
          exact ⟨c, hc, hneg⟩
      · simp only [hneg, Bool.false_eq_true, if_false] at h
        by_cases hdang : isDanglingCongruence c = true
        · simp only [hdang, if_true] at h
          have hrun := countP_negative_run children i
          have hdrop := drop_run children i
          have hsplit : (children.drop i).countP isNegativeChild =
              (children.drop (i + (congruenceRun children i).length)).countP
                isNegativeChild := by
            rw [hdrop, List.countP_append, hrun, Nat.zero_add]
          split_ifs at h with hsame hbefore
          · -- the target stands before the run
            split at h
            · simp only [Option.bind_eq_some] at h
              obtain ⟨ordered, _, h⟩ := h
              obtain ⟨h1, h2, h3⟩ := depth0Loop_negative children fuel _ neg _ r h
              exact ⟨by rw [h1, hsplit], h2, h3⟩
            · cases h
          · -- the target stands after the run
            split at h
            · rename_i target htarget
              simp only [Option.bind_eq_some] at h
              obtain ⟨ordered, _, h⟩ := h
              obtain ⟨h1, h2, h3⟩ := depth0Loop_negative children fuel _ neg _ r h
              have hafter : isNegativeChild target = false := by
                cases ht : isNegativeChild target with
                | false => rfl
                | true =>
                  exfalso
                  simp only [htarget, ht, Bool.or_true, Bool.not_true] at hsame
                  generalize (!(i == 0 || i == 1 && neg == some 0)) = b at hsame hbefore
                  cases b <;> simp at hsame hbefore
              have hcount2 := countP_drop_of_get children _ target htarget
              simp only [hafter, Bool.false_eq_true, if_false, Nat.zero_add] at hcount2
              exact ⟨by rw [h1, hsplit, hcount2], h2, h3⟩
            · cases h
        · simp only [hdang, Bool.false_eq_true, if_false] at h
          obtain ⟨h1, h2, h3⟩ := depth0Loop_negative children fuel (i + 1) neg _ r h
          refine ⟨?_, h2, h3⟩
          rw [h1, hcount]
          simp only [hneg, Bool.false_eq_true, if_false, Nat.zero_add]

/-- The contradiction at the end of the depth-0 pass: the predicate form for a negated
application, and otherwise the proved equation, wrapped in `symm` exactly when its right
side is the left side of the negated equation, against the name of the literal. -/
theorem contradiction_spec (ss : Out) (n1 n2 : Node) (out : Out)
    (h : contradiction ss n1 n2 = some out) :
    ∃ e, n2.child 0 = some e ∧
      (e.getKind = .APPLY_UF →
        out = [.str "(clausify_false (contra _ ", .str "(trans _ _ _ _ ", .str "(symm _ _ _ "]
                ++ ss ++ [.str ") (pred_eq_f _ ", .litName e, .str ")) t_t_neq_f))",
                  .str "\n"]) ∧
      (e.getKind ≠ .APPLY_UF →
        ∃ a0 a1 e0 e1, n1.child 0 = some a0 ∧ n1.child 1 = some a1 ∧ e.child 0 = some e0 ∧
          e.child 1 = some e1 ∧ ((a0 = e0 ∧ a1 = e1) ∨ (a1 = e0 ∧ a0 = e1)) ∧
          out = [.str "(clausify_false (contra _ "]
                  ++ (if a1 = e0 then [.str "(symm _ _ _ "] ++ ss ++ [.str ")"] else ss)
                  ++ [.str " ", .litName e, .str "))", .str "\n"]) := by
  unfold contradiction at h
  simp only [Option.bind_eq_bind, Option.bind_eq_some] at h
  obtain ⟨e, he, h⟩ := h
  refine ⟨e, he, ?_, ?_⟩
  · intro hk
    simp only [hk, if_true, Option.pure_def, Option.some.injEq] at h
    exact h.symm
  · intro hk
    simp only [hk, if_false, Option.bind_eq_some] at h
    obtain ⟨a0, ha0, e0, he0, straight, hstraight, a1, ha1, swapped, hswapped, h⟩ := h
    by_cases h00 : a0 = e0
    · simp only [h00, if_true, Option.bind_eq_some, Option.pure_def,
        Option.some.injEq] at hstraight
      obtain ⟨a1', ha1', e1, he1, hstraight⟩ := hstraight
      have hsame : a1' = a1 := by
        rw [ha1] at ha1'
        exact (Option.some.inj ha1').symm
      subst hsame
      by_cases h11 : a1' = e1
      · simp only [h11, decide_True] at hstraight
        subst hstraight
        simp only [if_true, Option.pure_def, Option.some.injEq] at hswapped
        subst hswapped
        simp only [if_true, Option.pure_def, Option.some.injEq] at h
        exact ⟨a0, a1', e0, e1, ha0, ha1, he0, he1, Or.inl ⟨h00, h11⟩, h.symm⟩
      · simp only [h11, decide_False] at hstraight
        subst hstraight
        simp only [Bool.false_eq_true, if_false] at hswapped
        by_cases h10 : a1' = e0
        · simp only [h10, if_true, Option.bind_eq_some, Option.pure_def,
            Option.some.injEq] at hswapped
          obtain ⟨e1', he1', hswapped⟩ := hswapped
          have hsame : e1' = e1 := by
            rw [he1] at he1'
            exact (Option.some.inj he1').symm
          subst hsame
          by_cases h01 : a0 = e1'
          · simp only [h01, decide_True] at hswapped
            subst hswapped
            simp only [if_true, Option.pure_def, Option.some.injEq] at h
            exact ⟨a0, a1', e0, e1', ha0, ha1, he0, he1, Or.inr ⟨h10, h01⟩, h.symm⟩
          · simp only [h01, decide_False] at hswapped
            subst hswapped
            simp at h
        · simp only [h10, if_false, Option.pure_def, Option.some.injEq] at hswapped
          subst hswapped
          simp at h
    · simp only [h00, if_false, Option.pure_def, Option.some.injEq] at hstraight
      subst hstraight
      simp only [Bool.false_eq_true, if_false] at hswapped
      by_cases h10 : a1 = e0
      · simp only [h10, if_true, Option.bind_eq_some, Option.pure_def,
          Option.some.injEq] at hswapped
        obtain ⟨e1, he1, hswapped⟩ := hswapped
        by_cases h01 : a0 = e1
        · simp only [h01, decide_True] at hswapped
          subst hswapped
          simp only [if_true, Option.pure_def, Option.some.injEq] at h
          exact ⟨a0, a1, e0, e1, ha0, ha1, he0, he1, Or.inr ⟨h10, h01⟩, h.symm⟩
        · simp only [h01, decide_False] at hswapped
          subst hswapped
          simp at h
      · simp only [h10, if_false, Option.pure_def, Option.some.injEq] at hswapped
        subst hswapped
        simp at h

/-- C17 (fails on the code): the branch of the depth-0 pass for a negative child that is
an extensionality node writes the proved equation without the test of its orientation
that the branch for any other negative child makes.  The negative child of the first
refutation is an extensionality node with the conclusion `not (A[k] = A2[k])`, and the
other child proves `A2[k] = A[k]`, whose right side is the left side of the negated
equation: the depth-0 pass succeeds and writes the proved equation without `symm`, so
that `contra` is given `A2[k] = A[k]` against `not (A[k] = A2[k])`.  In the second
refutation the negative child is the given disequality `not (b = a)` and the other child
proves `a = b`: there the proved equation is wrapped in `symm`. -/
theorem extensionality_contradiction_has_no_symm :
    toStreamRecLFSC skolemProofEnv 0 extRefutation =
      some ([.str "(clausify_false (contra _ ",
             .litName (Node.mkEqual (mkSelect varArrB varK) (mkSelect varArr varK)).notNode,
             .str " ", .str "(or_elim_1 _ _ ", .litName (Node.mkEqual varArr varArrB),
             .str " ", .str ".sl0", .str ")", .str "))"], Node.null) ∧
      toStreamRecLFSC exampleEnv 0 swappedRefutation =
        some ([.str "(clausify_false (contra _ ", .str "(symm _ _ _ ",
               .litName (Node.mkEqual varA varB).notNode, .str ")", .str " ",
               .litName (Node.mkEqual varB varA), .str "))", .str "\n"], Node.null) := by
  constructor <;> decide

/-- What a returning depth-0 pass has checked and written: the root, the only negative
child, the proof `(ss, n1)` of the other children and the three forms of the
contradiction. -/
theorem toStreamRecLFSC0_spec (env : ProofEnv) (pf : EqProof) (r : Out × Node)
    (h : toStreamRecLFSC0 env pf = some r) :
    pf.d_id = .MERGED_THROUGH_TRANS ∧ pf.d_node.isNull = false ∧ 2 ≤ pf.d_children.length ∧
      pf.d_children.countP isNegativeChild = 1 ∧ r.2 = Node.null ∧
      ∃ (negChild : EqProof) (sub : List EqProof) (ss : Out) (n1 : Node),
        negChild ∈ pf.d_children ∧ isNegativeChild negChild = true ∧
        (if pf.d_children.length > 2 then
            toStreamRecLFSC1 env 1 (.mk .MERGED_THROUGH_TRANS pf.d_node sub)
          else (sub.get? 0).bind (toStreamRecLFSC1 env 1)) = some (ss, n1) ∧
        (negChild.d_id = .MERGED_ARRAYS_EXT →
          ∃ ss2 c, toStreamRecLFSC1 env 1 negChild = some (ss2, c) ∧
            r.1 = [.str "(clausify_false (contra _ "] ++ ss ++ [.str " "] ++ ss2
                    ++ [.str "))"]) ∧
        (negChild.d_id ≠ .MERGED_ARRAYS_EXT →
          ∃ e, negChild.d_node.child 0 = some e ∧
            (e.getKind = .APPLY_UF →
              r.1 = [.str "(clausify_false (contra _ ", .str "(trans _ _ _ _ ",
                      .str "(symm _ _ _ "] ++ ss
                    ++ [.str ") (pred_eq_f _ ", .litName e, .str ")) t_t_neq_f))",
                        .str "\n"]) ∧
            (e.getKind ≠ .APPLY_UF →
              ∃ a0 a1 e0 e1, n1.child 0 = some a0 ∧ n1.child 1 = some a1 ∧
                e.child 0 = some e0 ∧ e.child 1 = some e1 ∧
                ((a0 = e0 ∧ a1 = e1) ∨ (a1 = e0 ∧ a0 = e1)) ∧
                r.1 = [.str "(clausify_false (contra _ "]
                        ++ (if a1 = e0 then [.str "(symm _ _ _ "] ++ ss ++ [.str ")"]
                            else ss)
                        ++ [.str " ", .litName e, .str "))", .str "\n"])) := by
  simp only [toStreamRecLFSC0] at h
  by_cases hid : pf.d_id = .MERGED_THROUGH_TRANS
  swap
  · simp [hid] at h
  by_cases hnull : pf.d_node.isNull = true
  · simp [hid, hnull] at h
  by_cases hlen : pf.d_children.length < 2
  · simp [hid, hnull, hlen] at h
  simp only [hid, ne_eq, not_true_eq_false, if_false, hnull, Bool.false_eq_true, hlen,
    Option.bind_eq_bind, Option.bind_eq_some] at h
  obtain ⟨⟨neg, sub⟩, hloop, negIdx, hneg, ⟨ss, n1⟩, hpos, negChild, hget, h⟩ := h
  simp only at hneg hpos h
  subst hneg
  obtain ⟨hcount, _, hfound⟩ :=
    depth0Loop_negative pf.d_children pf.d_children.length 0 none [] _ hloop
  simp only [Option.isSome_some, if_true, Option.isSome_none, Bool.false_eq_true, if_false,
    List.drop_zero, Nat.zero_add] at hcount
  obtain ⟨c, hc, hcneg⟩ := hfound rfl negIdx rfl
  have hcc : c = negChild := by
    rw [hget] at hc
    exact (Option.some.inj hc).symm
  subst hcc
  have hmem : c ∈ pf.d_children := List.get?_mem hget
  have hnn : pf.d_node.isNull = false := by simpa using hnull
  have hkind : c.d_node.getKind = .NOT := by
    simp only [isNegativeChild, Bool.and_eq_true, beq_iff_eq] at hcneg
    exact hcneg.2
  simp only [hkind, ne_eq, not_true_eq_false, if_false, Option.pure_def, Option.some_bind,
    Option.bind_some] at h
  by_cases hext : c.d_id = .MERGED_ARRAYS_EXT
  · simp only [hext, if_true, Option.bind_eq_some, Option.some.injEq] at h
    obtain ⟨⟨ss2, c2⟩, h2, h⟩ := h
    rw [← h]
    exact ⟨hid, hnn, by omega, hcount.symm, rfl, c, sub, ss, n1, hmem, hcneg,
      hpos, fun _ => ⟨ss2, c2, h2, rfl⟩, fun hne => absurd hext hne⟩
  · simp only [hext, if_false, Option.bind_eq_some, Option.some.injEq] at h
    obtain ⟨out, hout, h⟩ := h
    rw [← h]
    exact ⟨hid, hnn, by omega, hcount.symm, rfl, c, sub, ss, n1, hmem, hcneg,
      hpos, fun he => absurd he hext, fun _ => contradiction_spec ss n1 c.d_node out hout⟩

@[simp] theorem clausifyCount_nil : clausifyCount [] = 0 := rfl

@[simp] theorem clausifyCount_append (a b : Out) :
    clausifyCount (a ++ b) = clausifyCount a + clausifyCount b := by
  simp [clausifyCount, List.countP_append]

@[simp] theorem clausifyCount_cons (c : Chunk) (o : Out) :
    clausifyCount (c :: o) = (if c.clausifies then 1 else 0) + clausifyCount o := by
  simp only [clausifyCount, List.countP_cons]
  omega


theorem transBody_clean (f s : Bool) (n1 n2 : Node) (ss1 ss2 : Out) (r : Out × Node)
    (h1 : clausifyCount ss1 = 0) (h2 : clausifyCount ss2 = 0)
    (h : transBody f s n1 ss1 n2 ss2 = some r) : clausifyCount r.1 = 0 := by
  have hs1 : ∀ b : Bool, Chunk.clausifies (.str (if b = true then "(negsymm _ _ _ " else "(symm _ _ _ ")) = false := by
    intro b; cases b <;> decide
  have hs2 : ∀ b : Bool, Chunk.clausifies (.str (if b = true then " (negsymm _ _ _ " else " (symm _ _ _ ")) = false := by
    intro b; cases b <;> decide
  unfold transBody at h
  by_cases hboth : (isEqOrIff n2 && isEqOrIff n1) = true
  · simp only [hboth, if_true, Option.bind_eq_bind, Option.pure_def] at h
    cases ha0 : n1.child 0 with
    | none => simp [ha0] at h
    | some a0 =>
    cases hb0 : n2.child 0 with
    | none => simp [ha0, hb0] at h
    | some b0 =>
    cases ha1 : n1.child 1 with
    | none => simp [ha0, hb0, ha1] at h
    | some a1 =>
    cases hb1 : n2.child 1 with
    | none => simp [ha0, hb0, ha1, hb1] at h
    | some b1 =>
    simp only [ha0, hb0, ha1, hb1, Option.some_bind] at h
    split_ifs at h <;> (simp only [Option.some.injEq] at h
                        rw [← h]
                        simp +decide [h1, h2, hs1, hs2, Chunk.clausifies])
  · simp only [hboth, Bool.false_eq_true, if_false, Option.bind_eq_bind, Option.pure_def] at h
    by_cases he1 : isEqOrIff n1 = true
    · simp only [he1, if_true] at h
      cases ha0 : n1.child 0 with
      | none => simp [ha0] at h
      | some a0 =>
      cases ha1 : n1.child 1 with
      | none => simp [ha0, ha1] at h
      | some a1 =>
      simp only [ha0, ha1, Option.some_bind] at h
      split_ifs at h <;> (simp only [Option.some.injEq] at h
                          rw [← h]
                          simp +decide [h1, h2, hs1, hs2, Chunk.clausifies])
    · simp only [he1, Bool.false_eq_true, if_false] at h
      by_cases he2 : isEqOrIff n2 = true
      · simp only [he2, if_true] at h
        cases hb0 : n2.child 0 with
        | none => simp [hb0] at h
        | some b0 =>
        cases hb1 : n2.child 1 with
        | none => simp [hb0, hb1] at h
        | some b1 =>
        simp only [hb0, hb1, Option.some_bind] at h
        split_ifs at h <;> (simp only [Option.some.injEq] at h
                            rw [← h]
                            simp +decide [h1, h2, hs1, hs2, Chunk.clausifies])
      · simp [he2] at h

theorem transCompose_clean (n1 n2 : Node) (ss1 ss2 : Out) (r : Out × Node)
    (h1 : clausifyCount ss1 = 0) (h2 : clausifyCount ss2 = 0)
    (h : transCompose n1 ss1 n2 ss2 = some r) : clausifyCount r.1 = 0 := by
  unfold transCompose at h
  split_ifs at h
  simp only [Option.bind_eq_some, Option.some.injEq] at h
  obtain ⟨m1, _, m2, _, b, hb, r1, _, h⟩ := h
  rw [← h]
  have hbody := transBody_clean _ _ _ _ _ _ b h1 h2 hb
  have hop : ∀ f s : Bool, clausifyCount (transOpener f s) = 0 := by
    intro f s
    cases f <;> cases s <;> decide
  simp +decide [hbody, hop, Chunk.clausifies]

theorem evenSequence_clean (env : ProofEnv) (goal n1 : Node) (ss1 : Out) (after : Option Node)
    (r : Out × Node) (h1 : clausifyCount ss1 = 0)
    (h : evenSequence env goal n1 ss1 after = some r) : clausifyCount r.1 = 0 := by
  have key : ∀ x : Out × Node,
      (x.1 = [.str "(trans _ _ _ _ "] ++ ss1 ++ [.str " (symm _ _ _ "] ++ ss1 ++ [.str ")"]
              ++ [.str ")"] ∨
        x.1 = [.str "(trans _ _ _ _ "] ++ [.str " (symm _ _ _ "] ++ ss1 ++ [.str ")"] ++ ss1
              ++ [.str ")"]) → clausifyCount x.1 = 0 := by
    intro x hx
    rcases hx with hx | hx <;> rw [hx] <;> simp +decide [h1, Chunk.clausifies]
  apply key
  unfold evenSequence at h
  simp only [Option.bind_eq_bind, Option.pure_def, Option.bind_eq_some] at h
  obtain ⟨a, _, h⟩ := h
  cases after with
  | none =>
    simp only [Option.bind_eq_some] at h
    obtain ⟨g0, _, m0, _, h⟩ := h
    split_ifs at h
    · simp only [Option.some.injEq] at h
      rw [← h]
      exact Or.inl rfl
    · simp only [Option.bind_eq_some] at h
      obtain ⟨b, _, g1, _, m1, _, h⟩ := h
      split_ifs at h
      simp only [Option.some.injEq] at h
      rw [← h]
      exact Or.inr rfl
  | some nodeAfter =>
    simp only [Option.bind_eq_some] at h
    obtain ⟨na, _, h⟩ := h
    split_ifs at h
    simp only [Option.bind_eq_some] at h
    obtain ⟨x0, _, keepLeft, _, h⟩ := h
    split_ifs at h
    · simp only [Option.some.injEq] at h
      rw [← h]
      exact Or.inl rfl
    · simp only [Option.bind_eq_some] at h
      obtain ⟨b, _, keepRight, _, h⟩ := h
      split_ifs at h
      simp only [Option.some.injEq] at h
      rw [← h]
      exact Or.inr rfl

theorem transLoop_clean (env : ProofEnv) (goal : Node) :
    ∀ (rest : List (Out × Node)) (n1 : Node) (ss : Out) (flag : Bool) (r : Out × Node),
      clausifyCount ss = 0 → (∀ x ∈ rest, clausifyCount x.1 = 0) →
      transLoop env goal n1 ss flag rest = some r → clausifyCount r.1 = 0
  | [], n1, ss, flag, r, hs, _, h => by
    simp only [transLoop, Option.some.injEq] at h
    rw [← h]
    exact hs
  | (ss2, n2) :: rest, n1, ss, flag, r, hs, hrest, h => by
    have hrest2 : ∀ x ∈ rest, clausifyCount x.1 = 0 :=
      fun x hx => hrest x (List.mem_cons_of_mem _ hx)
    have hss2 : clausifyCount ss2 = 0 := hrest (ss2, n2) (List.mem_cons_self _ _)
    rw [transLoop] at h
    simp only [Option.bind_eq_bind, Option.bind_eq_some] at h
    obtain ⟨identical, _, h⟩ := h
    split_ifs at h
    · simp only [Option.bind_eq_some] at h
      obtain ⟨⟨even, after⟩, _, h⟩ := h
      simp only at h
      split_ifs at h
      · simp only [Option.bind_eq_some] at h
        obtain ⟨⟨ss3, n3⟩, h3, h⟩ := h
        exact transLoop_clean env goal rest _ _ _ r
          (evenSequence_clean env goal n1 ss after _ hs h3) hrest2 h
      · exact transLoop_clean env goal rest _ _ _ r hs hrest2 h
    · exact transLoop_clean env goal rest _ _ _ r hs hrest2 h
    · simp only [Option.bind_eq_some] at h
      obtain ⟨⟨ss3, n3⟩, h3, h⟩ := h
      exact transLoop_clean env goal rest _ _ _ r
        (transCompose_clean n1 n2 ss ss2 _ hs hss2 h3) hrest2 h

theorem transFold_clean (env : ProofEnv) (goal : Node) (results : List (Out × Node))
    (r : Out × Node) (hres : ∀ x ∈ results, clausifyCount x.1 = 0)
    (h : transFold env goal results = some r) : clausifyCount r.1 = 0 := by
  unfold transFold at h
  split_ifs at h
  split at h
  · rename_i ss n1 x rest
    exact transLoop_clean env goal _ _ _ _ r (hres (ss, n1) (List.mem_cons_self _ _))
      (fun y hy => hres y (List.mem_cons_of_mem _ hy)) h
  · cases h

theorem congArg_clean (d_node : Node) (idx side : Nat) (b1 b2 : NodeBuilder) (ss : Out)
    (n2 : Node) (r : NodeBuilder × NodeBuilder × Out) (hs : clausifyCount ss = 0)
    (h : congArg d_node idx side b1 b2 ss n2 = some r) : clausifyCount r.2.2 = 0 := by
  unfold congArg at h
  simp only [Option.bind_eq_bind, Option.pure_def, Option.bind_eq_some] at h
  obtain ⟨d, _, x, _, h⟩ := h
  split_ifs at h
  · simp only [Option.bind_eq_some, Option.some.injEq] at h
    obtain ⟨y, _, h⟩ := h
    rw [← h]
    exact hs
  · simp only [Option.bind_eq_some] at h
    obtain ⟨y, _, h⟩ := h
    split_ifs at h
    simp only [Option.some.injEq] at h
    rw [← h]
    simp +decide [hs, Chunk.clausifies]

theorem congFirst_clean (env : ProofEnv) (d_node : Node) (t1 : Out) (n1 : Node) (ss : Out)
    (n2 : Node) (st : CongState) (ht : clausifyCount t1 = 0) (hs : clausifyCount ss = 0)
    (h : congFirst env d_node t1 n1 ss n2 = some st) : clausifyCount st.out = 0 := by
  unfold congFirst at h
  simp only [Option.bind_eq_bind, Option.pure_def, Option.bind_eq_some] at h
  obtain ⟨l, _, m0, _, side, _, x, _, b1, _, y, _, b2, _, h⟩ := h
  split_ifs at h
  all_goals first
    | (simp only [Option.none_bind] at h
       cases h)
    | (simp only [Option.some_bind, Option.bind_eq_some, Option.some.injEq] at h
       obtain ⟨⟨c1, c2, arg⟩, harg, h⟩ := h
       rw [← h]
       have ha := congArg_clean _ _ _ _ _ _ _ _ hs harg
       simp only at ha
       simp +decide [ht, ha, Chunk.clausifies])

theorem congNext_clean (d_node : Node) (st0 : CongState) (ss : Out) (n2 : Node)
    (st : CongState) (ht : clausifyCount st0.out = 0) (hs : clausifyCount ss = 0)
    (h : congNext d_node st0 ss n2 = some st) : clausifyCount st.out = 0 := by
  unfold congNext at h
  simp only [Option.bind_eq_bind, Option.pure_def, Option.bind_eq_some, Option.some.injEq] at h
  obtain ⟨⟨c1, c2, arg⟩, harg, h⟩ := h
  rw [← h]
  have ha := congArg_clean _ _ _ _ _ _ _ _ hs harg
  simp only at ha
  simp +decide [ht, ha, Chunk.clausifies]

theorem congFinish_clean (env : ProofEnv) (d_node : Node) (st : CongState) (r : Out × Node)
    (ht : clausifyCount st.out = 0) (h : congFinish env d_node st = some r) :
    clausifyCount r.1 = 0 := by
  unfold congFinish at h
  simp only [Option.bind_eq_bind, Option.pure_def] at h
  split_ifs at h
  all_goals first
    | (simp only [Option.none_bind] at h
       cases h)
    | (simp only [Option.some_bind, Option.bind_eq_some, Option.some.injEq] at h
       obtain ⟨m1, _, m2, _, h⟩ := h
       rw [← h]
       exact ht)

theorem printFour_clean (env : ProofEnv) (henv : env.NoClausify) (a b c d : Node) (o : Out)
    (h : printFour env a b c d = some o) : clausifyCount o = 0 := by
  unfold printFour at h
  simp only [Option.bind_eq_bind, Option.pure_def, Option.bind_eq_some, Option.some.injEq] at h
  obtain ⟨pa, ha, pb, hb, pc, hc, pd, hd, h⟩ := h
  rw [← h]
  simp +decide [henv.1 _ _ ha, henv.1 _ _ hb, henv.1 _ _ hc, henv.1 _ _ hd, Chunk.clausifies]

theorem rowCase_clean (env : ProofEnv) (henv : env.NoClausify) (d_node c : Node) (ss : Out)
    (subproof : Node) (r : Out × Node) (hs : clausifyCount ss = 0)
    (h : rowCase env d_node c ss subproof = some r) : clausifyCount r.1 = 0 := by
  unfold rowCase at h
  split_ifs at h
  simp only [Option.bind_eq_bind, Option.bind_eq_some] at h
  obtain ⟨x, _, h⟩ := h
  split_ifs at h
  · unfold rowPositive at h
    simp only [Option.bind_eq_bind, Option.pure_def, Option.bind_eq_some,
      Option.some.injEq] at h
    obtain ⟨⟨t1, t2, t3, t4, ret⟩, _, ps, hps, e, _, rhs, _, h⟩ := h
    rw [← h]
    have hp := printFour_clean env henv _ _ _ _ ps hps
    split_ifs <;> simp +decide [hs, hp, Chunk.clausifies]
  · unfold rowNegative at h
    simp only [Option.bind_eq_bind, Option.pure_def, Option.bind_eq_some,
      Option.some.injEq] at h
    obtain ⟨t1, _, t2, _, t34, _, ps, hps, h⟩ := h
    rw [← h]
    have hp := printFour_clean env henv _ _ _ _ ps hps
    simp +decide [hs, hp, Chunk.clausifies]

theorem row1Case_clean (env : ProofEnv) (henv : env.NoClausify) (d_node : Node)
    (r : Out × Node) (h : row1Case env d_node = some r) : clausifyCount r.1 = 0 := by
  unfold row1Case at h
  split_ifs at h
  simp only [Option.bind_eq_bind, Option.pure_def, Option.bind_eq_some, Option.some.injEq] at h
  obtain ⟨⟨t1, t2, t3, ret⟩, _, p1, h1, p2, h2, p3, h3, h⟩ := h
  rw [← h]
  simp +decide [henv.1 _ _ h1, henv.1 _ _ h2, henv.1 _ _ h3, Chunk.clausifies]

theorem mem_of_lookup (k : Node) (v : Out) :
    ∀ (l : List (Node × Out)), l.lookup k = some v → (k, v) ∈ l
  | [], h => by simp at h
  | (a, b) :: m, h => by
    simp only [List.lookup_cons] at h
    cases hb : (k == a) with
    | true =>
      simp only [hb, Option.some.injEq] at h
      have hka : k = a := by simpa using hb
      rw [hka, h]
      exact List.mem_cons_self _ _
    | false =>
      simp only [hb] at h
      exact List.mem_cons_of_mem _ (mem_of_lookup k v m h)

theorem extCase_clean (env : ProofEnv) (henv : env.NoClausify) (d_node c : Node)
    (r : Out × Node) (h : extCase env d_node c = some r) : clausifyCount r.1 = 0 := by
  unfold extCase at h
  by_cases h1 : d_node.getKind = .NOT
  swap
  · simp [h1] at h
  simp only [h1, if_true, Option.bind_eq_bind, Option.bind_eq_some] at h
  obtain ⟨e, _, h⟩ := h
  by_cases h2 : e.getKind = .EQUAL
  swap
  · simp [h2] at h
  by_cases h3 : c.getKind = .NOT
  swap
  · simp [h2, h3] at h
  simp only [h2, h3, if_true, Option.bind_eq_some] at h
  obtain ⟨ce, _, h⟩ := h
  by_cases h4 : ce.getKind = .EQUAL
  swap
  · simp [h4] at h
  simp only [h4, if_true, Option.pure_def, Option.bind_eq_some, Option.some.injEq] at h
  obtain ⟨_, _, _, _, sel, _, t3, _, name, hname, h⟩ := h
  rw [← h]
  have hn : clausifyCount name = 0 := by
    unfold ProofEnv.skolemToLiteral at hname
    exact henv.2 (t3, name) (mem_of_lookup _ _ _ hname)
  simp +decide [hn, Chunk.clausifies]

theorem reflCase_clean (env : ProofEnv) (henv : env.NoClausify) (d_node : Node)
    (cs : List EqProof) (r : Out × Node) (h : reflCase env d_node cs = some r) :
    clausifyCount r.1 = 0 := by
  unfold reflCase at h
  split_ifs at h
  simp only [Option.bind_eq_bind, Option.pure_def, Option.bind_eq_some, Option.some.injEq] at h
  obtain ⟨t, ht, h⟩ := h
  rw [← h]
  simp +decide [henv.1 _ _ ht, Chunk.clausifies]

theorem givenCase_clean (d_node : Node) (cs : List EqProof) (r : Out × Node)
    (h : givenCase d_node cs = some r) : clausifyCount r.1 = 0 := by
  unfold givenCase at h
  split_ifs at h
  simp only [Option.some.injEq] at h
  rw [← h]
  simp +decide [Chunk.clausifies]

mutual
/-- The rule switch writes no clause-falsification combinator, whatever the depth. -/
theorem toStreamRecLFSC1_clean (env : ProofEnv) (henv : env.NoClausify) :
    ∀ (pf : EqProof) (tb : Nat) (r : Out × Node),
      toStreamRecLFSC1 env tb pf = some r → clausifyCount r.1 = 0
  | .mk .MERGED_THROUGH_CONGRUENCE d_node d_children, tb, r, h => by
    rw [toStreamRecLFSC1] at h
    simp only [Option.bind_eq_some] at h
    obtain ⟨st, hst, h⟩ := h
    exact congFinish_clean env d_node st r (congChain_clean env henv d_children tb d_node st hst) h
  | .mk .MERGED_THROUGH_REFLEXIVITY d_node d_children, tb, r, h => by
    rw [toStreamRecLFSC1] at h
    exact reflCase_clean env henv d_node d_children r h
  | .mk .MERGED_THROUGH_EQUALITY d_node d_children, tb, r, h => by
    rw [toStreamRecLFSC1] at h
    exact givenCase_clean d_node d_children r h
  | .mk .MERGED_THROUGH_TRANS d_node d_children, tb, r, h => by
    rw [toStreamRecLFSC1] at h
    simp only [Option.bind_eq_some] at h
    obtain ⟨rs, hrs, h⟩ := h
    exact transFold_clean env d_node rs r
      (toStreamRecLFSCList_clean env henv d_children (tb + 1) rs hrs) h
  | .mk .MERGED_ARRAYS_ROW d_node [c], tb, r, h => by
    rw [toStreamRecLFSC1] at h
    simp only [Option.bind_eq_some] at h
    obtain ⟨r1, hr1, h⟩ := h
    exact rowCase_clean env henv d_node c.d_node r1.1 r1.2 r
      (toStreamRecLFSC1_clean env henv c (tb + 1) r1 hr1) h
  | .mk .MERGED_ARRAYS_ROW d_node [], tb, r, h => by
    rw [toStreamRecLFSC1_row_length env tb d_node [] (by simp)] at h
    cases h
  | .mk .MERGED_ARRAYS_ROW d_node (c0 :: c1 :: cs), tb, r, h => by
    rw [toStreamRecLFSC1_row_length env tb d_node (c0 :: c1 :: cs) (by simp)] at h
    cases h
  | .mk .MERGED_ARRAYS_ROW1 d_node _, tb, r, h => by
    rw [toStreamRecLFSC1] at h
    exact row1Case_clean env henv d_node r h
  | .mk .MERGED_ARRAYS_EXT d_node [c], tb, r, h => by
    rw [toStreamRecLFSC1] at h
    exact extCase_clean env henv d_node c.d_node r h
  | .mk .MERGED_ARRAYS_EXT d_node [], tb, r, h => by
    rw [toStreamRecLFSC1_ext_length env tb d_node [] (by simp)] at h
    cases h
  | .mk .MERGED_ARRAYS_EXT d_node (c0 :: c1 :: cs), tb, r, h => by
    rw [toStreamRecLFSC1_ext_length env tb d_node (c0 :: c1 :: cs) (by simp)] at h
    cases h
  | .mk .MERGED_THROUGH_CONSTANTS _ _, tb, r, h => by
    rw [toStreamRecLFSC1] at h
    cases h
  | .mk (.OTHER _) _ _, tb, r, h => by
    rw [toStreamRecLFSC1] at h
    cases h
theorem toStreamRecLFSCList_clean (env : ProofEnv) (henv : env.NoClausify) :
    ∀ (cs : List EqProof) (tb : Nat) (rs : List (Out × Node)),
      toStreamRecLFSCList env tb cs = some rs → ∀ x ∈ rs, clausifyCount x.1 = 0
  | [], tb, rs, h => by
    rw [toStreamRecLFSCList] at h
    cases h
    intro x hx
    cases hx
  | c :: cs, tb, rs, h => by
    rw [toStreamRecLFSCList] at h
    simp only [Option.bind_eq_some, Option.some.injEq] at h
    obtain ⟨r, hr, rest, hrest, h⟩ := h
    rw [← h]
    intro x hx
    rcases List.mem_cons.mp hx with hx | hx
    · rw [hx]
      exact toStreamRecLFSC1_clean env henv c tb r hr
    · exact toStreamRecLFSCList_clean env henv cs tb rest hrest x hx
theorem congChain_clean (env : ProofEnv) (henv : env.NoClausify) :
    ∀ (cs : List EqProof) (tb : Nat) (d_node : Node) (st : CongState),
      congChain env tb d_node cs = some st → clausifyCount st.out = 0
  | [.mk .MERGED_THROUGH_CONGRUENCE node0 children0, c1], tb, d_node, st, h => by
    rw [congChain] at h
    split_ifs at h
    simp only [Option.bind_eq_some] at h
    obtain ⟨st0, hst0, r, hr, h⟩ := h
    exact congNext_clean d_node st0 r.1 r.2 st
      (congChain_clean env henv children0 tb node0 st0 hst0)
      (toStreamRecLFSC1_clean env henv c1 (tb + 1) r hr) h
  | [.mk .MERGED_THROUGH_REFLEXIVITY n cs, c1], tb, d_node, st, h => by
    rw [congChain] at h
    · split_ifs at h
      simp only [Option.bind_eq_some] at h
      obtain ⟨r1, hr1, r, hr, h⟩ := h
      exact congFirst_clean env d_node r1.1 r1.2 r.1 r.2 st
        (toStreamRecLFSC1_clean env henv _ (tb + 1) r1 hr1)
        (toStreamRecLFSC1_clean env henv c1 (tb + 1) r hr) h
    · intro node0 children0 hc
      cases hc
  | [.mk .MERGED_THROUGH_EQUALITY n cs, c1], tb, d_node, st, h => by
    rw [congChain] at h
    · split_ifs at h
      simp only [Option.bind_eq_some] at h
      obtain ⟨r1, hr1, r, hr, h⟩ := h
      exact congFirst_clean env d_node r1.1 r1.2 r.1 r.2 st
        (toStreamRecLFSC1_clean env henv _ (tb + 1) r1 hr1)
        (toStreamRecLFSC1_clean env henv c1 (tb + 1) r hr) h
    · intro node0 children0 hc
      cases hc
  | [.mk .MERGED_THROUGH_TRANS n cs, c1], tb, d_node, st, h => by
    rw [congChain] at h
    · split_ifs at h
      simp only [Option.bind_eq_some] at h
      obtain ⟨r1, hr1, r, hr, h⟩ := h
      exact congFirst_clean env d_node r1.1 r1.2 r.1 r.2 st
        (toStreamRecLFSC1_clean env henv _ (tb + 1) r1 hr1)
        (toStreamRecLFSC1_clean env henv c1 (tb + 1) r hr) h
    · intro node0 children0 hc
      cases hc
  | [.mk .MERGED_ARRAYS_ROW n cs, c1], tb, d_node, st, h => by
    rw [congChain] at h
    · split_ifs at h
      simp only [Option.bind_eq_some] at h
      obtain ⟨r1, hr1, r, hr, h⟩ := h
      exact congFirst_clean env d_node r1.1 r1.2 r.1 r.2 st
        (toStreamRecLFSC1_clean env henv _ (tb + 1) r1 hr1)
        (toStreamRecLFSC1_clean env henv c1 (tb + 1) r hr) h
    · intro node0 children0 hc
      cases hc
  | [.mk .MERGED_ARRAYS_ROW1 n cs, c1], tb, d_node, st, h => by
    rw [congChain] at h
    · split_ifs at h
      simp only [Option.bind_eq_some] at h
      obtain ⟨r1, hr1, r, hr, h⟩ := h
      exact congFirst_clean env d_node r1.1 r1.2 r.1 r.2 st
        (toStreamRecLFSC1_clean env henv _ (tb + 1) r1 hr1)
        (toStreamRecLFSC1_clean env henv c1 (tb + 1) r hr) h
    · intro node0 children0 hc
      cases hc
  | [.mk .MERGED_ARRAYS_EXT n cs, c1], tb, d_node, st, h => by
    rw [congChain] at h
    · split_ifs at h
      simp only [Option.bind_eq_some] at h
      obtain ⟨r1, hr1, r, hr, h⟩ := h
      exact congFirst_clean env d_node r1.1 r1.2 r.1 r.2 st
        (toStreamRecLFSC1_clean env henv _ (tb + 1) r1 hr1)
        (toStreamRecLFSC1_clean env henv c1 (tb + 1) r hr) h
    · intro node0 children0 hc
      cases hc
  | [.mk .MERGED_THROUGH_CONSTANTS n cs, c1], tb, d_node, st, h => by
    rw [congChain] at h
    · split_ifs at h
      simp only [Option.bind_eq_some] at h
      obtain ⟨r1, hr1, r, hr, h⟩ := h
      exact congFirst_clean env d_node r1.1 r1.2 r.1 r.2 st
        (toStreamRecLFSC1_clean env henv _ (tb + 1) r1 hr1)
        (toStreamRecLFSC1_clean env henv c1 (tb + 1) r hr) h
    · intro node0 children0 hc
      cases hc
  | [.mk (.OTHER k) n cs, c1], tb, d_node, st, h => by
    rw [congChain] at h
    · split_ifs at h
      simp only [Option.bind_eq_some] at h
      obtain ⟨r1, hr1, r, hr, h⟩ := h
      exact congFirst_clean env d_node r1.1 r1.2 r.1 r.2 st
        (toStreamRecLFSC1_clean env henv _ (tb + 1) r1 hr1)
        (toStreamRecLFSC1_clean env henv c1 (tb + 1) r hr) h
    · intro node0 children0 hc
      cases hc
  | [], tb, d_node, st, h => by
    rw [congChain_none_of_length env tb d_node [] (by simp)] at h
    cases h
  | [c0], tb, d_node, st, h => by
    rw [congChain_none_of_length env tb d_node [c0] (by simp)] at h
    cases h
  | c0 :: c1 :: c2 :: cs, tb, d_node, st, h => by
    rw [congChain_none_of_length env tb d_node (c0 :: c1 :: c2 :: cs) (by simp)] at h
    cases h
end

/-- A returning depth-0 pass writes the clause-falsification combinator once. -/
theorem toStreamRecLFSC0_count (env : ProofEnv) (henv : env.NoClausify) (pf : EqProof)
    (r : Out × Node) (h : toStreamRecLFSC0 env pf = some r) : clausifyCount r.1 = 1 := by
  obtain ⟨_, _, _, _, _, negChild, sub, ss, n1, _, _, hpos, hext, hother⟩ :=
    toStreamRecLFSC0_spec env pf r h
  have hss : clausifyCount ss = 0 := by
    split_ifs at hpos
    · exact toStreamRecLFSC1_clean env henv _ 1 (ss, n1) hpos
    · simp only [Option.bind_eq_some] at hpos
      obtain ⟨c, _, hc⟩ := hpos
      exact toStreamRecLFSC1_clean env henv c 1 (ss, n1) hc
  by_cases hid : negChild.d_id = .MERGED_ARRAYS_EXT
  · obtain ⟨ss2, c, h2, hout⟩ := hext hid
    have hss2 := toStreamRecLFSC1_clean env henv negChild 1 (ss2, c) h2
    simp only at hss2
    rw [hout]
    simp +decide [hss, hss2, Chunk.clausifies]
  · obtain ⟨e, _, hpred, heq⟩ := hother hid
    by_cases hk : e.getKind = .APPLY_UF
    · rw [hpred hk]
      simp +decide [hss, Chunk.clausifies]
    · obtain ⟨a0, a1, e0, e1, _, _, _, _, _, hout⟩ := heq hk
      rw [hout]
      split_ifs <;> simp +decide [hss, Chunk.clausifies]

/-- C18: when the texts of the collaborators (printed terms, literal names of skolems)
do not write it, a call at depth `tb >= 1` that returns has written no clause-falsification
combinator `clausify_false`, and a call at depth 0 that returns has written exactly one.
A call at depth `tb >= 1` is the rule switch; its recursive calls are made at depth
`tb + 1` (here for the transitivity and the ROW rule, and likewise for the children of a
congruence chain), and those of the depth-0 pass at depth 1, so every recursive call has a
depth of at least 1. -/
theorem only_top_level_concludes_refutation (env : ProofEnv) (henv : env.NoClausify) :
    (∀ tb pf r, 1 ≤ tb → toStreamRecLFSC env tb pf = some r → clausifyCount r.1 = 0) ∧
      (∀ pf r, toStreamRecLFSC env 0 pf = some r → clausifyCount r.1 = 1) ∧
      (∀ tb pf, 1 ≤ tb → toStreamRecLFSC env tb pf = toStreamRecLFSC1 env tb pf) ∧
      (∀ tb d ch, toStreamRecLFSC1 env tb (.mk .MERGED_THROUGH_TRANS d ch) =
        (toStreamRecLFSCList env (tb + 1) ch).bind (transFold env d)) ∧
      (∀ tb d c, toStreamRecLFSC1 env tb (.mk .MERGED_ARRAYS_ROW d [c]) =
        (toStreamRecLFSC1 env (tb + 1) c).bind (fun r => rowCase env d c.d_node r.1 r.2)) := by
  have hdepth : ∀ tb pf, 1 ≤ tb → toStreamRecLFSC env tb pf = toStreamRecLFSC1 env tb pf := by
    intro tb pf htb
    have : tb ≠ 0 := by omega
    simp [toStreamRecLFSC, this]
  refine ⟨?_, ?_, hdepth, toStreamRecLFSC1_trans env, toStreamRecLFSC1_row env⟩
  · intro tb pf r htb h
    rw [hdepth tb pf htb] at h
    exact toStreamRecLFSC1_clean env henv pf tb r h
  · intro pf r h
    simp only [toStreamRecLFSC, if_true] at h
    exact toStreamRecLFSC0_count env henv pf r h

theorem exampleEnv_noClausify : exampleEnv.NoClausify := by
  refine ⟨?_, ?_⟩
  · intro n o h
    simp only [exampleEnv, Option.some.injEq] at h
    rw [← h]
    rfl
  · intro kv hkv
    simp [exampleEnv] at hkv

theorem only_top_level_concludes_refutation_witness :
    (∃ r, toStreamRecLFSC exampleEnv 0 swappedRefutation = some r ∧ clausifyCount r.1 = 1) ∧
      ∃ r, toStreamRecLFSC exampleEnv 1 transOddRun = some r ∧ clausifyCount r.1 = 0 :=
  ⟨⟨_, rfl, (only_top_level_concludes_refutation exampleEnv exampleEnv_noClausify).2.1
      swappedRefutation _ rfl⟩,
    ⟨_, rfl, (only_top_level_concludes_refutation exampleEnv exampleEnv_noClausify).1 1
      transOddRun _ (by decide) rfl⟩⟩

/-- The composition proper on two equations with the sides `a0`, `a1` and `b0`, `b1`. -/
theorem transBody_equations (f s : Bool) (m1 m2 a0 a1 b0 b1 : Node) (ss1 ss2 : Out)
    (h1 : isEqOrIff m1 = true) (h2 : isEqOrIff m2 = true) (hc1 : m1.children = [a0, a1])
    (hc2 : m2.children = [b0, b1]) :
    transBody f s m1 ss1 m2 ss2 =
      if a0 = b0 then
        some ([.str (if f then "(negsymm _ _ _ " else "(symm _ _ _ ")] ++ ss1 ++ [.str ") "]
                ++ ss2, eqNode a1 b1)
      else if a1 = b1 then
        some (ss1 ++ [.str (if s then " (negsymm _ _ _ " else " (symm _ _ _ ")] ++ ss2
                ++ [.str ")"], eqNode a0 b0)
      else if a0 = b1 then
        (if !f && !s then some (ss2 ++ [.str " "] ++ ss1, eqNode b0 a1)
         else if f then
           some ([.str " (negsymm _ _ _ "] ++ ss1 ++ [.str ") (symm _ _ _ "] ++ ss2
                   ++ [.str ")"], eqNode a1 b0)
         else
           some ([.str " (symm _ _ _ "] ++ ss1 ++ [.str ") (negsymm _ _ _ "] ++ ss2
                   ++ [.str ")"], eqNode a1 b0))
      else if a1 = b0 then some (ss1 ++ [.str " "] ++ ss2, eqNode a0 b1)
      else none := by
  unfold transBody
  simp only [h1, h2, Bool.and_self, if_true, Node.child, hc1, hc2, List.get?,
    Option.bind_eq_bind, Option.some_bind, Option.pure_def]

/-- The composition step on two conclusions that are not negated. -/
theorem transCompose_positive (n1 n2 : Node) (ss1 ss2 : Out) (h1 : n1.getKind ≠ .NOT)
    (h2 : n2.getKind ≠ .NOT) :
    transCompose n1 ss1 n2 ss2 =
      (transBody false false n1 ss1 n2 ss2).bind (fun b =>
        some ([.str "(trans _ _ _ _ "] ++ b.1 ++ [.str ")"], b.2)) := by
  unfold transCompose
  simp only [h1, h2, and_self, if_false, decide_False, Bool.not_false, Bool.and_false,
    Bool.false_eq_true, Option.some_bind, Bool.or_self, transOpener]

/-- C19: a transitivity node at depth `tb >= 1` folds the results of its children from
left to right, starting from the first.  In a step from a running equation with the sides
`a0`, `a1` to a next equation with the sides `b0`, `b1`, both not negated and not the
same equation up to orientation, the loop goes on with the conclusion of the composition
step, which is the equation `a1 = b1` if `a0 = b0`, else `a0 = b0` if `a1 = b1`, else
`b0 = a1` if `a0 = b1`, else `a0 = b1` if `a1 = b0`; when the two share no endpoint the
step and the loop fail. -/
theorem transitivity_composition (env : ProofEnv) (goal n1 n2 a0 a1 b0 b1 : Node)
    (ss ss2 : Out) (flag : Bool) (rest : List (Out × Node))
    (h1 : isEqOrIff n1 = true) (h2 : isEqOrIff n2 = true) (hc1 : n1.children = [a0, a1])
    (hc2 : n2.children = [b0, b1])
    (hne : ¬ ((a0 = b0 ∧ a1 = b1) ∨ (a0 = b1 ∧ a1 = b0))) :
    transLoop env goal n1 ss flag ((ss2, n2) :: rest) =
        (transCompose n1 ss n2 ss2).bind (fun r => transLoop env goal r.2 r.1 false rest) ∧
      (transCompose n1 ss n2 ss2).map Prod.snd = composedEquation a0 a1 b0 b1 ∧
      (composedEquation a0 a1 b0 b1 = none →
        transLoop env goal n1 ss flag ((ss2, n2) :: rest) = none) ∧
      (∀ tb d ch, toStreamRecLFSC env (tb + 1) (.mk .MERGED_THROUGH_TRANS d ch) =
        (toStreamRecLFSCList env (tb + 2) ch).bind (transFold env d)) ∧
      (∀ r0 r1 rs, goal.isNull = false →
        transFold env goal (r0 :: r1 :: rs) = transLoop env goal r0.2 r0.1 false (r1 :: rs)) := by
  have hstep : transLoop env goal n1 ss flag ((ss2, n2) :: rest) =
      (transCompose n1 ss n2 ss2).bind (fun r => transLoop env goal r.2 r.1 false rest) := by
    rw [transLoop]
    simp only [h2, if_true, identicalEq_pair hc1 hc2, hne, decide_False, Option.bind_eq_bind,
      Option.some_bind, Bool.false_eq_true, if_false]
  have hconc : (transCompose n1 ss n2 ss2).map Prod.snd = composedEquation a0 a1 b0 b1 := by
    rw [transCompose_positive n1 n2 ss ss2 (getKind_ne_not_of_isEqOrIff h1)
      (getKind_ne_not_of_isEqOrIff h2), transBody_equations false false n1 n2 a0 a1 b0 b1 ss ss2
      h1 h2 hc1 hc2]
    unfold composedEquation
    simp only [Bool.not_false, Bool.and_self, if_true]
    split_ifs <;> simp
  refine ⟨hstep, hconc, ?_, ?_, ?_⟩
  · intro hnone
    rw [hstep]
    rw [hnone] at hconc
    cases hx : transCompose n1 ss n2 ss2 with
    | none => rfl
    | some x => simp [hx] at hconc
  · intro tb d ch
    simp only [toStreamRecLFSC, Nat.add_one_ne_zero, if_false]
    rw [toStreamRecLFSC1_trans]
  · intro r0 r1 rs hg
    simp [transFold, hg]

theorem transitivity_composition_witness :
    (toStreamRecLFSC exampleEnv 1 transChain).map Prod.snd =
        some (eqNode varA (appF varA)) ∧
      (transCompose (Node.mkEqual varA varB) [] (Node.mkEqual varB (appF varA)) []).map
        Prod.snd = composedEquation varA varB varB (appF varA) :=
  ⟨by decide,
    (transitivity_composition exampleEnv .null (Node.mkEqual varA varB)
      (Node.mkEqual varB (appF varA)) varA varB varB (appF varA) [] [] false [] rfl rfl rfl rfl
      (by decide)).2.1⟩

theorem toStreamRecLFSC_pos (env : ProofEnv) (tb : Nat) (htb : tb ≠ 0) (pf : EqProof) :
    toStreamRecLFSC env tb pf = toStreamRecLFSC1 env tb pf := by
  simp [toStreamRecLFSC, htb]

theorem row1Shape_mirror (a i v : Node) :
    row1Shape (Node.mkEqual v (mkSelect (mkStore a i v) i)) =
      some (a, i, v, Node.mkEqual (mkSelect (mkStore a i v) i) v) := by
  simp [row1Shape, Node.mkEqual, mkSelect, mkStore, child_app, getKind_app]

theorem select_ne_grandchild {s a i v k x : Node} (hs : s ∈ v.children) (hx : x ∈ s.children) :
    x ≠ mkSelect (mkStore a i v) k := by
  intro e
  have h1 := sizeOf_child_lt hs
  have h2 := sizeOf_child_lt hx
  have h3 : sizeOf v < sizeOf (mkStore a i v) := by
    apply sizeOf_child_lt
    simp [mkStore, Node.children]
  have h4 : sizeOf (mkStore a i v) < sizeOf (mkSelect (mkStore a i v) k) := by
    apply sizeOf_child_lt
    simp [mkSelect, Node.children]
  rw [e] at h2
  omega

theorem row1Shape_straight (a i v : Node) (hv : selectArity v)
    (hv0 : ∀ s ∈ v.children, storeArity s) :
    row1Shape (Node.mkEqual (mkSelect (mkStore a i v) i) v) =
      some (a, i, v, Node.mkEqual (mkSelect (mkStore a i v) i) v) := by
  by_cases hk : v.getKind = .SELECT
  · have hn := hv hk
    unfold Node.getNumChildren at hn
    rcases hc : v.children with _ | ⟨s, _ | ⟨k2, rest⟩⟩
    · simp [hc] at hn
    · simp [hc] at hn
    · have h0 : v.child 0 = some s := by simp [Node.child, hc]
      have h1 : v.child 1 = some k2 := by simp [Node.child, hc]
      by_cases hs : s.getKind = .STORE
      · have hsn := hv0 s (by simp [hc]) hs
        unfold Node.getNumChildren at hsn
        rcases hsc : s.children with _ | ⟨s0, _ | ⟨s1, _ | ⟨s2, srest⟩⟩⟩
        · simp [hsc] at hsn
        · simp [hsc] at hsn
        · simp [hsc] at hsn
        · have hs1 : s.child 1 = some s1 := by simp [Node.child, hsc]
          have hs2 : s.child 2 = some s2 := by simp [Node.child, hsc]
          have hsm : s ∈ v.children := by simp [hc]
          have hxm : s2 ∈ s.children := by simp [hsc]
          have hne : s2 ≠ mkSelect (mkStore a i v) i := select_ne_grandchild hsm hxm
          unfold mkSelect mkStore at hne
          by_cases he : s1 = k2
          · simp [row1Shape, Node.mkEqual, mkSelect, mkStore, child_app, getKind_app, hk, h0, h1,
              hs, hs1, hs2, he, hne]
          · simp [row1Shape, Node.mkEqual, mkSelect, mkStore, child_app, getKind_app, hk, h0, h1,
              hs, hs1, he]
      · simp [row1Shape, Node.mkEqual, mkSelect, mkStore, child_app, getKind_app, hk, h0, hs]
  · simp [row1Shape, Node.mkEqual, mkSelect, mkStore, child_app, getKind_app, hk]

/-- C24: for a ROW1 node whose conclusion is `(store a i v)[i] = v` or its mirror
`v = (store a i v)[i]`, the recompiler at depth `tb >= 1` writes `(row1 _ _ a i v)` over
the printed terms and returns `(store a i v)[i] = v` for both shapes, whatever the list
`ch` of children of the node is (no child is recompiled); for a conclusion of neither
shape it fails.  (`selectArity` and `storeArity` are the arity discipline of terms: a
select has two children and a store three.) -/
theorem row1_combinator (env : ProofEnv) (tb : Nat) (htb : tb ≠ 0) (a i v d : Node)
    (ch : List EqProof) (pa pi pv : Out) (hv : selectArity v)
    (hv0 : ∀ s ∈ v.children, storeArity s)
    (hpa : env.printTerm a = some pa) (hpi : env.printTerm i = some pi)
    (hpv : env.printTerm v = some pv) :
    ((d = Node.mkEqual (mkSelect (mkStore a i v) i) v ∨
        d = Node.mkEqual v (mkSelect (mkStore a i v) i)) →
      toStreamRecLFSC env tb (.mk .MERGED_ARRAYS_ROW1 d ch) =
        some ([.str "(row1 _ _ "] ++ pa ++ [.str " "] ++ pi ++ [.str " "] ++ pv ++ [.str ")"],
              Node.mkEqual (mkSelect (mkStore a i v) i) v)) ∧
    (isRow1Conclusion d = false →
      toStreamRecLFSC env tb (.mk .MERGED_ARRAYS_ROW1 d ch) = none) := by
  rw [toStreamRecLFSC_pos env tb htb, toStreamRecLFSC1_row1]
  constructor
  · intro hd
    have hshape : row1Shape d =
        some (a, i, v, Node.mkEqual (mkSelect (mkStore a i v) i) v) := by
      rcases hd with hd | hd
      · rw [hd]
        exact row1Shape_straight a i v hv hv0
      · rw [hd]
        exact row1Shape_mirror a i v
    have hk : d.getKind = .EQUAL := by
      rcases hd with hd | hd <;> rw [hd] <;> rfl
    simp [row1Case, hk, hshape, hpa, hpi, hpv]
  · intro h
    exact row1Case_none_of_violation env d h

theorem row1_combinator_witness :
    toStreamRecLFSC exampleEnv 1
        (.mk .MERGED_ARRAYS_ROW1 (Node.mkEqual varV (mkSelect (mkStore varArr varI varV) varI))
          [givenAB]) =
      some ([.str "(row1 _ _ "] ++ [.expr varArr] ++ [.str " "] ++ [.expr varI] ++ [.str " "]
              ++ [.expr varV] ++ [.str ")"],
            Node.mkEqual (mkSelect (mkStore varArr varI varV) varI) varV) :=
  (row1_combinator exampleEnv 1 (by decide) varArr varI varV
    (Node.mkEqual varV (mkSelect (mkStore varArr varI varV) varI)) [givenAB]
    [.expr varArr] [.expr varI] [.expr varV] (by intro h; cases h)
    (by intro s hs; cases hs) rfl rfl rfl).1 (Or.inr rfl)
/-- C25: for an EXTENSIONALITY node whose conclusion is a negated equation
`not (l = r)` and whose single child concludes a negated equation `not (a = b)`, the
recompiler at depth `tb >= 1` looks up the witness index `k` (the second child of `l`) in
the skolem-to-literal-name table: when it has the name `S` the output is
`(or_elim_1 _ _ N S)`, with `N` the literal name of `a = b`, and the node's own conclusion
is returned; when it has no entry the recompiler fails.  The child is not recompiled. -/
theorem extensionality_combinator (env : ProofEnv) (tb : Nat) (htb : tb ≠ 0)
    (l r a b k : Node) (cid : MergeReasonType) (cch : List EqProof)
    (hl : l.child 1 = some k) :
    toStreamRecLFSC env tb
        (.mk .MERGED_ARRAYS_EXT (Node.mkEqual l r).notNode
          [.mk cid (Node.mkEqual a b).notNode cch]) =
      (env.skolemToLiteral k).map (fun S =>
        ([.str "(or_elim_1 _ _ ", .litName (Node.mkEqual a b), .str " "] ++ S ++ [.str ")"],
          (Node.mkEqual l r).notNode)) := by
  rw [toStreamRecLFSC_pos env tb htb, toStreamRecLFSC1_ext]
  cases hS : env.skolemToLiteral k <;>
    simp [extCase, EqProof.d_node, Node.notNode, Node.mkEqual, child_app, getKind_app, hl, hS]

theorem extensionality_combinator_witness :
    toStreamRecLFSC skolemProofEnv 1 extChild =
      (skolemProofEnv.skolemToLiteral varK).map (fun S =>
        ([.str "(or_elim_1 _ _ ", .litName (Node.mkEqual varArr varArrB), .str " "] ++ S
            ++ [.str ")"],
          (Node.mkEqual (mkSelect varArr varK) (mkSelect varArrB varK)).notNode)) :=
  extensionality_combinator skolemProofEnv 1 (by decide) (mkSelect varArr varK)
    (mkSelect varArrB varK) varArr varArrB varK .MERGED_THROUGH_EQUALITY [] rfl

/-- C26: for a GIVEN leaf with a non-null conclusion `L`, the recompiler at depth
`tb >= 1` writes exactly one item, the name that the proof manager gives to the input
literal of `L` (`getLitName` of `L.negate()`, the literal of the lemma's clause that
stands for the assumption `L`), with no combinator around it, and returns `L`
unchanged. -/
theorem given_leaf_reference (env : ProofEnv) (tb : Nat) (htb : tb ≠ 0) (L : Node)
    (hL : L.isNull = false) :
    toStreamRecLFSC env tb (.mk .MERGED_THROUGH_EQUALITY L []) =
      some ([.litName L.negate], L) := by
  rw [toStreamRecLFSC_pos env tb htb, toStreamRecLFSC1_given]
  simp [givenCase, hL]

theorem given_leaf_reference_witness :
    toStreamRecLFSC exampleEnv 2 (.mk .MERGED_THROUGH_EQUALITY (Node.mkEqual varA varB) []) =
      some ([.litName (Node.mkEqual varA varB).negate], Node.mkEqual varA varB) :=
  given_leaf_reference exampleEnv 2 (by decide) (Node.mkEqual varA varB) rfl

/-- C27: for a REFLEXIVITY leaf over a non-null term `t` whose printed form is `p`, the
recompiler at depth `tb >= 1` writes `(refl _ p)` and returns the equation `eqNode t t`,
whose two sides are `t` and whose kind is `IFF` when `t` is Boolean and `EQUAL`
otherwise. -/
theorem reflexivity_leaf (env : ProofEnv) (tb : Nat) (htb : tb ≠ 0) (t : Node) (p : Out)
    (ht : t.isNull = false) (hp : env.printTerm t = some p) :
    toStreamRecLFSC env tb (.mk .MERGED_THROUGH_REFLEXIVITY t []) =
        some ([.str "(refl _ "] ++ p ++ [.str ")"], eqNode t t) ∧
      (eqNode t t).children = [t, t] ∧
      (eqNode t t).getKind = (if t.getType.isBoolean then Kind.IFF else Kind.EQUAL) := by
  rw [toStreamRecLFSC_pos env tb htb, toStreamRecLFSC1_refl]
  refine ⟨?_, rfl, rfl⟩
  simp [reflCase, ht, hp]

theorem reflexivity_leaf_witness :
    toStreamRecLFSC exampleEnv 1 (.mk .MERGED_THROUGH_REFLEXIVITY varP []) =
        some ([.str "(refl _ "] ++ [.expr varP] ++ [.str ")"], eqNode varP varP) ∧
      (eqNode varP varP).children = [varP, varP] ∧
      (eqNode varP varP).getKind = (if varP.getType.isBoolean then Kind.IFF else Kind.EQUAL) :=
  reflexivity_leaf exampleEnv 1 (by decide) varP [.expr varP] rfl rfl
theorem negRowSide_left (l r a i v k : Node) (h : l = mkSelect (mkStore a i v) k) :
    negRowTerms (Node.mkEqual l r).notNode = some (a, v) := by
  subst h
  simp [negRowTerms, negRowSide, Node.notNode, Node.mkEqual, mkSelect, mkStore, child_app,
    getKind_app]

theorem negRowSide_right (l r a i v k : Node) (hl : selectArity l)
    (hn : isSelectOverStore l = false) (h : r = mkSelect (mkStore a i v) k) :
    negRowTerms (Node.mkEqual l r).notNode = some (a, v) := by
  subst h
  by_cases hk : l.getKind = .SELECT
  · have hlen := hl hk
    unfold Node.getNumChildren at hlen
    rcases hc : l.children with _ | ⟨s, rest⟩
    · simp [hc] at hlen
    · have h0 : l.child 0 = some s := by simp [Node.child, hc]
      have hs : ¬ s.getKind = .STORE := by
        simpa [isSelectOverStore, hk, hc] using hn
      simp [negRowTerms, negRowSide, Node.notNode, Node.mkEqual, mkSelect, mkStore, child_app,
        getKind_app, hk, h0, hs]
  · simp [negRowTerms, negRowSide, Node.notNode, Node.mkEqual, mkSelect, mkStore, child_app,
      getKind_app, hk]

/-- C23 (fails on the code): the negative ROW case reads the stored array and the stored
value from the first side of the child's disequality that is a select over any store,
without the test of the array and of the index that the positive case makes.  The ROW node
`k = j` has the child `not ((store A i v)[j] = (store (store A i v) k a)[j])`, the mirror
shape over the array `(store A i v)` with the stored value `a` at the index `k`: its left
side is itself a select over a store, so the recompiler takes side 0 and writes
`(negativerow _ _ k j A v P)`, with `A` and `v` from the inner store, where the store
term of the shape has the stored array `(store A i v)` and the stored value `a`. -/
theorem negative_row_reads_first_store_side :
    nestedNegativeRow.d_children.map (fun c => c.d_node) =
        [(Node.mkEqual (mkSelect (mkStore varArr varI varV) varJ)
            (mkSelect (mkStore (mkStore varArr varI varV) varK varA) varJ)).notNode] ∧
      toStreamRecLFSC exampleEnv 1 nestedNegativeRow =
        some ([.str "(negativerow _ _ ", .expr varK, .str " ", .expr varJ, .str " ",
                .expr varArr, .str " ", .expr varV, .str " ",
                .litName (Node.mkEqual (mkSelect (mkStore varArr varI varV) varJ)
                  (mkSelect nestedStore varJ)), .str ")"],
              Node.mkEqual varK varJ) := by
  constructor <;> decide

/-- A ROW node whose conclusion has a select on its right side is taken for a positive ROW
node: for the conclusion `k = m[j]` over the child `not ((store A k v)[m[j]] = A[m[j]])`
the recompiler fails. -/
theorem select_index_row_is_positive :
    toStreamRecLFSC exampleEnv 1 selectIndexRow = none := by
  decide

/-- The negative ROW case on a child whose first select over a store is the one of the
shape: for a ROW node whose conclusion is an index equality `i = k` with `k`
not a select, and whose single child concludes `not (l = r)` where the term
`(store a i2 v)[k2]` is `l`, or is `r` while `l` is not a select over a store, the
recompiler at depth `tb >= 1` writes `(negativerow _ _ i k a v P)`, where `P` is the
child's proof, and returns `i = k`. -/
theorem negative_row_combinator (env : ProofEnv) (tb : Nat) (htb : tb ≠ 0)
    (i k l r a i2 v k2 sub : Node) (cid : MergeReasonType) (cch : List EqProof)
    (ss pi pk pa pv : Out) (hk : k.getKind ≠ .SELECT) (hl : selectArity l)
    (hside : l = mkSelect (mkStore a i2 v) k2 ∨
      (isSelectOverStore l = false ∧ r = mkSelect (mkStore a i2 v) k2))
    (hc : toStreamRecLFSC env (tb + 1) (.mk cid (Node.mkEqual l r).notNode cch) =
      some (ss, sub))
    (hpi : env.printTerm i = some pi) (hpk : env.printTerm k = some pk)
    (hpa : env.printTerm a = some pa) (hpv : env.printTerm v = some pv) :
    toStreamRecLFSC env tb
        (.mk .MERGED_ARRAYS_ROW (Node.mkEqual i k) [.mk cid (Node.mkEqual l r).notNode cch]) =
      some ([.str "(negativerow _ _ "] ++ pi ++ [.str " "] ++ pk ++ [.str " "] ++ pa
              ++ [.str " "] ++ pv ++ [.str " "] ++ ss ++ [.str ")"],
            Node.mkEqual i k) := by
  have hc1 : toStreamRecLFSC1 env (tb + 1) (.mk cid (Node.mkEqual l r).notNode cch) =
      some (ss, sub) := by
    simpa [toStreamRecLFSC] using hc
  have hterms : negRowTerms (Node.mkEqual l r).notNode = some (a, v) := by
    rcases hside with h | ⟨hn, h⟩
    · exact negRowSide_left l r a i2 v k2 h
    · exact negRowSide_right l r a i2 v k2 hl hn h
  rw [toStreamRecLFSC_pos env tb htb, toStreamRecLFSC1_row, hc1]
  simp [rowCase, rowNegative, printFour, EqProof.d_node, Node.mkEqual, child_app, getKind_app,
    hk, hpi, hpk, hpa, hpv]
  simp [Node.mkEqual] at hterms
  simp [hterms, hpa, hpv]

theorem negative_row_combinator_witness :
    toStreamRecLFSC exampleEnv 1
        (.mk .MERGED_ARRAYS_ROW (Node.mkEqual varK varJ)
          [.mk .MERGED_THROUGH_EQUALITY
            (Node.mkEqual (mkSelect varArr varJ)
              (mkSelect (mkStore varArr varK varV) varJ)).notNode []]) =
      some ([.str "(negativerow _ _ "] ++ [.expr varK] ++ [.str " "] ++ [.expr varJ]
              ++ [.str " "] ++ [.expr varArr] ++ [.str " "] ++ [.expr varV] ++ [.str " "]
              ++ [.litName (Node.mkEqual (mkSelect varArr varJ)
                    (mkSelect (mkStore varArr varK varV) varJ))]
              ++ [.str ")"],
            Node.mkEqual varK varJ) :=
  negative_row_combinator exampleEnv 1 (by decide) varK varJ (mkSelect varArr varJ)
    (mkSelect (mkStore varArr varK varV) varJ) varArr varK varV varJ
    (Node.mkEqual (mkSelect varArr varJ) (mkSelect (mkStore varArr varK varV) varJ)).notNode
    .MERGED_THROUGH_EQUALITY [] _ [.expr varK] [.expr varJ] [.expr varArr] [.expr varV]
    (by decide) (by intro _; rfl) (Or.inr ⟨by decide, rfl⟩) (by decide) rfl rfl rfl rfl
theorem congFirst_function_symbol (env : ProofEnv) (x : Node) (t1 ss : Out) (n2 : Node) :
    congFirst env (appF x) t1 (eqNode funF funF) ss n2 = none := by
  have hc0 : (eqNode funF funF).child 0 = some funF := rfl
  have hc1 : (eqNode funF funF).child 1 = some funF := rfl
  have hstart : congStart env funF = some (NodeBuilder.empty.push funF) := rfl
  have hidx : (appF x).child 1 = none := rfl
  have hmeta : (appF x).getMetaKind = .PARAMETERIZED := rfl
  have hnum : (NodeBuilder.empty.push funF).getNumChildren = 1 := rfl
  have hfk : funF.getKind = .VARIABLE := rfl
  unfold congFirst
  simp only [hc0, hc1, Option.bind_eq_bind, Option.some_bind]
  cases matchTerms env (appF x) funF with
  | none => simp
  | some m0 =>
    cases m0
    · simp only [Option.some_bind]
      cases matchTerms env (appF x) funF with
      | none => simp
      | some m1 =>
        cases m1
        · simp
        · simp [hc0, hc1, hstart, hmeta, hnum, hfk, congArg, hidx]
    · simp [hc0, hc1, hstart, hmeta, hnum, hfk, congArg, hidx]

/-- C21 (fails on the code): the accumulators of the congruence fold are builders without
a kind, so a chain that starts at the reflexivity of a function symbol cannot be folded.
For every environment, depth and second child the congruence node over `f(x)` fails; so
does the node over the partial application of `f` to `a`, and the chain of two nodes over
`h(a, a)`.  A chain that starts at a partial select is folded as the claim says: the chain
of two nodes over `A[i]` writes two `cong` openers, wraps the oppositely oriented
`k = i` in `symm` and returns `A[i] = A2[k]`. -/
theorem congruence_fold_fails_on_function_symbol :
    (∀ (env : ProofEnv) (tb : Nat) (x : Node) (c1 : EqProof),
        toStreamRecLFSC env (tb + 1) (ufChain (appF x) c1) = none) ∧
      toStreamRecLFSC exampleEnv 1
        (ufChain (.app .PARTIAL_APPLY_UF .null [funF, varA]) givenAB) = none ∧
      toStreamRecLFSC exampleEnv 1 binaryChain = none ∧
      toStreamRecLFSC exampleEnv 1 selectChain =
        some ([.str "(cong _ _ _ _ _ _ ", .str "(cong _ _ _ _ _ _ ", .str "(refl _ ",
                .expr (partialSelect0 varArr), .str ")", .str " ",
                .litName (Node.mkEqual varArr varArrB).notNode, .str ")", .str " ",
                .str "(symm _ _ _ ", .litName (Node.mkEqual varK varI).notNode, .str ")",
                .str ")"],
              Node.mkEqual (mkSelect varArr varI) (mkSelect varArrB varK)) := by
  refine ⟨?_, by decide, by decide, by decide⟩
  intro env tb x c1
  rw [toStreamRecLFSC_pos env (tb + 1) (by omega), ufChain, toStreamRecLFSC1_cong]
  have hchain : congChain env (tb + 1) (appF x)
      [.mk .MERGED_THROUGH_REFLEXIVITY funF [], c1] = none := by
    rw [congChain]
    · have hrefl : toStreamRecLFSC1 env (tb + 1 + 1) (.mk .MERGED_THROUGH_REFLEXIVITY funF []) =
          (env.printTerm funF).bind (fun t =>
            some ([.str "(refl _ "] ++ t ++ [.str ")"], eqNode funF funF)) := by
        rw [toStreamRecLFSC1_refl]
        simp [reflCase, funF, Node.isNull]
      rw [hrefl]
      cases env.printTerm funF with
      | none => simp
      | some t =>
        cases toStreamRecLFSC1 env (tb + 1 + 1) c1 with
        | none => simp
        | some r => simp [congFirst_function_symbol]
    · intro node0 children0 hc
      cases hc
  rw [hchain]
  rfl
/-- C22 (fails on the code): the run is anchored at the child before it whenever the run
does not start at child 0 (or at child 1 after a negative child 0), and the last child
collected so far is removed as being that target.  (1) For the children
`[x, run(c0, c1), not q]` the collected list is `[c0, x, c1]`, as the claim says, and
(2) for `[run(c0, c1), x, not q]` it is `[c0, x, c1]` as well.  (3) For
`[x, not p(a), run(c0, refl)]` the target is the negative child: the collected list is
`[c0, not p(a)]`, the child `x` is removed in its place, and the recompiler writes a
refutation.  (4) For `[run(c0, c1), x, run(d0, d1), not q]` the child `x` is the target
of both runs, and the second run removes `c1`, the last child collected, not `x`.
(5) For `[x, run(c0, c1), y, not q]` a target is found on both sides and the loop
fails. -/
theorem dangling_run_removes_last_collected_child :
    depth0Loop
        [givenAB, danglingCongruence (givenLeaf varP) (givenLeaf varQ),
          givenLeaf varR.notNode] 3 0 none [] =
        some (some 2, [givenLeaf varP, givenAB, givenLeaf varQ]) ∧
      depth0Loop
        [danglingCongruence (givenLeaf varP) (givenLeaf varQ), givenAB,
          givenLeaf varR.notNode] 3 0 none [] =
        some (some 2, [givenLeaf varP, givenAB, givenLeaf varQ]) ∧
      (depth0Loop negativeBeforeRun.d_children 3 0 none [] =
          some (some 1, [givenLeaf (eqNode (atomP varA) (atomP varB)),
            givenLeaf (atomP varA).notNode]) ∧
        (toStreamRecLFSC exampleEnv 0 negativeBeforeRun).isSome = true) ∧
      depth0Loop
        [danglingCongruence (givenLeaf varP) (givenLeaf varQ), givenAB,
          danglingCongruence (givenFAB) (givenLeaf varR), givenLeaf varR.notNode]
        4 0 none [] =
        some (some 3, [givenLeaf varP, givenAB, givenFAB, givenAB, givenLeaf varR]) ∧
      depth0Loop
        [givenAB, danglingCongruence (givenLeaf varP) (givenLeaf varQ), givenFAB,
          givenLeaf varR.notNode] 4 0 none [] = none := by
  refine ⟨rfl, rfl, ⟨rfl, by decide⟩, rfl, rfl⟩

theorem range_filterMap_get (f : ProofStep → Node) (l : List ProofStep) :
    ∀ i : Nat, (List.range i).filterMap (fun j => (l.get? j).map f) = (l.take i).map f
  | 0 => by simp
  | i + 1 => by
    rw [List.range_succ, List.filterMap_append, range_filterMap_get f l i, List.take_succ]
    have hg : l.get? i = l[i]? := List.get?_eq_getElem? l i
    cases h : l[i]? <;> simp [hg, h]

theorem partialClause_eq (env : LemmaEnv) (recipe : LemmaProofRecipe) (clause : SatClause)
    (clause_expr : List Node) (i : Nat) (step : ProofStep)
    (hi : recipe.getStep i = some step) :
    partialClause env recipe clause clause_expr i step =
      (stepClause env recipe clause i, stepLiterals recipe clause_expr i) := by
  unfold partialClause stepClause stepLiterals
  simp only [hi]
  have hr := range_filterMap_get (fun s => s.d_literalToProve.negate) recipe.d_proofSteps i
  unfold LemmaProofRecipe.getStep at hi ⊢
  rw [hr]
  by_cases hn : step.d_literalToProve = .null
  · simp [hn]
  · simp [hn]

theorem printCompositeSteps_certified (env : LemmaEnv) (tbl : TheoryProofTable) (id : Nat)
    (clause : SatClause) (clause_expr : List Node) (recipe : LemmaProofRecipe) :
    ∀ (steps : List ProofStep) (i : Nat) (st : LemmaState) (r : Out × Out × LemmaState),
      printCompositeSteps env tbl id clause clause_expr recipe i steps st = some r →
      ∀ (k : Nat) (step : ProofStep), steps.get? k = some step →
        ∃ (st0 : LemmaState) (p : List Node × LemmaState) (t : Out × Out),
          patchMissingAssertions recipe (env.getMissingAssertionsForStep recipe (i + k))
              (partialClause env recipe clause clause_expr (i + k) step).2 st0 = some p ∧
            printTheoryLemmaProof env tbl step.d_theory p.1 p.2.d_rewriteFilters = some t ∧
            partialProofLayout id (i + k)
              (partialClause env recipe clause clause_expr (i + k) step).1 t.1 <:+: r.1
  | [], i, st, r, _, k, step, hk => by simp at hk
  | s :: steps, i, st, r, h, k, step, hk => by
    rw [printCompositeSteps] at h
    simp only [Option.bind_eq_some, Option.some.injEq] at h
    obtain ⟨r1, h1, rs, hs, hr⟩ := h
    cases k with
    | zero =>
      simp only [List.get?_cons_zero, Option.some.injEq] at hk
      subst hk
      unfold printCompositeStep at h1
      simp only [Option.bind_eq_some, Option.some.injEq] at h1
      obtain ⟨p, hp, t, ht, hout⟩ := h1
      refine ⟨st, p, t, hp, ht, ?_⟩
      rw [← hr, ← hout]
      refine ⟨[], rs.1, ?_⟩
      simp [partialProofLayout]
    | succ k =>
      simp only [List.get?_cons_succ] at hk
      obtain ⟨st0, p, t, hp, ht, hin⟩ :=
        printCompositeSteps_certified env tbl id clause clause_expr recipe steps (i + 1) _ rs hs
          k step hk
      have harith : i + 1 + k = i + (k + 1) := by omega
      rw [harith] at hp hin
      refine ⟨st0, p, t, hp, ht, ?_⟩
      rw [← hr]
      obtain ⟨a, b, hab⟩ := hin
      exact ⟨r1.1 ++ a, b, by simp [← hab]⟩

/-- C28: when the composite branch returns for a lemma, then for every step `i` of the
recipe a partial proof is written for the clause that consists of the original clause's
literals, followed by the SAT literal of the negated literal of every earlier step
`j < i` in step order, followed by the SAT literal of step `i`'s own literal, un-negated,
when that literal is not null (and by nothing when it is null); the text of the proof is
what the certifier of step `i`'s theory returns for the same list of literals, in which
the missing assertions of the step, if any, have replaced their explanations. -/
theorem composite_partial_clause (env : LemmaEnv) (tbl : TheoryProofTable) (id : Nat)
    (clause : SatClause) (clause_expr : List Node) (recipe : LemmaProofRecipe)
    (st : LemmaState) (r : Out × Out × LemmaState)
    (h : printCompositeLemma env tbl id clause clause_expr recipe st = some r)
    (i : Nat) (step : ProofStep) (hi : recipe.getStep i = some step) :
    ∃ (st0 : LemmaState) (p : List Node × LemmaState) (t : Out × Out),
      patchMissingAssertions recipe (env.getMissingAssertionsForStep recipe i)
          (stepLiterals recipe clause_expr i) st0 = some p ∧
        (env.getMissingAssertionsForStep recipe i = [] →
          p.1 = stepLiterals recipe clause_expr i) ∧
        printTheoryLemmaProof env tbl step.d_theory p.1 p.2.d_rewriteFilters = some t ∧
        partialProofLayout id i (stepClause env recipe clause i) t.1 <:+: r.1 := by
  unfold printCompositeLemma at h
  simp only [Option.bind_eq_some] at h
  obtain ⟨r1, h1, h2⟩ := h
  by_cases hn : recipe.getNumSteps < 2
  · simp [hn] at h2
  · simp only [hn, if_false, Option.some.injEq] at h2
    obtain ⟨st0, p, t, hp, ht, hin⟩ :=
      printCompositeSteps_certified env tbl id clause clause_expr recipe _ 0 st r1 h1 i step hi
    rw [Nat.zero_add, partialClause_eq env recipe clause clause_expr i step hi] at hp hin
    refine ⟨st0, p, t, hp, ?_, ht, ?_⟩
    · intro hm
      rw [hm, patchMissingAssertions] at hp
      cases hp
      rfl
    · rw [← h2]
      obtain ⟨a, b, hab⟩ := hin
      refine ⟨a, b ++ ([.str "(satlem_simplify _ _ _ "]
          ++ resolutionOpenings id 0 (recipe.d_proofSteps.take (recipe.getNumSteps - 1))
          ++ [.clauseName id, .str "s", .num (recipe.getNumSteps - 1), .str " "]
          ++ resolutionPivots env (recipe.d_proofSteps.take (recipe.getNumSteps - 1)).reverse
          ++ [.str "( \\ ", .clauseName id, .str "\n"]), ?_⟩
      simp only [← hab, List.append_assoc]

theorem composite_partial_clause_witness :
    ∃ r, printCompositeLemma (exampleLemmaEnv false) fullTable 7 exampleLemma.2
          [Node.mkEqual varA varB, Node.mkEqual (appF varA) (appF varB)] twoStepRecipe
          ⟨[], []⟩ = some r ∧
      twoStepRecipe.getStep 1 = some ⟨.THEORY_UF, .null, []⟩ ∧
      ∃ (st0 : LemmaState) (p : List Node × LemmaState) (t : Out × Out),
        patchMissingAssertions twoStepRecipe
            ((exampleLemmaEnv false).getMissingAssertionsForStep twoStepRecipe 1)
            (stepLiterals twoStepRecipe
              [Node.mkEqual varA varB, Node.mkEqual (appF varA) (appF varB)] 1) st0 = some p ∧
          ((exampleLemmaEnv false).getMissingAssertionsForStep twoStepRecipe 1 = [] →
            p.1 = stepLiterals twoStepRecipe
              [Node.mkEqual varA varB, Node.mkEqual (appF varA) (appF varB)] 1) ∧
          printTheoryLemmaProof (exampleLemmaEnv false) fullTable .THEORY_UF p.1
            p.2.d_rewriteFilters = some t ∧
          partialProofLayout 7 1 (stepClause (exampleLemmaEnv false) twoStepRecipe
            exampleLemma.2 1) t.1 <:+: r.1 :=
  ⟨_, rfl, rfl,
    composite_partial_clause (exampleLemmaEnv false) fullTable 7 exampleLemma.2
      [Node.mkEqual varA varB, Node.mkEqual (appF varA) (appF varB)] twoStepRecipe ⟨[], []⟩ _
      rfl 1 ⟨.THEORY_UF, .null, []⟩ rfl⟩
theorem resolutionPivots_append (env : LemmaEnv) (a b : List ProofStep) :
    resolutionPivots env (a ++ b) = resolutionPivots env a ++ resolutionPivots env b := by
  simp [resolutionPivots_eq]

theorem resolutionFold_eq (env : LemmaEnv) (id : Nat) : ∀ (steps : List ProofStep) (i : Nat),
    resolutionOpenings id i steps
        ++ [.clauseName id, .str "s", .num (i + steps.length), .str " "]
        ++ resolutionPivots env steps.reverse =
      resolutionFold env id i steps
  | [], i => by simp [resolutionOpenings, resolutionPivots, resolutionFold]
  | s :: steps, i => by
    have ih := resolutionFold_eq env id steps (i + 1)
    have harith : i + 1 + steps.length = i + (s :: steps).length := by
      simp only [List.length_cons]
      omega
    rw [harith] at ih
    rw [resolutionFold, ← ih, resolutionOpenings, List.reverse_cons, resolutionPivots_append]
    simp [resolutionPivots]

theorem openedParens_resolutionFold (env : LemmaEnv) (id : Nat) :
    ∀ (steps : List ProofStep) (i : Nat), openedParens (resolutionFold env id i steps) = 0
  | [], i => by
    have a : parenBalance "s" = 0 := by decide
    have b : parenBalance " " = 0 := by decide
    simp [resolutionFold, openedParens, Chunk.opened, a, b]
  | s :: steps, i => by
    have a : parenBalance "s" = 0 := by decide
    have b : parenBalance " " = 0 := by decide
    have c : parenBalance ") " = -1 := by decide
    have q : parenBalance "(Q _ _ " = 1 := by decide
    have r : parenBalance "(R _ _ " = 1 := by decide
    have ih := openedParens_resolutionFold env id steps (i + 1)
    rw [resolutionFold, openedParens_append, openedParens_append, ih]
    by_cases hk : s.d_literalToProve.getKind = .NOT <;>
      simp [hk, openedParens, Chunk.opened, a, b, c, q, r]

theorem countP_resolutionFold (env : LemmaEnv) (id : Nat) :
    ∀ (steps : List ProofStep) (i : Nat),
      (resolutionFold env id i steps).countP Chunk.opensResolution = steps.length ∧
        (resolutionFold env id i steps).count (.str ") ") = steps.length
  | [], i => by
    simp +decide [resolutionFold, Chunk.opensResolution, List.countP_cons, List.count_cons]
  | s :: steps, i => by
    have ih := countP_resolutionFold env id steps (i + 1)
    rw [resolutionFold]
    simp only [List.countP_append, List.count_append, ih.1, ih.2]
    by_cases hk : s.d_literalToProve.getKind = .NOT <;>
      simp +decide [hk, Chunk.opensResolution, List.countP_cons, List.count_cons] <;> omega

/-- C29: when the composite branch returns for a lemma whose recipe has `N` steps, then
`N >= 2` and the text ends with `(satlem_simplify _ _ _ ` followed by the right-nested
fold of the partial proofs and by the binder of the lemma's name: the partial proof of
step `i` is resolved against the fold of the partial proofs `i + 1 .. N - 1`, by `Q`
exactly when the literal of step `i` is a negation and by `R` otherwise, on the SAT
variable of the literal of step `i`.  The fold has exactly `N - 1` combinator openers and
exactly `N - 1` closing items `) `, and leaves no parenthesis open. -/
theorem resolution_fold_right_nested (env : LemmaEnv) (tbl : TheoryProofTable) (id : Nat)
    (clause : SatClause) (clause_expr : List Node) (recipe : LemmaProofRecipe)
    (st : LemmaState) (r : Out × Out × LemmaState)
    (h : printCompositeLemma env tbl id clause clause_expr recipe st = some r) :
    2 ≤ recipe.getNumSteps ∧
      (∃ proofs : Out,
        r.1 = proofs ++ [.str "(satlem_simplify _ _ _ "]
          ++ resolutionFold env id 0 (recipe.d_proofSteps.take (recipe.getNumSteps - 1))
          ++ [.str "( \\ ", .clauseName id, .str "\n"]) ∧
      (resolutionFold env id 0
          (recipe.d_proofSteps.take (recipe.getNumSteps - 1))).countP Chunk.opensResolution =
        recipe.getNumSteps - 1 ∧
      (resolutionFold env id 0
          (recipe.d_proofSteps.take (recipe.getNumSteps - 1))).count (.str ") ") =
        recipe.getNumSteps - 1 ∧
      openedParens (resolutionFold env id 0
          (recipe.d_proofSteps.take (recipe.getNumSteps - 1))) = 0 := by
  have hlen : (recipe.d_proofSteps.take (recipe.getNumSteps - 1)).length =
      recipe.getNumSteps - 1 := by
    simp [LemmaProofRecipe.getNumSteps]
  have hc := countP_resolutionFold env id (recipe.d_proofSteps.take (recipe.getNumSteps - 1)) 0
  rw [hlen] at hc
  unfold printCompositeLemma at h
  simp only [Option.bind_eq_some] at h
  obtain ⟨r1, _, h2⟩ := h
  by_cases hn : recipe.getNumSteps < 2
  · simp [hn] at h2
  · simp only [hn, if_false, Option.some.injEq] at h2
    refine ⟨by omega, ⟨r1.1, ?_⟩, hc.1, hc.2, openedParens_resolutionFold env id _ 0⟩
    have hf := resolutionFold_eq env id (recipe.d_proofSteps.take (recipe.getNumSteps - 1)) 0
    rw [hlen, Nat.zero_add] at hf
    rw [← h2, ← hf]
    simp only [List.append_assoc]

theorem resolution_fold_right_nested_witness :
    ∃ r, printCompositeLemma (exampleLemmaEnv false) fullTable 7 exampleLemma.2
          [Node.mkEqual varA varB, Node.mkEqual (appF varA) (appF varB)] twoStepRecipe
          ⟨[], []⟩ = some r ∧
      2 ≤ twoStepRecipe.getNumSteps ∧
      (∃ proofs : Out,
        r.1 = proofs ++ [.str "(satlem_simplify _ _ _ "]
          ++ resolutionFold (exampleLemmaEnv false) 7 0
              (twoStepRecipe.d_proofSteps.take (twoStepRecipe.getNumSteps - 1))
          ++ [.str "( \\ ", .clauseName 7, .str "\n"]) ∧
      (resolutionFold (exampleLemmaEnv false) 7 0
          (twoStepRecipe.d_proofSteps.take (twoStepRecipe.getNumSteps - 1))).countP
          Chunk.opensResolution = twoStepRecipe.getNumSteps - 1 ∧
      (resolutionFold (exampleLemmaEnv false) 7 0
          (twoStepRecipe.d_proofSteps.take (twoStepRecipe.getNumSteps - 1))).count
          (.str ") ") = twoStepRecipe.getNumSteps - 1 ∧
      openedParens (resolutionFold (exampleLemmaEnv false) 7 0
          (twoStepRecipe.d_proofSteps.take (twoStepRecipe.getNumSteps - 1))) = 0 :=
  ⟨_, rfl,
    resolution_fold_right_nested (exampleLemmaEnv false) fullTable 7 exampleLemma.2
      [Node.mkEqual varA varB, Node.mkEqual (appF varA) (appF varB)] twoStepRecipe ⟨[], []⟩ _
      rfl⟩
theorem bvConflict_of_clauseExpr : ∀ (c : SatClause) (r : List Node × List Node),
    clauseExpr c = some r → bvConflict c = some r
  | [], r, h => by
    rw [clauseExpr] at h
    rw [bvConflict]
    exact h
  | lit :: rest, r, h => by
    rw [clauseExpr] at h
    rw [bvConflict]
    by_cases hc : lit.1.isConst = true
    · simp only [hc, if_true] at h ⊢
      by_cases ht : lit.1 = mkTrue
      · simp only [ht, if_true] at h
        simp only [ht, true_or, if_true]
        exact bvConflict_of_clauseExpr rest r h
      · simp [ht] at h
    · simp only [hc] at h ⊢
      simp only [Bool.false_eq_true, if_false, Option.bind_eq_some] at h ⊢
      obtain ⟨r0, h0, hr⟩ := h
      exact ⟨r0, bvConflict_of_clauseExpr rest r0 h0, hr⟩

theorem bvStepClauses_eq (env : LemmaEnv) (recipe : LemmaProofRecipe) (clause : SatClause)
    (conflict : List Node) : ∀ (steps : List ProofStep) (i : Nat),
      (∀ k, steps.get? k = recipe.d_proofSteps.get? (i + k)) →
      bvStepClauses env recipe clause conflict i steps =
        ((steps.enumFrom i).filter (fun p => decide (p.2.d_theory = .THEORY_BV))).map
          (fun p => stepLiterals recipe conflict p.1)
  | [], i, _ => by simp [bvStepClauses]
  | s :: steps, i, hs => by
    have htail : ∀ k, steps.get? k = recipe.d_proofSteps.get? (i + 1 + k) := by
      intro k
      have := hs (k + 1)
      simp only [List.get?_cons_succ] at this
      rw [this]
      congr 1
      omega
    have hhead : recipe.getStep i = some s := by
      have := hs 0
      simp only [List.get?_cons_zero, Nat.add_zero] at this
      exact this.symm
    rw [bvStepClauses, bvStepClauses_eq env recipe clause conflict steps (i + 1) htail]
    by_cases ht : s.d_theory = .THEORY_BV
    · simp [ht, List.enumFrom, partialClause_eq env recipe clause conflict i s hhead]
    · simp [ht, List.enumFrom]

theorem bvLemmas_eq (env : LemmaEnv) : ∀ (lemmas : List (Nat × SatClause)),
    (∀ l ∈ lemmas, (clauseExpr l.2).isSome = true) →
    bvLemmas env lemmas = some (bvBatch env lemmas)
  | [], _ => rfl
  | l :: ls, h => by
    have hl := h l (by simp)
    obtain ⟨ce, hce⟩ := Option.isSome_iff_exists.mp hl
    have ih := bvLemmas_eq env ls (fun x hx => h x (by simp [hx]))
    have hsteps := bvStepClauses_eq env (env.getProofRecipe ce.2) l.2 ce.1
      (env.getProofRecipe ce.2).d_proofSteps 0 (by intro k; simp)
    rw [bvLemmas, bvConflict_of_clauseExpr l.2 ce hce]
    simp only [Option.some_bind, ih, hsteps]
    simp [bvBatch, bvStepLiterals, hce, List.enum]

theorem clauseExpr_of_loop (env : LemmaEnv) (tbl : TheoryProofTable) :
    ∀ (lemmas : List (Nat × SatClause)) (st : LemmaState) (r : Out × Out × LemmaState),
      printTheoryLemmaLoop env tbl lemmas st = some r →
      ∀ l ∈ lemmas, (clauseExpr l.2).isSome = true
  | [], _, _, _, l, hl => by simp at hl
  | x :: ls, st, r, h, l, hl => by
    rw [printTheoryLemmaLoop] at h
    simp only [Option.bind_eq_some] at h
    obtain ⟨r1, h1, rs, hs, _⟩ := h
    rcases List.mem_cons.mp hl with hx | hx
    · subst hx
      unfold printTheoryLemma at h1
      simp only [Option.bind_eq_some] at h1
      obtain ⟨ce, hce, _⟩ := h1
      simp [hce]
    · exact clauseExpr_of_loop env tbl ls _ rs hs l hx

/-- C30: when `printTheoryLemmas` returns, the text is the header, then the one batch
handed to the bit-vector prover, then the proofs of the lemmas (nothing in the eager
bit-blast mode, the output of the loop over the lemmas otherwise).  The batch built by
`finalizeBvConflicts` is the batch of the specification: in lemma order and then in step
order, one clause for every step whose theory is the bit-vector theory, and the clause of
step `i` is the partial clause that the composite branch builds for step `i`.  The
literals of a clause are read in the batch as the assembler reads them (in the eager
mode, where the assembler's loop does not run, this is a hypothesis); a clause of the
batch is kept as the list of its literals, `mkSortedExpr` being outside the sources. -/
theorem bitvector_batch (env : LemmaEnv) (tbl : TheoryProofTable)
    (lemmas : List (Nat × SatClause)) (st : LemmaState) (r : Out × Out × LemmaState)
    (h : printTheoryLemmas env tbl lemmas st = some r)
    (hce : env.bitblastEager = true → ∀ l ∈ lemmas, (clauseExpr l.2).isSome = true) :
    bvLemmas env lemmas = some (bvBatch env lemmas) ∧
      (∃ rest : Out,
        r.1 = [.str " ;; Theory Lemmas \n", .bvResolution (bvBatch env lemmas)] ++ rest ∧
        (if env.bitblastEager then rest = []
         else ∃ r1, printTheoryLemmaLoop env tbl lemmas st = some r1 ∧ rest = r1.1)) ∧
      ∀ (l : Nat × SatClause) (ce : List Node × List Node) (i : Nat) (step : ProofStep),
        l ∈ lemmas → clauseExpr l.2 = some ce →
        (env.getProofRecipe ce.2).getStep i = some step → step.d_theory = .THEORY_BV →
        (partialClause env (env.getProofRecipe ce.2) l.2 ce.1 i step).2 ∈
          bvBatch env lemmas := by
  unfold printTheoryLemmas at h
  simp only [Option.bind_eq_some] at h
  obtain ⟨batch, hb, h2⟩ := h
  have hall : ∀ l ∈ lemmas, (clauseExpr l.2).isSome = true := by
    by_cases hm : env.bitblastEager = true
    · exact hce hm
    · simp only [hm, Bool.false_eq_true, if_false, Option.bind_eq_some] at h2
      obtain ⟨r1, h1, _⟩ := h2
      exact clauseExpr_of_loop env tbl lemmas st r1 h1
  have hbatch := bvLemmas_eq env lemmas hall
  rw [hbatch] at hb
  cases hb
  refine ⟨hbatch, ?_, ?_⟩
  · by_cases hm : env.bitblastEager = true
    · simp only [hm, if_true] at h2 ⊢
      by_cases hlen : lemmas.length = 1
      · simp only [hlen, if_true, Option.some.injEq] at h2
        exact ⟨[], by rw [← h2]; rfl, rfl⟩
      · simp [hlen] at h2
    · simp only [hm, Bool.false_eq_true, if_false, Option.bind_eq_some,
        Option.some.injEq] at h2 ⊢
      obtain ⟨r1, h1, hr⟩ := h2
      exact ⟨r1.1, by rw [← hr], r1, h1, rfl⟩
  · intro l ce i step hl hcl hi ht
    rw [partialClause_eq env _ l.2 ce.1 i step hi]
    simp only [bvBatch, List.mem_flatMap]
    refine ⟨l, hl, ?_⟩
    simp only [bvStepLiterals, hcl, List.mem_map, List.mem_filter, decide_eq_true_eq]
    refine ⟨(i, step), ⟨?_, ht⟩, rfl⟩
    rw [List.mem_iff_get?]
    refine ⟨i, ?_⟩
    simp only [List.enum, List.get?_eq_getElem?, List.getElem?_enumFrom]
    have : (env.getProofRecipe ce.2).d_proofSteps[i]? = some step := by
      simpa [LemmaProofRecipe.getStep, List.get?_eq_getElem?] using hi
    simp [this]

theorem bitvector_batch_witness :
    ∃ r, printTheoryLemmas bvLemmaEnv fullTable [exampleLemma] ⟨[], []⟩ = some r ∧
      bvLemmas bvLemmaEnv [exampleLemma] = some (bvBatch bvLemmaEnv [exampleLemma]) ∧
      (∃ rest : Out,
        r.1 = [.str " ;; Theory Lemmas \n", .bvResolution (bvBatch bvLemmaEnv [exampleLemma])]
            ++ rest ∧
        (if bvLemmaEnv.bitblastEager then rest = []
         else ∃ r1, printTheoryLemmaLoop bvLemmaEnv fullTable [exampleLemma] ⟨[], []⟩ = some r1 ∧
            rest = r1.1)) ∧
      ∀ (l : Nat × SatClause) (ce : List Node × List Node) (i : Nat) (step : ProofStep),
        l ∈ [exampleLemma] → clauseExpr l.2 = some ce →
        (bvLemmaEnv.getProofRecipe ce.2).getStep i = some step → step.d_theory = .THEORY_BV →
        (partialClause bvLemmaEnv (bvLemmaEnv.getProofRecipe ce.2) l.2 ce.1 i step).2 ∈
          bvBatch bvLemmaEnv [exampleLemma] :=
  ⟨_, rfl,
    bitvector_batch bvLemmaEnv fullTable [exampleLemma] ⟨[], []⟩ _ rfl
      (by
        intro _ l hl
        rw [List.mem_singleton] at hl
        subst hl
        rfl)⟩

/-- C37: after `bind` on a term `t` from the empty map and the empty order, whatever the
value of the id counter is, the order is not empty, its last element is `t` itself, and
the sharing count of `t` is exactly 1; so the access of `printLetTerm` to the last element
is defined, and the root is written inline by `printTheoryTerm`, not as a reference
`let<id>`. -/
theorem root_is_last_and_printed_inline (env : EngineEnv) (tbl : TheoryProofTable)
    (counter : Nat) (t : Node) :
    ∃ id, (bind t ⟨[], [], counter⟩).let_order ≠ [] ∧
      (bind t ⟨[], [], counter⟩).let_order.getLast? = some ⟨t, id⟩ ∧
      (bind t ⟨[], [], counter⟩).map.find t = some ⟨id, 1⟩ ∧
      printLetRoot env tbl (bind t ⟨[], [], counter⟩).map (bind t ⟨[], [], counter⟩).let_order =
        printTheoryTerm env tbl (bind t ⟨[], [], counter⟩).map t := by
  obtain ⟨id, hlast, hfind⟩ := bind_root counter t
  refine ⟨id, ?_, hlast, hfind, ?_⟩
  · intro hnil
    rw [hnil] at hlast
    simp at hlast
  · simp [printLetRoot, hlast, hfind, LET_COUNT]

theorem registerList_nil (env : EngineEnv) : TheoryProofEngine.registerList env [] = some := by
  funext e
  rw [TheoryProofEngine.registerList]

theorem registerTerm_unfold (env : EngineEnv) (term : Node) (e : TheoryProofEngine) :
    TheoryProofEngine.registerTerm env term e =
      TheoryProofEngine.registerTermWith env term
        (TheoryProofEngine.registerList env term.children) e := by
  cases term with
  | null =>
    have hc : Node.null.children = [] := rfl
    rw [TheoryProofEngine.registerTerm, hc, registerList_nil]
  | leaf k name ty =>
    have hc : (Node.leaf k name ty).children = [] := rfl
    rw [TheoryProofEngine.registerTerm, hc, registerList_nil]
  | builtin k =>
    have hc : (Node.builtin k).children = [] := rfl
    rw [TheoryProofEngine.registerTerm, hc, registerList_nil]
  | app k op cs =>
    have hc : (Node.app k op cs).children = cs := rfl
    rw [TheoryProofEngine.registerTerm, hc]

/-- C33 (counterexample): a term of the Boolean theory is delegated to the Boolean
certifier.  Registering the Boolean variable `p` in the engine as its constructor leaves
it declares `p` in the Boolean certifier; registering `p and q` calls the Boolean
certifier, whose loop registers and declares `p` and `q`. -/
theorem boolean_term_is_delegated :
    exampleEngineEnv.theoryOf varP = .THEORY_BOOL ∧
      TheoryProofEngine.registerTerm exampleEngineEnv varP TheoryProofEngine.initial =
        some ⟨[varP], ⟨some ⟨[varP]⟩, none, none, none, none⟩⟩ ∧
      exampleEngineEnv.theoryOf (.app .AND .null [varP, varQ]) = .THEORY_BOOL ∧
      TheoryProofEngine.registerTerm exampleEngineEnv (.app .AND .null [varP, varQ])
          TheoryProofEngine.initial =
        some ⟨[varP, varQ, .app .AND .null [varP, varQ]],
          ⟨some ⟨[varP, varQ]⟩, none, none, none, none⟩⟩ :=
  ⟨rfl, rfl, rfl, rfl⟩

/-- C33 (amended): for a term that is not in the registration cache, `registerTerm`
registers each child and adds the term to the cache, without a call of a certifier, when
the term belongs to the builtin theory or its kind is ITE; a term of any other theory
that is supported, the Boolean theory included, is delegated to the certifier of its
theory (and to the array certifier as well when it is a skolem of another theory) and
then added to the cache; and a term of a theory that is not supported is left alone.  The
Boolean certifier declares a Boolean variable that is not declared yet and returns, and
registers the children of every other Boolean term. -/
theorem builtin_and_ite_terms_are_not_delegated (env : EngineEnv) (term : Node)
    (e : TheoryProofEngine) (hnew : term ∉ e.d_registrationCache) :
    ((env.theoryOf term = .THEORY_BUILTIN ∨ term.getKind = .ITE) →
      TheoryProofEngine.registerTerm env term e =
        (TheoryProofEngine.registerList env term.children e).bind
          (fun e1 => some (e1.cacheInsert term))) ∧
    ((env.theoryOf term ≠ .THEORY_BUILTIN ∧ term.getKind ≠ .ITE ∧
        supportedTheory (env.theoryOf term) = true) →
      TheoryProofEngine.registerTerm env term e =
        (TheoryProofEngine.certifierRegister env (env.theoryOf term) term
            (TheoryProofEngine.registerList env term.children) e).bind (fun e1 =>
          (if env.isSkolem term ∧ env.theoryOf term ≠ .THEORY_ARRAY then
             TheoryProofEngine.certifierRegister env .THEORY_ARRAY term
               (TheoryProofEngine.registerList env term.children) e1
           else some e1).bind (fun e2 => some (e2.cacheInsert term)))) ∧
    ((env.theoryOf term ≠ .THEORY_BUILTIN ∧ term.getKind ≠ .ITE ∧
        supportedTheory (env.theoryOf term) = false) →
      TheoryProofEngine.registerTerm env term e = some e) ∧
    (∀ b : BooleanProof, term.getType.isBoolean = true →
      b.enter term =
        if term.isVariable ∧ term ∉ b.d_declarations then
          some (⟨setInsert term b.d_declarations⟩, false)
        else some (b, true)) := by
  refine ⟨?_, ?_, ?_, ?_⟩
  · intro h
    rw [registerTerm_unfold]
    simp only [TheoryProofEngine.registerTermWith, hnew, if_false, h, if_true]
  · intro h
    obtain ⟨h1, h2, h3⟩ := h
    have hb : ¬ (env.theoryOf term = .THEORY_BUILTIN ∨ term.getKind = .ITE) := by
      intro hc
      rcases hc with hc | hc
      · exact h1 hc
      · exact h2 hc
    rw [registerTerm_unfold]
    simp only [TheoryProofEngine.registerTermWith, hnew, if_false, hb, h3, Bool.not_true,
      Bool.false_eq_true]
  · intro h
    obtain ⟨h1, h2, h3⟩ := h
    have hb : ¬ (env.theoryOf term = .THEORY_BUILTIN ∨ term.getKind = .ITE) := by
      intro hc
      rcases hc with hc | hc
      · exact h1 hc
      · exact h2 hc
    rw [registerTerm_unfold]
    simp only [TheoryProofEngine.registerTermWith, hnew, if_false, hb, h3, Bool.not_false,
      if_true]
  · intro b hb
    simp [BooleanProof.enter, hb]

theorem builtin_and_ite_terms_are_not_delegated_witness :
    varP ∉ TheoryProofEngine.initial.d_registrationCache ∧
      (exampleEngineEnv.theoryOf varP ≠ .THEORY_BUILTIN ∧ varP.getKind ≠ .ITE ∧
        supportedTheory (exampleEngineEnv.theoryOf varP) = true) ∧
      TheoryProofEngine.registerTerm exampleEngineEnv varP TheoryProofEngine.initial =
        (TheoryProofEngine.certifierRegister exampleEngineEnv (exampleEngineEnv.theoryOf varP)
            varP (TheoryProofEngine.registerList exampleEngineEnv varP.children)
            TheoryProofEngine.initial).bind (fun e1 =>
          (if exampleEngineEnv.isSkolem varP ∧ exampleEngineEnv.theoryOf varP ≠ .THEORY_ARRAY
           then
             TheoryProofEngine.certifierRegister exampleEngineEnv .THEORY_ARRAY varP
               (TheoryProofEngine.registerList exampleEngineEnv varP.children) e1
           else some e1).bind (fun e2 => some (e2.cacheInsert varP))) :=
  ⟨by decide, by decide,
    (builtin_and_ite_terms_are_not_delegated exampleEngineEnv varP TheoryProofEngine.initial
      (by decide)).2.1 (by decide)⟩

theorem mem_setInsert_self {α : Type} [DecidableEq α] (x : α) (l : List α) :
    x ∈ setInsert x l := by
  unfold setInsert
  by_cases h : x ∈ l <;> simp [h]

theorem mem_setInsert_of_mem {α : Type} [DecidableEq α] (x y : α) (l : List α) (h : y ∈ l) :
    y ∈ setInsert x l := by
  unfold setInsert
  by_cases hx : x ∈ l <;> simp [hx, h]

theorem declareTerm_mono (term : Node) (decls d : List Node)
    (h : declareTerm term decls = some d) : ∀ y ∈ decls, y ∈ d := by
  intro y hy
  unfold declareTerm at h
  simp only [Option.bind_eq_some, Option.some.injEq] at h
  obtain ⟨d0, h0, hd⟩ := h
  have hy0 : y ∈ d0 := by
    by_cases hk : term.getKind = .APPLY_UF
    · simp only [hk, if_true, Option.bind_eq_some, Option.some.injEq] at h0
      obtain ⟨f, _, hf⟩ := h0
      rw [← hf]
      exact mem_setInsert_of_mem _ _ _ hy
    · simp only [hk, if_false, Option.some.injEq] at h0
      exact h0 ▸ hy
  rw [← hd]
  by_cases hv : term.isVariable = true
  · simp only [hv, if_true]
    exact mem_setInsert_of_mem _ _ _ hy0
  · simp only [hv, Bool.false_eq_true, if_false]
    exact hy0

theorem declareTerm_variable (term : Node) (decls d : List Node)
    (h : declareTerm term decls = some d) (hv : term.isVariable = true) : term ∈ d := by
  unfold declareTerm at h
  simp only [Option.bind_eq_some, Option.some.injEq] at h
  obtain ⟨d0, _, hd⟩ := h
  rw [← hd]
  simp only [hv, if_true]
  exact mem_setInsert_self _ _

/-- Updating the certifier that a call `registerTerm` on it returns keeps the
declarations of the array certifier. -/
theorem enter_store_declares (env : EngineEnv) (tbl : TheoryProofTable) (id : TheoryId)
    (cert : TheoryProof) (term : Node) (r : TheoryProof × Bool)
    (hc : getTheoryProof tbl id = some cert) (hr : cert.enter env term = some r)
    (cache : List Node) (y : Node)
    (h : (⟨cache, tbl⟩ : TheoryProofEngine).ArrayDeclares y) :
    (⟨cache, tbl.store r.1⟩ : TheoryProofEngine).ArrayDeclares y := by
  obtain ⟨a, ha, hy⟩ := h
  simp only at ha
  cases cert with
  | bool p =>
    simp only [TheoryProof.enter, Option.map_eq_some'] at hr
    obtain ⟨r0, _, hr0⟩ := hr
    rw [← hr0]
    exact ⟨a, ha, hy⟩
  | uf p =>
    simp only [TheoryProof.enter, Option.map_eq_some'] at hr
    obtain ⟨r0, _, hr0⟩ := hr
    rw [← hr0]
    exact ⟨a, ha, hy⟩
  | bv p =>
    simp only [TheoryProof.enter, Option.map_eq_some'] at hr
    obtain ⟨r0, _, hr0⟩ := hr
    rw [← hr0]
    exact ⟨a, ha, hy⟩
  | arith p =>
    simp only [TheoryProof.enter, Option.map_eq_some'] at hr
    obtain ⟨r0, _, hr0⟩ := hr
    rw [← hr0]
    exact ⟨a, ha, hy⟩
  | array p =>
    have hp : p = a := by
      unfold getTheoryProof at hc
      generalize (if id = TheoryId.THEORY_BUILTIN then TheoryId.THEORY_UF else id) = x at hc
      cases x <;> simp [TheoryProofTable.find, ha] at hc
      exact hc.symm
    subst hp
    simp only [TheoryProof.enter, Option.map_eq_some'] at hr
    obtain ⟨r0, hr1, hr0⟩ := hr
    rw [← hr0]
    refine ⟨r0.1, rfl, ?_⟩
    unfold ArrayProof.enter at hr1
    by_cases hm : term ∈ p.d_declarations
    · simp only [hm, if_true, Option.some.injEq] at hr1
      rw [← hr1]
      exact hy
    · simp only [hm, if_false, Option.bind_eq_some, Option.some.injEq] at hr1
      obtain ⟨d, hd, hr2⟩ := hr1
      rw [← hr2]
      exact declareTerm_mono term _ d hd y hy

theorem certifierRegister_declares (env : EngineEnv) (id : TheoryId) (term : Node)
    (kids : TheoryProofEngine → Option TheoryProofEngine) (e e1 : TheoryProofEngine)
    (y : Node) (hk : ∀ a b, kids a = some b → a.ArrayDeclares y → b.ArrayDeclares y)
    (h : TheoryProofEngine.certifierRegister env id term kids e = some e1)
    (he : e.ArrayDeclares y) : e1.ArrayDeclares y := by
  unfold TheoryProofEngine.certifierRegister at h
  simp only [Option.bind_eq_some] at h
  obtain ⟨cert, hc, r, hr, h⟩ := h
  have hmid := enter_store_declares env e.d_theoryProofTable id cert term r hc hr
    e.d_registrationCache y he
  by_cases hdesc : r.2 = true
  · simp only [hdesc, if_true] at h
    exact hk _ _ h hmid
  · simp only [hdesc, Bool.false_eq_true, if_false, Option.some.injEq] at h
    rw [← h]
    exact hmid

theorem registerTermWith_declares (env : EngineEnv) (term : Node)
    (kids : TheoryProofEngine → Option TheoryProofEngine) (e e1 : TheoryProofEngine)
    (y : Node) (hk : ∀ a b, kids a = some b → a.ArrayDeclares y → b.ArrayDeclares y)
    (h : TheoryProofEngine.registerTermWith env term kids e = some e1)
    (he : e.ArrayDeclares y) : e1.ArrayDeclares y := by
  unfold TheoryProofEngine.registerTermWith at h
  by_cases hc : term ∈ e.d_registrationCache
  · simp only [hc, if_true, Option.some.injEq] at h
    exact h ▸ he
  · simp only [hc, if_false] at h
    by_cases hb : env.theoryOf term = .THEORY_BUILTIN ∨ term.getKind = .ITE
    · simp only [hb, if_true, Option.bind_eq_some, Option.some.injEq] at h
      obtain ⟨e2, h2, h3⟩ := h
      rw [← h3]
      have h4 : e2.ArrayDeclares y := hk _ _ h2 he
      exact h4
    · simp only [hb, if_false] at h
      by_cases hs : supportedTheory (env.theoryOf term) = true
      · simp only [hs, Bool.not_true, Bool.false_eq_true, if_false, Option.bind_eq_some,
          Option.some.injEq] at h
        obtain ⟨e2, h2, e3, h3, h4⟩ := h
        rw [← h4]
        have he2 := certifierRegister_declares _ _ _ _ _ _ y hk h2 he
        have he3 : e3.ArrayDeclares y := by
          by_cases hsk : env.isSkolem term = true ∧ env.theoryOf term ≠ .THEORY_ARRAY
          · simp only [hsk, and_self, ne_eq, not_false_eq_true, if_true] at h3
            exact certifierRegister_declares _ _ _ _ _ _ y hk h3 he2
          · simp only [hsk, if_false, Option.some.injEq] at h3
            exact h3 ▸ he2
        exact he3
      · simp only [hs, Bool.not_false, if_true, Option.some.injEq] at h
        exact h ▸ he

mutual
/-- Registration of a term keeps the declarations of the array certifier. -/
theorem registerTerm_declares (env : EngineEnv) (y : Node) :
    ∀ (term : Node) (e e1 : TheoryProofEngine),
      TheoryProofEngine.registerTerm env term e = some e1 →
      e.ArrayDeclares y → e1.ArrayDeclares y
  | .app k op cs, e, e1, h, he => by
    rw [TheoryProofEngine.registerTerm] at h
    exact registerTermWith_declares env _ _ e e1 y
      (fun a b hab ha => registerList_declares env y cs a b hab ha) h he
  | .null, e, e1, h, he => by
    rw [TheoryProofEngine.registerTerm] at h
    exact registerTermWith_declares env _ _ e e1 y
      (fun a b hab ha => by cases hab; exact ha) h he
  | .leaf k name ty, e, e1, h, he => by
    rw [TheoryProofEngine.registerTerm] at h
    exact registerTermWith_declares env _ _ e e1 y
      (fun a b hab ha => by cases hab; exact ha) h he
  | .builtin k, e, e1, h, he => by
    rw [TheoryProofEngine.registerTerm] at h
    exact registerTermWith_declares env _ _ e e1 y
      (fun a b hab ha => by cases hab; exact ha) h he
theorem registerList_declares (env : EngineEnv) (y : Node) :
    ∀ (cs : List Node) (e e1 : TheoryProofEngine),
      TheoryProofEngine.registerList env cs e = some e1 →
      e.ArrayDeclares y → e1.ArrayDeclares y
  | [], e, e1, h, he => by
    rw [TheoryProofEngine.registerList] at h
    cases h
    exact he
  | c :: cs, e, e1, h, he => by
    rw [TheoryProofEngine.registerList] at h
    simp only [Option.bind_eq_some] at h
    obtain ⟨e2, h2, h3⟩ := h
    exact registerList_declares env y cs e2 e1 h3 (registerTerm_declares env y c e e2 h2 he)
end

/-- The call of the array certifier on a variable leaves the variable declared. -/
theorem certifierRegister_array_declares (env : EngineEnv) (term : Node)
    (e e1 : TheoryProofEngine) (hv : term.isVariable = true)
    (h : TheoryProofEngine.certifierRegister env .THEORY_ARRAY term
      (TheoryProofEngine.registerList env term.children) e = some e1) :
    e1.ArrayDeclares term := by
  unfold TheoryProofEngine.certifierRegister at h
  simp only [Option.bind_eq_some] at h
  obtain ⟨cert, hc, r, hr, h⟩ := h
  have hmid : (⟨e.d_registrationCache, e.d_theoryProofTable.store r.1⟩ :
      TheoryProofEngine).ArrayDeclares term := by
    have hc2 : e.d_theoryProofTable.array.map TheoryProof.array = some cert := hc
    rw [Option.map_eq_some'] at hc2
    obtain ⟨a, ha, hcert⟩ := hc2
    subst hcert
    simp only [TheoryProof.enter, Option.map_eq_some'] at hr
    obtain ⟨r0, hr1, hr0⟩ := hr
    rw [← hr0]
    refine ⟨r0.1, rfl, ?_⟩
    unfold ArrayProof.enter at hr1
    by_cases hm : term ∈ a.d_declarations
    · simp only [hm, if_true, Option.some.injEq] at hr1
      rw [← hr1]
      exact hm
    · simp only [hm, if_false, Option.bind_eq_some, Option.some.injEq] at hr1
      obtain ⟨d, hd, hr2⟩ := hr1
      rw [← hr2]
      exact declareTerm_variable term _ d hd hv
  by_cases hdesc : r.2 = true
  · simp only [hdesc, if_true] at h
    exact registerList_declares env term _ _ _ h hmid
  · simp only [hdesc, Bool.false_eq_true, if_false, Option.some.injEq] at h
    rw [← h]
    exact hmid

/-- C34 (counterexample): a skolem witness of a theory that is not supported is not
registered at all.  The skolem `sk` belongs to a theory outside the supported ones;
`registerTerm` returns the engine as it was, and `sk` is not in the declarations of the
array certifier. -/
theorem foreign_skolem_is_not_registered :
    foreignSkolemEnv.isSkolem varSk = true ∧
      foreignSkolemEnv.theoryOf varSk = .THEORY_OTHER ∧
      TheoryProofEngine.registerTerm foreignSkolemEnv varSk exampleEngine =
        some exampleEngine ∧
      ¬ exampleEngine.ArrayDeclares varSk := by
  refine ⟨rfl, rfl, rfl, ?_⟩
  rintro ⟨a, ha, hm⟩
  simp only [exampleEngine, fullTable, Option.some.injEq] at ha
  rw [← ha] at hm
  simp at hm

/-- C34 (amended): for a skolem witness that is a variable, is not in the registration
cache, and belongs to a supported theory other than the builtin theory, whenever
`registerTerm` returns, the skolem is in the declarations of the array certifier: the
certifier of its theory is called, then the array certifier when that theory is not the
array theory, and neither the children's registration nor the cache removes a
declaration.  A skolem of a theory that is not supported is not registered, and a skolem
of the builtin theory is only added to the cache. -/
theorem skolem_reaches_array_certifier (env : EngineEnv) (term : Node)
    (e e1 : TheoryProofEngine) (hnew : term ∉ e.d_registrationCache)
    (hsk : env.isSkolem term = true) (hv : term.isVariable = true)
    (hb : env.theoryOf term ≠ .THEORY_BUILTIN)
    (hs : supportedTheory (env.theoryOf term) = true)
    (h : TheoryProofEngine.registerTerm env term e = some e1) :
    e1.ArrayDeclares term := by
  have hite : term.getKind ≠ .ITE := by
    intro hk
    simp [Node.isVariable, Node.getMetaKind, hk, Node.metaKindOf] at hv
  have hb2 : ¬ (env.theoryOf term = .THEORY_BUILTIN ∨ term.getKind = .ITE) := by
    intro hc
    rcases hc with hc | hc
    · exact hb hc
    · exact hite hc
  rw [registerTerm_unfold] at h
  simp only [TheoryProofEngine.registerTermWith, hnew, if_false, hb2, hs, Bool.not_true,
    Bool.false_eq_true, Option.bind_eq_some, Option.some.injEq] at h
  obtain ⟨e2, h2, e3, h3, h4⟩ := h
  rw [← h4]
  have he3 : e3.ArrayDeclares term := by
    by_cases ha : env.theoryOf term = .THEORY_ARRAY
    · simp only [ha, ne_eq, not_true_eq_false, and_false, if_false, Option.some.injEq] at h3
      rw [ha] at h2
      rw [← h3]
      exact certifierRegister_array_declares env term e e2 hv h2
    · simp only [hsk, ha, ne_eq, not_false_eq_true, and_self, if_true] at h3
      exact certifierRegister_array_declares env term e2 e3 hv h3
  exact he3

theorem skolem_reaches_array_certifier_witness :
    ∃ e1, TheoryProofEngine.registerTerm ufSkolemEnv varSk exampleEngine = some e1 ∧
      e1.ArrayDeclares varSk :=
  ⟨_, rfl,
    skolem_reaches_array_certifier ufSkolemEnv varSk exampleEngine _ (by decide) rfl rfl
      (by decide) rfl rfl⟩

/-- A round of the depth-0 loop at a dangling congruence, in terms of the target that is
chosen for the run. -/
theorem depth0Loop_target (children : List EqProof) (fuel i : Nat) (neg : Option Nat)
    (sub : List EqProof) (c : EqProof) (hc : children.get? i = some c)
    (hn : isNegativeChild c = false) (hd : isDanglingCongruence c = true) :
    depth0Loop children (fuel + 1) i neg sub =
      match congruenceTarget children i (congruenceRun children i).length neg with
      | none => none
      | some (true, target) =>
        if sub.isEmpty then none
        else
          (orderEqualities [target] (congruenceRun children i)).bind (fun ordered =>
            depth0Loop children fuel (i + (congruenceRun children i).length) neg
              (sub.dropLast ++ ordered))
      | some (false, target) =>
        (orderEqualities [target] (congruenceRun children i).reverse).bind (fun ordered =>
          depth0Loop children fuel (i + (congruenceRun children i).length + 1) neg
            (sub ++ ordered)) := by
  rw [depth0Loop]
  simp only [hc, hn, hd, Bool.false_eq_true, if_false, if_true, congruenceTarget]
  generalize (!(i == 0 || i == 1 && neg == some 0)) = before
  by_cases h1 : i + (congruenceRun children i).length ≥ children.length
  · have h2 : children.get? (i + (congruenceRun children i).length) = none :=
      List.get?_eq_none.mpr h1
    cases before
    · simp [h1, h2]
    · cases h3 : children.get? (i - 1) <;> cases hs : sub.isEmpty <;> simp [h1, h2, h3, hs]
  · cases h2 : children.get? (i + (congruenceRun children i).length) with
    | none => exact absurd (List.get?_eq_none.mp h2) (by omega)
    | some d =>
      cases hneg : isNegativeChild d <;> cases before <;>
        cases h3 : children.get? (i - 1) <;> cases hs : sub.isEmpty <;>
        simp [h1, h2, h3, hs, hneg]

/-- C36 (fails on the code): the target that the depth-0 pass chooses for a run can be
the negative child, and the child that it removes from the collected list need not be the
target.  (1) For the children `[a = b, not p(a), run]` the loop reaches the run at child
2 with the negative child 1 found and the collected list `[a = b]`; the target is child
1, the negative child, and the child removed from the collected list is `a = b`.
(2) For the children `[run(p, q), a = b, run(f(a) = f(b), r), not r]` the loop reaches
the second run at child 2 with the collected list `[p, a = b, q]`; the target is
`a = b`, and the child removed from the collected list is `q`. -/
theorem target_can_be_the_negative_child :
    (depth0Loop negativeBeforeRun.d_children 3 0 none [] =
        depth0Loop negativeBeforeRun.d_children 1 2 (some 1) [givenAB] ∧
      congruenceTarget negativeBeforeRun.d_children 2 1 (some 1) =
        some (true, givenLeaf (atomP varA).notNode) ∧
      isNegativeChild (givenLeaf (atomP varA).notNode) = true ∧
      [givenAB].getLast? = some givenAB ∧
      givenAB.d_node ≠ (givenLeaf (atomP varA).notNode).d_node) ∧
    (depth0Loop
        [danglingCongruence (givenLeaf varP) (givenLeaf varQ), givenAB,
          danglingCongruence givenFAB (givenLeaf varR), givenLeaf varR.notNode] 4 0 none [] =
        depth0Loop
          [danglingCongruence (givenLeaf varP) (givenLeaf varQ), givenAB,
            danglingCongruence givenFAB (givenLeaf varR), givenLeaf varR.notNode] 2 2 none
          [givenLeaf varP, givenAB, givenLeaf varQ] ∧
      congruenceTarget
        [danglingCongruence (givenLeaf varP) (givenLeaf varQ), givenAB,
          danglingCongruence givenFAB (givenLeaf varR), givenLeaf varR.notNode] 2 1 none =
        some (true, givenAB) ∧
      [givenLeaf varP, givenAB, givenLeaf varQ].getLast? = some (givenLeaf varQ) ∧
      (givenLeaf varQ).d_node ≠ givenAB.d_node) :=
  ⟨⟨rfl, rfl, rfl, rfl, by decide⟩, ⟨rfl, rfl, rfl, by decide⟩⟩

theorem congruenceRun_pos (children : List EqProof) (i : Nat) (c : EqProof)
    (hc : children.get? i = some c) (hd : isDanglingCongruence c = true) :
    1 ≤ (congruenceRun children i).length := by
  have hlt : i < children.length := by
    by_contra hn
    rw [List.get?_eq_none.mpr (by omega)] at hc
    cases hc
  have hget : children[i] = c := by
    have := List.get?_eq_some.mp hc
    obtain ⟨h1, h2⟩ := this
    exact h2
  unfold congruenceRun
  rw [List.drop_eq_getElem_cons hlt, hget, List.takeWhile_cons]
  simp [hd]

/-- One more round of fuel does not change the result of the depth-0 loop once the fuel
covers the children that are left. -/
theorem depth0Loop_succ (children : List EqProof) :
    ∀ (fuel i : Nat) (neg : Option Nat) (sub : List EqProof),
      children.length ≤ i + fuel →
      depth0Loop children (fuel + 1) i neg sub = depth0Loop children fuel i neg sub
  | 0, i, neg, sub, h => by
    have hn : children.get? i = none := List.get?_eq_none.mpr (by omega)
    have hlt : ¬ i < children.length := by omega
    conv_lhs => rw [depth0Loop]
    conv_rhs => rw [depth0Loop]
    rw [hn]
    simp [hlt]
  | fuel + 1, i, neg, sub, h => by
    conv_lhs => rw [depth0Loop]
    conv_rhs => rw [depth0Loop]
    cases hc : children.get? i with
    | none => rfl
    | some c =>
      simp only
      by_cases hneg : isNegativeChild c = true
      · simp only [hneg, if_true]
        by_cases hs : neg.isSome = true
        · simp [hs]
        · simp only [hs, Bool.false_eq_true, if_false]
          exact depth0Loop_succ children fuel (i + 1) _ _ (by omega)
      · simp only [hneg, Bool.false_eq_true, if_false]
        by_cases hd : isDanglingCongruence c = true
        · have hpos := congruenceRun_pos children i c hc hd
          simp only [hd, if_true]
          have e1 : ∀ s, depth0Loop children (fuel + 1)
              (i + (congruenceRun children i).length) neg s =
              depth0Loop children fuel (i + (congruenceRun children i).length) neg s :=
            fun s => depth0Loop_succ children fuel _ _ _ (by omega)
          have e2 : ∀ s, depth0Loop children (fuel + 1)
              (i + (congruenceRun children i).length + 1) neg s =
              depth0Loop children fuel (i + (congruenceRun children i).length + 1) neg s :=
            fun s => depth0Loop_succ children fuel _ _ _ (by omega)
          simp only [e1, e2]
        · simp only [hd, Bool.false_eq_true, if_false]
          exact depth0Loop_succ children fuel (i + 1) _ _ (by omega)

theorem depth0Loop_add (children : List EqProof) (fuel i : Nat) (neg : Option Nat)
    (sub : List EqProof) (h : children.length ≤ i + fuel) :
    ∀ k, depth0Loop children (fuel + k) i neg sub = depth0Loop children fuel i neg sub
  | 0 => rfl
  | k + 1 => by
    rw [← Nat.add_assoc, depth0Loop_succ children (fuel + k) i neg sub (by omega)]
    exact depth0Loop_add children fuel i neg sub h k

theorem addCongruenceEqualities_members (P : EqProof → Prop) (ordered : List EqProof)
    (c : EqProof) (r : List EqProof) (ho : ∀ x ∈ ordered, P x)
    (hc : ∀ x ∈ c.d_children, P x) (h : addCongruenceEqualities ordered c = some r) :
    ∀ x ∈ r, P x := by
  unfold addCongruenceEqualities at h
  simp only [Option.bind_eq_bind, Option.pure_def, Option.bind_eq_some, Option.some.injEq] at h
  obtain ⟨c0, h0, c1, h1, hr⟩ := h
  have hp0 : P c0 := hc c0 (List.get?_mem h0)
  have hp1 : P c1 := hc c1 (List.get?_mem h1)
  intro x hx
  rw [← hr] at hx
  have hfront : ∀ y ∈ (if c0.d_id ≠ .MERGED_THROUGH_REFLEXIVITY then c0 :: ordered
      else ordered), P y := by
    intro y hy
    split_ifs at hy
    · rcases List.mem_cons.mp hy with h2 | h2
      · exact h2 ▸ hp0
      · exact ho y h2
    · exact ho y hy
  generalize (if c0.d_id ≠ .MERGED_THROUGH_REFLEXIVITY then c0 :: ordered
      else ordered) = front at hx hfront
  by_cases h3 : c1.d_id ≠ .MERGED_THROUGH_REFLEXIVITY
  · rw [if_pos h3] at hx
    rcases List.mem_append.mp hx with h2 | h2
    · exact hfront x h2
    · simp only [List.mem_singleton] at h2
      exact h2 ▸ hp1
  · rw [if_neg h3] at hx
    exact hfront x hx

theorem orderEqualities_members (P : EqProof → Prop) :
    ∀ (cs ordered r : List EqProof), (∀ x ∈ ordered, P x) →
      (∀ c ∈ cs, ∀ x ∈ c.d_children, P x) → orderEqualities ordered cs = some r →
      ∀ x ∈ r, P x
  | [], ordered, r, ho, _, h => by
    rw [orderEqualities] at h
    cases h
    exact ho
  | c :: cs, ordered, r, ho, hc, h => by
    rw [orderEqualities] at h
    simp only [Option.bind_eq_some] at h
    obtain ⟨o, h1, h2⟩ := h
    exact orderEqualities_members P cs o r
      (addCongruenceEqualities_members P ordered c o ho (hc c (List.mem_cons_self _ _)) h1)
      (fun c2 hc2 => hc c2 (List.mem_cons_of_mem _ hc2)) h2

theorem congruenceRun_subset (children : List EqProof) (i : Nat) :
    ∀ c ∈ congruenceRun children i, c ∈ children := by
  intro c hc
  unfold congruenceRun at hc
  exact List.mem_of_mem_drop ((List.takeWhile_sublist _).subset hc)

/-- The children that the depth-0 loop collects for the nested transitivity node are
children and grandchildren of the root. -/
theorem depth0Loop_members (children : List EqProof) :
    ∀ (fuel i : Nat) (neg : Option Nat) (sub : List EqProof) (r : Option Nat × List EqProof),
      (∀ x ∈ sub, x ∈ children ∨ ∃ c ∈ children, x ∈ c.d_children) →
      depth0Loop children fuel i neg sub = some r →
      ∀ x ∈ r.2, x ∈ children ∨ ∃ c ∈ children, x ∈ c.d_children
  | 0, i, neg, sub, r, hs, h => by
    rw [depth0Loop] at h
    split_ifs at h
    cases h
    exact hs
  | fuel + 1, i, neg, sub, r, hs, h => by
    rw [depth0Loop] at h
    cases hc : children.get? i with
    | none =>
      simp only [hc, Option.some.injEq] at h
      rw [← h]
      exact hs
    | some c =>
      have hrun : ∀ c2 ∈ congruenceRun children i, ∀ x ∈ c2.d_children,
          x ∈ children ∨ ∃ c ∈ children, x ∈ c.d_children :=
        fun c2 hc2 x hx => Or.inr ⟨c2, congruenceRun_subset children i c2 hc2, hx⟩
      simp only [hc] at h
      by_cases hneg : isNegativeChild c = true
      · simp only [hneg, if_true] at h
        by_cases hsome : neg.isSome = true
        · simp [hsome] at h
        · simp only [hsome, Bool.false_eq_true, if_false] at h
          exact depth0Loop_members children fuel (i + 1) _ sub r hs h
      · simp only [hneg, Bool.false_eq_true, if_false] at h
        by_cases hd : isDanglingCongruence c = true
        · simp only [hd, if_true] at h
          split_ifs at h
          · cases ht : children.get? (i - 1) with
            | none =>
              rw [ht] at h
              simp at h
            | some target =>
              cases hse : sub.isEmpty with
              | true =>
                rw [ht, hse] at h
                simp at h
              | false =>
                simp only [ht, hse, Option.bind_eq_some] at h
                obtain ⟨ordered, ho, h2⟩ := h
                refine depth0Loop_members children fuel _ neg _ r ?_ h2
                intro x hx
                rcases List.mem_append.mp hx with h3 | h3
                · exact hs x (List.dropLast_subset _ h3)
                · exact orderEqualities_members _ _ _ _
                    (fun y hy => by
                      simp only [List.mem_singleton] at hy
                      exact Or.inl (hy ▸ List.get?_mem ht)) hrun ho x h3
          · cases ht : children.get? (i + (congruenceRun children i).length) with
            | none =>
              rw [ht] at h
              simp at h
            | some target =>
              simp only [ht, Option.bind_eq_some] at h
              obtain ⟨ordered, ho, h2⟩ := h
              refine depth0Loop_members children fuel _ neg _ r ?_ h2
              intro x hx
              rcases List.mem_append.mp hx with h3 | h3
              · exact hs x h3
              · exact orderEqualities_members _ _ _ _
                  (fun y hy => by
                    simp only [List.mem_singleton] at hy
                    exact Or.inl (hy ▸ List.get?_mem ht))
                  (fun c2 hc2 => hrun c2 (List.mem_reverse.mp hc2)) ho x h3
        · simp only [hd, Bool.false_eq_true, if_false] at h
          refine depth0Loop_members children fuel (i + 1) neg _ r ?_ h
          intro x hx
          rcases List.mem_append.mp hx with h3 | h3
          · exact hs x h3
          · simp only [List.mem_singleton] at h3
            exact Or.inl (h3 ▸ List.get?_mem hc)

/-- C35: the recompiler is a total function of the derivation tree and the depth: every
recursive call of the rule switch is made on a child of the node (the look-ahead of the
transitivity case reads the conclusions that the calls on the later children return), so
`toStreamRecLFSC` has a value for every tree and every depth.  The loop of the depth-0
pass runs on the number of children as fuel; every round moves on by at least one child,
so that any larger fuel gives the same result, and the children that it collects for the
nested transitivity node are children and grandchildren of the root. -/
theorem emit_terminates (env : ProofEnv) (tb : Nat) (pf : EqProof) (fuel : Nat)
    (h : pf.d_children.length ≤ fuel) :
    (∃ r, toStreamRecLFSC env tb pf = r) ∧
      depth0Loop pf.d_children fuel 0 none [] =
        depth0Loop pf.d_children pf.d_children.length 0 none [] ∧
      ∀ r, depth0Loop pf.d_children fuel 0 none [] = some r →
        ∀ x ∈ r.2, x ∈ pf.d_children ∨ ∃ c ∈ pf.d_children, x ∈ c.d_children := by
  refine ⟨⟨_, rfl⟩, ?_, ?_⟩
  · obtain ⟨k, hk⟩ := Nat.exists_eq_add_of_le h
    rw [hk]
    exact depth0Loop_add pf.d_children pf.d_children.length 0 none [] (by omega) k
  · intro r hr
    exact depth0Loop_members pf.d_children fuel 0 none [] r (fun x hx => by simp at hx) hr

theorem emit_terminates_witness :
    (∃ r, toStreamRecLFSC exampleEnv 0 negativeBeforeRun = r) ∧
      depth0Loop negativeBeforeRun.d_children 10 0 none [] =
        depth0Loop negativeBeforeRun.d_children negativeBeforeRun.d_children.length 0 none [] ∧
      ∀ r, depth0Loop negativeBeforeRun.d_children 10 0 none [] = some r →
        ∀ x ∈ r.2, x ∈ negativeBeforeRun.d_children ∨
          ∃ c ∈ negativeBeforeRun.d_children, x ∈ c.d_children :=
  emit_terminates exampleEnv 0 negativeBeforeRun 10 (by decide)

theorem setAssertionToRewrite_new (t : Node) (name : Out) :
    ∀ (table : List (Node × Out)), table.lookup t = none →
      setAssertionToRewrite t name table = table ++ [(t, name)]
  | [], _ => rfl
  | (k, v) :: m, h => by
    simp only [List.lookup_cons] at h
    by_cases hk : k = t
    · subst hk
      simp at h
    · have hbeq : (t == k) = false := by
        simp only [beq_eq_false_iff_ne, ne_eq]
        exact fun h2 => hk h2.symm
      simp only [hbeq] at h
      simp only [setAssertionToRewrite, hk, if_false, List.cons_append,
        setAssertionToRewrite_new t name m h]

/-- The name of the assertion of the pair at position `i` in the names given from `start`
on. -/
theorem lookup_lemmaRewriteNames :
    ∀ (rewrites : List (Node × Node)) (start i : Nat) (it : Node × Node),
      (rewrites.map (fun p => p.1)).Nodup → rewrites.get? i = some it →
      (lemmaRewriteNames start rewrites).lookup it.1 = some [.str ".lrr", .num (start + i)]
  | [], _, i, it, _, h => by simp at h
  | t :: ts, start, 0, it, _, h => by
    simp only [List.get?_cons_zero, Option.some.injEq] at h
    subst h
    simp [lemmaRewriteNames, List.lookup_cons]
  | t :: ts, start, i + 1, it, hn, h => by
    simp only [List.get?_cons_succ] at h
    simp only [List.map_cons, List.nodup_cons] at hn
    have hne : it.1 ≠ t.1 := by
      intro hst
      exact hn.1 (hst ▸ List.mem_map_of_mem (fun p => p.1) (List.get?_mem h))
    have hbeq : (it.1 == t.1) = false := by simpa using hne
    simp only [lemmaRewriteNames, List.lookup_cons, hbeq]
    rw [lookup_lemmaRewriteNames ts (start + 1) i it hn.2 h]
    have harith : start + 1 + i = start + (i + 1) := by omega
    rw [harith]

/-- The loop of the lemma rewrites on pairs that rewrite assertions of their own, none of
which is in the table: the names `.lrr<i>` are given in order from the size of the table
on. -/
theorem printLemmaRewrites_names (env : EngineEnv) (tbl : TheoryProofTable) :
    ∀ (rewrites : List (Node × Node)) (table : List (Node × Out))
      (r : Out × Out × List (Node × Out)),
      printLemmaRewrites env tbl rewrites table = some r →
      (rewrites.map (fun p => p.1)).Nodup →
      (∀ it ∈ rewrites, table.lookup it.1 = none) →
      r.2.2 = table ++ lemmaRewriteNames table.length rewrites ∧
        ∃ blocks : List Out, blocks.length = rewrites.length ∧
          r.1 = lemmaRewriteLayout table.length blocks
  | [], table, r, h, _, _ => by
    simp only [printLemmaRewrites, Option.some.injEq] at h
    subst h
    exact ⟨by simp [lemmaRewriteNames], [], rfl, rfl⟩
  | t :: ts, table, r, h, hn, hnew => by
    simp only [printLemmaRewrites, Option.bind_eq_some, Option.some.injEq] at h
    obtain ⟨p2, _, p1, _, r1, hr1, h⟩ := h
    have hset := setAssertionToRewrite_new t.1 [.str ".lrr", .num table.length] table
      (hnew t (List.mem_cons_self _ _))
    rw [hset] at hr1
    simp only [List.map_cons, List.nodup_cons] at hn
    obtain ⟨hnames, blocks, hlen, hout⟩ := printLemmaRewrites_names env tbl ts _ r1 hr1 hn.2
      (fun s hs => lookup_append_new t.1 s.1 _ table (hnew s (List.mem_cons_of_mem _ hs))
        (fun hst => hn.1 (hst ▸ List.mem_map_of_mem (fun p => p.1) hs)))
    rw [← h]
    refine ⟨?_, ([.str "(th_let_pf _ (trust_f (iff "] ++ p2 ++ [.str " "] ++ p1) :: blocks,
      by simp [hlen], ?_⟩
    · simp only [hnames, List.length_append, List.length_singleton, lemmaRewriteNames,
        List.append_assoc, List.singleton_append]
    · simp only [hout, List.length_append, List.length_singleton, lemmaRewriteLayout,
        List.append_assoc, List.singleton_append, List.cons_append, List.nil_append]

/-- C39 (fails on the code): the rule name is made from the size of the table, which
does not grow when the rewritten assertion has an entry already.  For the pairs `(p, q)`,
`(p, r)` and `(q, r)` and the empty table the names bound are `.lrr0`, `.lrr1` and
`.lrr1`: two rules are bound to the name `.lrr1`, and the table maps both `p` and `q` to
`.lrr1`, so that the name of `p` is the name bound last for the rewrite of `q`. -/
theorem repeated_assertion_repeats_rule_name :
    printLemmaRewrites exampleEngineEnv fullTable [(varP, varQ), (varP, varR), (varQ, varR)]
        [] =
      some ([.str "(th_let_pf _ (trust_f (iff ", .str "(p_app ", .sanitized varQ, .str ")",
              .str " ", .str "(p_app ", .sanitized varP, .str ")", .str ")) (\\ ",
              .str ".lrr", .num 0, .str "\n",
              .str "(th_let_pf _ (trust_f (iff ", .str "(p_app ", .sanitized varR, .str ")",
              .str " ", .str "(p_app ", .sanitized varP, .str ")", .str ")) (\\ ",
              .str ".lrr", .num 1, .str "\n",
              .str "(th_let_pf _ (trust_f (iff ", .str "(p_app ", .sanitized varR, .str ")",
              .str " ", .str "(p_app ", .sanitized varQ, .str ")", .str ")) (\\ ",
              .str ".lrr", .num 1, .str "\n"],
            [.str "))", .str "))", .str "))"],
            [(varP, [.str ".lrr", .num 1]), (varQ, [.str ".lrr", .num 1])]) := by
  decide

/-- The names of `printLemmaRewrites` on fresh assertions: when the pairs rewrite pairwise
different assertions, none of which
has an entry in the assertion-to-rewrite table, and `printLemmaRewrites` returns, then
for the `k` pairs it binds the `k` names `.lrr<n>`, ..., `.lrr<n + k - 1>`, where `n` is
the size of the table, one at the end of the block of each pair in order; afterwards the
table maps the assertion of the pair at position `i` to the name `.lrr<n + i>` that was
bound for it, and two different assertions have different names. -/
theorem lemma_rewrite_names_unique (env : EngineEnv) (tbl : TheoryProofTable)
    (rewrites : List (Node × Node)) (table : List (Node × Out))
    (r : Out × Out × List (Node × Out))
    (h : printLemmaRewrites env tbl rewrites table = some r)
    (hset : (rewrites.map (fun p => p.1)).Nodup)
    (hnew : ∀ it ∈ rewrites, table.lookup it.1 = none) :
    (∃ blocks : List Out, blocks.length = rewrites.length ∧
        r.1 = lemmaRewriteLayout table.length blocks) ∧
      (∀ i it, rewrites.get? i = some it →
        r.2.2.lookup it.1 = some [.str ".lrr", .num (table.length + i)]) ∧
      (∀ s ∈ rewrites, ∀ t ∈ rewrites, s.1 ≠ t.1 →
        r.2.2.lookup s.1 ≠ r.2.2.lookup t.1) := by
  obtain ⟨hnames, hblocks⟩ := printLemmaRewrites_names env tbl _ _ r h hset hnew
  have hlook : ∀ i it, rewrites.get? i = some it →
      r.2.2.lookup it.1 = some [.str ".lrr", .num (table.length + i)] := by
    intro i it hit
    rw [hnames, lookup_append_left it.1 _ _ (hnew it (List.get?_mem hit))]
    exact lookup_lemmaRewriteNames _ _ i it hset hit
  refine ⟨hblocks, hlook, ?_⟩
  intro s hs t ht hst heq
  obtain ⟨i, hi⟩ := List.get?_of_mem hs
  obtain ⟨j, hj⟩ := List.get?_of_mem ht
  rw [hlook i s hi, hlook j t hj] at heq
  simp only [Option.some.injEq, List.cons.injEq, Chunk.num.injEq, and_true, true_and] at heq
  have hij : i = j := by omega
  subst hij
  rw [hi] at hj
  exact hst (by rw [Option.some.inj hj])

theorem lemma_rewrite_names_unique_witness :
    ∃ r, printLemmaRewrites exampleEngineEnv fullTable [(varP, varQ), (varQ, varR)] [] =
        some r ∧
      r.2.2.lookup varP = some [.str ".lrr", .num 0] ∧
      r.2.2.lookup varQ = some [.str ".lrr", .num 1] :=
  ⟨_, rfl,
    (lemma_rewrite_names_unique exampleEngineEnv fullTable [(varP, varQ), (varQ, varR)] [] _
      rfl (by decide) (by decide)).2.1 0 (varP, varQ) rfl,
    (lemma_rewrite_names_unique exampleEngineEnv fullTable [(varP, varQ), (varQ, varR)] [] _
      rfl (by decide) (by decide)).2.1 1 (varQ, varR) rfl⟩

/-- When the all-ones constant of a bit-vector type is neither the constant 0 nor the
constant 1 of the type, `isIdempotentArg` returns true for it and `BITVECTOR_AND` at
every argument position; and when the constant 1 of the type is not the constant 0, it
returns true for it and `BITVECTOR_MULT`. -/
theorem isIdempotentArg_distinct_constants (env : SygusEnv) (w : Nat) (arg : Int) :
    ((env.mkOnes w).getType = .bitVectorType w →
      env.mkOnes w ≠ env.mkConstBitVector w 0 → env.mkOnes w ≠ env.mkConstBitVector w 1 →
      SygusUtil.isIdempotentArg env (env.mkOnes w) .BITVECTOR_AND arg = true) ∧
    ((env.mkConstBitVector w 1).getType = .bitVectorType w →
      env.mkConstBitVector w 1 ≠ env.mkConstBitVector w 0 →
      SygusUtil.isIdempotentArg env (env.mkConstBitVector w 1) .BITVECTOR_MULT arg = true) := by
  have h0 : SygusUtil.getTypeValue env (.bitVectorType w) 0 = env.mkConstBitVector w 0 := by
    simp [SygusUtil.getTypeValue, TypeNode.isInteger, TypeNode.isReal, TypeNode.isBitVector,
      SygusUtil.bitVectorSize]
  have h1 : SygusUtil.getTypeValue env (.bitVectorType w) 1 = env.mkConstBitVector w 1 := by
    simp [SygusUtil.getTypeValue, TypeNode.isInteger, TypeNode.isReal, TypeNode.isBitVector,
      SygusUtil.bitVectorSize]
  have hmax : SygusUtil.getTypeMaxValue env (.bitVectorType w) = env.mkOnes w := by
    simp [SygusUtil.getTypeMaxValue, TypeNode.isBitVector, SygusUtil.bitVectorSize]
  constructor
  · intro ht hne0 hne1
    simp [SygusUtil.isIdempotentArg, ht, h0, h1, hmax, hne0, hne1]
  · intro ht hne0
    simp [SygusUtil.isIdempotentArg, ht, h0, h1, hne0]

/-- C40 (fails on the code): the tests of `isIdempotentArg` are chained by `else if`, and
the test against the constant 1 of the type comes before the test against the maximum
value.  For the bit-vector type of width 1 the all-ones constant is the constant 1: the
second test holds, `BITVECTOR_AND` is not among its kinds, and `isIdempotentArg` returns
false for it at both argument positions.  For `BITVECTOR_MULT` and the constant 1 of
width 1 it returns true, and for the all-ones constant of width 2 and `BITVECTOR_AND` it
returns true. -/
theorem all_ones_of_width_one_is_not_idempotent_for_and :
    exampleSygusEnv.mkOnes 1 = exampleSygusEnv.mkConstBitVector 1 1 ∧
      SygusUtil.getTypeMaxValue exampleSygusEnv (.bitVectorType 1) =
        SygusUtil.getTypeValue exampleSygusEnv (.bitVectorType 1) 1 ∧
      SygusUtil.isIdempotentArg exampleSygusEnv (exampleSygusEnv.mkOnes 1) .BITVECTOR_AND 0 =
        false ∧
      SygusUtil.isIdempotentArg exampleSygusEnv (exampleSygusEnv.mkOnes 1) .BITVECTOR_AND 1 =
        false ∧
      SygusUtil.isIdempotentArg exampleSygusEnv (exampleSygusEnv.mkConstBitVector 1 1)
        .BITVECTOR_MULT 0 = true ∧
      SygusUtil.isIdempotentArg exampleSygusEnv (exampleSygusEnv.mkOnes 2) .BITVECTOR_AND 0 =
        true := by
  refine ⟨by decide, by decide, by decide, by decide, by decide, by decide⟩

theorem filter_range_gt (i : Nat) : ∀ n : Nat,
    (List.range n).filter (fun j => decide (i < j)) =
      (List.range (n - (i + 1))).map (fun d => i + 1 + d)
  | 0 => by simp
  | n + 1 => by
    rw [List.range_succ, List.filter_append, filter_range_gt i n]
    by_cases h : i < n
    · have e : n + 1 - (i + 1) = (n - (i + 1)) + 1 := by omega
      rw [e, List.range_succ, List.map_append]
      have e2 : i + 1 + (n - (i + 1)) = n := by omega
      simp [h, e2]
    · have e : n + 1 - (i + 1) = n - (i + 1) := by omega
      rw [e]
      simp [h]

theorem distinctPairs_eq_lexPairs (n : Nat) : distinctPairs n = lexPairs n := by
  unfold distinctPairs lexPairs
  congr 1
  funext i
  rw [filter_range_gt i n, List.map_map]
  rfl

theorem mem_lexPairs (n : Nat) (p : Nat × Nat) : p ∈ lexPairs n ↔ p.1 < p.2 ∧ p.2 < n := by
  obtain ⟨i, j⟩ := p
  simp only [lexPairs, List.mem_flatMap, List.mem_range, List.mem_map, List.mem_filter,
    decide_eq_true_eq, Prod.mk.injEq]
  constructor
  · rintro ⟨a, _, b, ⟨hb, hab⟩, rfl, rfl⟩
    exact ⟨hab, hb⟩
  · rintro ⟨h1, h2⟩
    exact ⟨i, by omega, j, ⟨h2, h1⟩, rfl, rfl⟩

theorem nodup_lexPairs (n : Nat) : (lexPairs n).Nodup := by
  unfold lexPairs
  rw [List.nodup_flatMap]
  constructor
  · intro i _
    exact (List.Nodup.filter _ (List.nodup_range n)).map (fun a b h => by simpa using h)
  · refine (List.nodup_range n).pairwise_of_forall_ne ?_
    intro a _ b _ hab
    simp only [Function.onFun, List.disjoint_left, List.mem_map, List.mem_filter,
      decide_eq_true_eq, not_exists, not_and]
    rintro p ⟨j, _, rfl⟩ k _ hk
    simp only [Prod.mk.injEq] at hk
    exact hab hk.1.symm

/-- The sum that counts the pairs row by row. -/
theorem sum_rows : ∀ n : Nat, 2 * ((List.range n).map (fun i => n - (i + 1))).sum = n * (n - 1)
  | 0 => rfl
  | n + 1 => by
    rw [List.range_succ_eq_map, List.map_cons, List.map_map, List.sum_cons]
    have e : ((fun i => n + 1 - (i + 1)) ∘ Nat.succ) = fun i => n - (i + 1) := by
      funext i
      simp only [Function.comp, Nat.succ_eq_add_one]
      omega
    rw [e, Nat.mul_add, sum_rows n]
    cases n with
    | zero => rfl
    | succ m =>
      simp only [Nat.add_sub_cancel, Nat.zero_add]
      ring

theorem length_lexPairs (n : Nat) : (lexPairs n).length = n * (n - 1) / 2 := by
  rw [← distinctPairs_eq_lexPairs]
  have h := sum_rows n
  have hl : (distinctPairs n).length = ((List.range n).map (fun i => n - (i + 1))).sum := by
    unfold distinctPairs
    rw [List.length_flatMap]
    congr 1
    apply List.map_congr_left
    intro i _
    simp
  rw [hl]
  omega

theorem childOut_map_some (ts : List Out) (i : Nat) (h : i < ts.length) :
    childOut (ts.map some) i = some (ts.getD i []) := by
  simp [childOut, List.getD, List.getElem?_eq_getElem h]

theorem printDistinctPair_eq (s : Out) (ts : List Out) (p : Nat × Nat)
    (h1 : p.1 < ts.length) (h2 : p.2 < ts.length) :
    printDistinctPair s (ts.map some) p = some (negatedEquality s ts p) := by
  obtain ⟨i, j⟩ := p
  simp only [printDistinctPair, childOut_map_some ts i h1, childOut_map_some ts j h2,
    Option.some_bind, negatedEquality, Option.some.injEq]
  by_cases hp : i = 0 ∧ j = 1
  · obtain ⟨hi, hj⟩ := hp
    subst hi
    subst hj
    simp
  · have h3 : i ≠ 0 ∨ j ≠ 1 := by
      by_contra hc
      push_neg at hc
      exact hp hc
    have h4 : ¬ ((i, j) = (0, 1)) := by
      intro he
      simp only [Prod.mk.injEq] at he
      exact hp he
    simp [h3, h4]

theorem concatOuts_pairs (s : Out) (ts : List Out) :
    ∀ (pairs : List (Nat × Nat)), (∀ p ∈ pairs, p.1 < ts.length ∧ p.2 < ts.length) →
      concatOuts (pairs.map (printDistinctPair s (ts.map some))) =
        some (pairs.flatMap (negatedEquality s ts))
  | [], _ => rfl
  | p :: ps, h => by
    have hp := h p (List.mem_cons_self _ _)
    rw [List.map_cons, concatOuts, printDistinctPair_eq s ts p hp.1 hp.2,
      concatOuts_pairs s ts ps (fun q hq => h q (List.mem_cons_of_mem _ hq))]
    simp

theorem lexPairs_two : lexPairs 2 = [(0, 1)] := by decide

/-- The text of a `DISTINCT` term with at least two children, whose sort has the text `s`
and whose children have the texts `ts`. -/
theorem printCoreTerm_distinct (env : EngineEnv) (tbl : TheoryProofTable) (op : Node)
    (cs : List Node) (c0 : Node) (ts : List Out) (s : Out) (hlen : ts.length = cs.length)
    (hn : 2 ≤ cs.length) (hc0 : cs.head? = some c0)
    (hs : printSort env tbl c0.getType = some s) :
    printCoreTerm env tbl (.app .DISTINCT op cs) (ts.map some) =
      some (List.replicate (numOfPairs cs.length - 1) (.str "(and ")
        ++ (lexPairs cs.length).flatMap (negatedEquality s ts)) := by
  have hchild : (Node.app .DISTINCT op cs).child 0 = some c0 := by
    rw [child_app]
    cases cs with
    | nil => simp at hc0
    | cons c cs2 =>
      simp only [List.head?_cons, Option.some.injEq] at hc0
      simp [hc0]
  have hnum : (Node.app .DISTINCT op cs).getNumChildren = cs.length := rfl
  have hvar : (Node.app .DISTINCT op cs).isVariable = false := rfl
  have hkind : (Node.app .DISTINCT op cs).getKind = .DISTINCT := rfl
  have hlt : ¬ cs.length < 2 := by omega
  unfold printCoreTerm
  simp only [hvar, Bool.false_eq_true, if_false, hkind, hnum, hlt, hchild, Option.some_bind, hs]
  by_cases h2 : cs.length = 2
  · have hpairs := concatOuts_pairs s ts (lexPairs 2) (by
      intro p hp
      rw [mem_lexPairs] at hp
      omega)
    simp only [h2, if_true, lexPairs_two, List.flatMap_cons, List.flatMap_nil,
      List.append_nil, negatedEquality]
    rw [childOut_map_some ts 0 (by omega), childOut_map_some ts 1 (by omega)]
    have hz : numOfPairs 2 - 1 = 0 := by decide
    simp [hz]
  · simp only [h2, if_false]
    rw [distinctPairs_eq_lexPairs, concatOuts_pairs s ts (lexPairs cs.length) (by
      intro p hp
      rw [mem_lexPairs] at hp
      omega)]
    rfl

theorem numOfPairs_small (n : Nat) (h : n * (n - 1) / 2 < 2 ^ 32) :
    numOfPairs n = n * (n - 1) / 2 := by
  unfold numOfPairs
  have h1 : n * (n - 1) < 2 ^ 64 := by omega
  rw [Nat.mod_eq_of_lt h1, Nat.mod_eq_of_lt h]

theorem openedParens_replicate_and (k : Nat) :
    openedParens (List.replicate k (.str "(and ")) = k := by
  have a : parenBalance "(and " = 1 := by decide
  induction k with
  | zero => rfl
  | succ k ih =>
    rw [List.replicate_succ, ← List.singleton_append, openedParens_append, ih]
    simp [openedParens, Chunk.opened, a]
    omega

theorem openedParens_negatedEquality (s : Out) (ts : List Out) (p : Nat × Nat)
    (hs : openedParens s = 0) (ht : ∀ t ∈ ts, openedParens t = 0) :
    openedParens (negatedEquality s ts p) = if p = (0, 1) then 0 else -1 := by
  have a : parenBalance "(not (= " = 2 := by decide
  have b : parenBalance " " = 0 := by decide
  have c : parenBalance "))" = -2 := by decide
  have d : parenBalance ")))" = -3 := by decide
  have hget : ∀ i, openedParens (ts.getD i []) = 0 := by
    intro i
    by_cases hi : i < ts.length
    · rw [List.getD_eq_getElem _ _ hi]
      exact ht _ (List.getElem_mem _)
    · rw [List.getD_eq_default _ _ (by omega)]
      rfl
  unfold negatedEquality
  simp only [openedParens_append, hs, hget]
  by_cases hp : p = (0, 1) <;> simp [hp, openedParens, Chunk.opened, a, b, c, d]

theorem openedParens_pairs (s : Out) (ts : List Out) (hs : openedParens s = 0)
    (ht : ∀ t ∈ ts, openedParens t = 0) :
    ∀ (pairs : List (Nat × Nat)), pairs.Nodup →
      openedParens (pairs.flatMap (negatedEquality s ts)) =
        (if (0, 1) ∈ pairs then 1 else 0) - (pairs.length : Int)
  | [], _ => rfl
  | p :: ps, hn => by
    have hn2 := List.nodup_cons.mp hn
    rw [List.flatMap_cons, openedParens_append, openedParens_negatedEquality s ts p hs ht,
      openedParens_pairs s ts hs ht ps hn2.2]
    by_cases hp : p = (0, 1)
    · have hnot : (0, 1) ∉ ps := hp ▸ hn2.1
      simp only [hp, if_true, hnot, if_false, List.mem_cons, true_or, List.length_cons]
      push_cast
      omega
    · have hne : ¬ ((0, 1) = p) := fun h => hp h.symm
      simp only [hp, if_false, List.mem_cons, hne, false_or, List.length_cons]
      push_cast
      omega

theorem openedParens_distinct (s : Out) (ts : List Out) (n k : Nat) (hn : 2 ≤ n)
    (hs : openedParens s = 0) (ht : ∀ t ∈ ts, openedParens t = 0) :
    openedParens (List.replicate k (.str "(and ")
        ++ (lexPairs n).flatMap (negatedEquality s ts)) =
      (k : Int) + 1 - (n * (n - 1) / 2 : Nat) := by
  have hmem : (0, 1) ∈ lexPairs n := (mem_lexPairs n (0, 1)).mpr ⟨by omega, by omega⟩
  rw [openedParens_append, openedParens_replicate_and,
    openedParens_pairs s ts hs ht (lexPairs n) (nodup_lexPairs n), length_lexPairs]
  simp only [hmem, if_true]
  omega

/-- C38 (fails on the code): the number of pairs is computed in the 32-bit variable
`unsigned numOfPairs`, under the comment that a `DISTINCT` node can have any number of
children.  For a `DISTINCT` term with 92683 children there are 4295022903 pairs, more than
`2^32`; the printer writes one negated equality for each of them, but only 55606 openers
`(and ` where `n (n - 1) / 2 - 1` is 4295022902, and the text closes `2^32` parentheses
more than it opens. -/
theorem distinct_pair_count_wraps :
    printCoreTerm exampleEngineEnv fullTable bigDistinct
        ((List.replicate 92683 [Chunk.expr varA]).map some) =
      some (List.replicate 55606 (.str "(and ")
        ++ (lexPairs 92683).flatMap
            (negatedEquality [.type sortU, .str " "] (List.replicate 92683 [.expr varA]))) ∧
      (lexPairs 92683).length = 4295022903 ∧
      openedParens (List.replicate 55606 (.str "(and ")
        ++ (lexPairs 92683).flatMap
            (negatedEquality [.type sortU, .str " "] (List.replicate 92683 [.expr varA]))) =
        -4294967296 := by
  have e : numOfPairs 92683 - 1 = 55606 := by decide
  have hl : (List.replicate 92683 varA).length = 92683 := List.length_replicate _ _
  have h := printCoreTerm_distinct exampleEngineEnv fullTable .null (List.replicate 92683 varA)
    varA (List.replicate 92683 [Chunk.expr varA]) [.type sortU, .str " "]
    (by rw [List.length_replicate, List.length_replicate]) (by rw [hl]; decide)
    (by rw [List.head?_replicate]; rfl) rfl
  rw [hl, e] at h
  refine ⟨h, ?_, ?_⟩
  · rw [length_lexPairs]
  · have hs0 : openedParens [Chunk.type sortU, .str " "] = 0 := by decide
    rw [openedParens_distinct [Chunk.type sortU, .str " "]
      (List.replicate 92683 [Chunk.expr varA]) 92683 55606 (by decide) hs0 (by
      intro t ht
      rw [List.eq_of_mem_replicate ht]
      rfl)]
    decide

/-- The `DISTINCT` case below the width of the counter: for a `DISTINCT` term with
`n >= 2` children and fewer than `2^32`
pairs of children, whose sort has the text `s` and whose children have the texts `ts`,
`printCoreTerm` writes `n (n - 1) / 2 - 1` openers `(and ` and then one negated equality
for each pair `(i, j)` with `i < j`, in lexicographic order, the last parenthesis of every
pair but the first closing an `and`; the number of pairs is `n (n - 1) / 2`; and the text
leaves no parenthesis open when the text of the sort and the texts of the children leave
none open. -/
theorem distinct_negated_equalities (env : EngineEnv) (tbl : TheoryProofTable) (op : Node)
    (cs : List Node) (c0 : Node) (ts : List Out) (s : Out) (hlen : ts.length = cs.length)
    (hn : 2 ≤ cs.length) (hbound : cs.length * (cs.length - 1) / 2 < 2 ^ 32)
    (hc0 : cs.head? = some c0) (hs : printSort env tbl c0.getType = some s) :
    printCoreTerm env tbl (.app .DISTINCT op cs) (ts.map some) =
        some (List.replicate (cs.length * (cs.length - 1) / 2 - 1) (.str "(and ")
          ++ (lexPairs cs.length).flatMap (negatedEquality s ts)) ∧
      (lexPairs cs.length).length = cs.length * (cs.length - 1) / 2 ∧
      (openedParens s = 0 → (∀ t ∈ ts, openedParens t = 0) →
        openedParens (List.replicate (cs.length * (cs.length - 1) / 2 - 1) (.str "(and ")
          ++ (lexPairs cs.length).flatMap (negatedEquality s ts)) = 0) := by
  refine ⟨?_, length_lexPairs _, ?_⟩
  · rw [printCoreTerm_distinct env tbl op cs c0 ts s hlen hn hc0 hs, numOfPairs_small _ hbound]
  · intro hs0 ht0
    rw [openedParens_distinct s ts cs.length _ hn hs0 ht0]
    have hpos : 1 ≤ cs.length * (cs.length - 1) / 2 := by
      have h2 : 2 * 1 ≤ cs.length * (cs.length - 1) :=
        Nat.mul_le_mul hn (by omega)
      omega
    omega

theorem distinct_negated_equalities_witness :
    printCoreTerm exampleEngineEnv fullTable (.app .DISTINCT .null [varA, varB, varV])
        ([[Chunk.expr varA], [Chunk.expr varB], [Chunk.expr varV]].map some) =
        some (List.replicate (3 * (3 - 1) / 2 - 1) (.str "(and ")
          ++ (lexPairs 3).flatMap
              (negatedEquality [.type sortU, .str " "]
                [[.expr varA], [.expr varB], [.expr varV]])) ∧
      (lexPairs 3).length = 3 * (3 - 1) / 2 ∧
      (openedParens [Chunk.type sortU, .str " "] = 0 →
        (∀ t ∈ [[Chunk.expr varA], [Chunk.expr varB], [Chunk.expr varV]],
          openedParens t = 0) →
        openedParens (List.replicate (3 * (3 - 1) / 2 - 1) (.str "(and ")
          ++ (lexPairs 3).flatMap
              (negatedEquality [.type sortU, .str " "]
                [[.expr varA], [.expr varB], [.expr varV]])) = 0) :=
  distinct_negated_equalities exampleEngineEnv fullTable .null [varA, varB, varV] varA
    [[.expr varA], [.expr varB], [.expr varV]] [.type sortU, .str " "] rfl (by decide)
    (by decide) rfl rfl

theorem subterms_self (t : Node) : t ∈ t.subterms := by
  cases t <;> simp [Node.subterms]

theorem mem_subtermsList (x : Node) : ∀ (cs : List Node),
    x ∈ subtermsList cs ↔ ∃ c ∈ cs, x ∈ c.subterms
  | [] => by simp [subtermsList]
  | c :: cs => by
    rw [subtermsList, List.mem_append, mem_subtermsList x cs]
    simp

theorem mem_subterms_iff (x t : Node) :
    x ∈ t.subterms ↔ x = t ∨ ∃ c ∈ t.children, x ∈ c.subterms := by
  cases t with
  | null => simp [Node.subterms, Node.children]
  | leaf k name ty => simp [Node.subterms, Node.children]
  | builtin k => simp [Node.subterms, Node.children]
  | app k op cs =>
    rw [Node.subterms, List.mem_cons, mem_subtermsList]
    rfl

mutual
/-- A set of terms that is closed under children holds the subterms of its terms. -/
theorem subterms_closed (K : Node → Prop) (hK : ∀ x, K x → ∀ c ∈ x.children, K c) :
    ∀ (t : Node), K t → ∀ x ∈ t.subterms, K x
  | .app k op cs, ht, x, hx => by
    rw [Node.subterms, List.mem_cons] at hx
    rcases hx with hx | hx
    · exact hx ▸ ht
    · exact subtermsList_closed K hK cs (fun c hc => hK _ ht c hc) x hx
  | .null, ht, x, hx => by
    rw [Node.subterms, List.mem_singleton] at hx
    exact hx ▸ ht
  | .leaf k name ty, ht, x, hx => by
    rw [Node.subterms, List.mem_singleton] at hx
    exact hx ▸ ht
  | .builtin k, ht, x, hx => by
    rw [Node.subterms, List.mem_singleton] at hx
    exact hx ▸ ht
theorem subtermsList_closed (K : Node → Prop) (hK : ∀ x, K x → ∀ c ∈ x.children, K c) :
    ∀ (cs : List Node), (∀ c ∈ cs, K c) → ∀ x ∈ subtermsList cs, K x
  | [], _, x, hx => by simp [subtermsList] at hx
  | c :: cs, hc, x, hx => by
    rw [subtermsList, List.mem_append] at hx
    rcases hx with hx | hx
    · exact subterms_closed K hK c (hc c (List.mem_cons_self _ _)) x hx
    · exact subtermsList_closed K hK cs (fun c2 h2 => hc c2 (List.mem_cons_of_mem _ h2)) x hx
end

mutual
/-- The terms that `bind` adds to the order are subterms of the term. -/
theorem bind_new_subterms : ∀ (t : Node) (st : BindState),
    ∃ new, (bind t st).let_order = st.let_order ++ new ∧ ∀ e ∈ new, e.expr ∈ t.subterms
  | .app k op cs, st => by
    rw [bind_eq]
    cases hf : st.map.find (.app k op cs) with
    | some lc => exact ⟨[], by simp [BindState.revisit], by simp⟩
    | none =>
      obtain ⟨new, hnew, hsub⟩ := bindList_new_subterms cs st
      refine ⟨new ++ [⟨.app k op cs, (bindList cs st).counter + 1⟩], ?_, ?_⟩
      · simp [BindState.insertNew, Node.children, hnew]
      · intro e he
        rw [Node.subterms]
        rcases List.mem_append.mp he with h1 | h1
        · exact List.mem_cons_of_mem _ (hsub e h1)
        · simp only [List.mem_singleton] at h1
          simp [h1]
  | .null, st => by
    rw [bind_eq]
    cases hf : st.map.find .null with
    | some lc => exact ⟨[], by simp [BindState.revisit], by simp⟩
    | none =>
      exact ⟨[⟨.null, st.counter + 1⟩], by simp [BindState.insertNew, Node.children, bindList],
        by simp [Node.subterms]⟩
  | .leaf k name ty, st => by
    rw [bind_eq]
    cases hf : st.map.find (.leaf k name ty) with
    | some lc => exact ⟨[], by simp [BindState.revisit], by simp⟩
    | none =>
      exact ⟨[⟨.leaf k name ty, st.counter + 1⟩],
        by simp [BindState.insertNew, Node.children, bindList], by simp [Node.subterms]⟩
  | .builtin k, st => by
    rw [bind_eq]
    cases hf : st.map.find (.builtin k) with
    | some lc => exact ⟨[], by simp [BindState.revisit], by simp⟩
    | none =>
      exact ⟨[⟨.builtin k, st.counter + 1⟩],
        by simp [BindState.insertNew, Node.children, bindList], by simp [Node.subterms]⟩
theorem bindList_new_subterms : ∀ (cs : List Node) (st : BindState),
    ∃ new, (bindList cs st).let_order = st.let_order ++ new ∧
      ∀ e ∈ new, e.expr ∈ subtermsList cs
  | [], st => ⟨[], by simp [bindList], by simp⟩
  | c :: cs, st => by
    rw [bindList]
    obtain ⟨new1, hnew1, hsub1⟩ := bind_new_subterms c st
    obtain ⟨new2, hnew2, hsub2⟩ := bindList_new_subterms cs (bind c st)
    refine ⟨new1 ++ new2, by rw [hnew2, hnew1, List.append_assoc], ?_⟩
    intro e he
    rw [subtermsList, List.mem_append]
    rcases List.mem_append.mp he with h1 | h1
    · exact Or.inl (hsub1 e h1)
    · exact Or.inr (hsub2 e h1)
end

/-- The order after `bind` from the empty state: its terms are the subterms of the term,
none of them twice, with pairwise different ids, and every term stands after its proper
subterms. -/
theorem bind_order (counter : Nat) (t : Node) :
    (bind t ⟨[], [], counter⟩).keys.Nodup ∧
      (∀ x, x ∈ (bind t ⟨[], [], counter⟩).keys ↔ x ∈ t.subterms) ∧
      (∀ pre e post, (bind t ⟨[], [], counter⟩).let_order = pre ++ e :: post →
        ∀ c ∈ e.expr.subterms, c ≠ e.expr → c ∈ pre.map (fun x => x.expr)) ∧
      ((bind t ⟨[], [], counter⟩).let_order.map (fun e => e.id)).Nodup := by
  obtain ⟨hwf, _, hmem⟩ := bind_spec t ⟨[], [], counter⟩ (empty_wellFormed counter)
  have hclosed : ∀ x, x ∈ (bind t ⟨[], [], counter⟩).keys →
      ∀ c ∈ x.children, c ∈ (bind t ⟨[], [], counter⟩).keys := by
    intro x hx c hc
    obtain ⟨e, he, hxe⟩ := List.mem_map.mp hx
    obtain ⟨p1, p2, hp⟩ := List.append_of_mem he
    have := hwf.closed p1 e p2 hp c (hxe ▸ hc)
    simp only [BindState.keys, hp, List.map_append, List.mem_append]
    exact Or.inl this
  refine ⟨hwf.nodupKeys, ?_, ?_, hwf.nodupIds⟩
  · intro x
    constructor
    · intro hx
      obtain ⟨new, hnew, hsub⟩ := bind_new_subterms t ⟨[], [], counter⟩
      obtain ⟨e, he, hxe⟩ := List.mem_map.mp hx
      rw [hnew] at he
      simp only [List.nil_append] at he
      exact hxe ▸ hsub e he
    · intro hx
      exact subterms_closed _ hclosed t hmem x hx
  · intro pre e post hsplit c hc hne
    have hclosedPre : ∀ x, x ∈ pre.map (fun e => e.expr) →
        ∀ c ∈ x.children, c ∈ pre.map (fun e => e.expr) := by
      intro x hx c hc
      obtain ⟨e', he', hxe⟩ := List.mem_map.mp hx
      obtain ⟨p1, p2, hp⟩ := List.append_of_mem he'
      have := hwf.closed p1 e' (p2 ++ e :: post) (by rw [hsplit, hp]; simp) c (hxe ▸ hc)
      rw [hp]
      simp only [List.map_append, List.mem_append]
      exact Or.inl this
    rcases (mem_subterms_iff c e.expr).mp hc with h1 | ⟨c2, hc2, h2⟩
    · exact absurd h1 hne
    · exact subterms_closed _ hclosedPre c2 (hwf.closed pre e post hsplit c2 hc2) c h2
theorem substRefs_single_ref (σ : Nat → Out) (i : Nat) : substRefs σ [.letRef i] = σ i := by
  simp [substRefs]

theorem substRefs_single_other (σ τ : Nat → Out) (c : Chunk) (h : ∀ i, c ≠ .letRef i) :
    substRefs σ [c] = substRefs τ [c] := by
  cases c <;> first | rfl | exact absurd rfl (h _)

theorem substRefs_length_le (σ : Nat → Out) (j : Nat) (extra : Out) : ∀ (x : Out),
    (substRefs σ x).length ≤
      (substRefs (fun i => if i = j then σ j ++ extra else σ i) x).length
  | [] => by simp [substRefs]
  | c :: o => by
    rw [substRefs_cons σ c o, substRefs_cons _ c o, List.length_append, List.length_append]
    have ih := substRefs_length_le σ j extra o
    by_cases hc : ∃ i, c = .letRef i
    · obtain ⟨i, hi⟩ := hc
      rw [hi, substRefs_single_ref, substRefs_single_ref]
      by_cases hij : i = j
      · simp only [hij, if_true, List.length_append]
        omega
      · simp only [hij, if_false]
        omega
    · rw [substRefs_single_other σ (fun i => if i = j then σ j ++ extra else σ i) c
        (fun i hi => hc ⟨i, hi⟩)]
      omega

theorem substRefs_length_lt (σ : Nat → Out) (j : Nat) (extra : Out) (hextra : extra ≠ []) :
    ∀ (x : Out), Chunk.letRef j ∈ x →
      (substRefs σ x).length <
        (substRefs (fun i => if i = j then σ j ++ extra else σ i) x).length
  | [], h => by simp at h
  | c :: o, h => by
    rw [substRefs_cons σ c o, substRefs_cons _ c o, List.length_append, List.length_append]
    have hle := substRefs_length_le σ j extra o
    have hpos : 0 < extra.length := List.length_pos.mpr hextra
    rcases List.mem_cons.mp h with h1 | h1
    · rw [← h1, substRefs_single_ref, substRefs_single_ref]
      simp only [if_true, List.length_append]
      omega
    · have ih := substRefs_length_lt σ j extra hextra o h1
      by_cases hc : ∃ i, c = .letRef i
      · obtain ⟨i, hi⟩ := hc
        rw [hi, substRefs_single_ref, substRefs_single_ref]
        by_cases hij : i = j
        · simp only [hij, if_true, List.length_append]
          omega
        · simp only [hij, if_false]
          omega
      · rw [substRefs_single_other σ (fun i => if i = j then σ j ++ extra else σ i) c
          (fun i hi => hc ⟨i, hi⟩)]
        omega

/-- A reference in the text of a term is the reference of a shared term of the set `D`,
when `D` holds the children of the term, is closed under children, and every shared term
of `D` has a text. -/
theorem printTheoryTerm_refs (env : EngineEnv) (tbl : TheoryProofTable)
    (henv : ∀ ty o, env.ufPrintSort ty = some o → NoRefs o) (σ : Nat → Out)
    (t : Node) (map : LetMap) (D : Node → Prop)
    (hD : ∀ x, D x → ∀ c ∈ x.children, D c) (hg : GoodOn env tbl σ map D)
    (hc : ∀ c ∈ t.children, D c) (x : Out) (hx : printTheoryTerm env tbl map t = some x)
    (j : Nat) (hj : Chunk.letRef j ∈ x) :
    ∃ c lc, D c ∧ map.find c = some lc ∧ lc.count > LET_COUNT ∧ lc.id = j := by
  by_contra hno
  have hg2 : GoodOn env tbl (fun i => if i = j then σ j ++ [.str ")"] else σ i) map D := by
    intro c hDc lc hf hcount
    have hne : lc.id ≠ j := fun h => hno ⟨c, lc, hDc, hf, hcount, h⟩
    simp only [hne, if_false]
    exact hg c hDc lc hf hcount
  have h1 := printTheoryTerm_expand env tbl henv σ t map D hD hg hc x hx
  have h2 := printTheoryTerm_expand env tbl henv _ t map D hD hg2 hc x hx
  have heq := Option.some.inj (h1.symm.trans h2)
  have hlt := substRefs_length_lt σ j [.str ")"] (by simp) x hj
  rw [← heq] at hlt
  exact Nat.lt_irrefl _ hlt

theorem refsIn_iff (opened : List Nat) (o : Out) :
    refsIn opened o = true ↔ ∀ j, Chunk.letRef j ∈ o → j ∈ opened := by
  unfold refsIn
  rw [List.all_eq_true]
  constructor
  · intro h j hj
    simpa using h _ hj
  · intro h c hc
    cases c <;> simp only []
    rename_i i
    simpa using h i hc

theorem refsIn_mono (o1 o2 : List Nat) (h : ∀ i ∈ o1, i ∈ o2) (x : Out)
    (hx : refsIn o1 x = true) : refsIn o2 x = true := by
  rw [refsIn_iff] at hx ⊢
  exact fun j hj => h j (hx j hj)

theorem scopeOk_other (opened : List Nat) (c : Chunk) (o : Out)
    (h1 : ∀ i, c ≠ .letOpen i) (h2 : ∀ i, c ≠ .letRef i) :
    scopeOk opened (c :: o) = scopeOk opened o := by
  cases c <;> first | rfl | exact absurd rfl (h1 _) | exact absurd rfl (h2 _)

theorem scopeOk_mono : ∀ (x : Out) (o1 o2 : List Nat), (∀ i ∈ o1, i ∈ o2) →
    scopeOk o1 x = true → scopeOk o2 x = true
  | [], _, _, _, _ => by simp [scopeOk]
  | c :: x, o1, o2, h, hx => by
    by_cases h1 : ∃ i, c = .letOpen i
    · obtain ⟨i, hi⟩ := h1
      rw [hi, scopeOk] at hx ⊢
      refine scopeOk_mono x (i :: o1) (i :: o2) ?_ hx
      intro k hk
      rcases List.mem_cons.mp hk with hk | hk
      · exact hk ▸ List.mem_cons_self _ _
      · exact List.mem_cons_of_mem _ (h k hk)
    · by_cases h2 : ∃ i, c = .letRef i
      · obtain ⟨i, hi⟩ := h2
        rw [hi, scopeOk, Bool.and_eq_true, decide_eq_true_eq] at hx ⊢
        exact ⟨h i hx.1, scopeOk_mono x o1 o2 h hx.2⟩
      · rw [scopeOk_other _ c x (fun i hi => h1 ⟨i, hi⟩) (fun i hi => h2 ⟨i, hi⟩)] at hx ⊢
        exact scopeOk_mono x o1 o2 h hx

theorem scopeOk_append : ∀ (a b : Out) (opened : List Nat), refsIn opened a = true →
    scopeOk opened b = true → scopeOk opened (a ++ b) = true
  | [], b, opened, _, hb => by simpa using hb
  | c :: a, b, opened, ha, hb => by
    have ha2 : refsIn opened a = true := by
      rw [refsIn_iff] at ha ⊢
      exact fun j hj => ha j (List.mem_cons_of_mem _ hj)
    rw [List.cons_append]
    by_cases h1 : ∃ i, c = .letOpen i
    · obtain ⟨i, hi⟩ := h1
      rw [hi, scopeOk]
      exact scopeOk_append a b (i :: opened)
        (refsIn_mono opened _ (fun k hk => List.mem_cons_of_mem _ hk) a ha2)
        (scopeOk_mono b opened _ (fun k hk => List.mem_cons_of_mem _ hk) hb)
    · by_cases h2 : ∃ i, c = .letRef i
      · obtain ⟨i, hi⟩ := h2
        rw [hi, scopeOk, Bool.and_eq_true, decide_eq_true_eq]
        exact ⟨(refsIn_iff opened _).mp ha i (hi ▸ List.mem_cons_self _ _),
          scopeOk_append a b opened ha2 hb⟩
      · rw [scopeOk_other _ c _ (fun i hi => h1 ⟨i, hi⟩) (fun i hi => h2 ⟨i, hi⟩)]
        exact scopeOk_append a b opened ha2 hb

theorem scopeOk_append_closed (b : Out) (hb : ∀ o, scopeOk o b = true) :
    ∀ (a : Out) (opened : List Nat), scopeOk opened a = true → scopeOk opened (a ++ b) = true
  | [], opened, _ => by simpa using hb opened
  | c :: a, opened, ha => by
    rw [List.cons_append]
    by_cases h1 : ∃ i, c = .letOpen i
    · obtain ⟨i, hi⟩ := h1
      rw [hi, scopeOk] at ha ⊢
      exact scopeOk_append_closed b hb a (i :: opened) ha
    · by_cases h2 : ∃ i, c = .letRef i
      · obtain ⟨i, hi⟩ := h2
        rw [hi, scopeOk, Bool.and_eq_true, decide_eq_true_eq] at ha ⊢
        exact ⟨ha.1, scopeOk_append_closed b hb a opened ha.2⟩
      · rw [scopeOk_other _ c _ (fun i hi => h1 ⟨i, hi⟩) (fun i hi => h2 ⟨i, hi⟩)] at ha ⊢
        exact scopeOk_append_closed b hb a opened ha

/-- Binders whose bodies refer to earlier binders only give a text in which every
reference stands after the binder of its id. -/
theorem scopeOk_renderLets : ∀ (binders : List (Nat × Out)) (root : Out) (opened : List Nat),
    scopedLets opened binders root = true → scopeOk opened (renderLets binders root) = true
  | [], root, opened, h => by
    rw [scopedLets] at h
    simp only [renderLets, List.flatMap_nil, List.nil_append, List.length_nil,
      List.replicate_zero, List.append_nil]
    simpa using scopeOk_append root [] opened h (by simp [scopeOk])
  | b :: bs, root, opened, h => by
    rw [scopedLets, Bool.and_eq_true] at h
    have ih := scopeOk_renderLets bs root (b.1 :: opened) h.2
    have : renderLets (b :: bs) root =
        .letOpen b.1 :: (b.2 ++ (renderLets bs root ++ [.str ")"])) := by
      simp only [renderLets, List.flatMap_cons, List.cons_append, List.append_assoc,
        List.length_cons, List.replicate_succ']
    rw [this, scopeOk]
    refine scopeOk_append b.2 _ _
      (refsIn_mono opened _ (fun k hk => List.mem_cons_of_mem _ hk) b.2 h.1) ?_
    exact scopeOk_append_closed [.str ")"] (fun o => rfl) _ _ ih
/-- The binders of the order are scoped: the body of every binder refers to binders
before it only, and so does the root when its references are those of shared terms of
the order. -/
theorem letBinders_scoped (env : EngineEnv) (tbl : TheoryProofTable)
    (henv : ∀ ty o, env.ufPrintSort ty = some o → NoRefs o) (st : BindState)
    (hwf : st.WellFormed) (root : Out)
    (hroot : ∀ (σ : Nat → Out) (opened : List Nat),
      GoodOn env tbl σ st.map (fun c => c ∈ st.keys) →
      (∀ c ∈ st.keys, ∀ lc, st.map.find c = some lc → lc.count > LET_COUNT →
        lc.id ∈ opened) → refsIn opened root = true) :
    ∀ (rest pre : List LetOrderElement) (σ : Nat → Out) (binders : List (Nat × Out))
      (opened : List Nat),
      st.let_order = pre ++ rest → letBinders env tbl st.map rest = some binders →
      GoodOn env tbl σ st.map (fun c => c ∈ pre.map (fun e => e.expr)) →
      (∀ c ∈ pre.map (fun e => e.expr), ∀ lc, st.map.find c = some lc →
        lc.count > LET_COUNT → lc.id ∈ opened) →
      scopedLets opened binders root = true
  | [], pre, σ, binders, opened, hsplit, hb, hg, hopen => by
    rw [letBinders] at hb
    cases hb
    rw [scopedLets]
    have hk : st.keys = pre.map (fun e => e.expr) := by simp [BindState.keys, hsplit]
    exact hroot σ opened (by rw [hk]; exact hg) (by rw [hk]; exact hopen)
  | e :: rest, pre, σ, binders, opened, hsplit, hb, hg, hopen => by
    have hsplit' : st.let_order = (pre ++ [e]) ++ rest := by simp [hsplit]
    have he : e ∈ st.let_order := by simp [hsplit]
    have hclosedPre : ∀ x, x ∈ pre.map (fun e => e.expr) →
        ∀ c ∈ x.children, c ∈ pre.map (fun e => e.expr) := by
      intro x hx c hc
      obtain ⟨e', he', hxe⟩ := List.mem_map.mp hx
      obtain ⟨p1, p2, hp⟩ := List.append_of_mem he'
      have := hwf.closed p1 e' (p2 ++ e :: rest) (by rw [hsplit, hp]; simp) c (hxe ▸ hc)
      rw [hp]
      simp only [List.map_append, List.mem_append]
      exact Or.inl this
    have hkids : ∀ c ∈ e.expr.children, c ∈ pre.map (fun e => e.expr) :=
      hwf.closed pre e rest hsplit
    have hnotpre : e.expr ∉ pre.map (fun e => e.expr) := by
      have hk := hwf.nodupKeys
      simp only [BindState.keys, hsplit, List.map_append, List.map_cons] at hk
      intro hmem
      exact List.disjoint_of_nodup_append hk hmem (List.mem_cons_self _ _)
    rw [letBinders] at hb
    simp only [Option.bind_eq_some] at hb
    obtain ⟨lc, hlc, hb⟩ := hb
    have hid : lc.id = e.id := by
      have h1 := find_order_mem st hwf e.expr lc hlc
      have := order_eq_of_expr st hwf _ _ h1 he rfl
      rw [← this]
    by_cases h0 : lc.count = 0
    · simp [h0] at hb
    · simp only [h0, if_false] at hb
      by_cases h1 : lc.count ≤ LET_COUNT
      · simp only [h1, if_true] at hb
        refine letBinders_scoped env tbl henv st hwf root hroot rest (pre ++ [e]) σ binders
          opened hsplit' hb ?_ ?_
        · intro c hc lc' hf hcount
          simp only [List.map_append, List.map_cons, List.map_nil, List.mem_append,
            List.mem_singleton] at hc
          rcases hc with hc | hc
          · exact hg c hc lc' hf hcount
          · rw [hc, hlc] at hf
            cases hf
            omega
        · intro c hc lc' hf hcount
          simp only [List.map_append, List.map_cons, List.map_nil, List.mem_append,
            List.mem_singleton] at hc
          rcases hc with hc | hc
          · exact hopen c hc lc' hf hcount
          · rw [hc, hlc] at hf
            cases hf
            omega
      · simp only [h1, if_false, Option.bind_eq_some, Option.some.injEq] at hb
        obtain ⟨body, hbody, r, hr, hb⟩ := hb
        have hplain := printTheoryTerm_expand env tbl henv σ e.expr st.map _ hclosedPre hg hkids
          body hbody
        have hbodyRefs : refsIn opened body = true := by
          rw [refsIn_iff]
          intro j hj
          obtain ⟨c, lc', hDc, hf, hcount, hj2⟩ := printTheoryTerm_refs env tbl henv σ e.expr
            st.map _ hclosedPre hg hkids body hbody j hj
          exact hj2 ▸ hopen c hDc lc' hf hcount
        rw [← hb, scopedLets, Bool.and_eq_true]
        refine ⟨hbodyRefs, ?_⟩
        refine letBinders_scoped env tbl henv st hwf root hroot rest (pre ++ [e])
          (fun i => if i = e.id then substRefs σ body else σ i) r (e.id :: opened) hsplit' hr
          ?_ ?_
        · intro c hc lc' hf hcount
          simp only [List.map_append, List.map_cons, List.map_nil, List.mem_append,
            List.mem_singleton] at hc
          rcases hc with hc | hc
          · have hne : lc'.id ≠ e.id := by
              intro heq
              have h1 := find_order_mem st hwf c lc' hf
              have := order_eq_of_id st hwf _ _ h1 he heq
              have hce : c = e.expr := by rw [← this]
              exact hnotpre (hce ▸ hc)
            simp only [hne, if_false]
            exact hg c hc lc' hf hcount
          · rw [hc, hlc] at hf
            cases hf
            simp only [hid, if_true]
            rw [hc]
            exact hplain
        · intro c hc lc' hf hcount
          simp only [List.map_append, List.map_cons, List.map_nil, List.mem_append,
            List.mem_singleton] at hc
          rcases hc with hc | hc
          · exact List.mem_cons_of_mem _ (hopen c hc lc' hf hcount)
          · rw [hc, hlc] at hf
            cases hf
            rw [hid]
            exact List.mem_cons_self _ _

/-- C32: `bind` is a post-order visit.  After `bind` on a term `t` from the empty map and
the empty order, whatever the value of the id counter is, the order lists the subterms of
`t`, every one of them exactly once and every term after all of its proper subterms, and
the ids of the order are pairwise different.  Whenever `printLetTerm` returns for `t`, its
text consists of the binders of the shared subterms, the text of the root and one closing
parenthesis per binder; the body of every binder refers to binders before it only, the
root to binders only, and so every reference `let<id>` of the text stands after the
binder `(@ let<id> ` of its id (the UF certifier's sort printer, which is not part of the
sources, is taken to write no reference). -/
theorem bind_is_post_order (env : EngineEnv) (tbl : TheoryProofTable)
    (henv : ∀ ty o, env.ufPrintSort ty = some o → NoRefs o) (counter : Nat) (t : Node) :
    (bind t ⟨[], [], counter⟩).keys.Nodup ∧
      (∀ x, x ∈ (bind t ⟨[], [], counter⟩).keys ↔ x ∈ t.subterms) ∧
      (∀ pre e post, (bind t ⟨[], [], counter⟩).let_order = pre ++ e :: post →
        ∀ c ∈ e.expr.subterms, c ≠ e.expr → c ∈ pre.map (fun x => x.expr)) ∧
      ((bind t ⟨[], [], counter⟩).let_order.map (fun e => e.id)).Nodup ∧
      ∀ out, printLetTerm env tbl counter t = some out →
        (∃ binders root,
          letBinders env tbl (bind t ⟨[], [], counter⟩).map
            (bind t ⟨[], [], counter⟩).let_order = some binders ∧
          out = renderLets binders root ∧ scopedLets [] binders root = true) ∧
        scopeOk [] out = true := by
  obtain ⟨h1, h2, h3, h4⟩ := bind_order counter t
  refine ⟨h1, h2, h3, h4, ?_⟩
  intro out h
  have hwf := (bind_spec t ⟨[], [], counter⟩ (empty_wellFormed counter)).1
  obtain ⟨id, hlast, hfind⟩ := bind_root counter t
  unfold printLetTerm at h
  simp only [Option.bind_eq_some, Option.some.injEq] at h
  obtain ⟨r, hr, root, hroot, hout⟩ := h
  obtain ⟨binders, hb, hr1, hr2⟩ := printLetBinders_eq env tbl _ _ r hr
  have hrender : out = renderLets binders root := by rw [← hout, hr1, hr2]; rfl
  have hrootEq : printTheoryTerm env tbl (bind t ⟨[], [], counter⟩).map t = some root := by
    unfold printLetRoot at hroot
    simp only [hlast, Option.some_bind, hfind] at hroot
    simpa [LET_COUNT] using hroot
  have hmemLast : (⟨t, id⟩ : LetOrderElement) ∈ (bind t ⟨[], [], counter⟩).let_order :=
    List.mem_of_getLast?_eq_some hlast
  have hclosed : ∀ x, x ∈ (bind t ⟨[], [], counter⟩).keys →
      ∀ c ∈ x.children, c ∈ (bind t ⟨[], [], counter⟩).keys := by
    intro x hx c hc
    obtain ⟨e, he, hxe⟩ := List.mem_map.mp hx
    obtain ⟨p1, p2, hp⟩ := List.append_of_mem he
    have := hwf.closed p1 e p2 hp c (hxe ▸ hc)
    simp only [BindState.keys, hp, List.map_append, List.mem_append]
    exact Or.inl this
  have hkids : ∀ c ∈ t.children, c ∈ (bind t ⟨[], [], counter⟩).keys :=
    hclosed t (List.mem_map.mpr ⟨_, hmemLast, rfl⟩)
  have hscoped : scopedLets [] binders root = true := by
    refine letBinders_scoped env tbl henv _ hwf root ?_ (bind t ⟨[], [], counter⟩).let_order []
      (fun i => [.letRef i]) binders [] rfl hb (fun c hc => by simp at hc)
      (fun c hc => by simp at hc)
    intro σ opened hg hopen
    rw [refsIn_iff]
    intro j hj
    obtain ⟨c, lc, hDc, hf, hcount, hj2⟩ := printTheoryTerm_refs env tbl henv σ t _ _ hclosed hg
      hkids root hrootEq j hj
    exact hj2 ▸ hopen c hDc lc hf hcount
  exact ⟨⟨binders, root, hb, hrender, hscoped⟩, hrender ▸ scopeOk_renderLets binders root [] hscoped⟩

theorem bind_is_post_order_witness :
    (∀ ty o, exampleEngineEnv.ufPrintSort ty = some o → NoRefs o) ∧
      (∃ out, printLetTerm exampleEngineEnv fullTable 0 sharedUnderDistinct = some out) ∧
      ((bind sharedUnderDistinct ⟨[], [], 0⟩).keys.Nodup ∧
        (∀ x, x ∈ (bind sharedUnderDistinct ⟨[], [], 0⟩).keys ↔
          x ∈ sharedUnderDistinct.subterms) ∧
        (∀ pre e post, (bind sharedUnderDistinct ⟨[], [], 0⟩).let_order = pre ++ e :: post →
          ∀ c ∈ e.expr.subterms, c ≠ e.expr → c ∈ pre.map (fun x => x.expr)) ∧
        ((bind sharedUnderDistinct ⟨[], [], 0⟩).let_order.map (fun e => e.id)).Nodup ∧
        ∀ out, printLetTerm exampleEngineEnv fullTable 0 sharedUnderDistinct = some out →
          (∃ binders root,
            letBinders exampleEngineEnv fullTable (bind sharedUnderDistinct ⟨[], [], 0⟩).map
              (bind sharedUnderDistinct ⟨[], [], 0⟩).let_order = some binders ∧
            out = renderLets binders root ∧ scopedLets [] binders root = true) ∧
          scopeOk [] out = true) :=
  ⟨fun ty o h i hi => by
      simp only [exampleEngineEnv, Option.some.injEq] at h
      rw [← h] at hi
      simp at hi,
    ⟨_, rfl⟩,
    bind_is_post_order exampleEngineEnv fullTable
      (fun ty o h i hi => by
        simp only [exampleEngineEnv, Option.some.injEq] at h
        rw [← h] at hi
        simp at hi)
      0 sharedUnderDistinct⟩


/-! ## The rewrite filters on the paths that throw -/

/-- The loop over the missing assertions and its exit agree: when the loop runs to its
end, the exit has the patched clause and the tables of the loop. -/
theorem patchMissingAssertionsExit_of_some (recipe : LemmaProofRecipe) :
    ∀ (ms clause : List Node) (st : LemmaState) (p : List Node × LemmaState),
      patchMissingAssertions recipe ms clause st = some p →
      patchMissingAssertionsExit recipe ms clause st = (some p.1, p.2)
  | [], clause, st, p, h => by
    simp only [patchMissingAssertions, Option.some.injEq] at h
    rw [← h]
    rfl
  | m :: ms, clause, st, p, h => by
    rw [patchMissingAssertions] at h
    rw [patchMissingAssertionsExit]
    by_cases hw : (!recipe.wasRewritten m.negate) = true
    · simp [hw] at h
    · simp only [hw, Bool.false_eq_true, if_false, Option.bind_eq_some] at h ⊢
      obtain ⟨e, he, k, hk, h⟩ := h
      simp only [he, hk]
      exact patchMissingAssertionsExit_of_some recipe ms _ _ p h

/-- When an assertion of the loop over the missing assertions fails, the exit has no
clause. -/
theorem patchMissingAssertionsExit_of_none (recipe : LemmaProofRecipe) :
    ∀ (ms clause : List Node) (st : LemmaState),
      patchMissingAssertions recipe ms clause st = none →
      (patchMissingAssertionsExit recipe ms clause st).1 = none
  | [], clause, st, h => by simp [patchMissingAssertions] at h
  | m :: ms, clause, st, h => by
    rw [patchMissingAssertions] at h
    rw [patchMissingAssertionsExit]
    by_cases hw : (!recipe.wasRewritten m.negate) = true
    · simp [hw]
    · simp only [hw, Bool.false_eq_true, if_false] at h ⊢
      cases he : recipe.getExplanation m.negate with
      | none => rfl
      | some e =>
        simp only [he, Option.some_bind] at h ⊢
        cases hk : findLiteral e.negate clause with
        | none => rfl
        | some k =>
          simp only [hk, Option.some_bind] at h ⊢
          exact patchMissingAssertionsExit_of_none recipe ms _ _ h

/-- The simple branch and its exit agree: when the branch returns, the exit has run to
its end with the tables that the branch returns, and when the branch fails, the exit has
not run to its end. -/
theorem simpleLemmaExit_agrees (env : LemmaEnv) (tbl : TheoryProofTable) (id : Nat)
    (clause : SatClause) (clause_expr : List Node) (recipe : LemmaProofRecipe)
    (st : LemmaState) :
    (∀ r, printSimpleLemma env tbl id clause clause_expr recipe st = some r →
        simpleLemmaExit env tbl clause clause_expr recipe st = (true, r.2.2)) ∧
      (printSimpleLemma env tbl id clause clause_expr recipe st = none →
        (simpleLemmaExit env tbl clause clause_expr recipe st).1 = false) := by
  unfold printSimpleLemma simpleLemmaExit certifyExit
  cases hth : getTheoryForLemma env clause with
  | none => simp
  | some theory_id =>
    simp only [Option.some_bind]
    cases hp : patchMissingAssertions recipe (env.getMissingAssertionsForStep recipe 0)
        clause_expr st with
    | none =>
      have h1 := patchMissingAssertionsExit_of_none recipe _ _ _ hp
      constructor
      · intro r h
        simp at h
      · intro _
        revert h1
        cases patchMissingAssertionsExit recipe (env.getMissingAssertionsForStep recipe 0)
            clause_expr st with
        | mk c st1 =>
          intro h1
          simp only at h1
          subst h1
          rfl
    | some p =>
      rw [patchMissingAssertionsExit_of_some recipe _ _ _ p hp]
      simp only [Option.some_bind]
      cases ht : printTheoryLemmaProof env tbl theory_id p.1 p.2.d_rewriteFilters with
      | none => simp
      | some t =>
        constructor
        · intro r h
          simp only [Option.some_bind, Option.some.injEq] at h
          rw [← h]
        · intro h
          simp at h

/-- A round of the composite branch and its exit agree. -/
theorem compositeStepExit_agrees (env : LemmaEnv) (tbl : TheoryProofTable) (id : Nat)
    (clause : SatClause) (clause_expr : List Node) (recipe : LemmaProofRecipe)
    (i : Nat) (step : ProofStep) (st : LemmaState) :
    (∀ r, printCompositeStep env tbl id clause clause_expr recipe i step st = some r →
        compositeStepExit env tbl clause clause_expr recipe i step st = (true, r.2.2)) ∧
      (printCompositeStep env tbl id clause clause_expr recipe i step st = none →
        (compositeStepExit env tbl clause clause_expr recipe i step st).1 = false) := by
  unfold printCompositeStep compositeStepExit certifyExit
  simp only []
  cases hp : patchMissingAssertions recipe (env.getMissingAssertionsForStep recipe i)
      (partialClause env recipe clause clause_expr i step).2 st with
  | none =>
    have h1 := patchMissingAssertionsExit_of_none recipe _ _ _ hp
    constructor
    · intro r h
      simp at h
    · intro _
      revert h1
      cases patchMissingAssertionsExit recipe (env.getMissingAssertionsForStep recipe i)
          (partialClause env recipe clause clause_expr i step).2 st with
      | mk c st1 =>
        intro h1
        simp only at h1
        subst h1
        rfl
  | some p =>
    rw [patchMissingAssertionsExit_of_some recipe _ _ _ p hp]
    simp only [Option.some_bind]
    cases ht : printTheoryLemmaProof env tbl step.d_theory p.1 p.2.d_rewriteFilters with
    | none => simp
    | some t =>
      constructor
      · intro r h
        simp only [Option.some_bind, Option.some.injEq] at h
        rw [← h]
      · intro h
        simp at h

/-- When the certifier throws after the loop over the missing assertions has run to its
end, control leaves the lemma or the step with the tables of the loop: the filters of the
missing assertions are still in the table. -/
theorem certifyExit_of_failed_certifier (env : LemmaEnv) (tbl : TheoryProofTable)
    (theory_id : TheoryId) (recipe : LemmaProofRecipe) (ms lits : List Node)
    (st : LemmaState) (p : List Node × LemmaState)
    (hp : patchMissingAssertions recipe ms lits st = some p)
    (ht : printTheoryLemmaProof env tbl theory_id p.1 p.2.d_rewriteFilters = none) :
    certifyExit env tbl theory_id recipe ms lits st = (false, p.2) := by
  unfold certifyExit
  rw [patchMissingAssertionsExit_of_some recipe _ _ _ p hp]
  simp only [ht]

end CVC4
